import Mathlib

/-!
# redis-rdb-analyzer: memory-accounting decoder and streaming aggregator

A shallow embedding of `server/counter.go`, `server/persistence_structs.go`,
`decoder/decoder.go`, `decoder/hdt_adapter.go` and the size formatters of
`server/config.go` and `server/job.go`, followed by theorems about the embedded
functions.

Modelling conventions

* Go `string` and `[]byte` values are Lean `String`s.  Lengths and slice
  offsets count characters; on ASCII text (and every separator of the
  Counter is ASCII) these are Go's byte offsets.  The sample of the largest
  element, which Go cuts at byte 100, is computed on the UTF-8 bytes of the
  text (`goBytes`, `byteLen`) and stored as bytes, one character per byte.
* `uint64` values are natural numbers, every addition is reduced modulo
  `2^64`; `int` and `int64` values are integers.
* A Go `map[K]V` is an association list without repeated keys.  The order of
  the list stands for the iteration order of `range`, which Go leaves
  unspecified, so statements about results of `range` loops are stated up to
  permutation.
* A pointer to a record that is never mutated after it is shared is the
  record itself; a nil-able pointer is an `Option`.
* `panic` is the error case of `Except String`; a nil dereference has the message
  "nil pointer dereference", an index out of range "index out of range".  What a
  callback of the decoder has assigned before it panics is kept by `panicState`,
  which the runs of callback sequences (`callbacks`) return on a panic.
* `container/heap` and `sort` (Go standard library) are embedded from their
  library source over the `Len/Less/Swap/Push/Pop` methods of the slice
  types of `counter.go`; loops carry an explicit iteration bound.
-/

set_option autoImplicit false
set_option linter.unusedVariables false

namespace Rdr

/-! ## Machine integers -/

/-- Reduction of a natural number to the `uint64` range. -/
def wrap64 (n : Nat) : Nat := n % 18446744073709551616

/-- Go `a + b` on `uint64`. -/
def add64 (a b : Nat) : Nat := wrap64 (a + b)

/-- Go `a * b` on `uint64`. -/
def mul64 (a b : Nat) : Nat := wrap64 (a * b)

/-- Go conversion `uint64(x)` of a signed integer. -/
def toUint64 (x : Int) : Nat := (x % 18446744073709551616).toNat

/-! ## Go maps -/

/-- Go `map[K]V`: association list, no key occurs twice. -/
abbrev GoMap (κ ν : Type) := List (κ × ν)

section GoMapOps
variable {κ ν : Type} [DecidableEq κ]

/-- Go `m[k]`: the stored value, or the zero value of the type. -/
def mapGet (zero : ν) (m : GoMap κ ν) (k : κ) : ν :=
  match m.lookup k with
  | some v => v
  | none => zero

/-- Go `m[k] = v`. -/
def mapSet : GoMap κ ν → κ → ν → GoMap κ ν
  | [], k, v => [(k, v)]
  | (k', v') :: m, k, v => if k' = k then (k, v) :: m else (k', v') :: mapSet m k v

/-- Go `delete(m, k)`. -/
def mapDelete (m : GoMap κ ν) (k : κ) : GoMap κ ν :=
  m.filter (fun p => decide (p.1 ≠ k))

/-- Keys visited by `for k := range m`. -/
def mapKeys (m : GoMap κ ν) : List κ := m.map Prod.fst

end GoMapOps

/-! ## Slices as heaps: `container/heap` and `sort` -/

section Slices
variable {α : Type}

/-- Go `h[i], h[j] = h[j], h[i]` (the `Swap` method of every slice type). -/
def swap (h : List α) (i j : Nat) : List α :=
  match h[i]?, h[j]? with
  | some a, some b => (h.set i b).set j a
  | _, _ => h

/-- Go `h.Less(i, j)` for a slice type whose `Less` compares the elements by `less`. -/
def lessAt (less : α → α → Bool) (h : List α) (i j : Nat) : Bool :=
  match h[i]?, h[j]? with
  | some a, some b => less a b
  | _, _ => false

/-- The loop of `heap.up`; the first argument bounds the number of iterations. -/
def heap_upLoop (less : α → α → Bool) : Nat → List α → Nat → List α
  | 0, h, _ => h
  | fuel + 1, h, j =>
    let i := (j - 1) / 2 -- parent
    if i = j ∨ lessAt less h j i = false then h
    else heap_upLoop less fuel (swap h i j) i

/-- Go `heap.up(h, j)`: the index at least halves on every iteration. -/
def heap_up (less : α → α → Bool) (h : List α) (j : Nat) : List α :=
  heap_upLoop less (j + 1) h j

/-- The loop of `heap.down`; the first argument bounds the number of iterations. -/
def heap_downLoop (less : α → α → Bool) : Nat → List α → Nat → Nat → List α
  | 0, h, _, _ => h
  | fuel + 1, h, i, n =>
    let j1 := 2 * i + 1
    if n ≤ j1 then h
    else
      let j := if j1 + 1 < n ∧ lessAt less h (j1 + 1) j1 = true then j1 + 1 else j1
      if lessAt less h j i = false then h
      else heap_downLoop less fuel (swap h i j) j n

/-- Go `heap.down(h, i0, n)`: the index grows on every iteration and stays below `n`. -/
def heap_down (less : α → α → Bool) (h : List α) (i0 n : Nat) : List α :=
  heap_downLoop less n h i0 n

/-- Go `heap.Push(h, x)`: append (`h.Push(x)`), then `up(h, h.Len()-1)`. -/
def heap_Push (less : α → α → Bool) (h : List α) (x : α) : List α :=
  heap_up less (h ++ [x]) ((h ++ [x]).length - 1)

/-- Go `heap.Pop(h)`: `n := h.Len()-1; h.Swap(0, n); down(h, 0, n); h.Pop()`, as the
slice left behind (every caller drops the returned element).  Go panics on an
empty slice; the callers only pop non-empty heaps. -/
def heap_Pop (less : α → α → Bool) (h : List α) : List α :=
  let n := h.length - 1
  (heap_down less (swap h 0 n) 0 n).dropLast

/-- Inner loop of `insertionSort` in package `sort`:
`for j := i; j > a && data.Less(j, j-1); j-- { data.Swap(j, j-1) }` with `a = 0`. -/
def sort_insertionInner (less : α → α → Bool) : Nat → List α → List α
  | 0, h => h
  | j + 1, h =>
    if lessAt less h (j + 1) j = true then sort_insertionInner less j (swap h (j + 1) j)
    else h

/-- Go `insertionSort(data, 0, n)` of package `sort`: `for i := 1; i < n; i++ { ... }`. -/
def sort_insertionSort (less : α → α → Bool) (h : List α) : List α :=
  (List.range' 1 (h.length - 1)).foldl (fun acc i => sort_insertionInner less i acc) h

/-- Go `sort.Sort(data)`.  The library sorts a slice of at most 12 elements by
`insertionSort`; longer slices go through a pattern-defeating quicksort, of
which the library documents only that the result is sorted and not necessarily
stable.  The embedding is the insertion sort: it is the library's own steps up to
12 elements; beyond that it may order elements that compare equal differently from
the library, and only "a sorted permutation of the input" holds of both. -/
def sort_Sort (less : α → α → Bool) (h : List α) : List α :=
  sort_insertionSort less h

/-- Go `sort.Reverse(data)`: `Less(i, j)` is `data.Less(j, i)`. -/
def sort_Reverse (less : α → α → Bool) : α → α → Bool :=
  fun a b => less b a

end Slices

/-! ## `decoder.Entry` and the slice types of `counter.go` -/

/-- Go `decoder.Entry`: info of a redis record (`Typ` is the field `Type`, a reserved word
here).  The callback decoder writes `FieldOfLargestElem` as the bytes of its sample, one
character per byte (see `updateLargest`). -/
structure Entry where
  Key : String
  Bytes : Nat
  Typ : String
  NumOfElem : Nat
  LenOfLargestElem : Nat
  FieldOfLargestElem : String
  Db : Int
  Encoding : String
  Expiration : Int
  LruIdle : Nat
  LfuFreq : Int
  deriving DecidableEq

/-- Go `typeKey`. -/
structure typeKey where
  Typ : String
  Key : String
  deriving DecidableEq

/-- Go `PrefixEntry`: record value by prefix (the embedded `typeKey` is flattened). -/
structure PrefixEntry where
  Typ : String
  Key : String
  Bytes : Nat
  Num : Nat
  Db : String
  deriving DecidableEq

/-- Go `entryHeap.Less`: `h[i].Bytes < h[j].Bytes`. -/
def entryLess (a b : Entry) : Bool := decide (a.Bytes < b.Bytes)

/-- Go `prefixHeap.Less`. -/
def prefixLess (a b : PrefixEntry) : Bool :=
  if a.Bytes < b.Bytes then true
  else if a.Bytes = b.Bytes then
    if a.Num < b.Num then true
    else if a.Num = b.Num then
      if a.Key > b.Key then true else false
    else false
  else false

/-! ## Strings: the functions of `strings` and `strconv` used by the counter -/

/-- Go `strconv.FormatUint(n, 10)`. -/
def strconv_FormatUint (n : Nat) : String := Nat.repr n

/-- Go `strings.Map(mapping, s)`. -/
def strings_Map (mapping : Char → Char) (s : String) : String :=
  String.mk (s.toList.map mapping)

/-- Go `strings.IndexAny(s, chars)`: the index of the first character of `s` that
occurs in `chars`; `none` is Go's `-1`. -/
def strings_IndexAny (s chars : String) : Option Nat :=
  s.toList.findIdx? (fun c => chars.toList.contains c)

/-- Go `s[:n]`. -/
def sliceTo (s : String) (n : Nat) : String := String.mk (s.toList.take n)

/-- Go `s[n:]`. -/
def sliceFrom (s : String) (n : Nat) : String := String.mk (s.toList.drop n)

/-- The bytes of a character in UTF-8, each as the character of its value (below
256).  A Go string or byte slice is a sequence of bytes, and a text is stored as
its UTF-8 encoding. -/
def utf8Bytes (c : Char) : List Char :=
  if c.toNat < 128 then [c]
  else if c.toNat < 2048 then
    [Char.ofNat (192 + c.toNat / 64), Char.ofNat (128 + c.toNat % 64)]
  else if c.toNat < 65536 then
    [Char.ofNat (224 + c.toNat / 4096), Char.ofNat (128 + c.toNat / 64 % 64),
      Char.ofNat (128 + c.toNat % 64)]
  else
    [Char.ofNat (240 + c.toNat / 262144), Char.ofNat (128 + c.toNat / 4096 % 64),
      Char.ofNat (128 + c.toNat / 64 % 64), Char.ofNat (128 + c.toNat % 64)]

/-- The bytes of the Go string or byte slice that holds the text `s`, as a string
with one character per byte; an ASCII text is its own bytes. -/
def goBytes (s : String) : String := String.mk (s.toList.flatMap utf8Bytes)

/-- Go `len(s)` of the string or byte slice that holds the text `s`: its number of
bytes. -/
def byteLen (s : String) : Nat := (goBytes s).length

/-- The mapping of `countByKeyPrefix`: `if c >= 48 && c <= 57 { return '*' }; return c`. -/
def digitToStar (c : Char) : Char :=
  if c.toNat ≥ 48 ∧ c.toNat ≤ 57 then '*' else c

/-- Go `hasAnySuffix(s, suffix)`: some character of `suffix` ends `s`. -/
def hasAnySuffix (s suffix : String) : Bool :=
  suffix.toList.any (fun c => decide (s.toList.getLast? = some c))

/-- Go `removeDuplicatesUnordered`: the keys of the map `encountered`. -/
def removeDuplicatesUnordered (elements : List String) : List String :=
  mapKeys (elements.foldl (fun encountered v => mapSet encountered v true)
    ([] : GoMap String Bool))

/-- The first loop of `getPrefixes` (`for sepIdx > -1`); every iteration removes
at least one character of `s`, which bounds the iterations. -/
def getPrefixesLoop (sep : String) : Nat → List String → String → Option Nat → List String
  | 0, res, _, _ => res
  | fuel + 1, res, s, sepIdx =>
    match sepIdx with
    | none => res
    | some idx =>
      let r := match res.getLast? with
        | some last => last ++ sliceTo s (idx + 1)
        | none => sliceTo s (idx + 1)
      let s1 := sliceFrom s (idx + 1)
      getPrefixesLoop sep fuel (res ++ [r]) s1 (strings_IndexAny s1 sep)

/-- The inner loop `for hasAnySuffix(res[i], sep) { res[i] = res[i][:len(res[i])-1] }`. -/
def trimSuffixLoop (sep : String) : Nat → String → String
  | 0, s => s
  | fuel + 1, s =>
    if hasAnySuffix s sep then trimSuffixLoop sep fuel (sliceTo s (s.length - 1)) else s

/-- Go `getPrefixes(s, sep)`. -/
def getPrefixes (s sep : String) : List String :=
  let sepIdx := strings_IndexAny s sep
  let res0 : List String := match sepIdx with
    | none => [s]
    | some _ => []
  let res1 := getPrefixesLoop sep s.length res0 s sepIdx
  -- Trim all suffix of separators
  let res2 := res1.map (fun r => trimSuffixLoop sep r.length r)
  removeDuplicatesUnordered res2

/-- Go `parseTypeKey`: split at the first `|`. -/
def parseTypeKey (s : String) : String × String :=
  match s.toList.findIdx? (fun c => c = '|') with
  | some i => (sliceTo s i, sliceFrom s (i + 1))
  | none => ("", s)

/-! ## `Counter` -/

/-- Go `Counter`: counter for redis memory usage. -/
structure Counter where
  largestEntries : List Entry
  largestKeyPrefixes : List PrefixEntry
  lengthLevel0 : Nat
  lengthLevel1 : Nat
  lengthLevel2 : Nat
  lengthLevel3 : Nat
  lengthLevel4 : Nat
  lengthLevelBytes : GoMap typeKey Nat
  lengthLevelNum : GoMap typeKey Nat
  keyPrefixBytes : GoMap typeKey Nat
  keyPrefixNum : GoMap typeKey Nat
  separators : String
  typeBytes : GoMap String Nat
  typeNum : GoMap String Nat
  slotBytes : GoMap Int Nat
  slotNum : GoMap Int Nat
  keyPrefixDb : GoMap typeKey String
  TotalCount : Nat
  deriving DecidableEq

/-- Go `NewCounter` (`heap.Init` of an empty slice leaves it empty). -/
def NewCounter : Counter :=
  { largestEntries := []
    largestKeyPrefixes := []
    lengthLevel0 := 100
    lengthLevel1 := 1000
    lengthLevel2 := 10000
    lengthLevel3 := 100000
    lengthLevel4 := 1000000
    lengthLevelBytes := []
    lengthLevelNum := []
    keyPrefixBytes := []
    keyPrefixNum := []
    typeBytes := []
    typeNum := []
    separators := ":;,_- "
    slotBytes := []
    slotNum := []
    keyPrefixDb := []
    TotalCount := 0 }

/-- Go `Counter.countLargestEntries`. -/
def countLargestEntries (c : Counter) (e : Entry) (num : Int) : Counter :=
  let l := c.largestEntries.length
  if (l : Int) < num then
    -- Heap not full, add entry
    { c with largestEntries := heap_Push entryLess c.largestEntries e }
  else if l > 0 then
    -- Heap is full, only add if this entry is larger than the smallest
    match c.largestEntries[0]? with
    | some smallest =>
      if e.Bytes > smallest.Bytes then
        { c with largestEntries :=
            heap_Push entryLess (heap_Pop entryLess c.largestEntries) e }
      else c
    | none => c
  else c

/-- The closure `add` of `countByLength`. -/
def countByLength_add (c : Counter) (key : typeKey) (e : Entry) : Counter :=
  { c with
    lengthLevelBytes :=
      mapSet c.lengthLevelBytes key (add64 (mapGet 0 c.lengthLevelBytes key) e.Bytes)
    lengthLevelNum :=
      mapSet c.lengthLevelNum key (add64 (mapGet 0 c.lengthLevelNum key) 1) }

/-- Go `Counter.countByLength`. -/
def countByLength (c : Counter) (e : Entry) : Counter :=
  if e.NumOfElem > c.lengthLevel4 then
    countByLength_add c { Typ := e.Typ, Key := strconv_FormatUint c.lengthLevel4 } e
  else if e.NumOfElem > c.lengthLevel3 then
    countByLength_add c { Typ := e.Typ, Key := strconv_FormatUint c.lengthLevel3 } e
  else if e.NumOfElem > c.lengthLevel2 then
    countByLength_add c { Typ := e.Typ, Key := strconv_FormatUint c.lengthLevel2 } e
  else if e.NumOfElem > c.lengthLevel1 then
    countByLength_add c { Typ := e.Typ, Key := strconv_FormatUint c.lengthLevel1 } e
  else if e.NumOfElem > c.lengthLevel0 then
    countByLength_add c { Typ := e.Typ, Key := strconv_FormatUint c.lengthLevel0 } e
  else c

/-- Go `Counter.countByType`. -/
def countByType (c : Counter) (e : Entry) : Counter :=
  { c with
    typeNum := mapSet c.typeNum e.Typ (add64 (mapGet 0 c.typeNum e.Typ) 1)
    typeBytes := mapSet c.typeBytes e.Typ (add64 (mapGet 0 c.typeBytes e.Typ) e.Bytes) }

/-- The body of the loop over the prefixes in `countByKeyPrefix`. -/
def countByKeyPrefix_step (e : Entry) (c : Counter) (pre : String) : Counter :=
  if pre.length = 0 then c
  else
    { c with
      keyPrefixBytes :=
        mapSet c.keyPrefixBytes { Typ := e.Typ, Key := pre }
          (add64 (mapGet 0 c.keyPrefixBytes { Typ := e.Typ, Key := pre }) e.Bytes)
      keyPrefixNum :=
        mapSet c.keyPrefixNum { Typ := e.Typ, Key := pre }
          (add64 (mapGet 0 c.keyPrefixNum { Typ := e.Typ, Key := pre }) 1) }

/-- Go `Counter.countByKeyPrefix`. -/
def countByKeyPrefix (c : Counter) (e : Entry) : Counter :=
  let k := strings_Map digitToStar e.Key
  let prefixes := getPrefixes k c.separators
  prefixes.foldl (countByKeyPrefix_step e) c

/-- Go `Counter.countBySlot`; `Slot` (the hash-slot function of the package) is a parameter. -/
def countBySlot (Slot : String → Int) (c : Counter) (e : Entry) : Counter :=
  if e.Key.length > 0 then
    { c with
      slotNum := mapSet c.slotNum (Slot e.Key) (add64 (mapGet 0 c.slotNum (Slot e.Key)) 1)
      slotBytes :=
        mapSet c.slotBytes (Slot e.Key) (add64 (mapGet 0 c.slotBytes (Slot e.Key)) e.Bytes) }
  else c

/-- Go `Counter.count`: process a single entry through all counting metrics. -/
def count (Slot : String → Int) (c : Counter) (e : Entry) : Counter :=
  let c1 := countLargestEntries c e 500
  let c2 := countByType c1 e
  let c3 := countByLength c2 e
  let c4 := countByKeyPrefix c3 e
  countBySlot Slot c4 e

/-- The body of the loop of `calcuLargestKeyPrefix` for one key of `keyPrefixBytes`. -/
def calcuLargestKeyPrefix_step (num : Int) (c : Counter) (key : typeKey) : Counter :=
  let k : PrefixEntry :=
    { Typ := key.Typ
      Key := key.Key
      Bytes := mapGet 0 c.keyPrefixBytes key
      Num := mapGet 0 c.keyPrefixNum key
      Db := mapGet "" c.keyPrefixDb key }
  let pushed := heap_Push prefixLess c.largestKeyPrefixes k
  { c with
    keyPrefixBytes := mapDelete c.keyPrefixBytes key
    keyPrefixNum := mapDelete c.keyPrefixNum key
    largestKeyPrefixes :=
      if (pushed.length : Int) > num then heap_Pop prefixLess pushed else pushed }

/-- Go `Counter.calcuLargestKeyPrefix`: the loop visits every key of `keyPrefixBytes`
once (deleting the visited key only). -/
def calcuLargestKeyPrefix (c : Counter) (num : Int) : Counter :=
  (mapKeys c.keyPrefixBytes).foldl (calcuLargestKeyPrefix_step num) c

/-- Go `Counter.Count` over the entries received from the channel, in order. -/
def Count (Slot : String → Int) (c : Counter) (input : List Entry) : Counter :=
  let st := input.foldl
    (fun (st : Counter × Nat) e =>
      let c1 := count Slot st.1 e
      let n := add64 st.2 1
      ({ c1 with TotalCount := n }, n))
    (c, 0)
  -- get largest prefixes
  calcuLargestKeyPrefix st.1 1000

/-- Go `Counter.GetLargestEntries`; `res[:num]` panics for a negative `num`. -/
def GetLargestEntries (c : Counter) (num : Int) (sizeFilter : Int) :
    Except String (List Entry) :=
  let res := c.largestEntries.filter
    (fun e => if sizeFilter > 0 then decide (e.Bytes > toUint64 sizeFilter) else true)
  let sorted := sort_Sort (sort_Reverse entryLess) res
  if num < (sorted.length : Int) then
    if num < 0 then Except.error "slice bounds out of range"
    else Except.ok (sorted.take num.toNat)
  else Except.ok sorted

/-- Go `Counter.GetLargestKeyPrefixes`. -/
def GetLargestKeyPrefixes (c : Counter) : List PrefixEntry :=
  sort_Sort (sort_Reverse prefixLess) c.largestKeyPrefixes

/-- Go `Counter.GetLenLevelCount`. -/
def GetLenLevelCount (c : Counter) : List PrefixEntry :=
  (mapKeys c.lengthLevelBytes).map (fun key =>
    { Typ := key.Typ
      Key := key.Key
      Bytes := mapGet 0 c.lengthLevelBytes key
      Num := mapGet 0 c.lengthLevelNum key
      Db := mapGet "" c.keyPrefixDb key })

/-! ## `CounterDTO` -/

/-- Go `CounterDTO`: the exportable version of `Counter`. -/
structure CounterDTO where
  LargestEntries : List Entry
  LargestKeyPrefixes : List PrefixEntry
  LengthLevel0 : Nat
  LengthLevel1 : Nat
  LengthLevel2 : Nat
  LengthLevel3 : Nat
  LengthLevel4 : Nat
  LengthLevelBytes : GoMap String Nat
  LengthLevelNum : GoMap String Nat
  KeyPrefixBytes : GoMap String Nat
  KeyPrefixNum : GoMap String Nat
  KeyPrefixDb : GoMap String String
  TypeBytes : GoMap String Nat
  TypeNum : GoMap String Nat
  SlotBytes : GoMap Int Nat
  SlotNum : GoMap Int Nat
  deriving DecidableEq

/-- The loops `for k, v := range m { dto.M[k.Type+"|"+k.Key] = v }` of `ToDTO`. -/
def exportMap {ν : Type} (m : GoMap typeKey ν) : GoMap String ν :=
  m.foldl (fun dst kv => mapSet dst (kv.1.Typ ++ "|" ++ kv.1.Key) kv.2) []

/-- Go `Counter.ToDTO`. -/
def ToDTO (c : Counter) : CounterDTO :=
  { LengthLevel0 := c.lengthLevel0
    LengthLevel1 := c.lengthLevel1
    LengthLevel2 := c.lengthLevel2
    LengthLevel3 := c.lengthLevel3
    LengthLevel4 := c.lengthLevel4
    TypeBytes := c.typeBytes
    TypeNum := c.typeNum
    SlotBytes := c.slotBytes
    SlotNum := c.slotNum
    -- Convert heaps to slices
    LargestEntries :=
      match GetLargestEntries c 500 0 with
      | Except.ok res => res
      | Except.error _ => []
    LargestKeyPrefixes := GetLargestKeyPrefixes c
    -- Convert maps with struct keys
    LengthLevelBytes := exportMap c.lengthLevelBytes
    LengthLevelNum := exportMap c.lengthLevelNum
    KeyPrefixBytes := exportMap c.keyPrefixBytes
    KeyPrefixNum := exportMap c.keyPrefixNum
    KeyPrefixDb := exportMap c.keyPrefixDb }

/-- Go `restoreMap(src, dst)`, also the loop over `KeyPrefixDb` in `ToCounter`. -/
def restoreMap {ν : Type} (src : GoMap String ν) (dst : GoMap typeKey ν) : GoMap typeKey ν :=
  src.foldl
    (fun d kv => mapSet d { Typ := (parseTypeKey kv.1).1, Key := (parseTypeKey kv.1).2 } kv.2)
    dst

/-- Go `CounterDTO.ToCounter`. -/
def ToCounter (dto : CounterDTO) : Counter :=
  let c0 : Counter :=
    { NewCounter with
      lengthLevel0 := dto.LengthLevel0
      lengthLevel1 := dto.LengthLevel1
      lengthLevel2 := dto.LengthLevel2
      lengthLevel3 := dto.LengthLevel3
      lengthLevel4 := dto.LengthLevel4
      typeBytes := dto.TypeBytes
      typeNum := dto.TypeNum
      slotBytes := dto.SlotBytes
      slotNum := dto.SlotNum }
  -- Restore heaps
  let c1 := dto.LargestEntries.foldl (fun c e => countLargestEntries c e 500) c0
  let c2 : Counter :=
    { c1 with largestKeyPrefixes := c1.largestKeyPrefixes ++ dto.LargestKeyPrefixes }
  -- Restore Maps
  { c2 with
    lengthLevelBytes := restoreMap dto.LengthLevelBytes c2.lengthLevelBytes
    lengthLevelNum := restoreMap dto.LengthLevelNum c2.lengthLevelNum
    keyPrefixBytes := restoreMap dto.KeyPrefixBytes c2.keyPrefixBytes
    keyPrefixNum := restoreMap dto.KeyPrefixNum c2.keyPrefixNum
    keyPrefixDb := restoreMap dto.KeyPrefixDb c2.keyPrefixDb }

/-- An entry with the given key, type, bytes and element count, the other fields zero. -/
def mkEntry (key typ : String) (bytes numOfElem : Nat) : Entry :=
  { Key := key, Bytes := bytes, Typ := typ, NumOfElem := numOfElem, LenOfLargestElem := 0,
    FieldOfLargestElem := "", Db := 0, Encoding := "", Expiration := 0, LruIdle := 0,
    LfuFreq := 0 }

/-! ## Specification vocabulary -/

section SpecDefs
variable {α : Type}

/-- The comparison `less` is a strict weak order: asymmetric, and "not less"
is transitive. -/
structure StrictWeak (less : α → α → Bool) : Prop where
  asymm : ∀ a b, less a b = true → less b a = false
  ntrans : ∀ a b c, less a b = false → less b c = false → less a c = false

/-- The element at index `k` is not less than its parent. -/
def HeapAt (less : α → α → Bool) (h : List α) (k : Nat) : Prop :=
  ∀ a b, h[k]? = some a → h[(k - 1) / 2]? = some b → less a b = false

/-- The heap invariant of `container/heap`: `!h.Less(j, i)` for `0 <= i < h.Len()`
and `2*i+1 <= j <= 2*i+2` and `j < h.Len()`. -/
def IsHeap (less : α → α → Bool) (h : List α) : Prop :=
  ∀ k, 0 < k → HeapAt less h k

/-- The heap invariant on the first `n` elements. -/
def HeapBelow (less : α → α → Bool) (n : Nat) (h : List α) : Prop :=
  ∀ k, 0 < k → k < n → HeapAt less h k

/-- Loop invariant of `heap.up` at index `j`. -/
def UpInv (less : α → α → Bool) (h : List α) (j : Nat) : Prop :=
  (∀ k, 0 < k → k ≠ j → HeapAt less h k) ∧
  (∀ k, 0 < k → (k - 1) / 2 = j → 0 < j →
    ∀ a b, h[k]? = some a → h[(j - 1) / 2]? = some b → less a b = false)

/-- Loop invariant of `heap.down` at index `i`, over the first `n` elements. -/
def DownInv (less : α → α → Bool) (h : List α) (i n : Nat) : Prop :=
  (∀ k, 0 < k → k < n → (k - 1) / 2 ≠ i → HeapAt less h k) ∧
  (∀ k, 0 < k → k < n → (k - 1) / 2 = i → 0 < i →
    ∀ a b, h[k]? = some a → h[(i - 1) / 2]? = some b → less a b = false)

/-- Invariant of a bounded top-`K` heap `h` after the elements `seen`, with the
elements `D` discarded: `h` is a heap holding `min |seen| K` elements, the seen
elements are the held and the discarded ones, and no held element is less than
a discarded one. -/
def TopInv (less : α → α → Bool) (K : Nat) (h D seen : List α) : Prop :=
  IsHeap less h ∧ (∀ d ∈ D, ∀ x ∈ h, less x d = false) ∧
    h.length = min seen.length K ∧ seen.Perm (h ++ D)

end SpecDefs

/-- The `K` largest values of a list, duplicates included: sort in
non-increasing order and keep the first `K`. -/
def largestValues (K : Nat) (vs : List Nat) : List Nat :=
  (vs.insertionSort (fun a b => a ≥ b)).take K

/-- Four sample entries, two of them with equal `Bytes`. -/
def sampleEntries : List Entry :=
  [mkEntry "a" "string" 5 0, mkEntry "b" "string" 7 0, mkEntry "c" "string" 7 0,
    mkEntry "d" "string" 3 0]

/-- The `PrefixEntry` that `calcuLargestKeyPrefix` builds for a key of the
provisional maps of `c`. -/
def prefixEntryOf (c : Counter) (key : typeKey) : PrefixEntry :=
  { Typ := key.Typ
    Key := key.Key
    Bytes := mapGet 0 c.keyPrefixBytes key
    Num := mapGet 0 c.keyPrefixNum key
    Db := mapGet "" c.keyPrefixDb key }

/-- A counter that has accumulated the prefixes of two keys. -/
def samplePrefixCounter : Counter :=
  [mkEntry "a:1" "string" 5 0, mkEntry "b:2" "string" 7 0].foldl countByKeyPrefix NewCounter

/-- What `count` maintains on a counter started by `NewCounter`, for entries whose
type holds no `|`: at most 500 held entries, length-bucket maps whose keys are
distinct and carry such a type, and an empty `keyPrefixDb`. -/
def CountInv (c : Counter) : Prop :=
  c.largestEntries.length ≤ 500 ∧
  (mapKeys c.lengthLevelBytes).Nodup ∧ (∀ k ∈ mapKeys c.lengthLevelBytes, '|' ∉ k.Typ.toList) ∧
  (mapKeys c.lengthLevelNum).Nodup ∧ (∀ k ∈ mapKeys c.lengthLevelNum, '|' ∉ k.Typ.toList) ∧
  c.keyPrefixDb = []

/-- A slot function for examples: every key in slot 0. -/
def sampleSlot : String → Int := fun _ => 0

/-- Four entries, three of them with equal `Bytes`. -/
def sampleTies : List Entry :=
  [mkEntry "A" "string" 5 0, mkEntry "P" "string" 7 0, mkEntry "Q" "string" 7 0,
    mkEntry "R" "string" 7 0]

/-- Two entries of different types, one of them in a length bucket. -/
def sampleTyped : List Entry :=
  [mkEntry "h:1" "hash" 64 1500, mkEntry "s:2" "string" 10 5]

/-! ## The callback decoder (`decoder/decoder.go`) -/

/-- Go `rdb.Info` of the parser library: the fields that the decoder reads. -/
structure Info where
  Encoding : String
  Idle : Nat
  Freq : Int
  SizeOfValue : Int
  Zips : Nat
  ListPacks : Nat
  deriving DecidableEq

/-- Go `MemProfiler`.  Its methods live in another file of package `decoder` that
is not embedded here; the decoder is embedded over arbitrary functions of their
signatures (every result a `uint64`). -/
structure MemProfiler where
  TopLevelObjOverhead : String → Int → Nat
  SizeofString : String → Nat
  ElemLen : String → Nat
  RobjOverHead : Nat
  HashTableOverHead : Nat → Nat
  HashTableEntryOverHead : Nat
  SkipListOverHead : Nat → Nat
  SkipListEntryOverHead : Nat
  LinkedListOverHead : Nat
  LinkedListEntryOverHead : Nat
  ZipListHeaderOverHead : Nat
  ZipListEntryOverHead : String → Nat
  QuickListOverHead : Nat → Nat
  QuickList2OverHead : Nat
  StreamOverhead : Nat
  SizeofStreamRadixTree : Nat → Nat
  StreamNACK : Nat → Nat
  StreamConsumer : String → Nat
  mallocOverhead : Nat → Nat

/-- Go `Decoder`.  `Entries` is the sequence of pointers sent on the channel so far
(a nil pointer is `none`); the embedded `NopDecoder` has no state. -/
structure Decoder where
  Entries : List (Option Entry)
  m : MemProfiler
  usedMem : Int
  ctime : Int
  rdbVer : Int
  Db : Int
  currentInfo : Option Info
  currentEntry : Option Entry

/-- Whether `strconv.ParseInt(s, 10, bitSize)` returns no error: an optional sign,
then at least one decimal digit and nothing else, the value in the signed range. -/
def strconv_ParseInt_ok (s : String) (bitSize : Nat) : Bool :=
  let cs := s.toList
  let neg := decide (cs.head? = some '-')
  let ds := match cs with
    | '+' :: r => r
    | '-' :: r => r
    | r => r
  let un : Nat := ds.foldl (fun n c => 10 * n + (c.toNat - 48)) 0
  !ds.isEmpty && ds.all (fun c => decide (c.toNat ≥ 48 ∧ c.toNat ≤ 57)) &&
    (if neg then decide (un ≤ 2 ^ (bitSize - 1)) else decide (un < 2 ^ (bitSize - 1)))

/-- Go `Decoder.sendEntry`. -/
def sendEntry (d : Decoder) : Decoder :=
  { d with Entries := d.Entries ++ [d.currentEntry], currentEntry := none }

/-- Go `Decoder.StartRDB`. -/
def StartRDB (d : Decoder) (ver : Int) : Decoder := { d with rdbVer := ver }

/-- Go `Decoder.StartDatabase`. -/
def StartDatabase (d : Decoder) (n : Int) : Decoder := { d with Db := n }

/-- The block repeated in `Hset`, `Sadd`, `Zadd` and `Rpush`:
`if lenOfElem > e.LenOfLargestElem { if len(field) > 100 { e.FieldOfLargestElem =
string(field[:100]) + "..." } else { e.FieldOfLargestElem = string(field) };
e.LenOfLargestElem = lenOfElem }`.  `len` and the slice count bytes, and byte 100
may lie inside a character: the sample is stored as its bytes, one character per
byte (for an ASCII field, the text itself). -/
def updateLargest (e : Entry) (lenOfElem : Nat) (field : String) : Entry :=
  if lenOfElem > e.LenOfLargestElem then
    { e with
      FieldOfLargestElem :=
        if byteLen field > 100 then sliceTo (goBytes field) 100 ++ "..." else goBytes field
      LenOfLargestElem := lenOfElem }
  else e

/-- Go `Decoder.Set`: called once for each string key. -/
def Set (d : Decoder) (key value : String) (expiry : Int) (info : Option Info) :
    Except String Decoder :=
  match info with
  | none => Except.error "nil pointer dereference"
  | some i =>
    let bytes := add64 (d.m.TopLevelObjOverhead key expiry) (d.m.SizeofString value)
    let e : Entry :=
      { Key := key, Bytes := bytes, Typ := "string", Encoding := i.Encoding,
        NumOfElem := d.m.ElemLen value, LenOfLargestElem := 0, FieldOfLargestElem := "",
        Expiration := expiry, LruIdle := i.Idle, LfuFreq := i.Freq, Db := d.Db }
    Except.ok { d with Entries := d.Entries ++ [some e] }

/-- Go `Decoder.StartHash`: called at the beginning of a hash. -/
def StartHash (d : Decoder) (key : String) (length expiry : Int) (info : Option Info) :
    Except String Decoder :=
  match info with
  | none => Except.error "nil pointer dereference"
  | some i =>
    let bytes0 := d.m.TopLevelObjOverhead key expiry
    let bytes : Except String Nat :=
      if i.Encoding = "hashtable" then
        Except.ok (add64 bytes0 (d.m.HashTableOverHead (toUint64 length)))
      else if i.Encoding = "listpack" ∨ i.Encoding = "ziplist" ∨ i.Encoding = "zipmap" then
        if i.SizeOfValue > 0 then Except.ok (add64 bytes0 (toUint64 i.SizeOfValue))
        else Except.ok bytes0
      else Except.error ("unexpected size(0) or encoding:" ++ i.Encoding)
    match bytes with
    | Except.error msg => Except.error msg
    | Except.ok b =>
      Except.ok { d with
        currentInfo := some i
        currentEntry := some
          { Key := key, Bytes := b, Typ := "hash", Encoding := i.Encoding,
            NumOfElem := toUint64 length, LenOfLargestElem := 0, FieldOfLargestElem := "",
            Expiration := expiry, LruIdle := i.Idle, LfuFreq := i.Freq, Db := d.Db } }

/-- Go `Decoder.Hset`: called once for each field=value pair in a hash.  The result
is the decoder after the call or the message of the panic; what the call has
assigned before a panic (here the largest element) is in `panicState`. -/
def Hset (d : Decoder) (key field value : String) : Except String Decoder :=
  match d.currentEntry with
  | none => Except.error "nil pointer dereference"
  | some e =>
    let lenOfElem := add64 (d.m.ElemLen field) (d.m.ElemLen value)
    let e1 := updateLargest e lenOfElem field
    match d.currentInfo with
    | none => Except.error "nil pointer dereference"
    | some i =>
      if i.Encoding = "hashtable" then
        let b1 := add64 e1.Bytes (d.m.SizeofString field)
        let b2 := add64 b1 (d.m.SizeofString value)
        let b3 := add64 b2 d.m.HashTableEntryOverHead
        let b4 := if d.rdbVer < 10 then add64 b3 (mul64 2 d.m.RobjOverHead) else b3
        Except.ok { d with currentEntry := some { e1 with Bytes := b4 } }
      else Except.ok { d with currentEntry := some e1 }

/-- Go `Decoder.EndHash`. -/
def EndHash (d : Decoder) (key : String) : Except String Decoder :=
  Except.ok (sendEntry d)

/-- Go `Decoder.StartSet`: called at the beginning of a set. -/
def StartSet (d : Decoder) (key : String) (cardinality expiry : Int) (info : Option Info) :
    Except String Decoder :=
  match info with
  | none => Except.error "nil pointer dereference"
  | some i =>
    let bytes0 := d.m.TopLevelObjOverhead key expiry
    let bytes : Except String Nat :=
      if i.Encoding = "intset" ∧ i.SizeOfValue > 0 then
        Except.ok (add64 bytes0 (toUint64 i.SizeOfValue))
      else if i.Encoding = "hashtable" then
        Except.ok (add64 bytes0 (d.m.HashTableOverHead (toUint64 cardinality)))
      else if i.Encoding = "listpack" ∧ i.SizeOfValue > 0 then
        Except.ok (add64 bytes0 (toUint64 i.SizeOfValue))
      else Except.error ("unexpected size(0) or encoding:" ++ i.Encoding)
    match bytes with
    | Except.error msg => Except.error msg
    | Except.ok b =>
      Except.ok { d with
        currentInfo := some i
        currentEntry := some
          { Key := key, Bytes := b, Typ := "set", Encoding := i.Encoding,
            NumOfElem := toUint64 cardinality, LenOfLargestElem := 0,
            FieldOfLargestElem := "", Expiration := expiry, LruIdle := i.Idle,
            LfuFreq := i.Freq, Db := d.Db } }

/-- Go `Decoder.Sadd`: called once for each member of a set (the largest element
is assigned before `d.currentInfo` is read, see `panicState`). -/
def Sadd (d : Decoder) (key member : String) : Except String Decoder :=
  match d.currentEntry with
  | none => Except.error "nil pointer dereference"
  | some e =>
    let lenOfElem := d.m.ElemLen member
    let e1 := updateLargest e lenOfElem member
    match d.currentInfo with
    | none => Except.error "nil pointer dereference"
    | some i =>
      if i.Encoding = "hashtable" then
        let b1 := add64 e1.Bytes (d.m.SizeofString member)
        let b2 := add64 b1 d.m.HashTableEntryOverHead
        let b3 := if d.rdbVer < 10 then add64 b2 d.m.RobjOverHead else b2
        Except.ok { d with currentEntry := some { e1 with Bytes := b3 } }
      else Except.ok { d with currentEntry := some e1 }

/-- Go `Decoder.EndSet`. -/
def EndSet (d : Decoder) (key : String) : Except String Decoder :=
  Except.ok (sendEntry d)

/-- Go `Decoder.StartList`: called at the beginning of a list (`d.currentInfo = info`
is assigned before the info is read, see `panicState`). -/
def StartList (d : Decoder) (key : String) (length expiry : Int) (info : Option Info) :
    Except String Decoder :=
  match info with
  | none => Except.error "nil pointer dereference"
  | some i =>
    Except.ok { d with
      currentInfo := some i
      currentEntry := some
        { Key := key, Bytes := d.m.TopLevelObjOverhead key expiry, Typ := "list",
          Encoding := i.Encoding, NumOfElem := 0, LenOfLargestElem := 0,
          FieldOfLargestElem := "", Expiration := expiry, LruIdle := i.Idle,
          LfuFreq := i.Freq, Db := d.Db } }

/-- Go `Decoder.Rpush`: called once for each value in a list.  `e.NumOfElem++` runs
before the encoding is checked: when the check panics the count stays incremented,
which `panicState` records. -/
def Rpush (d : Decoder) (key value : String) (NodeEncodings : Nat) : Except String Decoder :=
  match d.currentEntry with
  | none => Except.error "nil pointer dereference"
  | some e0 =>
    let e := { e0 with NumOfElem := add64 e0.NumOfElem 1 }
    match d.currentInfo with
    | none => Except.error "nil pointer dereference"
    | some i =>
      let costed : Except String Entry :=
        if i.Encoding = "quicklist" then
          Except.ok { e with Bytes := add64 e.Bytes (d.m.ZipListEntryOverHead value) }
        else if i.Encoding = "ziplist" then
          Except.ok { e with Bytes := add64 e.Bytes (d.m.ZipListEntryOverHead value) }
        else if i.Encoding = "linkedlist" then
          let sizeInlist := if strconv_ParseInt_ok value 32 then 0 else d.m.SizeofString value
          let b1 := add64 e.Bytes d.m.LinkedListEntryOverHead
          let b2 := add64 b1 sizeInlist
          let b3 := if d.rdbVer < 10 then add64 b2 d.m.RobjOverHead else b2
          Except.ok { e with Bytes := b3 }
        else if i.Encoding = "quicklist2" then
          -- quickListNodeContainerPacked=2 is calculated in EndList
          if NodeEncodings = 1 then
            if strconv_ParseInt_ok value 32 then Except.ok e
            else Except.ok { e with Bytes := add64 e.Bytes (d.m.SizeofString value) }
          else Except.ok e
        else Except.error ("unknown encoding:" ++ i.Encoding)
      match costed with
      | Except.error msg => Except.error msg
      | Except.ok e1 =>
        Except.ok { d with currentEntry := some (updateLargest e1 (d.m.ElemLen value) value) }

/-- Go `Decoder.EndList`: called when there are no more values in a list.  The
`switch` reads `d.currentInfo.Encoding` first; `e` is dereferenced inside the four
cases only, so the `default` case panics on the encoding even when `e` is nil. -/
def EndList (d : Decoder) (key : String) : Except String Decoder :=
  match d.currentInfo with
  | none => Except.error "nil pointer dereference"
  | some i =>
    let closed : Except String Entry :=
      if i.Encoding = "quicklist" then
        match d.currentEntry with
        | none => Except.error "nil pointer dereference"
        | some e =>
          let b1 := add64 e.Bytes (d.m.QuickListOverHead i.Zips)
          Except.ok { e with Bytes := add64 b1 (mul64 d.m.ZipListHeaderOverHead i.Zips) }
      else if i.Encoding = "ziplist" then
        match d.currentEntry with
        | none => Except.error "nil pointer dereference"
        | some e => Except.ok { e with Bytes := add64 e.Bytes d.m.ZipListHeaderOverHead }
      else if i.Encoding = "linkedlist" then
        match d.currentEntry with
        | none => Except.error "nil pointer dereference"
        | some e => Except.ok { e with Bytes := add64 e.Bytes d.m.LinkedListOverHead }
      else if i.Encoding = "quicklist2" then
        match d.currentEntry with
        | none => Except.error "nil pointer dereference"
        | some e =>
          let b1 := add64 e.Bytes d.m.QuickList2OverHead
          let b2 := add64 b1 (mul64 d.m.RobjOverHead i.ListPacks)
          let b3 := if i.SizeOfValue > 0 then add64 b2 (toUint64 i.SizeOfValue) else b2
          Except.ok { e with Bytes := b3 }
      else Except.error ("unknown encoding:" ++ i.Encoding)
    match closed with
    | Except.error msg => Except.error msg
    | Except.ok e1 => Except.ok (sendEntry { d with currentEntry := some e1 })

/-- Go `Decoder.StartZSet`: called at the beginning of a sorted set.  Unlike
`StartHash` and `StartSet`, it assigns `d.currentInfo = info` before the check of
the encoding: when the check panics the info stays assigned, which `panicState`
records. -/
def StartZSet (d : Decoder) (key : String) (cardinality expiry : Int) (info : Option Info) :
    Except String Decoder :=
  match info with
  | none => Except.error "nil pointer dereference"
  | some i =>
    let bytes0 := d.m.TopLevelObjOverhead key expiry
    let bytes : Except String Nat :=
      if i.Encoding = "ziplist" ∧ i.SizeOfValue > 0 then
        Except.ok (add64 bytes0 (toUint64 i.SizeOfValue))
      else if i.Encoding = "skiplist" then
        Except.ok (add64 bytes0 (d.m.SkipListOverHead (toUint64 cardinality)))
      else if i.Encoding = "listpack" ∧ i.SizeOfValue > 0 then
        Except.ok (add64 bytes0 (toUint64 i.SizeOfValue))
      else Except.error ("unexpected size(0) or encoding:" ++ i.Encoding)
    match bytes with
    | Except.error msg => Except.error msg
    | Except.ok b =>
      Except.ok { d with
        currentInfo := some i
        currentEntry := some
          { Key := key, Bytes := b, Typ := "sortedset", Encoding := i.Encoding,
            NumOfElem := toUint64 cardinality, LenOfLargestElem := 0,
            FieldOfLargestElem := "", Expiration := expiry, LruIdle := i.Idle,
            LfuFreq := i.Freq, Db := d.Db } }

/-- Go `Decoder.Zadd`: called once for each member of a sorted set (the score is not
read; the largest element is assigned before `d.currentInfo` is read, see
`panicState`). -/
def Zadd (d : Decoder) (key : String) (member : String) : Except String Decoder :=
  match d.currentEntry with
  | none => Except.error "nil pointer dereference"
  | some e =>
    let lenOfElem := d.m.ElemLen member
    let e1 := updateLargest e lenOfElem member
    match d.currentInfo with
    | none => Except.error "nil pointer dereference"
    | some i =>
      if i.Encoding = "skiplist" then
        let b1 := add64 e1.Bytes 8 -- sizeof(score)
        let b2 := add64 b1 (d.m.SizeofString member)
        let b3 := add64 b2 d.m.SkipListEntryOverHead
        let e2 := updateLargest { e1 with Bytes := b3 } lenOfElem member
        let b4 := if d.rdbVer < 10 then add64 e2.Bytes d.m.RobjOverHead else e2.Bytes
        Except.ok { d with currentEntry := some { e2 with Bytes := b4 } }
      else Except.ok { d with currentEntry := some e1 }

/-- Go `Decoder.EndZSet`. -/
def EndZSet (d : Decoder) (key : String) : Except String Decoder :=
  Except.ok (sendEntry d)

/-- The callbacks of one hash at format version `ver`: `StartRDB(ver)`, `StartHash`,
one `Hset` per pair, `EndHash`. -/
def feedHash (d : Decoder) (ver : Int) (key : String) (length expiry : Int) (info : Info)
    (pairs : List (String × String)) : Except String Decoder :=
  match StartHash (StartRDB d ver) key length expiry (some info) with
  | Except.error msg => Except.error msg
  | Except.ok d1 =>
    match pairs.foldlM (fun acc fv => Hset acc key fv.1 fv.2) d1 with
    | Except.error msg => Except.error msg
    | Except.ok d2 => EndHash d2 key

/-- A memory profiler for examples (64-bit sizes: an object header of 16 bytes). -/
def sampleProfiler : MemProfiler :=
  { TopLevelObjOverhead := fun key expiry => 56 + key.length + (if expiry > 0 then 16 else 0)
    SizeofString := fun s => s.length + 9
    ElemLen := fun s => s.length
    RobjOverHead := 16
    HashTableOverHead := fun size => 56 + 8 * size
    HashTableEntryOverHead := 24
    SkipListOverHead := fun size => 56 + 32 + 8 * size
    SkipListEntryOverHead := 40
    LinkedListOverHead := 40
    LinkedListEntryOverHead := 24
    ZipListHeaderOverHead := 11
    ZipListEntryOverHead := fun s => s.length + 2
    QuickListOverHead := fun zips => 40 + 32 * zips
    QuickList2OverHead := 40
    StreamOverhead := 64
    SizeofStreamRadixTree := fun n => 16 + 52 * n
    StreamNACK := fun n => 32 * n
    StreamConsumer := fun name => 40 + name.length
    mallocOverhead := fun n => n }

/-- A decoder at the start of a file. -/
def sampleDecoder : Decoder :=
  { Entries := [], m := sampleProfiler, usedMem := 0, ctime := 0, rdbVer := 0, Db := 0,
    currentInfo := none, currentEntry := none }

/-- The `rdb.Info` of a value with encoding `hashtable`. -/
def sampleHashInfo : Info :=
  { Encoding := "hashtable", Idle := 0, Freq := 0, SizeOfValue := 0, Zips := 0, ListPacks := 0 }

/-- The decoder that a `Start...` callback returned, `sampleDecoder` if it failed. -/
def sampleOpened (r : Except String Decoder) : Decoder :=
  match r with
  | Except.ok d => d
  | Except.error _ => sampleDecoder

/-- The sample decoder after `StartSet` of a `hashtable` set of one member. -/
def sampleSetOpen : Decoder :=
  sampleOpened (StartSet sampleDecoder "k" 1 0 (some sampleHashInfo))

/-- The sample decoder after `StartHash` of a `hashtable` hash of one pair. -/
def sampleHashOpen : Decoder :=
  sampleOpened (StartHash sampleDecoder "k" 1 0 (some sampleHashInfo))

/-- The sample decoder after `StartZSet` of a `skiplist` sorted set of one member. -/
def sampleZSetOpen : Decoder :=
  sampleOpened (StartZSet sampleDecoder "k" 1 0 (some { sampleHashInfo with Encoding := "skiplist" }))

/-- The sample decoder after `StartList` of a `linkedlist` list. -/
def sampleListOpen : Decoder :=
  sampleOpened (StartList sampleDecoder "k" 1 0
    (some { sampleHashInfo with Encoding := "linkedlist" }))

/-- The `Bytes` of the open record after a callback, if it succeeded. -/
def currentBytes (r : Except String Decoder) : Option Nat :=
  match r with
  | Except.ok d => d.currentEntry.map Entry.Bytes
  | Except.error _ => none

/-! ## Vocabulary for the map aggregates -/

section MapAggregates
variable {κ : Type} [DecidableEq κ]

/-- Go `m[k] += x` on a map of `uint64` values. -/
def mapAdd (m : GoMap κ Nat) (k : κ) (x : Nat) : GoMap κ Nat :=
  mapSet m k (add64 (mapGet 0 m k) x)

/-- A map after the statements `m[k] += x` for the pairs `(k, x)` of a list, in order. -/
def mapAccum (m : GoMap κ Nat) (upds : List (κ × Nat)) : GoMap κ Nat :=
  upds.foldl (fun acc u => mapAdd acc u.1 u.2) m

/-- The sum of the values of a map over all its keys. -/
def mapSum (m : GoMap κ Nat) : Nat := (m.map Prod.snd).sum

end MapAggregates

/-- The `(Type, bucket)` key that `countByLength` updates for an entry, if any. -/
def lengthKey (c : Counter) (e : Entry) : Option typeKey :=
  if e.NumOfElem > c.lengthLevel4 then
    some { Typ := e.Typ, Key := strconv_FormatUint c.lengthLevel4 }
  else if e.NumOfElem > c.lengthLevel3 then
    some { Typ := e.Typ, Key := strconv_FormatUint c.lengthLevel3 }
  else if e.NumOfElem > c.lengthLevel2 then
    some { Typ := e.Typ, Key := strconv_FormatUint c.lengthLevel2 }
  else if e.NumOfElem > c.lengthLevel1 then
    some { Typ := e.Typ, Key := strconv_FormatUint c.lengthLevel1 }
  else if e.NumOfElem > c.lengthLevel0 then
    some { Typ := e.Typ, Key := strconv_FormatUint c.lengthLevel0 }
  else none

/-- The `(Type, prefix)` keys that `countByKeyPrefix` credits for an entry: the
non-empty prefixes of its digit-normalized key. -/
def prefixKeys (c : Counter) (e : Entry) : List typeKey :=
  ((getPrefixes (strings_Map digitToStar e.Key) c.separators).filter
    (fun p => decide (p.length ≠ 0))).map (fun p => { Typ := e.Typ, Key := p })

/-- The slot that `countBySlot` credits for an entry, if any. -/
def slotKey (Slot : String → Int) (e : Entry) : Option Int :=
  if e.Key.length > 0 then some (Slot e.Key) else none

/-! ## The remaining callbacks: `Aux` and the stream callbacks -/

/-- The digit loop of Go `strconv.ParseUint(s, 10, bitSize)` from the value `n` on:
a character that is no decimal digit is a syntax error (`Except.error false`), a
value above `2^bitSize - 1` is a range error (`Except.error true`); the first error
met from the left ends the loop. -/
def strconv_ParseUint_loop (bitSize : Nat) : List Char → Nat → Except Bool Nat
  | [], n => Except.ok n
  | c :: cs, n =>
    if c.toNat ≥ 48 ∧ c.toNat ≤ 57 then
      if 10 * n + (c.toNat - 48) > 2 ^ bitSize - 1 then Except.error true
      else strconv_ParseUint_loop bitSize cs (10 * n + (c.toNat - 48))
    else Except.error false

/-- Go `strconv.ParseInt(s, 10, bitSize)`: the value returned and whether `err` is
nil.  A syntax error returns 0, a range error the nearest bound of the signed range. -/
def strconv_ParseInt (s : String) (bitSize : Nat) : Int × Bool :=
  match s.toList with
  | [] => (0, false)
  | c0 :: rest =>
    let neg := decide (c0 = '-')
    let ds := if c0 = '+' ∨ c0 = '-' then rest else c0 :: rest
    let cutoff : Nat := 2 ^ (bitSize - 1)
    match ds with
    | [] => (0, false)
    | _ =>
      match strconv_ParseUint_loop bitSize ds 0 with
      | Except.error false => (0, false)
      | Except.error true => if neg then (-(cutoff : Int), false) else ((cutoff : Int) - 1, false)
      | Except.ok un =>
        if ¬ neg ∧ un ≥ cutoff then ((cutoff : Int) - 1, false)
        else if neg ∧ un > cutoff then (-(cutoff : Int), false)
        else if neg then (-(un : Int), true)
        else ((un : Int), true)

/-- Go `Decoder.Aux`: the error of `ParseInt` is only printed, the value is stored. -/
def Aux (d : Decoder) (key value : String) : Decoder :=
  if key = "ctime" then { d with ctime := (strconv_ParseInt value 64).1 }
  else if key = "used-mem" then { d with usedMem := (strconv_ParseInt value 64).1 }
  else d

/-- Go `Decoder.GetTimestamp`. -/
def GetTimestamp (d : Decoder) : Int := d.ctime

/-- Go `Decoder.GetUsedMem`. -/
def GetUsedMem (d : Decoder) : Int := d.usedMem

/-- One consumer of a stream consumer group of the parser library, as `EndStream`
reads it: its name. -/
structure StreamConsumerData where
  Name : String
  deriving DecidableEq

/-- One element of `rdb.StreamGroups` of the parser library, as `EndStream` reads
it: the pending entries (only their number is read) and the consumers. -/
structure StreamGroup where
  Pending : List String
  Consumers : List StreamConsumerData
  deriving DecidableEq

/-- Go `Decoder.StartStream` (`d.currentInfo = info` is assigned before the info is
read, see `panicState`). -/
def StartStream (d : Decoder) (key : String) (cardinality expiry : Int) (info : Option Info) :
    Except String Decoder :=
  match info with
  | none => Except.error "nil pointer dereference"
  | some i =>
    let b0 := d.m.TopLevelObjOverhead key expiry
    let b1 := add64 b0 d.m.StreamOverhead
    let b2 := add64 b1 (d.m.SizeofStreamRadixTree (toUint64 cardinality))
    let b3 := if i.Encoding = "stream_v2" then add64 b2 (16 * 2 + 8) else b2
    let b4 := if i.SizeOfValue > 0 then add64 b3 (toUint64 i.SizeOfValue) else b3
    Except.ok { d with
      currentInfo := some i
      currentEntry := some
        { Key := key, Bytes := b4, Typ := "stream", Encoding := i.Encoding, NumOfElem := 0,
          LenOfLargestElem := 0, FieldOfLargestElem := "", Expiration := expiry,
          LruIdle := i.Idle, LfuFreq := i.Freq, Db := d.Db } }

/-- Go `Decoder.Xadd`. -/
def Xadd (d : Decoder) (key id listpack : String) : Except String Decoder :=
  match d.currentEntry with
  | none => Except.error "nil pointer dereference"
  | some e =>
    Except.ok { d with
      currentEntry := some
        { e with
          NumOfElem := add64 e.NumOfElem 1
          Bytes := add64 e.Bytes (d.m.mallocOverhead (toUint64 listpack.length)) } }

/-- The body of the inner loop of `EndStream` over the consumers of a group, on the
running `e.Bytes`. -/
def EndStream_consumer (d : Decoder) (cg : StreamGroup) (bytes : Nat)
    (c : StreamConsumerData) : Nat :=
  let b1 := add64 bytes (d.m.StreamConsumer c.Name)
  add64 b1 (d.m.SizeofStreamRadixTree (toUint64 cg.Pending.length))

/-- The body of the outer loop of `EndStream` over the consumer groups, on the
running `e.Bytes`. -/
def EndStream_group (d : Decoder) (bytes : Nat) (cg : StreamGroup) : Except String Nat :=
  let pendingLength := toUint64 cg.Pending.length
  let b1 := add64 bytes (d.m.SizeofStreamRadixTree pendingLength)
  let b2 := add64 b1 (d.m.StreamNACK pendingLength)
  match d.currentInfo with
  | none => Except.error "nil pointer dereference"
  | some i =>
    let b3 := if i.Encoding = "stream_v2" then add64 b2 8 else b2
    Except.ok (cg.Consumers.foldl (EndStream_consumer d cg) b3)

/-- The loop of `EndStream` over the consumer groups. -/
def EndStream_groups (d : Decoder) : List StreamGroup → Nat → Except String Nat
  | [], bytes => Except.ok bytes
  | cg :: rest, bytes =>
    match EndStream_group d bytes cg with
    | Except.error msg => Except.error msg
    | Except.ok b => EndStream_groups d rest b

/-- Go `Decoder.EndStream`; without consumer groups `e` is not dereferenced.  With
groups, two amounts are added to `e.Bytes` before `d.currentInfo` is read (see
`panicState`). -/
def EndStream (d : Decoder) (key : String) (items : Nat) (lastEntryID : String)
    (cgroupsData : List StreamGroup) : Except String Decoder :=
  match cgroupsData with
  | [] => Except.ok (sendEntry d)
  | _ :: _ =>
    match d.currentEntry with
    | none => Except.error "nil pointer dereference"
    | some e =>
      match EndStream_groups d cgroupsData e.Bytes with
      | Except.error msg => Except.error msg
      | Except.ok b => Except.ok (sendEntry { d with currentEntry := some { e with Bytes := b } })

/-! ## Callback sequences -/

/-- One call of a callback of the decoder by the parser, with its arguments (the
score of `Zadd` is not read and is left out). -/
inductive Event where
  | startRDB (ver : Int)
  | startDatabase (n : Int)
  | aux (key value : String)
  | set (key value : String) (expiry : Int) (info : Option Info)
  | startHash (key : String) (length expiry : Int) (info : Option Info)
  | hset (key field value : String)
  | endHash (key : String)
  | startSet (key : String) (cardinality expiry : Int) (info : Option Info)
  | sadd (key member : String)
  | endSet (key : String)
  | startList (key : String) (length expiry : Int) (info : Option Info)
  | rpush (key value : String) (NodeEncodings : Nat)
  | endList (key : String)
  | startZSet (key : String) (cardinality expiry : Int) (info : Option Info)
  | zadd (key member : String)
  | endZSet (key : String)
  | startStream (key : String) (cardinality expiry : Int) (info : Option Info)
  | xadd (key id listpack : String)
  | endStream (key : String) (items : Nat) (lastEntryID : String)
      (cgroupsData : List StreamGroup)

/-- The decoder after one callback, or the message of its panic (the state that the
panic leaves is `panicState`). -/
def callback (d : Decoder) : Event → Except String Decoder
  | Event.startRDB ver => Except.ok (StartRDB d ver)
  | Event.startDatabase n => Except.ok (StartDatabase d n)
  | Event.aux key value => Except.ok (Aux d key value)
  | Event.set key value expiry info => Set d key value expiry info
  | Event.startHash key length expiry info => StartHash d key length expiry info
  | Event.hset key field value => Hset d key field value
  | Event.endHash key => EndHash d key
  | Event.startSet key cardinality expiry info => StartSet d key cardinality expiry info
  | Event.sadd key member => Sadd d key member
  | Event.endSet key => EndSet d key
  | Event.startList key length expiry info => StartList d key length expiry info
  | Event.rpush key value NodeEncodings => Rpush d key value NodeEncodings
  | Event.endList key => EndList d key
  | Event.startZSet key cardinality expiry info => StartZSet d key cardinality expiry info
  | Event.zadd key member => Zadd d key member
  | Event.endZSet key => EndZSet d key
  | Event.startStream key cardinality expiry info => StartStream d key cardinality expiry info
  | Event.xadd key id listpack => Xadd d key id listpack
  | Event.endStream key items lastEntryID cgroupsData =>
    EndStream d key items lastEntryID cgroupsData

/-- The decoder as a callback that panics leaves it: the assignments that the
callback makes before the statement that panics.  `StartList`, `StartZSet` and
`StartStream` assign `d.currentInfo = info` before they read the info (`StartHash`
and `StartSet` assign it after their check); `Hset`, `Sadd` and `Zadd` update the
largest element of the open record before they read `d.currentInfo`; `Rpush` runs
`e.NumOfElem++` first; `EndStream` adds the first two amounts of the first group
before it reads `d.currentInfo`.  Every other panic comes before any assignment. -/
def panicState (d : Decoder) : Event → Decoder
  | Event.startList _ _ _ info => { d with currentInfo := info }
  | Event.startZSet _ _ _ info => { d with currentInfo := info }
  | Event.startStream _ _ _ info => { d with currentInfo := info }
  | Event.hset _ field value =>
    match d.currentEntry with
    | none => d
    | some e =>
      { d with
        currentEntry :=
          some (updateLargest e (add64 (d.m.ElemLen field) (d.m.ElemLen value)) field) }
  | Event.sadd _ member =>
    match d.currentEntry with
    | none => d
    | some e => { d with currentEntry := some (updateLargest e (d.m.ElemLen member) member) }
  | Event.zadd _ member =>
    match d.currentEntry with
    | none => d
    | some e => { d with currentEntry := some (updateLargest e (d.m.ElemLen member) member) }
  | Event.rpush _ _ _ =>
    match d.currentEntry with
    | none => d
    | some e => { d with currentEntry := some { e with NumOfElem := add64 e.NumOfElem 1 } }
  | Event.endStream _ _ _ cgroupsData =>
    match cgroupsData, d.currentEntry with
    | cg :: _, some e =>
      let pendingLength := toUint64 cg.Pending.length
      let b1 := add64 e.Bytes (d.m.SizeofStreamRadixTree pendingLength)
      { d with currentEntry := some { e with Bytes := add64 b1 (d.m.StreamNACK pendingLength) } }
    | _, _ => d
  | _ => d

/-- The decoder after a sequence of callbacks: the callbacks run in order until one
panics; the result is the state reached, with what the panicking callback has
assigned before its panic, and the message of the panic, if any. -/
def callbacks (d : Decoder) : List Event → Decoder × Option String
  | [] => (d, none)
  | ev :: evs =>
    match callback d ev with
    | Except.ok d1 => callbacks d1 evs
    | Except.error msg => (panicState d ev, some msg)

/-- The value that a callback starts the `Bytes` of its record from: the top-level
overhead for `Set` and the `Start...` callbacks, the `Bytes` of the open record for
the others. -/
def bytesBase (d : Decoder) : Event → Nat
  | Event.set key _ expiry _ => d.m.TopLevelObjOverhead key expiry
  | Event.startHash key _ expiry _ => d.m.TopLevelObjOverhead key expiry
  | Event.startSet key _ expiry _ => d.m.TopLevelObjOverhead key expiry
  | Event.startList key _ expiry _ => d.m.TopLevelObjOverhead key expiry
  | Event.startZSet key _ expiry _ => d.m.TopLevelObjOverhead key expiry
  | Event.startStream key _ expiry _ => d.m.TopLevelObjOverhead key expiry
  | Event.startRDB _ => 0
  | Event.startDatabase _ => 0
  | Event.aux _ _ => 0
  | _ =>
    match d.currentEntry with
    | some e => e.Bytes
    | none => 0

/-- The key and the expiry of the record that a callback writes `Bytes` of: its
arguments for `Set` and the `Start...` callbacks, those of the open record for the
element and `End...` callbacks. -/
def bytesOrigin (d : Decoder) : Event → Option (String × Int)
  | Event.set key _ expiry _ => some (key, expiry)
  | Event.startHash key _ expiry _ => some (key, expiry)
  | Event.startSet key _ expiry _ => some (key, expiry)
  | Event.startList key _ expiry _ => some (key, expiry)
  | Event.startZSet key _ expiry _ => some (key, expiry)
  | Event.startStream key _ expiry _ => some (key, expiry)
  | Event.startRDB _ => none
  | Event.startDatabase _ => none
  | Event.aux _ _ => none
  | _ =>
    match d.currentEntry with
    | some e => some (e.Key, e.Expiration)
    | none => none

/-- The encoding of the current info, the empty string if there is none. -/
def currentEncoding (d : Decoder) : String :=
  match d.currentInfo with
  | some i => i.Encoding
  | none => ""

/-- The encoding of an info argument, the empty string if it is nil. -/
def encodingOf (info : Option Info) : String :=
  match info with
  | some i => i.Encoding
  | none => ""

/-- The `SizeOfValue` of an info argument as the list of amounts that
`if info.SizeOfValue > 0 { bytes += uint64(info.SizeOfValue) }` adds. -/
def sizeOfValueAdded (info : Option Info) : List Nat :=
  match info with
  | some i => if i.SizeOfValue > 0 then [toUint64 i.SizeOfValue] else []
  | none => []

/-- The amounts that a callback adds to `Bytes` with `+=`, in the order of the
additions, in a state in which it does not panic. -/
def bytesAdded (d : Decoder) : Event → List Nat
  | Event.set _ value _ _ => [d.m.SizeofString value]
  | Event.startHash _ length _ info =>
    if encodingOf info = "hashtable" then [d.m.HashTableOverHead (toUint64 length)]
    else sizeOfValueAdded info
  | Event.hset _ field value =>
    if currentEncoding d = "hashtable" then
      [d.m.SizeofString field, d.m.SizeofString value, d.m.HashTableEntryOverHead] ++
        (if d.rdbVer < 10 then [mul64 2 d.m.RobjOverHead] else [])
    else []
  | Event.startSet _ cardinality _ info =>
    if encodingOf info = "hashtable" then [d.m.HashTableOverHead (toUint64 cardinality)]
    else sizeOfValueAdded info
  | Event.sadd _ member =>
    if currentEncoding d = "hashtable" then
      [d.m.SizeofString member, d.m.HashTableEntryOverHead] ++
        (if d.rdbVer < 10 then [d.m.RobjOverHead] else [])
    else []
  | Event.rpush _ value NodeEncodings =>
    if currentEncoding d = "quicklist" ∨ currentEncoding d = "ziplist" then
      [d.m.ZipListEntryOverHead value]
    else if currentEncoding d = "linkedlist" then
      [d.m.LinkedListEntryOverHead,
        if strconv_ParseInt_ok value 32 then 0 else d.m.SizeofString value] ++
        (if d.rdbVer < 10 then [d.m.RobjOverHead] else [])
    else if NodeEncodings = 1 ∧ ¬ strconv_ParseInt_ok value 32 then [d.m.SizeofString value]
    else []
  | Event.endList _ =>
    match d.currentInfo with
    | none => []
    | some i =>
      if i.Encoding = "quicklist" then
        [d.m.QuickListOverHead i.Zips, mul64 d.m.ZipListHeaderOverHead i.Zips]
      else if i.Encoding = "ziplist" then [d.m.ZipListHeaderOverHead]
      else if i.Encoding = "linkedlist" then [d.m.LinkedListOverHead]
      else [d.m.QuickList2OverHead, mul64 d.m.RobjOverHead i.ListPacks] ++
        sizeOfValueAdded (some i)
  | Event.startZSet _ cardinality _ info =>
    if encodingOf info = "skiplist" then [d.m.SkipListOverHead (toUint64 cardinality)]
    else sizeOfValueAdded info
  | Event.zadd _ member =>
    if currentEncoding d = "skiplist" then
      [8, d.m.SizeofString member, d.m.SkipListEntryOverHead] ++
        (if d.rdbVer < 10 then [d.m.RobjOverHead] else [])
    else []
  | Event.startStream _ cardinality _ info =>
    [d.m.StreamOverhead, d.m.SizeofStreamRadixTree (toUint64 cardinality)] ++
      (if encodingOf info = "stream_v2" then [16 * 2 + 8] else []) ++ sizeOfValueAdded info
  | Event.xadd _ _ listpack => [d.m.mallocOverhead (toUint64 listpack.length)]
  | Event.endStream _ _ _ cgroupsData =>
    cgroupsData.flatMap (fun cg =>
      [d.m.SizeofStreamRadixTree (toUint64 cg.Pending.length),
        d.m.StreamNACK (toUint64 cg.Pending.length)] ++
      (if currentEncoding d = "stream_v2" then [8] else []) ++
      cg.Consumers.flatMap (fun c =>
        [d.m.StreamConsumer c.Name, d.m.SizeofStreamRadixTree (toUint64 cg.Pending.length)]))
  | _ => []

/-- No `uint64` addition of the callbacks of a sequence overflows: for every callback
that runs, the value it starts from and the amounts it adds sum to less than 2^64. -/
def NoOverflow (d : Decoder) : List Event → Bool
  | [] => true
  | ev :: evs =>
    match callback d ev with
    | Except.ok d1 =>
      decide (bytesBase d ev + (bytesAdded d ev).sum < 18446744073709551616) && NoOverflow d1 evs
    | Except.error _ => true

/-- Go `NewDecoder`, over a given memory profiler: nothing sent, no open record. -/
def NewDecoder (m : MemProfiler) : Decoder :=
  { Entries := [], m := m, usedMem := 0, ctime := 0, rdbVer := 0, Db := 0,
    currentInfo := none, currentEntry := none }

/-- The records sent on `Entries` (nil pointers left out). -/
def Records (d : Decoder) : List Entry := d.Entries.filterMap id

/-- The callbacks of one hash: `StartHash`, one `Hset` per pair, `EndHash`. -/
def hashEvents (key : String) (length expiry : Int) (info : Info)
    (pairs : List (String × String)) : List Event :=
  [Event.startHash key length expiry (some info)] ++
    pairs.map (fun fv => Event.hset key fv.1 fv.2) ++ [Event.endHash key]

/-- The callbacks of one set: `StartSet`, one `Sadd` per member, `EndSet`. -/
def setEvents (key : String) (cardinality expiry : Int) (info : Info)
    (members : List String) : List Event :=
  [Event.startSet key cardinality expiry (some info)] ++
    members.map (fun m => Event.sadd key m) ++ [Event.endSet key]

/-- The callbacks of one sorted set: `StartZSet`, one `Zadd` per member, `EndZSet`. -/
def zsetEvents (key : String) (cardinality expiry : Int) (info : Info)
    (members : List String) : List Event :=
  [Event.startZSet key cardinality expiry (some info)] ++
    members.map (fun m => Event.zadd key m) ++ [Event.endZSet key]

/-- The callbacks of one list: `StartList`, one `Rpush` per value (with the encoding
of its node), `EndList`. -/
def listEvents (key : String) (length expiry : Int) (info : Info)
    (values : List (String × Nat)) : List Event :=
  [Event.startList key length expiry (some info)] ++
    values.map (fun v => Event.rpush key v.1 v.2) ++ [Event.endList key]

/-- The callbacks of one stream: `StartStream`, one `Xadd` per listpack, `EndStream`. -/
def streamEvents (key : String) (cardinality expiry : Int) (info : Info)
    (listpacks : List (String × String)) (items : Nat) (lastEntryID : String)
    (cgroupsData : List StreamGroup) : List Event :=
  [Event.startStream key cardinality expiry (some info)] ++
    listpacks.map (fun l => Event.xadd key l.1 l.2) ++
    [Event.endStream key items lastEntryID cgroupsData]

/-- The events of a sample run: a hash of one pair, a string with an expiry, a
stream of one listpack with one consumer group, and a list with an unknown encoding. -/
def sampleRun : List Event :=
  [Event.startRDB 9] ++
  hashEvents "h" 1 0 sampleHashInfo [("f", "v")] ++
  [Event.set "s" "value" 100 (some { sampleHashInfo with Encoding := "raw" })] ++
  streamEvents "x" 1 0 { sampleHashInfo with Encoding := "stream_v2", SizeOfValue := -1 }
    [("1-1", "listpack")] 1 "1-1"
    [{ Pending := ["1-1"], Consumers := [{ Name := "c" }] }] ++
  listEvents "l" 1 0 { sampleHashInfo with Encoding := "bogus" } [("a", 0)]

/-- The `rdb.Info` of a value whose encoding tag is the unknown `bogus`. -/
def sampleBogusInfo : Info := { sampleHashInfo with Encoding := "bogus" }

/-- The sample decoder after `StartList` of a list whose encoding tag is `bogus`. -/
def sampleBogusListOpen : Decoder :=
  sampleOpened (StartList sampleDecoder "k" 1 0 (some sampleBogusInfo))

/-! ## Vocabulary for `strconv.ParseInt` -/

/-- Whether a character is a decimal digit `0`..`9`. -/
def isDigit (c : Char) : Bool := decide (c.toNat ≥ 48 ∧ c.toNat ≤ 57)

/-- The value of a string of decimal digits. -/
def decimal (ds : List Char) : Nat := ds.foldl (fun n c => 10 * n + (c.toNat - 48)) 0

/-- Whether a numeral starts with the sign `-`. -/
def numNeg (v : String) : Bool := decide (v.toList.head? = some '-')

/-- The characters of a numeral after its optional sign `+` or `-`. -/
def numBody (v : String) : List Char :=
  match v.toList with
  | [] => []
  | c0 :: rest => if c0 = '+' ∨ c0 = '-' then rest else c0 :: rest

/-! ## Vocabulary for callback sequences -/

/-- The sample that the element callbacks store for a field or member, as bytes
(one character per byte): the first 100 bytes followed by `...` if it has more than
100 bytes, else all its bytes. -/
def sampleOf (field : String) : String :=
  if byteLen field > 100 then sliceTo (goBytes field) 100 ++ "..." else goBytes field

/-- The element length and the sampled name that an element callback passes to the
"largest element" block: `ElemLen(field) + ElemLen(value)` and the field for `Hset`,
`ElemLen` of the member or value and the member or value for `Sadd`, `Zadd` and
`Rpush`; `none` for every other callback. -/
def elemOf (m : MemProfiler) : Event → Option (Nat × String)
  | Event.hset _ field value => some (add64 (m.ElemLen field) (m.ElemLen value), field)
  | Event.sadd _ member => some (m.ElemLen member, member)
  | Event.zadd _ member => some (m.ElemLen member, member)
  | Event.rpush _ value _ => some (m.ElemLen value, value)
  | _ => none

/-- Whether an event is a `Start...` callback of a container. -/
def isStart : Event → Bool
  | Event.startHash _ _ _ _ => true
  | Event.startSet _ _ _ _ => true
  | Event.startList _ _ _ _ => true
  | Event.startZSet _ _ _ _ => true
  | Event.startStream _ _ _ _ => true
  | _ => false

/-- Whether an event is an element callback (`Hset`, `Sadd`, `Rpush`, `Zadd`, `Xadd`). -/
def isElement : Event → Bool
  | Event.hset _ _ _ => true
  | Event.sadd _ _ => true
  | Event.rpush _ _ _ => true
  | Event.zadd _ _ => true
  | Event.xadd _ _ _ => true
  | _ => false

/-- Whether an event is an `End...` callback of a container. -/
def isEnd : Event → Bool
  | Event.endHash _ => true
  | Event.endSet _ => true
  | Event.endList _ => true
  | Event.endZSet _ => true
  | Event.endStream _ _ _ _ => true
  | _ => false

/-- Whether an event is `Rpush` or `EndList`, the two callbacks after `Start...`
that check the encoding. -/
def checksListEncoding : Event → Bool
  | Event.rpush _ _ _ => true
  | Event.endList _ => true
  | _ => false

/-- The key, the record type and the info of a `Start...` callback. -/
def startArgs : Event → Option (String × String × Option Info)
  | Event.startHash key _ _ info => some (key, "hash", info)
  | Event.startSet key _ _ info => some (key, "set", info)
  | Event.startList key _ _ info => some (key, "list", info)
  | Event.startZSet key _ _ info => some (key, "sortedset", info)
  | Event.startStream key _ _ info => some (key, "stream", info)
  | _ => none

/-- An entry without the fields that element and `End...` callbacks write. -/
def staticFields (e : Entry) : Entry :=
  { e with Bytes := 0, NumOfElem := 0, LenOfLargestElem := 0, FieldOfLargestElem := "" }

/-- The largest of a list of element lengths, 0 if there is none. -/
def maxLen (elems : List (Nat × String)) : Nat := (elems.map Prod.fst).foldr max 0

/-- One top-level item of a well-formed callback sequence: a callback outside the
keys (`StartRDB`, `StartDatabase`, `Aux`), a string key (`Set`), or a container with
its elements, each with a present info. -/
inductive Item where
  | startRDB (ver : Int)
  | startDatabase (n : Int)
  | aux (key value : String)
  | str (key value : String) (expiry : Int) (info : Info)
  | hash (key : String) (length expiry : Int) (info : Info) (pairs : List (String × String))
  | set (key : String) (cardinality expiry : Int) (info : Info) (members : List String)
  | zset (key : String) (cardinality expiry : Int) (info : Info) (members : List String)
  | list (key : String) (length expiry : Int) (info : Info) (values : List (String × Nat))
  | stream (key : String) (cardinality expiry : Int) (info : Info)
      (listpacks : List (String × String)) (items : Nat) (lastEntryID : String)
      (cgroupsData : List StreamGroup)

/-- The callbacks of an item, in the order the parser issues them. -/
def itemEvents : Item → List Event
  | Item.startRDB ver => [Event.startRDB ver]
  | Item.startDatabase n => [Event.startDatabase n]
  | Item.aux key value => [Event.aux key value]
  | Item.str key value expiry info => [Event.set key value expiry (some info)]
  | Item.hash key length expiry info pairs => hashEvents key length expiry info pairs
  | Item.set key cardinality expiry info members =>
    setEvents key cardinality expiry info members
  | Item.zset key cardinality expiry info members =>
    zsetEvents key cardinality expiry info members
  | Item.list key length expiry info values => listEvents key length expiry info values
  | Item.stream key cardinality expiry info listpacks items lastEntryID cgroupsData =>
    streamEvents key cardinality expiry info listpacks items lastEntryID cgroupsData

/-- The key and the record type of the top-level key of an item, if it has one. -/
def itemKey : Item → Option (String × String)
  | Item.str key _ _ _ => some (key, "string")
  | Item.hash key _ _ _ _ => some (key, "hash")
  | Item.set key _ _ _ _ => some (key, "set")
  | Item.zset key _ _ _ _ => some (key, "sortedset")
  | Item.list key _ _ _ _ => some (key, "list")
  | Item.stream key _ _ _ _ _ _ _ => some (key, "stream")
  | _ => none

/-- Whether the callbacks of an item accept its encoding: the conditions under which
`StartHash`, `StartSet`, `StartZSet`, `Rpush` and `EndList` do not panic. -/
def itemAccepted : Item → Bool
  | Item.hash _ _ _ info _ =>
    decide (info.Encoding ∈ ["hashtable", "listpack", "ziplist", "zipmap"])
  | Item.set _ _ _ info _ =>
    decide ((info.Encoding = "intset" ∧ info.SizeOfValue > 0) ∨ info.Encoding = "hashtable" ∨
      (info.Encoding = "listpack" ∧ info.SizeOfValue > 0))
  | Item.zset _ _ _ info _ =>
    decide ((info.Encoding = "ziplist" ∧ info.SizeOfValue > 0) ∨ info.Encoding = "skiplist" ∨
      (info.Encoding = "listpack" ∧ info.SizeOfValue > 0))
  | Item.list _ _ _ info _ =>
    decide (info.Encoding ∈ ["quicklist", "ziplist", "linkedlist", "quicklist2"])
  | _ => true

/-- The key and the type of an entry sent on `Entries`, `none` for a nil pointer. -/
def sentKey (e : Option Entry) : Option (String × String) := e.map (fun e => (e.Key, e.Typ))

/-- A field name of 101 characters. -/
def sampleLongField : String := String.mk (List.replicate 101 'a')

/-- The callbacks of a hash with one pair whose field has 101 characters. -/
def sampleLongRun : List Event := hashEvents "h" 1 0 sampleHashInfo [(sampleLongField, "v")]

/-- A field name of 60 characters of two bytes each: 120 bytes. -/
def sampleAccentField : String := String.mk (List.replicate 60 'é')

/-- A member of 34 characters of three bytes each, 102 bytes: byte 100 is the first
byte of the last character. -/
def sampleEuroMember : String := String.mk (List.replicate 34 '€')

/-- The callbacks of a hash with one pair whose field is `sampleAccentField`, and of
a set whose only member is `sampleEuroMember`. -/
def sampleAccentRun : List Event :=
  hashEvents "h" 1 0 sampleHashInfo [(sampleAccentField, "v")] ++
    setEvents "s" 1 0 sampleHashInfo [sampleEuroMember]

/-- A well-formed sample sequence: version and database, a string, a hash, a
`linkedlist` list and a stream. -/
def sampleItems : List Item :=
  [Item.startRDB 9, Item.startDatabase 0,
    Item.str "s" "value" 0 { sampleHashInfo with Encoding := "raw" },
    Item.hash "h" 1 0 sampleHashInfo [("f", "v")],
    Item.list "l" 2 0 { sampleHashInfo with Encoding := "linkedlist" } [("a", 0), ("b", 0)],
    Item.stream "x" 1 0 { sampleHashInfo with Encoding := "stream_v2" } [("1-1", "listpack")]
      1 "1-1" []]

/-- The `rdb.Info` of a `listpack` value of 120 bytes. -/
def sampleCompactInfo : Info := { sampleHashInfo with Encoding := "listpack", SizeOfValue := 120 }

/-! ## The adapter of the object parser (`decoder/hdt_adapter.go`) -/

/-- Go `a * b` on `int64`. -/
def mulInt64 (a b : Int) : Int :=
  (a * b + 9223372036854775808) % 18446744073709551616 - 9223372036854775808

/-- The results of the methods of Go `parser.RedisObject` that `ConvertToEntry`
calls (the interface belongs to the parser library, outside this repository):
`GetKey()`, `GetType()`, `GetSize()`, `GetDBIndex()` and `GetExpiration()`, the last
one as `none` for a nil pointer and else as the Unix time in seconds that
`exp.Unix()` returns. -/
structure ObjectHeader where
  Key : String
  Typ : String
  Size : Int
  DBIndex : Int
  Expiration : Option Int
  deriving DecidableEq

/-- Go `parser.ZSetEntry`: the member (the score is not read). -/
structure ZSetEntry where
  Member : String
  deriving DecidableEq

/-- Go `parser.StreamEntry`: the field `Fields`, of which only the length is read. -/
structure StreamEntry where
  Fields : List String
  deriving DecidableEq

/-- The dynamic types of a `parser.RedisObject` that the type switch of
`ConvertToEntry` tells apart, each with the field that its case reads; `other` is
any type that reaches `default`.  A Go map is the list of its pairs in the order
in which `range` visits them. -/
inductive RedisObject where
  | ListObject (h : ObjectHeader) (Values : List String)
  | SetObject (h : ObjectHeader) (Members : List String)
  | HashObject (h : ObjectHeader) (Hash : GoMap String String)
  | ZSetObject (h : ObjectHeader) (Entries : List ZSetEntry)
  | StreamObject (h : ObjectHeader) (Entries : List StreamEntry)
  | StringObject (h : ObjectHeader) (Value : String)
  | other (h : ObjectHeader)

/-- The header of an object. -/
def RedisObject.header : RedisObject → ObjectHeader
  | RedisObject.ListObject h _ => h
  | RedisObject.SetObject h _ => h
  | RedisObject.HashObject h _ => h
  | RedisObject.ZSetObject h _ => h
  | RedisObject.StreamObject h _ => h
  | RedisObject.StringObject h _ => h
  | RedisObject.other h => h

/-- The loop `maxLen := 0; for _, v := range vs { if len(v) > maxLen { maxLen = len(v) } }`
of the list, set and sorted-set cases. -/
def largestLen (vs : List String) : Nat :=
  vs.foldl (fun maxLen v => if v.length > maxLen then v.length else maxLen) 0

/-- The loop of the hash case on `(maxLen, maxField)`:
`for k, v := range o.Hash { if len(v) > maxLen { maxLen = len(v); maxField = k } }`. -/
def largestField (hash : GoMap String String) : Nat × String :=
  hash.foldl (fun acc kv => if kv.2.length > acc.1 then (kv.2.length, kv.1) else acc) (0, "")

/-- The loop of the stream case:
`totalEntries := 0; for _, e := range o.Entries { totalEntries += len(e.Fields) }`. -/
def totalEntries (entries : List StreamEntry) : Nat :=
  entries.foldl (fun total e => total + e.Fields.length) 0

/-- Go `ConvertToEntry`. -/
def ConvertToEntry (obj : RedisObject) : Entry :=
  let entry : Entry :=
    { Key := obj.header.Key
      Typ := obj.header.Typ
      Bytes := toUint64 obj.header.Size
      Db := obj.header.DBIndex
      -- Handle expiration (pointer to time.Time)
      Expiration :=
        (match obj.header.Expiration with
          | some unix => mulInt64 unix 1000
          | none => 0)
      NumOfElem := 0, LenOfLargestElem := 0, FieldOfLargestElem := "", Encoding := "",
      LruIdle := 0, LfuFreq := 0 }
  -- Extract NumOfElem based on type
  match obj with
  | RedisObject.ListObject _ Values =>
    let e1 := { entry with NumOfElem := toUint64 Values.length }
    if Values.length > 0 then { e1 with LenOfLargestElem := toUint64 (largestLen Values) }
    else e1
  | RedisObject.SetObject _ Members =>
    let e1 := { entry with NumOfElem := toUint64 Members.length }
    if Members.length > 0 then { e1 with LenOfLargestElem := toUint64 (largestLen Members) }
    else e1
  | RedisObject.HashObject _ Hash =>
    let e1 := { entry with NumOfElem := toUint64 Hash.length }
    if Hash.length > 0 then
      { e1 with
        LenOfLargestElem := toUint64 (largestField Hash).1
        FieldOfLargestElem := (largestField Hash).2 }
    else e1
  | RedisObject.ZSetObject _ Entries =>
    let e1 := { entry with NumOfElem := toUint64 Entries.length }
    if Entries.length > 0 then
      { e1 with LenOfLargestElem := toUint64 (largestLen (Entries.map ZSetEntry.Member)) }
    else e1
  | RedisObject.StreamObject _ Entries =>
    { entry with NumOfElem := toUint64 (totalEntries Entries) }
  | RedisObject.StringObject _ Value => { entry with NumOfElem := toUint64 Value.length }
  | RedisObject.other _ => entry

/-- A header for examples: key "k", database 0, no expiration. -/
def sampleHeader (typ : String) : ObjectHeader :=
  { Key := "k", Typ := typ, Size := 100, DBIndex := 0, Expiration := none }

/-- A field name of 104 characters. -/
def sampleLongName : String := String.mk (List.replicate 104 'a')

/-! ## Sizes for display (`server/config.go`, `server/job.go`) -/

/-- The loop `for n := bytes / unit; n >= unit; n /= unit { div *= unit; exp++ }`
of `FormatSize` and `formatBytes`, on `(n, div, exp)`; it runs on `n >= 1024` only,
where the truncated division of Go is this division, and `n` decreases, which
bounds the iterations. -/
def unitLoop : Nat → Int → Int → Nat → Int × Nat
  | 0, _, div, exp => (div, exp)
  | fuel + 1, n, div, exp =>
    if n ≥ 1024 then unitLoop fuel (n / 1024) (mulInt64 div 1024) (exp + 1) else (div, exp)

/-- Go `table[exp]` on a string constant: the character, or the panic of an index
out of range. -/
def indexString (table : String) (exp : Nat) : Except String Char :=
  match table.toList[exp]? with
  | some c => Except.ok c
  | none => Except.error "index out of range"

/-- Go `FormatSize`: converts bytes to human-readable format.  `fmtFloat bytes div`
is the text that `%.1f` prints for `float64(bytes)/float64(div)`; the numeral of
`%d` is the decimal numeral of the integer. -/
def FormatSize (fmtFloat : Int → Int → String) (bytes : Int) : Except String String :=
  if bytes < 1024 then Except.ok (toString bytes ++ " B")
  else
    let r := unitLoop 64 (bytes / 1024) 1024 0
    match indexString "KMGT" r.2 with
    | Except.error msg => Except.error msg
    | Except.ok c => Except.ok (fmtFloat bytes r.1 ++ " " ++ String.singleton c ++ "B")

/-- Go `formatBytes`. -/
def formatBytes (fmtFloat : Int → Int → String) (bytes : Int) : Except String String :=
  if bytes < 1024 then Except.ok (toString bytes ++ " B")
  else
    let r := unitLoop 64 (bytes / 1024) 1024 0
    match indexString "KMGTPE" r.2 with
    | Except.error msg => Except.error msg
    | Except.ok c => Except.ok (fmtFloat bytes r.1 ++ " " ++ String.singleton c ++ "B")

/-! ## Theorems -/

/-! ### Slices, `container/heap` -/

section SliceLemmas
variable {α : Type}

theorem length_swap (h : List α) (i j : Nat) : (swap h i j).length = h.length := by
  unfold swap
  split <;> simp
theorem set_cons_perm (t : List α) (j : Nat) (b x : α) (hb : t[j]? = some b) :
    (b :: t.set j x).Perm (x :: t) := by
  induction t generalizing j with
  | nil => simp at hb
  | cons y t ih =>
    cases j with
    | zero =>
      simp at hb
      subst hb
      simpa using List.Perm.swap x y t
    | succ j =>
      simp at hb
      have h1 := ih j hb
      simp only [List.set_cons_succ]
      exact (List.Perm.swap y b _).trans ((h1.cons y).trans (List.Perm.swap x y t))

theorem swap_perm (h : List α) (i j : Nat) : (swap h i j).Perm h := by
  unfold swap
  split
  · rename_i a b ha hb
    induction h generalizing i j with
    | nil => simp at ha
    | cons x t ih =>
      cases i with
      | zero =>
        cases j with
        | zero =>
          simp at ha hb
          subst ha; subst hb
          simp
        | succ j =>
          simp at ha hb
          subst ha
          simp only [List.set_cons_zero, List.set_cons_succ]
          exact set_cons_perm t j b x hb
      | succ i =>
        cases j with
        | zero =>
          simp at ha hb
          subst hb
          simp only [List.set_cons_zero, List.set_cons_succ]
          exact set_cons_perm t i a x ha
        | succ j =>
          simp at ha hb
          simp only [List.set_cons_succ]
          exact (ih i j ha hb).cons x
  · exact List.Perm.refl _

theorem getElem?_swap_left (h : List α) (i j : Nat) (hi : i < h.length) (hj : j < h.length) :
    (swap h i j)[i]? = h[j]? := by
  unfold swap
  rw [List.getElem?_eq_getElem hi, List.getElem?_eq_getElem hj]
  simp only [List.getElem?_set, List.length_set]
  by_cases hij : j = i
  · subst hij; simp [hi]
  · simp [hij, hi, hj]

theorem getElem?_swap_right (h : List α) (i j : Nat) (hi : i < h.length) (hj : j < h.length) :
    (swap h i j)[j]? = h[i]? := by
  unfold swap
  rw [List.getElem?_eq_getElem hi, List.getElem?_eq_getElem hj]
  simp [List.getElem?_set, hi, hj]

theorem getElem?_swap_other (h : List α) (i j k : Nat) (hki : k ≠ i) (hkj : k ≠ j) :
    (swap h i j)[k]? = h[k]? := by
  unfold swap
  split
  · simp [List.getElem?_set, Ne.symm hki, Ne.symm hkj]
  · rfl

theorem lessAt_eq (less : α → α → Bool) (h : List α) (i j : Nat) (a b : α)
    (ha : h[i]? = some a) (hb : h[j]? = some b) : lessAt less h i j = less a b := by
  simp [lessAt, ha, hb]

theorem lessAt_true (less : α → α → Bool) (h : List α) (i j : Nat)
    (hl : lessAt less h i j = true) :
    ∃ a b, h[i]? = some a ∧ h[j]? = some b ∧ less a b = true := by
  unfold lessAt at hl
  split at hl
  · rename_i a b ha hb
    exact ⟨a, b, ha, hb, hl⟩
  · simp at hl

theorem upInv_step (less : α → α → Bool) (sw : StrictWeak less) (h : List α) (j : Nat)
    (hj : j < h.length) (hpos : (j - 1) / 2 ≠ j) (inv : UpInv less h j)
    (hl : lessAt less h j ((j - 1) / 2) = true) :
    UpInv less (swap h ((j - 1) / 2) j) ((j - 1) / 2) := by
  obtain ⟨x, y, hx, hy, hxy⟩ := lessAt_true less h j _ hl
  have hij : (j - 1) / 2 < j := by omega
  have hi : (j - 1) / 2 < h.length := by omega
  have e_i : (swap h ((j - 1) / 2) j)[(j - 1) / 2]? = some x := by
    rw [getElem?_swap_left h _ _ hi hj]; exact hx
  have e_j : (swap h ((j - 1) / 2) j)[j]? = some y := by
    rw [getElem?_swap_right h _ _ hi hj]; exact hy
  have e_o : ∀ k, k ≠ (j - 1) / 2 → k ≠ j → (swap h ((j - 1) / 2) j)[k]? = h[k]? :=
    fun k h1 h2 => getElem?_swap_other h _ _ k h1 h2
  obtain ⟨inv1, inv2⟩ := inv
  refine ⟨?_, ?_⟩
  · intro k hk hki a b ha hb
    by_cases hkj : k = j
    · subst hkj
      rw [e_j] at ha; rw [e_i] at hb
      cases ha; cases hb
      exact sw.asymm _ _ hxy
    · rw [e_o k hki hkj] at ha
      by_cases hp1 : (k - 1) / 2 = j
      · rw [hp1, e_j] at hb
        cases hb
        exact inv2 k hk hp1 (by omega) a y ha hy
      · by_cases hp2 : (k - 1) / 2 = (j - 1) / 2
        · rw [hp2, e_i] at hb
          cases hb
          have h1 : less a y = false := inv1 k hk hkj a y ha (by rw [hp2]; exact hy)
          exact sw.ntrans a y x h1 (sw.asymm _ _ hxy)
        · rw [e_o _ hp2 hp1] at hb
          exact inv1 k hk hkj a b ha hb
  · intro k hk hp hi0 a b ha hb
    have hne1 : ((j - 1) / 2 - 1) / 2 ≠ (j - 1) / 2 := by omega
    have hne2 : ((j - 1) / 2 - 1) / 2 ≠ j := by omega
    rw [e_o _ hne1 hne2] at hb
    have hiy : less y b = false := inv1 _ hi0 (by omega) y b hy hb
    by_cases hkj : k = j
    · subst hkj
      rw [e_j] at ha; cases ha
      exact hiy
    · rw [e_o k (by omega) hkj] at ha
      have h1 : less a y = false := inv1 k hk hkj a y ha (by rw [hp]; exact hy)
      exact sw.ntrans a y b h1 hiy

theorem heap_upLoop_isHeap (less : α → α → Bool) (sw : StrictWeak less) :
    ∀ (fuel : Nat) (h : List α) (j : Nat), j < fuel → j < h.length → UpInv less h j →
      IsHeap less (heap_upLoop less fuel h j) := by
  intro fuel
  induction fuel with
  | zero => intro h j hf; omega
  | succ fuel ih =>
    intro h j hf hj inv
    unfold heap_upLoop
    simp only
    split
    · rename_i hc
      intro k hk
      by_cases hkj : k = j
      · subst hkj
        rcases hc with hc | hc
        · omega
        · intro a b ha hb
          rw [lessAt_eq less h k _ a b ha hb] at hc
          exact hc
      · exact inv.1 k hk hkj
    · rename_i hc
      push_neg at hc
      obtain ⟨hne, hl⟩ := hc
      have hl2 : lessAt less h j ((j - 1) / 2) = true := by
        cases hh : lessAt less h j ((j - 1) / 2)
        · exact absurd hh hl
        · rfl
      apply ih
      · omega
      · rw [length_swap]; omega
      · exact upInv_step less sw h j hj hne inv hl2

theorem heap_upLoop_perm (less : α → α → Bool) :
    ∀ (fuel : Nat) (h : List α) (j : Nat), (heap_upLoop less fuel h j).Perm h := by
  intro fuel
  induction fuel with
  | zero => intro h j; exact List.Perm.refl _
  | succ fuel ih =>
    intro h j
    unfold heap_upLoop
    simp only
    split
    · exact List.Perm.refl _
    · exact (ih _ _).trans (swap_perm h _ _)


theorem heap_upLoop_length (less : α → α → Bool) :
    ∀ (fuel : Nat) (h : List α) (j : Nat), (heap_upLoop less fuel h j).length = h.length := by
  intro fuel h j
  exact (heap_upLoop_perm less fuel h j).length_eq

theorem heap_Push_perm (less : α → α → Bool) (h : List α) (x : α) :
    (heap_Push less h x).Perm (x :: h) := by
  unfold heap_Push heap_up
  exact (heap_upLoop_perm less _ _ _).trans (List.perm_append_singleton x h)

theorem heap_Push_isHeap (less : α → α → Bool) (sw : StrictWeak less) (h : List α) (x : α)
    (hh : IsHeap less h) : IsHeap less (heap_Push less h x) := by
  unfold heap_Push heap_up
  apply heap_upLoop_isHeap less sw
  · omega
  · simp
  · have hlen : (h ++ [x]).length - 1 = h.length := by simp
    rw [hlen]
    refine ⟨?_, ?_⟩
    · intro k hk hne a b ha hb
      by_cases hlt : k < h.length
      · rw [List.getElem?_append_left hlt] at ha
        rw [List.getElem?_append_left (by omega)] at hb
        exact hh k hk a b ha hb
      · rw [List.getElem?_eq_none (by simp; omega)] at ha
        cases ha
    · intro k hk hp _ a b ha hb
      rw [List.getElem?_eq_none (by simp; omega)] at ha
      cases ha

theorem downInv_step (less : α → α → Bool) (sw : StrictWeak less) (h : List α) (i n : Nat)
    (hn : n ≤ h.length) (hj1 : 2 * i + 1 < n) (inv : DownInv less h i n)
    (j : Nat)
    (hjdef : j = if 2 * i + 1 + 1 < n ∧ lessAt less h (2 * i + 1 + 1) (2 * i + 1) = true
      then 2 * i + 1 + 1 else 2 * i + 1)
    (hl : lessAt less h j i = true) :
    DownInv less (swap h i j) j n := by
  obtain ⟨x, y, hx, hy, hxy⟩ := lessAt_true less h j i hl
  have hjn : j < n := by rw [hjdef]; split <;> omega
  have hpj : (j - 1) / 2 = i := by rw [hjdef]; split <;> omega
  have hij : i < j := by rw [hjdef]; split <;> omega
  have hi : i < h.length := by omega
  have hj : j < h.length := by omega
  have e_i : (swap h i j)[i]? = some x := by
    rw [getElem?_swap_left h _ _ hi hj]; exact hx
  have e_j : (swap h i j)[j]? = some y := by
    rw [getElem?_swap_right h _ _ hi hj]; exact hy
  have e_o : ∀ k, k ≠ i → k ≠ j → (swap h i j)[k]? = h[k]? :=
    fun k h1 h2 => getElem?_swap_other h _ _ k h1 h2
  -- the sibling of `j`, when inside the heap, is not less than `h[j]`
  have sib : ∀ k, 0 < k → k < n → (k - 1) / 2 = i → k ≠ j →
      ∀ a, h[k]? = some a → less a x = false := by
    intro k hk hkn hp hkj a ha
    by_cases hc : 2 * i + 1 + 1 < n ∧ lessAt less h (2 * i + 1 + 1) (2 * i + 1) = true
    · rw [if_pos hc] at hjdef
      have hk1 : k = 2 * i + 1 := by omega
      have h2 := hc.2
      rw [hjdef] at hx
      rw [hk1] at ha
      rw [lessAt_eq less h _ _ x a hx ha] at h2
      exact sw.asymm _ _ h2
    · rw [if_neg hc] at hjdef
      have hk1 : k = 2 * i + 1 + 1 := by omega
      have h2 : lessAt less h (2 * i + 1 + 1) (2 * i + 1) = false := by
        cases hh : lessAt less h (2 * i + 1 + 1) (2 * i + 1)
        · rfl
        · exact absurd ⟨by omega, hh⟩ hc
      rw [hjdef] at hx
      rw [hk1] at ha
      rw [lessAt_eq less h _ _ a x ha hx] at h2
      exact h2
  obtain ⟨inv1, inv2⟩ := inv
  refine ⟨?_, ?_⟩
  · intro k hk hkn hpk a b ha hb
    by_cases hkj : k = j
    · subst hkj
      rw [e_j] at ha; rw [hpj, e_i] at hb
      cases ha; cases hb
      exact sw.asymm _ _ hxy
    · by_cases hki : k = i
      · subst hki
        rw [e_i] at ha; cases ha
        rw [e_o _ (by omega) (by omega)] at hb
        exact inv2 j (by omega) hjn hpj hk x b hx hb
      · rw [e_o k hki hkj] at ha
        by_cases hp2 : (k - 1) / 2 = i
        · rw [hp2, e_i] at hb
          cases hb
          exact sib k hk hkn hp2 hkj a ha
        · rw [e_o _ hp2 hpk] at hb
          exact inv1 k hk hkn hp2 a b ha hb
  · intro k hk hkn hpk _ a b ha hb
    rw [hpj, e_i] at hb
    cases hb
    rw [e_o k (by omega) (by omega)] at ha
    exact inv1 k hk hkn (by omega) a x ha (by rw [hpk]; exact hx)

theorem heap_downLoop_heapBelow (less : α → α → Bool) (sw : StrictWeak less) :
    ∀ (fuel : Nat) (h : List α) (i n : Nat), n ≤ i + fuel → n ≤ h.length →
      DownInv less h i n → HeapBelow less n (heap_downLoop less fuel h i n) := by
  intro fuel
  induction fuel with
  | zero =>
    intro h i n hf hn inv
    unfold heap_downLoop
    intro k hk hkn
    exact inv.1 k hk hkn (by omega)
  | succ fuel ih =>
    intro h i n hf hn inv
    unfold heap_downLoop
    simp only
    split
    · intro k hk hkn
      exact inv.1 k hk hkn (by omega)
    · rename_i hj1
      generalize hjdef : (if 2 * i + 1 + 1 < n ∧ lessAt less h (2 * i + 1 + 1) (2 * i + 1) = true
              then 2 * i + 1 + 1 else 2 * i + 1) = j
      by_cases hc : lessAt less h j i = false
      · rw [if_pos hc]
        -- both children are not less than `h[i]`
        intro k hk hkn
        by_cases hp : (k - 1) / 2 = i
        · intro a b ha hb
          rw [hp] at hb
          by_cases hc2 : 2 * i + 1 + 1 < n ∧ lessAt less h (2 * i + 1 + 1) (2 * i + 1) = true
          · rw [if_pos hc2] at hjdef
            subst hjdef
            obtain ⟨u, v, hu, hv, huv⟩ := lessAt_true less h _ _ hc2.2
            rw [lessAt_eq less h _ i u b hu hb] at hc
            by_cases hk2 : k = 2 * i + 1 + 1
            · subst hk2
              rw [hu] at ha; cases ha; exact hc
            · have hk1 : k = 2 * i + 1 := by omega
              subst hk1
              rw [hv] at ha; cases ha
              exact sw.ntrans _ _ _ (sw.asymm _ _ huv) hc
          · rw [if_neg hc2] at hjdef
            subst hjdef
            by_cases hk1 : k = 2 * i + 1
            · subst hk1
              rw [lessAt_eq less h _ i a b ha hb] at hc
              exact hc
            · have hk2 : k = 2 * i + 1 + 1 := by omega
              subst hk2
              have hlt : 2 * i + 1 < h.length := by omega
              have hv : h[2 * i + 1]? = some h[2 * i + 1] := List.getElem?_eq_getElem hlt
              rw [lessAt_eq less h _ i _ b hv hb] at hc
              have h2 : lessAt less h (2 * i + 1 + 1) (2 * i + 1) = false := by
                cases hh : lessAt less h (2 * i + 1 + 1) (2 * i + 1)
                · rfl
                · exact absurd ⟨hkn, hh⟩ hc2
              rw [lessAt_eq less h _ _ a _ ha hv] at h2
              exact sw.ntrans _ _ _ h2 hc
        · exact inv.1 k hk hkn hp
      · rw [if_neg hc]
        have hl : lessAt less h j i = true := by
          cases hh : lessAt less h j i
          · exact absurd hh hc
          · rfl
        apply ih
        · rw [← hjdef]; split <;> omega
        · rw [length_swap]; exact hn
        · exact downInv_step less sw h i n hn (by omega) inv j hjdef.symm hl

theorem heap_downLoop_perm (less : α → α → Bool) :
    ∀ (fuel : Nat) (h : List α) (i n : Nat), (heap_downLoop less fuel h i n).Perm h := by
  intro fuel
  induction fuel with
  | zero => intro h i n; exact List.Perm.refl _
  | succ fuel ih =>
    intro h i n
    unfold heap_downLoop
    simp only
    split
    · exact List.Perm.refl _
    · generalize (if 2 * i + 1 + 1 < n ∧ lessAt less h (2 * i + 1 + 1) (2 * i + 1) = true
              then 2 * i + 1 + 1 else 2 * i + 1) = j
      split
      · exact List.Perm.refl _
      · exact (ih _ _ _).trans (swap_perm h _ _)

theorem heap_downLoop_above (less : α → α → Bool) :
    ∀ (fuel : Nat) (h : List α) (i n k : Nat), n ≤ k →
      (heap_downLoop less fuel h i n)[k]? = h[k]? := by
  intro fuel
  induction fuel with
  | zero => intro h i n k _; rfl
  | succ fuel ih =>
    intro h i n k hk
    unfold heap_downLoop
    simp only
    split
    · rfl
    · rename_i hj1
      generalize hjdef : (if 2 * i + 1 + 1 < n ∧ lessAt less h (2 * i + 1 + 1) (2 * i + 1) = true
              then 2 * i + 1 + 1 else 2 * i + 1) = j
      have hjn : j < n := by rw [← hjdef]; split <;> omega
      split
      · rfl
      · rw [ih _ _ _ k hk]
        apply getElem?_swap_other <;> omega

theorem isHeap_root_min (less : α → α → Bool) (sw : StrictWeak less) (h : List α) (m : α)
    (hh : IsHeap less h) (hm : h[0]? = some m) :
    ∀ x ∈ h, less x m = false := by
  have key : ∀ (k : Nat) (x : α), h[k]? = some x → less x m = false := by
    intro k
    induction k using Nat.strong_induction_on with
    | _ k ih =>
      intro x hx
      by_cases hk : k = 0
      · subst hk
        rw [hm] at hx; cases hx
        cases hmm : less m m
        · rfl
        · have := sw.asymm _ _ hmm
          rw [hmm] at this; cases this
      · have hklt : k < h.length := (List.getElem?_eq_some.1 hx).1
        have hp : (k - 1) / 2 < h.length := by omega
        have hy : h[(k - 1) / 2]? = some h[(k - 1) / 2] := List.getElem?_eq_getElem hp
        have h1 := ih ((k - 1) / 2) (by omega) _ hy
        have h2 := hh k (by omega) x _ hx hy
        exact sw.ntrans _ _ _ h2 h1
  intro x hx
  obtain ⟨k, hk⟩ := List.mem_iff_getElem?.1 hx
  exact key k x hk

theorem heap_Pop_length (less : α → α → Bool) (h : List α) :
    (heap_Pop less h).length = h.length - 1 := by
  unfold heap_Pop heap_down
  simp only [List.length_dropLast]
  rw [(heap_downLoop_perm less _ _ _ _).length_eq, length_swap]

theorem heap_Pop_perm (less : α → α → Bool) (h : List α) (m : α) (hm : h[0]? = some m) :
    (m :: heap_Pop less h).Perm h := by
  have hlen : 0 < h.length := (List.getElem?_eq_some.1 hm).1
  unfold heap_Pop heap_down
  simp only
  have hd := heap_downLoop_perm less (h.length - 1) (swap h 0 (h.length - 1)) 0 (h.length - 1)
  have hlast : (heap_downLoop less (h.length - 1) (swap h 0 (h.length - 1)) 0
      (h.length - 1)).getLast? = some m := by
    rw [List.getLast?_eq_getElem?, hd.length_eq, length_swap,
      heap_downLoop_above less _ _ _ _ _ (le_refl _),
      getElem?_swap_right h _ _ hlen (by omega)]
    exact hm
  have e := List.dropLast_append_getLast? m hlast
  have p1 : (m :: (heap_downLoop less (h.length - 1) (swap h 0 (h.length - 1)) 0
      (h.length - 1)).dropLast).Perm
      (heap_downLoop less (h.length - 1) (swap h 0 (h.length - 1)) 0 (h.length - 1)) := by
    have := (List.perm_append_singleton m (heap_downLoop less (h.length - 1)
      (swap h 0 (h.length - 1)) 0 (h.length - 1)).dropLast).symm
    rw [e] at this
    exact this
  exact p1.trans (hd.trans (swap_perm h _ _))

theorem heap_Pop_isHeap (less : α → α → Bool) (sw : StrictWeak less) (h : List α)
    (hh : IsHeap less h) : IsHeap less (heap_Pop less h) := by
  unfold heap_Pop heap_down
  simp only
  have hbel : HeapBelow less (h.length - 1)
      (heap_downLoop less (h.length - 1) (swap h 0 (h.length - 1)) 0 (h.length - 1)) := by
    apply heap_downLoop_heapBelow less sw
    · omega
    · rw [length_swap]; omega
    · refine ⟨?_, ?_⟩
      · intro k hk hkn hp a b ha hb
        rw [getElem?_swap_other h _ _ k (by omega) (by omega)] at ha
        rw [getElem?_swap_other h _ _ _ hp (by omega)] at hb
        exact hh k hk a b ha hb
      · intro k _ _ _ h0
        omega
  intro k hk a b ha hb
  rw [List.getElem?_dropLast] at ha hb
  rw [(heap_downLoop_perm less _ _ _ _).length_eq, length_swap] at ha hb
  by_cases hkn : k < h.length - 1
  · rw [if_pos hkn] at ha
    rw [if_pos (by omega)] at hb
    exact hbel k hk hkn a b ha hb
  · rw [if_neg hkn] at ha
    cases ha

end SliceLemmas

/-! ### Bounded top-`K` heaps -/

theorem entryLess_strictWeak : StrictWeak entryLess := by
  constructor
  · intro a b h
    simp only [entryLess, decide_eq_true_eq, decide_eq_false_iff_not] at *
    omega
  · intro a b c h1 h2
    simp only [entryLess, decide_eq_true_eq, decide_eq_false_iff_not] at *
    omega

theorem topInv_nil {α : Type} (less : α → α → Bool) (K : Nat) : TopInv less K [] [] [] := by
  refine ⟨?_, ?_, ?_, ?_⟩
  · intro k _ a b ha; simp at ha
  · intro d hd; simp at hd
  · simp
  · simp

/-- below capacity nothing has been discarded -/
theorem topInv_discard_nil {α : Type} (less : α → α → Bool) (K : Nat) (h D seen : List α)
    (inv : TopInv less K h D seen) (hlt : h.length < K) : D = [] := by
  obtain ⟨_, _, hlen, hperm⟩ := inv
  have := hperm.length_eq
  simp at this
  have : D.length = 0 := by omega
  exact List.length_eq_zero.1 this

/-- pushing below capacity -/
theorem topInv_push {α : Type} (less : α → α → Bool) (sw : StrictWeak less) (K : Nat)
    (h D seen : List α) (e : α)
    (inv : TopInv less K h D seen) (hlt : h.length < K) :
    TopInv less K (heap_Push less h e) D (seen ++ [e]) := by
  have hD := topInv_discard_nil less K h D seen inv hlt
  obtain ⟨hheap, _, hlen, hperm⟩ := inv
  subst hD
  have pp := heap_Push_perm less h e
  refine ⟨heap_Push_isHeap less sw h e hheap, ?_, ?_, ?_⟩
  · intro d hd; simp at hd
  · rw [pp.length_eq]; simp; omega
  · simp only [List.append_nil] at *
    exact ((List.perm_append_singleton e seen).trans (hperm.cons e)).trans pp.symm

/-- at capacity: replace the root by a new element that the root is less than -/
theorem topInv_replace {α : Type} (less : α → α → Bool) (sw : StrictWeak less) (K : Nat)
    (h D seen : List α) (e m : α)
    (inv : TopInv less K h D seen) (hfull : K ≤ h.length) (hm : h[0]? = some m)
    (hlt : less m e = true) :
    TopInv less K (heap_Push less (heap_Pop less h) e) (m :: D) (seen ++ [e]) := by
  obtain ⟨hheap, hdis, hlen, hperm⟩ := inv
  have hmin := isHeap_root_min less sw h m hheap hm
  have ppop := heap_Pop_perm less h m hm
  have ppush := heap_Push_perm less (heap_Pop less h) e
  have hpos : 0 < h.length := (List.getElem?_eq_some.1 hm).1
  have hmh : m ∈ h := List.mem_iff_getElem?.2 ⟨0, hm⟩
  refine ⟨heap_Push_isHeap less sw _ e (heap_Pop_isHeap less sw h hheap), ?_, ?_, ?_⟩
  · intro d hd x hx
    have hx2 : x = e ∨ x ∈ h := by
      have := ppush.mem_iff.1 hx
      rcases List.mem_cons.1 this with h1 | h1
      · exact Or.inl h1
      · exact Or.inr (ppop.mem_iff.1 (List.mem_cons_of_mem _ h1))
    have hem : less e m = false := sw.asymm _ _ hlt
    rcases List.mem_cons.1 hd with h1 | h1
    · subst h1
      rcases hx2 with h2 | h2
      · subst h2; exact hem
      · exact hmin x h2
    · rcases hx2 with h2 | h2
      · subst h2; exact sw.ntrans _ _ _ hem (hdis d h1 m hmh)
      · exact hdis d h1 x h2
  · rw [ppush.length_eq]
    simp only [List.length_cons, List.length_append, List.length_singleton]
    rw [heap_Pop_length]
    omega
  · have p1 : (seen ++ [e]).Perm (e :: (h ++ D)) :=
      (List.perm_append_singleton e seen).trans (hperm.cons e)
    have p2 : (e :: (h ++ D)).Perm (e :: (m :: heap_Pop less h ++ D)) :=
      ((ppop.symm.append_right D)).cons e
    have p3 : (e :: (m :: heap_Pop less h ++ D)).Perm
        (heap_Push less (heap_Pop less h) e ++ m :: D) := by
      have : (heap_Push less (heap_Pop less h) e ++ m :: D).Perm
          ((e :: heap_Pop less h) ++ m :: D) := ppush.append_right _
      refine List.Perm.trans ?_ this.symm
      simp only [List.cons_append]
      exact (List.perm_middle.symm).cons e
    exact p1.trans (p2.trans p3)

/-- at capacity: discard a new element that the root is not less than -/
theorem topInv_skip {α : Type} (less : α → α → Bool) (sw : StrictWeak less) (K : Nat)
    (h D seen : List α) (e m : α)
    (inv : TopInv less K h D seen) (hfull : K ≤ h.length) (hm : h[0]? = some m)
    (hge : less m e = false) :
    TopInv less K h (e :: D) (seen ++ [e]) := by
  obtain ⟨hheap, hdis, hlen, hperm⟩ := inv
  have hmin := isHeap_root_min less sw h m hheap hm
  refine ⟨hheap, ?_, ?_, ?_⟩
  · intro d hd x hx
    rcases List.mem_cons.1 hd with h1 | h1
    · subst h1; exact sw.ntrans _ _ _ (hmin x hx) hge
    · exact hdis d h1 x hx
  · simp only [List.length_append, List.length_singleton]
    omega
  · exact ((List.perm_append_singleton e seen).trans (hperm.cons e)).trans
      (List.perm_middle.symm)

/-- push, then pop when the capacity is exceeded (the step of `calcuLargestKeyPrefix`) -/
theorem topInv_push_pop {α : Type} (less : α → α → Bool) (sw : StrictWeak less) (K : Nat)
    (h D seen : List α) (e : α)
    (inv : TopInv less K h D seen) (hfull : K ≤ h.length) :
    ∃ m, TopInv less K (heap_Pop less (heap_Push less h e)) (m :: D) (seen ++ [e]) := by
  obtain ⟨hheap, hdis, hlen, hperm⟩ := inv
  have ppush := heap_Push_perm less h e
  have hpheap := heap_Push_isHeap less sw h e hheap
  have hplen : (heap_Push less h e).length = h.length + 1 := by
    rw [ppush.length_eq]; simp
  have hm : (heap_Push less h e)[0]? = some (heap_Push less h e)[0] :=
    List.getElem?_eq_getElem (by omega)
  generalize (heap_Push less h e)[0] = m at hm
  have hmin := isHeap_root_min less sw _ m hpheap hm
  have ppop := heap_Pop_perm less _ m hm
  refine ⟨m, heap_Pop_isHeap less sw _ hpheap, ?_, ?_, ?_⟩
  · intro d hd x hx
    have hx1 : x ∈ heap_Push less h e := ppop.mem_iff.1 (List.mem_cons_of_mem _ hx)
    rcases List.mem_cons.1 hd with h1 | h1
    · subst h1; exact hmin x hx1
    · have hmm : m ∈ e :: h := ppush.mem_iff.1 (List.mem_iff_getElem?.2 ⟨0, hm⟩)
      rcases List.mem_cons.1 hmm with h2 | h2
      · -- the popped element is the new one: what is left is the old heap
        subst h2
        have : (heap_Pop less (heap_Push less h m)).Perm h :=
          (List.perm_cons m).1 (ppop.trans ppush)
        exact hdis d h1 x (this.mem_iff.1 hx)
      · exact sw.ntrans _ _ _ (hmin x hx1) (hdis d h1 m h2)
  · rw [heap_Pop_length, hplen]
    simp only [List.length_append, List.length_singleton]
    omega
  · have p1 : (seen ++ [e]).Perm (e :: (h ++ D)) :=
      (List.perm_append_singleton e seen).trans (hperm.cons e)
    have p2 : (e :: (h ++ D)).Perm (heap_Push less h e ++ D) := by
      have := (ppush.append_right D).symm
      simpa using this
    have p3 : (heap_Push less h e ++ D).Perm ((m :: heap_Pop less (heap_Push less h e)) ++ D) :=
      ppop.symm.append_right D
    have p4 : ((m :: heap_Pop less (heap_Push less h e)) ++ D).Perm
        (heap_Pop less (heap_Push less h e) ++ m :: D) := by
      simp only [List.cons_append]
      exact List.perm_middle.symm
    exact p1.trans (p2.trans (p3.trans p4))

/-! ### C1: the largest entries -/

theorem countLargestEntries_topInv (K : Int) (hK : 1 ≤ K) (c : Counter) (e : Entry)
    (D seen : List Entry) (inv : TopInv entryLess K.toNat c.largestEntries D seen) :
    ∃ D', TopInv entryLess K.toNat (countLargestEntries c e K).largestEntries D' (seen ++ [e]) := by
  unfold countLargestEntries
  simp only
  by_cases h1 : (c.largestEntries.length : Int) < K
  · rw [if_pos h1]
    exact ⟨D, topInv_push entryLess entryLess_strictWeak _ _ _ _ e inv (by omega)⟩
  · rw [if_neg h1]
    have hfull : K.toNat ≤ c.largestEntries.length := by omega
    have hpos : 0 < c.largestEntries.length := by omega
    rw [if_pos hpos]
    have hm : c.largestEntries[0]? = some c.largestEntries[0] := List.getElem?_eq_getElem hpos
    generalize c.largestEntries[0] = m at hm
    rw [hm]
    simp only
    by_cases h2 : e.Bytes > m.Bytes
    · rw [if_pos h2]
      exact ⟨m :: D, topInv_replace entryLess entryLess_strictWeak _ _ _ _ e m inv hfull hm
        (by simp [entryLess]; omega)⟩
    · rw [if_neg h2]
      exact ⟨e :: D, topInv_skip entryLess entryLess_strictWeak _ _ _ _ e m inv hfull hm
        (by simp [entryLess]; omega)⟩

theorem countLargestEntries_fold_topInv (K : Int) (hK : 1 ≤ K) (es : List Entry) :
    ∀ (c : Counter) (D seen : List Entry), TopInv entryLess K.toNat c.largestEntries D seen →
    ∃ D', TopInv entryLess K.toNat
      (es.foldl (fun c e => countLargestEntries c e K) c).largestEntries D' (seen ++ es) := by
  induction es with
  | nil => intro c D seen inv; exact ⟨D, by simpa using inv⟩
  | cons e es ih =>
    intro c D seen inv
    obtain ⟨D1, inv1⟩ := countLargestEntries_topInv K hK c e D seen inv
    obtain ⟨D2, inv2⟩ := ih _ D1 (seen ++ [e]) inv1
    exact ⟨D2, by simpa using inv2⟩

/-- a top-`K` heap holds the `K` largest values of what was seen -/
theorem topInv_largestValues (K : Nat) (h D seen : List Entry)
    (inv : TopInv entryLess K h D seen) :
    (h.map Entry.Bytes).Perm (largestValues K (seen.map Entry.Bytes)) := by
  obtain ⟨_, hdis, hlen, hperm⟩ := inv
  unfold largestValues
  have hsorted : (seen.map Entry.Bytes).insertionSort (fun a b => a ≥ b) =
      (h.map Entry.Bytes).insertionSort (fun a b => a ≥ b) ++
      (D.map Entry.Bytes).insertionSort (fun a b => a ≥ b) := by
    apply List.eq_of_perm_of_sorted (r := fun a b : Nat => a ≥ b)
    · refine (List.perm_insertionSort _ _).trans ?_
      refine ((hperm.map Entry.Bytes)).trans ?_
      rw [List.map_append]
      exact ((List.perm_insertionSort _ _).symm).append ((List.perm_insertionSort _ _).symm)
    · exact List.sorted_insertionSort _ _
    · unfold List.Sorted
      rw [List.pairwise_append]
      refine ⟨List.sorted_insertionSort _ _, List.sorted_insertionSort _ _, ?_⟩
      intro a ha b hb
      have ha1 := (List.perm_insertionSort _ _).mem_iff.1 ha
      have hb1 := (List.perm_insertionSort _ _).mem_iff.1 hb
      obtain ⟨x, hx, rfl⟩ := List.mem_map.1 ha1
      obtain ⟨d, hd, rfl⟩ := List.mem_map.1 hb1
      have := hdis d hd x hx
      simp only [entryLess, decide_eq_false_iff_not] at this
      show x.Bytes ≥ d.Bytes
      omega
  rw [hsorted]
  have hl1 : ((h.map Entry.Bytes).insertionSort (fun a b => a ≥ b)).length = h.length := by
    rw [(List.perm_insertionSort _ _).length_eq, List.length_map]
  by_cases hc : h.length = K
  · rw [List.take_left' (by rw [hl1, hc])]
    exact (List.perm_insertionSort _ _).symm
  · have hlt : h.length < K := by omega
    have hD : D = [] := topInv_discard_nil entryLess K h D seen ⟨‹_›, hdis, hlen, hperm⟩ hlt
    subst hD
    simp only [List.map_nil, List.insertionSort, List.append_nil]
    rw [List.take_of_length_le (by omega)]
    exact (List.perm_insertionSort _ _).symm

/-- C1. For every sequence of entries and every `K >= 1` (500 in `count`), feeding
the entries in turn to `countLargestEntries(e, K)` from the empty heap of
`NewCounter` leaves exactly `min(n, K)` entries in the heap, the multiset of their
`Bytes` is the multiset of the `K` largest `Bytes` of the sequence, and the held
entries are entries of the sequence. -/
theorem countLargestEntries_topK (es : List Entry) (K : Int) (hK : 1 ≤ K) :
    (es.foldl (fun c e => countLargestEntries c e K) NewCounter).largestEntries.length
        = min es.length K.toNat ∧
    (↑((es.foldl (fun c e => countLargestEntries c e K) NewCounter).largestEntries.map
        Entry.Bytes) : Multiset Nat) = ↑(largestValues K.toNat (es.map Entry.Bytes)) ∧
    ∃ D, es.Perm ((es.foldl (fun c e => countLargestEntries c e K) NewCounter).largestEntries
        ++ D) := by
  obtain ⟨D, inv⟩ := countLargestEntries_fold_topInv K hK es NewCounter [] []
    (topInv_nil entryLess K.toNat)
  rw [List.nil_append] at inv
  refine ⟨inv.2.2.1, ?_, D, inv.2.2.2⟩
  exact Multiset.coe_eq_coe.2 (topInv_largestValues _ _ _ _ inv)

/-- C1 at a concrete input: four entries, two of them with equal `Bytes`, `K = 2`. -/
theorem countLargestEntries_topK_witness :
    (1 : Int) ≤ 2 ∧
    ((sampleEntries.foldl (fun c e => countLargestEntries c e 2) NewCounter).largestEntries.length
        = min sampleEntries.length (2 : Int).toNat ∧
    (↑((sampleEntries.foldl (fun c e => countLargestEntries c e 2)
        NewCounter).largestEntries.map Entry.Bytes) : Multiset Nat)
      = ↑(largestValues (2 : Int).toNat (sampleEntries.map Entry.Bytes)) ∧
    ∃ D, sampleEntries.Perm
      ((sampleEntries.foldl (fun c e => countLargestEntries c e 2) NewCounter).largestEntries
        ++ D)) :=
  ⟨by decide, countLargestEntries_topK sampleEntries 2 (by decide)⟩

/-! ### Go maps -/

section GoMapLemmas
variable {κ ν : Type} [DecidableEq κ]

theorem lookup_cons_ite (m : GoMap κ ν) (a k' : κ) (b : ν) :
    List.lookup k' ((a, b) :: m) = if k' = a then some b else List.lookup k' m := by
  by_cases h : k' = a
  · have hb : (k' == a) = true := by simp [h]
    simp [List.lookup, hb, h]
  · have hb : (k' == a) = false := by simp [h]
    simp [List.lookup, hb, h]

theorem lookup_nil_none (k' : κ) : List.lookup k' ([] : GoMap κ ν) = none := rfl

theorem lookup_mapSet (m : GoMap κ ν) (k k' : κ) (v : ν) :
    (mapSet m k v).lookup k' = if k' = k then some v else m.lookup k' := by
  induction m with
  | nil =>
    simp only [mapSet, lookup_cons_ite, lookup_nil_none]
  | cons p m ih =>
    obtain ⟨a, b⟩ := p
    unfold mapSet
    by_cases h1 : a = k
    · rw [if_pos h1]
      subst h1
      simp only [lookup_cons_ite]
      split <;> rfl
    · rw [if_neg h1]
      simp only [lookup_cons_ite, ih]
      by_cases h : k' = k
      · subst h
        simp [Ne.symm h1]
      · simp [h]

theorem mapGet_mapSet_self (zero : ν) (m : GoMap κ ν) (k : κ) (v : ν) :
    mapGet zero (mapSet m k v) k = v := by
  simp [mapGet, lookup_mapSet]

theorem mapGet_mapSet_other (zero : ν) (m : GoMap κ ν) (k k' : κ) (v : ν) (h : k' ≠ k) :
    mapGet zero (mapSet m k v) k' = mapGet zero m k' := by
  simp [mapGet, lookup_mapSet, h]

end GoMapLemmas

/-! ### C2: length buckets -/

/-- C2. With the length levels of `NewCounter`, `countByLength` changes at most one
`(Type, bucket)` key: for `NumOfElem <= 100` both maps are unchanged; otherwise the
key is `(e.Type, FormatUint(L))` for the largest level `L` below `NumOfElem`, whose
bytes grow by `e.Bytes` and whose count grows by 1 (mod `2^64`), and every other
key keeps its entry in both maps. -/
theorem countByLength_bucket (c : Counter) (e : Entry)
    (hlv : c.lengthLevel0 = NewCounter.lengthLevel0 ∧ c.lengthLevel1 = NewCounter.lengthLevel1 ∧
      c.lengthLevel2 = NewCounter.lengthLevel2 ∧ c.lengthLevel3 = NewCounter.lengthLevel3 ∧
      c.lengthLevel4 = NewCounter.lengthLevel4) :
    (e.NumOfElem ≤ 100 →
      (countByLength c e).lengthLevelBytes = c.lengthLevelBytes ∧
      (countByLength c e).lengthLevelNum = c.lengthLevelNum) ∧
    (100 < e.NumOfElem →
      ∃ L, L ∈ [100, 1000, 10000, 100000, 1000000] ∧ L < e.NumOfElem ∧
        (∀ L' ∈ [100, 1000, 10000, 100000, 1000000], L' < e.NumOfElem → L' ≤ L) ∧
        mapGet 0 (countByLength c e).lengthLevelBytes ⟨e.Typ, strconv_FormatUint L⟩ =
          (mapGet 0 c.lengthLevelBytes ⟨e.Typ, strconv_FormatUint L⟩ + e.Bytes)
            % 18446744073709551616 ∧
        mapGet 0 (countByLength c e).lengthLevelNum ⟨e.Typ, strconv_FormatUint L⟩ =
          (mapGet 0 c.lengthLevelNum ⟨e.Typ, strconv_FormatUint L⟩ + 1)
            % 18446744073709551616 ∧
        ∀ k : typeKey, k ≠ ⟨e.Typ, strconv_FormatUint L⟩ →
          (countByLength c e).lengthLevelBytes.lookup k = c.lengthLevelBytes.lookup k ∧
          (countByLength c e).lengthLevelNum.lookup k = c.lengthLevelNum.lookup k) := by
  obtain ⟨h0, h1, h2, h3, h4⟩ := hlv
  simp only [NewCounter] at h0 h1 h2 h3 h4
  have key : ∀ L : Nat,
      mapGet 0 (countByLength_add c ⟨e.Typ, strconv_FormatUint L⟩ e).lengthLevelBytes
          ⟨e.Typ, strconv_FormatUint L⟩ =
        (mapGet 0 c.lengthLevelBytes ⟨e.Typ, strconv_FormatUint L⟩ + e.Bytes)
          % 18446744073709551616 ∧
      mapGet 0 (countByLength_add c ⟨e.Typ, strconv_FormatUint L⟩ e).lengthLevelNum
          ⟨e.Typ, strconv_FormatUint L⟩ =
        (mapGet 0 c.lengthLevelNum ⟨e.Typ, strconv_FormatUint L⟩ + 1)
          % 18446744073709551616 ∧
      ∀ k : typeKey, k ≠ ⟨e.Typ, strconv_FormatUint L⟩ →
        (countByLength_add c ⟨e.Typ, strconv_FormatUint L⟩ e).lengthLevelBytes.lookup k
          = c.lengthLevelBytes.lookup k ∧
        (countByLength_add c ⟨e.Typ, strconv_FormatUint L⟩ e).lengthLevelNum.lookup k
          = c.lengthLevelNum.lookup k := by
    intro L
    refine ⟨?_, ?_, ?_⟩
    · simp [countByLength_add, mapGet_mapSet_self, add64, wrap64]
    · simp [countByLength_add, mapGet_mapSet_self, add64, wrap64]
    · intro k hk
      simp [countByLength_add, lookup_mapSet, hk]
  unfold countByLength
  rw [h0, h1, h2, h3, h4]
  refine ⟨?_, ?_⟩
  · intro hle
    rw [if_neg (by omega), if_neg (by omega), if_neg (by omega), if_neg (by omega),
      if_neg (by omega)]
    exact ⟨rfl, rfl⟩
  · intro hgt
    by_cases c4 : e.NumOfElem > 1000000
    · rw [if_pos c4]
      refine ⟨1000000, by simp, c4, ?_, key _⟩
      intro L' hL' _
      simp at hL'
      omega
    · rw [if_neg c4]
      by_cases c3 : e.NumOfElem > 100000
      · rw [if_pos c3]
        refine ⟨100000, by simp, c3, ?_, key _⟩
        intro L' hL' _
        simp at hL'
        omega
      · rw [if_neg c3]
        by_cases c2 : e.NumOfElem > 10000
        · rw [if_pos c2]
          refine ⟨10000, by simp, c2, ?_, key _⟩
          intro L' hL' _
          simp at hL'
          omega
        · rw [if_neg c2]
          by_cases c1 : e.NumOfElem > 1000
          · rw [if_pos c1]
            refine ⟨1000, by simp, c1, ?_, key _⟩
            intro L' hL' _
            simp at hL'
            omega
          · rw [if_neg c1]
            rw [if_pos (show e.NumOfElem > 100 by omega)]
            refine ⟨100, by simp, hgt, ?_, key _⟩
            intro L' hL' _
            simp at hL'
            omega

/-- C2 at a concrete input: `NewCounter` and a hash of 1500 elements. -/
theorem countByLength_bucket_witness :
    (NewCounter.lengthLevel0 = NewCounter.lengthLevel0 ∧
      NewCounter.lengthLevel1 = NewCounter.lengthLevel1 ∧
      NewCounter.lengthLevel2 = NewCounter.lengthLevel2 ∧
      NewCounter.lengthLevel3 = NewCounter.lengthLevel3 ∧
      NewCounter.lengthLevel4 = NewCounter.lengthLevel4) ∧
    (((mkEntry "h" "hash" 64 1500).NumOfElem ≤ 100 →
      (countByLength NewCounter (mkEntry "h" "hash" 64 1500)).lengthLevelBytes
        = NewCounter.lengthLevelBytes ∧
      (countByLength NewCounter (mkEntry "h" "hash" 64 1500)).lengthLevelNum
        = NewCounter.lengthLevelNum) ∧
    (100 < (mkEntry "h" "hash" 64 1500).NumOfElem →
      ∃ L, L ∈ [100, 1000, 10000, 100000, 1000000] ∧ L < (mkEntry "h" "hash" 64 1500).NumOfElem ∧
        (∀ L' ∈ [100, 1000, 10000, 100000, 1000000],
          L' < (mkEntry "h" "hash" 64 1500).NumOfElem → L' ≤ L) ∧
        mapGet 0 (countByLength NewCounter (mkEntry "h" "hash" 64 1500)).lengthLevelBytes
            ⟨(mkEntry "h" "hash" 64 1500).Typ, strconv_FormatUint L⟩ =
          (mapGet 0 NewCounter.lengthLevelBytes
              ⟨(mkEntry "h" "hash" 64 1500).Typ, strconv_FormatUint L⟩
            + (mkEntry "h" "hash" 64 1500).Bytes) % 18446744073709551616 ∧
        mapGet 0 (countByLength NewCounter (mkEntry "h" "hash" 64 1500)).lengthLevelNum
            ⟨(mkEntry "h" "hash" 64 1500).Typ, strconv_FormatUint L⟩ =
          (mapGet 0 NewCounter.lengthLevelNum
              ⟨(mkEntry "h" "hash" 64 1500).Typ, strconv_FormatUint L⟩ + 1)
            % 18446744073709551616 ∧
        ∀ k : typeKey, k ≠ ⟨(mkEntry "h" "hash" 64 1500).Typ, strconv_FormatUint L⟩ →
          (countByLength NewCounter (mkEntry "h" "hash" 64 1500)).lengthLevelBytes.lookup k
            = NewCounter.lengthLevelBytes.lookup k ∧
          (countByLength NewCounter (mkEntry "h" "hash" 64 1500)).lengthLevelNum.lookup k
            = NewCounter.lengthLevelNum.lookup k)) :=
  ⟨⟨rfl, rfl, rfl, rfl, rfl⟩,
    countByLength_bucket NewCounter (mkEntry "h" "hash" 64 1500) ⟨rfl, rfl, rfl, rfl, rfl⟩⟩

/-! ### C3: prefixes of `user:123:profile` -/

theorem getPrefixes_user_profile :
    getPrefixes (strings_Map digitToStar "user:123:profile") ":" = ["user", "user:***"] ∧
    getPrefixes (strings_Map digitToStar "user:123:profile") NewCounter.separators
      = ["user", "user:***"] := by
  constructor <;> decide

/-- C3 as stated fails: the prefixes of the normalized key `user:123:profile` are
not the set `{"user:", "user:*:", "user:*:profile"}`. -/
theorem getPrefixes_user_profile_not_three :
    ¬ (∀ p, p ∈ getPrefixes (strings_Map digitToStar "user:123:profile") ":" ↔
        p ∈ ["user:", "user:*:", "user:*:profile"]) := by
  intro h
  have h1 := (h "user:").2 (by simp)
  rw [getPrefixes_user_profile.1] at h1
  revert h1
  decide

/-- C3, amended. For the key `user:123:profile`, digit normalization followed by
`getPrefixes` (separator `:`, and equally the Counter's separators) yields exactly
the prefix set `{"user", "user:***"}`: every digit becomes its own `*`, trailing
separators are trimmed, and the part after the last separator opens no prefix.
`countByKeyPrefix` credits exactly these two prefixes, each once. -/
theorem countByKeyPrefix_user_profile (c : Counter) (e : Entry)
    (hsep : c.separators = NewCounter.separators) (hkey : e.Key = "user:123:profile") :
    (∀ p, p ∈ getPrefixes (strings_Map digitToStar e.Key) ":" ↔ p ∈ ["user", "user:***"]) ∧
    (∀ p, p ∈ getPrefixes (strings_Map digitToStar e.Key) c.separators ↔
      p ∈ ["user", "user:***"]) ∧
    (∀ k : typeKey,
      mapGet 0 (countByKeyPrefix c e).keyPrefixNum k =
        if k = ⟨e.Typ, "user"⟩ ∨ k = ⟨e.Typ, "user:***"⟩
        then (mapGet 0 c.keyPrefixNum k + 1) % 18446744073709551616
        else mapGet 0 c.keyPrefixNum k) ∧
    (∀ k : typeKey,
      mapGet 0 (countByKeyPrefix c e).keyPrefixBytes k =
        if k = ⟨e.Typ, "user"⟩ ∨ k = ⟨e.Typ, "user:***"⟩
        then (mapGet 0 c.keyPrefixBytes k + e.Bytes) % 18446744073709551616
        else mapGet 0 c.keyPrefixBytes k) := by
  have hne : (⟨e.Typ, "user:***"⟩ : typeKey) ≠ ⟨e.Typ, "user"⟩ := by
    intro h
    injection h with _ h2
    exact absurd h2 (by decide)
  have hl1 : ("user" : String).length ≠ 0 := by decide
  have hl2 : ("user:***" : String).length ≠ 0 := by decide
  have hfold : countByKeyPrefix c e =
      countByKeyPrefix_step e (countByKeyPrefix_step e c "user") "user:***" := by
    unfold countByKeyPrefix
    simp only [hsep, hkey, getPrefixes_user_profile.2, List.foldl_cons, List.foldl_nil]
  refine ⟨?_, ?_, ?_, ?_⟩
  · rw [hkey, getPrefixes_user_profile.1]; intro p; rfl
  · rw [hkey, hsep, getPrefixes_user_profile.2]; intro p; rfl
  · intro k
    rw [hfold]
    simp only [countByKeyPrefix_step, if_neg hl1, if_neg hl2]
    by_cases h2 : k = ⟨e.Typ, "user:***"⟩
    · subst h2
      rw [if_pos (Or.inr rfl), mapGet_mapSet_self, mapGet_mapSet_other _ _ _ _ _ hne]
      rfl
    · rw [mapGet_mapSet_other _ _ _ _ _ h2]
      by_cases h1 : k = ⟨e.Typ, "user"⟩
      · subst h1
        rw [if_pos (Or.inl rfl), mapGet_mapSet_self]
        rfl
      · rw [mapGet_mapSet_other _ _ _ _ _ h1, if_neg (by simp [h1, h2])]
  · intro k
    rw [hfold]
    simp only [countByKeyPrefix_step, if_neg hl1, if_neg hl2]
    by_cases h2 : k = ⟨e.Typ, "user:***"⟩
    · subst h2
      rw [if_pos (Or.inr rfl), mapGet_mapSet_self, mapGet_mapSet_other _ _ _ _ _ hne]
      rfl
    · rw [mapGet_mapSet_other _ _ _ _ _ h2]
      by_cases h1 : k = ⟨e.Typ, "user"⟩
      · subst h1
        rw [if_pos (Or.inl rfl), mapGet_mapSet_self]
        rfl
      · rw [mapGet_mapSet_other _ _ _ _ _ h1, if_neg (by simp [h1, h2])]

/-- C3, amended, at `NewCounter` and a string entry of 10 bytes. -/
theorem countByKeyPrefix_user_profile_witness :
    (NewCounter.separators = NewCounter.separators ∧
      (mkEntry "user:123:profile" "string" 10 0).Key = "user:123:profile") ∧
    ((∀ p, p ∈ getPrefixes (strings_Map digitToStar
        (mkEntry "user:123:profile" "string" 10 0).Key) ":" ↔ p ∈ ["user", "user:***"]) ∧
    (∀ p, p ∈ getPrefixes (strings_Map digitToStar
        (mkEntry "user:123:profile" "string" 10 0).Key) NewCounter.separators ↔
      p ∈ ["user", "user:***"]) ∧
    (∀ k : typeKey,
      mapGet 0 (countByKeyPrefix NewCounter
          (mkEntry "user:123:profile" "string" 10 0)).keyPrefixNum k =
        if k = ⟨(mkEntry "user:123:profile" "string" 10 0).Typ, "user"⟩ ∨
            k = ⟨(mkEntry "user:123:profile" "string" 10 0).Typ, "user:***"⟩
        then (mapGet 0 NewCounter.keyPrefixNum k + 1) % 18446744073709551616
        else mapGet 0 NewCounter.keyPrefixNum k) ∧
    (∀ k : typeKey,
      mapGet 0 (countByKeyPrefix NewCounter
          (mkEntry "user:123:profile" "string" 10 0)).keyPrefixBytes k =
        if k = ⟨(mkEntry "user:123:profile" "string" 10 0).Typ, "user"⟩ ∨
            k = ⟨(mkEntry "user:123:profile" "string" 10 0).Typ, "user:***"⟩
        then (mapGet 0 NewCounter.keyPrefixBytes k
          + (mkEntry "user:123:profile" "string" 10 0).Bytes) % 18446744073709551616
        else mapGet 0 NewCounter.keyPrefixBytes k)) :=
  ⟨⟨rfl, rfl⟩,
    countByKeyPrefix_user_profile NewCounter (mkEntry "user:123:profile" "string" 10 0) rfl rfl⟩

/-! ### C5: the order of `prefixHeap` -/

theorem prefixLess_iff (a b : PrefixEntry) :
    prefixLess a b = true ↔
      a.Bytes < b.Bytes ∨ (a.Bytes = b.Bytes ∧ a.Num < b.Num) ∨
        (a.Bytes = b.Bytes ∧ a.Num = b.Num ∧ a.Key > b.Key) := by
  unfold prefixLess
  by_cases h1 : a.Bytes < b.Bytes
  · simp [h1]
  · by_cases h2 : a.Bytes = b.Bytes
    · by_cases h3 : a.Num < b.Num
      · simp [h2, h3]
      · by_cases h4 : a.Num = b.Num
        · by_cases h5 : a.Key > b.Key
          · simp [h2, h4, h5]
          · simp [h2, h4, h5]
        · simp [h1, h2, h3, h4]
    · simp [h1, h2]

theorem prefixLess_irrefl (a : PrefixEntry) : prefixLess a a = false := by
  cases h : prefixLess a a
  · rfl
  · rw [prefixLess_iff] at h
    rcases h with h | h | h
    · omega
    · omega
    · exact absurd h.2.2 (lt_irrefl _)

theorem prefixLess_asymm (a b : PrefixEntry) (h : prefixLess a b = true) :
    prefixLess b a = false := by
  cases h' : prefixLess b a
  · rfl
  · rw [prefixLess_iff] at h h'
    rcases h with h | h | h <;> rcases h' with h' | h' | h' <;> try omega
    exact absurd (lt_trans h.2.2 h'.2.2) (lt_irrefl _)

theorem prefixLess_trans (a b c : PrefixEntry) (h1 : prefixLess a b = true)
    (h2 : prefixLess b c = true) : prefixLess a c = true := by
  rw [prefixLess_iff] at *
  rcases h1 with h1 | h1 | h1 <;> rcases h2 with h2 | h2 | h2
  · left; omega
  · left; omega
  · left; omega
  · left; omega
  · right; left; omega
  · right; left; omega
  · left; omega
  · right; left; omega
  · right; right
    exact ⟨by omega, by omega, lt_trans h2.2.2 h1.2.2⟩

theorem prefixLess_total (a b : PrefixEntry) (h : a.Key ≠ b.Key) :
    prefixLess a b = true ∨ prefixLess b a = true := by
  rw [prefixLess_iff, prefixLess_iff]
  rcases Nat.lt_trichotomy a.Bytes b.Bytes with h1 | h1 | h1
  · left; left; exact h1
  · rcases Nat.lt_trichotomy a.Num b.Num with h2 | h2 | h2
    · left; right; left; exact ⟨h1, h2⟩
    · rcases lt_trichotomy a.Key b.Key with h3 | h3 | h3
      · right; right; right; exact ⟨h1.symm, h2.symm, h3⟩
      · exact absurd h3 h
      · left; right; right; exact ⟨h1, h2, h3⟩
    · right; right; left; exact ⟨h1.symm, h2⟩
  · right; left; exact h1

theorem prefixLess_ntrans (a b c : PrefixEntry) (h1 : prefixLess a b = false)
    (h2 : prefixLess b c = false) : prefixLess a c = false := by
  cases h : prefixLess a c
  · rfl
  · exfalso
    have n1 : ¬ prefixLess a b = true := by rw [h1]; simp
    have n2 : ¬ prefixLess b c = true := by rw [h2]; simp
    rw [prefixLess_iff] at h n1 n2
    push_neg at n1 n2
    obtain ⟨p1, p2, p3⟩ := n1
    obtain ⟨q1, q2, q3⟩ := n2
    rcases h with h | h | h
    · omega
    · have e1 : a.Bytes = b.Bytes := by omega
      have e2 : b.Bytes = c.Bytes := by omega
      have := p2 e1
      have := q2 e2
      omega
    · have e1 : a.Bytes = b.Bytes := by omega
      have e2 : b.Bytes = c.Bytes := by omega
      have := p2 e1
      have := q2 e2
      have e3 : a.Num = b.Num := by omega
      have e4 : b.Num = c.Num := by omega
      have k1 := p3 e1 e3
      have k2 := q3 e2 e4
      exact absurd h.2.2 (not_lt.2 (le_trans (not_lt.1 k1) (not_lt.1 k2)))

theorem prefixLess_strictWeak : StrictWeak prefixLess :=
  ⟨prefixLess_asymm, prefixLess_ntrans⟩

/-- C5. `prefixHeap.Less(i, j)` holds exactly when `Bytes_i < Bytes_j`, or the bytes
are equal and `Num_i < Num_j`, or bytes and counts are equal and `Key_i` is
lexicographically greater than `Key_j` (the order of the character sequences); so
`Less` is irreflexive, asymmetric and transitive, and total on entries with
distinct prefix strings. -/
theorem prefixLess_order (a b c : PrefixEntry) :
    (prefixLess a b = true ↔
      a.Bytes < b.Bytes ∨ (a.Bytes = b.Bytes ∧ a.Num < b.Num) ∨
        (a.Bytes = b.Bytes ∧ a.Num = b.Num ∧ a.Key > b.Key)) ∧
    (a.Key > b.Key ↔ b.Key.toList < a.Key.toList) ∧
    prefixLess a a = false ∧
    (prefixLess a b = true → prefixLess b a = false) ∧
    (prefixLess a b = true → prefixLess b c = true → prefixLess a c = true) ∧
    (a.Key ≠ b.Key → prefixLess a b = true ∨ prefixLess b a = true) :=
  ⟨prefixLess_iff a b, String.lt_iff_toList_lt, prefixLess_irrefl a, prefixLess_asymm a b,
    prefixLess_trans a b c, prefixLess_total a b⟩

/-- C5 at three concrete entries: equal bytes and counts decided by the key, then
a larger entry. -/
theorem prefixLess_order_witness :
    (prefixLess ⟨"hash", "b", 5, 1, ""⟩ ⟨"hash", "a", 5, 1, ""⟩ = true ∧
      prefixLess ⟨"hash", "a", 5, 1, ""⟩ ⟨"set", "c", 6, 0, ""⟩ = true) ∧
    ((prefixLess ⟨"hash", "b", 5, 1, ""⟩ ⟨"hash", "a", 5, 1, ""⟩ = true ↔
      (⟨"hash", "b", 5, 1, ""⟩ : PrefixEntry).Bytes < (⟨"hash", "a", 5, 1, ""⟩ : PrefixEntry).Bytes ∨
      ((⟨"hash", "b", 5, 1, ""⟩ : PrefixEntry).Bytes = (⟨"hash", "a", 5, 1, ""⟩ : PrefixEntry).Bytes ∧
        (⟨"hash", "b", 5, 1, ""⟩ : PrefixEntry).Num < (⟨"hash", "a", 5, 1, ""⟩ : PrefixEntry).Num) ∨
      ((⟨"hash", "b", 5, 1, ""⟩ : PrefixEntry).Bytes = (⟨"hash", "a", 5, 1, ""⟩ : PrefixEntry).Bytes ∧
        (⟨"hash", "b", 5, 1, ""⟩ : PrefixEntry).Num = (⟨"hash", "a", 5, 1, ""⟩ : PrefixEntry).Num ∧
        (⟨"hash", "b", 5, 1, ""⟩ : PrefixEntry).Key > (⟨"hash", "a", 5, 1, ""⟩ : PrefixEntry).Key)) ∧
    ((⟨"hash", "b", 5, 1, ""⟩ : PrefixEntry).Key > (⟨"hash", "a", 5, 1, ""⟩ : PrefixEntry).Key ↔
      (⟨"hash", "a", 5, 1, ""⟩ : PrefixEntry).Key.toList
        < (⟨"hash", "b", 5, 1, ""⟩ : PrefixEntry).Key.toList) ∧
    prefixLess ⟨"hash", "b", 5, 1, ""⟩ ⟨"hash", "b", 5, 1, ""⟩ = false ∧
    (prefixLess ⟨"hash", "b", 5, 1, ""⟩ ⟨"hash", "a", 5, 1, ""⟩ = true →
      prefixLess ⟨"hash", "a", 5, 1, ""⟩ ⟨"hash", "b", 5, 1, ""⟩ = false) ∧
    (prefixLess ⟨"hash", "b", 5, 1, ""⟩ ⟨"hash", "a", 5, 1, ""⟩ = true →
      prefixLess ⟨"hash", "a", 5, 1, ""⟩ ⟨"set", "c", 6, 0, ""⟩ = true →
      prefixLess ⟨"hash", "b", 5, 1, ""⟩ ⟨"set", "c", 6, 0, ""⟩ = true) ∧
    ((⟨"hash", "b", 5, 1, ""⟩ : PrefixEntry).Key ≠ (⟨"hash", "a", 5, 1, ""⟩ : PrefixEntry).Key →
      prefixLess ⟨"hash", "b", 5, 1, ""⟩ ⟨"hash", "a", 5, 1, ""⟩ = true ∨
      prefixLess ⟨"hash", "a", 5, 1, ""⟩ ⟨"hash", "b", 5, 1, ""⟩ = true)) :=
  ⟨⟨(prefixLess_iff _ _).2 (Or.inr (Or.inr ⟨rfl, rfl, by
      show ("a" : String) < "b"
      rw [String.lt_iff_toList_lt]; decide⟩)),
    (prefixLess_iff _ _).2 (Or.inl (by decide))⟩,
   prefixLess_order ⟨"hash", "b", 5, 1, ""⟩ ⟨"hash", "a", 5, 1, ""⟩ ⟨"set", "c", 6, 0, ""⟩⟩

/-! ### C4: the largest key prefixes -/

section GoMapLemmas2
variable {κ ν : Type} [DecidableEq κ]

theorem lookup_mapDelete_other (m : GoMap κ ν) (k k' : κ) (h : k' ≠ k) :
    (mapDelete m k).lookup k' = m.lookup k' := by
  induction m with
  | nil => rfl
  | cons p m ih =>
    obtain ⟨a, b⟩ := p
    unfold mapDelete at *
    by_cases h1 : a = k
    · subst h1
      rw [List.filter_cons_of_neg (by simp), ih, lookup_cons_ite, if_neg h]
    · rw [List.filter_cons_of_pos (by simpa using h1), lookup_cons_ite, lookup_cons_ite, ih]

theorem mapGet_mapDelete_other (zero : ν) (m : GoMap κ ν) (k k' : κ) (h : k' ≠ k) :
    mapGet zero (mapDelete m k) k' = mapGet zero m k' := by
  simp [mapGet, lookup_mapDelete_other m k k' h]

end GoMapLemmas2

theorem calcuLargestKeyPrefix_step_heap (num : Int) (c : Counter) (key : typeKey) :
    (calcuLargestKeyPrefix_step num c key).largestKeyPrefixes =
      if ((heap_Push prefixLess c.largestKeyPrefixes (prefixEntryOf c key)).length : Int) > num
      then heap_Pop prefixLess (heap_Push prefixLess c.largestKeyPrefixes (prefixEntryOf c key))
      else heap_Push prefixLess c.largestKeyPrefixes (prefixEntryOf c key) := rfl

theorem calcuLargestKeyPrefix_step_topInv (c0 : Counter) (num : Int) (hnum : 0 ≤ num)
    (c : Counter) (key : typeKey) (D seen : List PrefixEntry)
    (hagree : prefixEntryOf c key = prefixEntryOf c0 key)
    (inv : TopInv prefixLess num.toNat c.largestKeyPrefixes D seen) :
    ∃ D', TopInv prefixLess num.toNat (calcuLargestKeyPrefix_step num c key).largestKeyPrefixes
      D' (seen ++ [prefixEntryOf c0 key]) := by
  rw [calcuLargestKeyPrefix_step_heap, hagree]
  have hplen : (heap_Push prefixLess c.largestKeyPrefixes (prefixEntryOf c0 key)).length
      = c.largestKeyPrefixes.length + 1 := by
    rw [(heap_Push_perm _ _ _).length_eq]; simp
  have hlen := inv.2.2.1
  by_cases hfull : c.largestKeyPrefixes.length < num.toNat
  · rw [if_neg (by rw [hplen]; omega)]
    exact ⟨D, topInv_push prefixLess prefixLess_strictWeak _ _ _ _ _ inv hfull⟩
  · rw [if_pos (by rw [hplen]; omega)]
    obtain ⟨m, hm⟩ := topInv_push_pop prefixLess prefixLess_strictWeak _ _ _ _
      (prefixEntryOf c0 key) inv (by omega)
    exact ⟨m :: D, hm⟩

theorem calcuLargestKeyPrefix_step_agree (num : Int) (c : Counter) (key k' : typeKey)
    (h : k' ≠ key) :
    prefixEntryOf (calcuLargestKeyPrefix_step num c key) k' = prefixEntryOf c k' := by
  simp [prefixEntryOf, calcuLargestKeyPrefix_step, mapGet_mapDelete_other _ _ _ _ h]

theorem calcuLargestKeyPrefix_fold_topInv (c0 : Counter) (num : Int) (hnum : 0 ≤ num)
    (ks : List typeKey) :
    ∀ (c : Counter) (D seen : List PrefixEntry), ks.Nodup →
      (∀ k ∈ ks, prefixEntryOf c k = prefixEntryOf c0 k) →
      TopInv prefixLess num.toNat c.largestKeyPrefixes D seen →
      ∃ D', TopInv prefixLess num.toNat
        (ks.foldl (calcuLargestKeyPrefix_step num) c).largestKeyPrefixes D'
        (seen ++ ks.map (prefixEntryOf c0)) := by
  induction ks with
  | nil => intro c D seen _ _ inv; exact ⟨D, by simpa using inv⟩
  | cons k ks ih =>
    intro c D seen hnd hag inv
    obtain ⟨D1, inv1⟩ := calcuLargestKeyPrefix_step_topInv c0 num hnum c k D seen
      (hag k (List.mem_cons_self _ _)) inv
    have hnd' := List.nodup_cons.1 hnd
    obtain ⟨D2, inv2⟩ := ih (calcuLargestKeyPrefix_step num c k) D1 _ hnd'.2
      (by
        intro k' hk'
        rw [calcuLargestKeyPrefix_step_agree num c k k' (by
          intro h; subst h; exact hnd'.1 hk')]
        exact hag k' (List.mem_cons_of_mem _ hk'))
      inv1
    exact ⟨D2, by simpa using inv2⟩

/-- C4. From an empty prefix heap and a provisional map `keyPrefixBytes` with `m`
distinct keys, `calcuLargestKeyPrefix(num)` (`num >= 0`; 1000 in `Count`) leaves
exactly `min(num, m)` entries in `largestKeyPrefixes`, each built from a key of the
map with the `Bytes` and `Num` accumulated for it, and the entries built from the
remaining keys are discarded, none of them greater than a retained entry in the
prefix order. -/
theorem calcuLargestKeyPrefix_topK (c : Counter) (num : Int) (hnum : 0 ≤ num)
    (hempty : c.largestKeyPrefixes = []) (hkeys : (mapKeys c.keyPrefixBytes).Nodup) :
    (calcuLargestKeyPrefix c num).largestKeyPrefixes.length
      = min num.toNat (mapKeys c.keyPrefixBytes).length ∧
    (∀ p ∈ (calcuLargestKeyPrefix c num).largestKeyPrefixes,
      (⟨p.Typ, p.Key⟩ : typeKey) ∈ mapKeys c.keyPrefixBytes ∧
      p.Bytes = mapGet 0 c.keyPrefixBytes ⟨p.Typ, p.Key⟩ ∧
      p.Num = mapGet 0 c.keyPrefixNum ⟨p.Typ, p.Key⟩) ∧
    ∃ D, ((mapKeys c.keyPrefixBytes).map (prefixEntryOf c)).Perm
        ((calcuLargestKeyPrefix c num).largestKeyPrefixes ++ D) ∧
      ∀ d ∈ D, ∀ r ∈ (calcuLargestKeyPrefix c num).largestKeyPrefixes,
        prefixLess r d = false := by
  have inv0 : TopInv prefixLess num.toNat c.largestKeyPrefixes [] [] := by
    rw [hempty]; exact topInv_nil prefixLess _
  obtain ⟨D, inv⟩ := calcuLargestKeyPrefix_fold_topInv c num hnum (mapKeys c.keyPrefixBytes)
    c [] [] hkeys (fun _ _ => rfl) inv0
  rw [List.nil_append] at inv
  obtain ⟨_, hdis, hlen, hperm⟩ := inv
  refine ⟨?_, ?_, D, hperm, hdis⟩
  · unfold calcuLargestKeyPrefix
    rw [hlen, List.length_map, Nat.min_comm]
  · intro p hp
    have hp1 : p ∈ (mapKeys c.keyPrefixBytes).map (prefixEntryOf c) :=
      hperm.mem_iff.2 (List.mem_append_left _ hp)
    obtain ⟨k, hk, rfl⟩ := List.mem_map.1 hp1
    exact ⟨hk, rfl, rfl⟩

/-- C4 at a concrete input: two accumulated prefixes, room for one. -/
theorem calcuLargestKeyPrefix_topK_witness :
    ((0 : Int) ≤ 1 ∧ samplePrefixCounter.largestKeyPrefixes = [] ∧
      (mapKeys samplePrefixCounter.keyPrefixBytes).Nodup) ∧
    ((calcuLargestKeyPrefix samplePrefixCounter 1).largestKeyPrefixes.length
      = min (1 : Int).toNat (mapKeys samplePrefixCounter.keyPrefixBytes).length ∧
    (∀ p ∈ (calcuLargestKeyPrefix samplePrefixCounter 1).largestKeyPrefixes,
      (⟨p.Typ, p.Key⟩ : typeKey) ∈ mapKeys samplePrefixCounter.keyPrefixBytes ∧
      p.Bytes = mapGet 0 samplePrefixCounter.keyPrefixBytes ⟨p.Typ, p.Key⟩ ∧
      p.Num = mapGet 0 samplePrefixCounter.keyPrefixNum ⟨p.Typ, p.Key⟩) ∧
    ∃ D, ((mapKeys samplePrefixCounter.keyPrefixBytes).map
          (prefixEntryOf samplePrefixCounter)).Perm
        ((calcuLargestKeyPrefix samplePrefixCounter 1).largestKeyPrefixes ++ D) ∧
      ∀ d ∈ D, ∀ r ∈ (calcuLargestKeyPrefix samplePrefixCounter 1).largestKeyPrefixes,
        prefixLess r d = false) :=
  ⟨⟨by decide, by decide, by decide⟩,
    calcuLargestKeyPrefix_topK samplePrefixCounter 1 (by decide) (by decide) (by decide)⟩

/-! ### `sort.Sort` -/

section SortLemmas
variable {α : Type}

theorem swap_cons_succ (y : α) (l : List α) (i j : Nat) :
    swap (y :: l) (i + 1) (j + 1) = y :: swap l i j := by
  unfold swap
  simp only [List.getElem?_cons_succ]
  split <;> simp

theorem swap_adjacent (A : List α) (a x : α) (R : List α) :
    swap (A ++ a :: x :: R) (A.length + 1) A.length = A ++ x :: a :: R := by
  induction A with
  | nil => simp [swap]
  | cons y A ih =>
    simp only [List.cons_append, List.length_cons]
    rw [swap_cons_succ, ih]

/-- one run of the inner loop of `insertionSort` inserts `x` into the sorted run before it -/
theorem sort_insertionInner_spec (less : α → α → Bool) (sw : StrictWeak less) :
    ∀ (j : Nat) (A : List α) (x : α) (B T : List α), A.length = j →
      A.Pairwise (fun a b => less b a = false) →
      B.Pairwise (fun a b => less b a = false) →
      (∀ a ∈ A, ∀ b ∈ B, less b a = false) →
      (∀ b ∈ B, less x b = true) →
      ∃ S, sort_insertionInner less j (A ++ x :: B ++ T) = S ++ T ∧
        S.Pairwise (fun a b => less b a = false) ∧ S.Perm (A ++ x :: B) := by
  intro j
  induction j with
  | zero =>
    intro A x B T hA _ hB _ hxB
    have : A = [] := List.length_eq_zero.1 hA
    subst this
    refine ⟨x :: B, by simp [sort_insertionInner], ?_, by simp⟩
    rw [List.pairwise_cons]
    exact ⟨fun b hb => sw.asymm _ _ (hxB b hb), hB⟩
  | succ j ih =>
    intro A x B T hA hAs hBs hAB hxB
    obtain ⟨A', a, rfl⟩ : ∃ A' a, A = A' ++ [a] := by
      rcases List.eq_nil_or_concat A with h | ⟨L, b, h⟩
      · subst h; simp at hA
      · exact ⟨L, b, by simpa using h⟩
    have hA' : A'.length = j := by simpa using hA
    have hget1 : (A' ++ [a] ++ x :: B ++ T)[j + 1]? = some x := by
      rw [List.append_assoc, List.getElem?_append_right (by simp [hA'])]
      simp [hA']
    have hget0 : (A' ++ [a] ++ x :: B ++ T)[j]? = some a := by
      rw [List.append_assoc, List.append_assoc, List.getElem?_append_right (by simp [hA'])]
      simp [hA']
    rw [List.pairwise_append] at hAs
    obtain ⟨hA's, _, hA'a⟩ := hAs
    unfold sort_insertionInner
    rw [lessAt_eq less _ _ _ x a hget1 hget0]
    by_cases hxa : less x a = true
    · rw [if_pos hxa]
      have hsw : swap (A' ++ [a] ++ x :: B ++ T) (j + 1) j = A' ++ x :: (a :: B) ++ T := by
        have := swap_adjacent A' a x (B ++ T)
        rw [hA'] at this
        simpa using this
      rw [hsw]
      obtain ⟨S, hS, hSs, hSp⟩ := ih A' x (a :: B) T hA' hA's
        (by
          rw [List.pairwise_cons]
          exact ⟨fun b hb => hAB a (by simp) b hb, hBs⟩)
        (by
          intro a' ha' b hb
          rcases List.mem_cons.1 hb with h | h
          · subst h; exact hA'a a' ha' b (by simp)
          · exact hAB a' (by simp [ha']) b h)
        (by
          intro b hb
          rcases List.mem_cons.1 hb with h | h
          · subst h; exact hxa
          · exact hxB b h)
      refine ⟨S, hS, hSs, hSp.trans ?_⟩
      simp only [List.append_assoc, List.singleton_append]
      exact (List.Perm.swap a x B).append_left A'
    · rw [if_neg hxa]
      have hxa' : less x a = false := by
        cases h : less x a
        · rfl
        · exact absurd h hxa
      refine ⟨A' ++ [a] ++ x :: B, by simp, ?_, List.Perm.refl _⟩
      rw [List.pairwise_append]
      refine ⟨?_, ?_, ?_⟩
      · rw [List.pairwise_append]
        exact ⟨hA's, by simp, hA'a⟩
      · rw [List.pairwise_cons]
        exact ⟨fun b hb => sw.asymm _ _ (hxB b hb), hBs⟩
      · intro a' ha' b hb
        rcases List.mem_cons.1 hb with h | h
        · subst h
          rcases List.mem_append.1 ha' with h1 | h1
          · have := hA'a a' h1 a (by simp)
            exact sw.ntrans _ _ _ hxa' this
          · simp at h1; subst h1; exact hxa'
        · exact hAB a' ha' b h

theorem sort_insertionSort_fold (less : α → α → Bool) (sw : StrictWeak less) :
    ∀ (T S : List α), S.Pairwise (fun a b => less b a = false) →
      ((List.range' S.length T.length).foldl
          (fun acc i => sort_insertionInner less i acc) (S ++ T)).Pairwise
        (fun a b => less b a = false) ∧
      ((List.range' S.length T.length).foldl
          (fun acc i => sort_insertionInner less i acc) (S ++ T)).Perm (S ++ T) := by
  intro T
  induction T with
  | nil => intro S hS; simpa using hS
  | cons x T ih =>
    intro S hS
    obtain ⟨S', h1, h2, h3⟩ := sort_insertionInner_spec less sw S.length S x [] T rfl hS
      List.Pairwise.nil (by simp) (by simp)
    simp only [List.length_cons, List.range'_succ, List.foldl_cons]
    have hlen : S'.length = S.length + 1 := by
      rw [h3.length_eq]; simp
    have e1 : S ++ x :: T = S ++ x :: [] ++ T := by simp
    rw [e1, h1, ← hlen]
    obtain ⟨i1, i2⟩ := ih S' h2
    refine ⟨i1, i2.trans ?_⟩
    exact h3.append_right T

theorem sort_Sort_sorted_perm (less : α → α → Bool) (sw : StrictWeak less) (h : List α) :
    (sort_Sort less h).Pairwise (fun a b => less b a = false) ∧ (sort_Sort less h).Perm h := by
  unfold sort_Sort sort_insertionSort
  cases h with
  | nil => simp
  | cons x T =>
    have := sort_insertionSort_fold less sw T [x] (by simp)
    simpa using this

theorem sort_Reverse_strictWeak (less : α → α → Bool) (sw : StrictWeak less) :
    StrictWeak (sort_Reverse less) :=
  ⟨fun a b h => sw.asymm b a h, fun a b c h1 h2 => sw.ntrans c b a h2 h1⟩

end SortLemmas

/-! ### The DTO encoding of map keys -/

theorem findIdx?_first {α : Type} (p : α → Bool) (l1 : List α) (a : α) (l2 : List α)
    (h1 : ∀ x ∈ l1, p x = false) (ha : p a = true) :
    ∀ i, List.findIdx? p (l1 ++ a :: l2) i = some (i + l1.length) := by
  induction l1 with
  | nil => intro i; simp [List.findIdx?_cons, ha]
  | cons y l1 ih =>
    intro i
    have hy : p y = false := h1 y (by simp)
    simp only [List.cons_append, List.findIdx?_cons, hy, List.length_cons]
    rw [if_neg (by simp), ih (fun x hx => h1 x (by simp [hx]))]
    congr 1
    omega

/-- Go `parseTypeKey` inverts `Type + "|" + Key` when the type holds no `|` -/
theorem parseTypeKey_encode (t k : String) (ht : '|' ∉ t.toList) :
    parseTypeKey (t ++ "|" ++ k) = (t, k) := by
  unfold parseTypeKey
  have hl : (t ++ "|" ++ k).toList = t.toList ++ '|' :: k.toList := by simp
  rw [hl, findIdx?_first _ t.toList '|' k.toList
    (by intro x hx; simp; intro h; subst h; exact ht hx) (by simp) 0]
  simp only [Nat.zero_add, sliceTo, sliceFrom, hl]
  rw [List.take_left' rfl]
  have : t.toList ++ '|' :: k.toList = (t.toList ++ ['|']) ++ k.toList := by simp
  rw [this, List.drop_left' (by simp)]
  rfl

section GoMapLemmas3
variable {κ ν : Type} [DecidableEq κ]

theorem mapSet_fresh (m : GoMap κ ν) (k : κ) (v : ν) (h : k ∉ mapKeys m) :
    mapSet m k v = m ++ [(k, v)] := by
  induction m with
  | nil => rfl
  | cons p m ih =>
    obtain ⟨a, b⟩ := p
    unfold mapSet
    have hne : a ≠ k := by
      intro e; apply h; simp [mapKeys, e]
    rw [if_neg hne, ih (by intro hk; apply h; simp [mapKeys] at hk ⊢; exact Or.inr hk)]
    rfl

theorem mapKeys_mapSet_of_mem (m : GoMap κ ν) (k : κ) (v : ν) (h : k ∈ mapKeys m) :
    mapKeys (mapSet m k v) = mapKeys m := by
  induction m with
  | nil => simp [mapKeys] at h
  | cons p m ih =>
    obtain ⟨a, b⟩ := p
    unfold mapSet
    by_cases hak : a = k
    · rw [if_pos hak]; simp [mapKeys, hak]
    · rw [if_neg hak]
      have : k ∈ mapKeys m := by
        simp [mapKeys] at h
        rcases h with h | h
        · exact absurd h.symm hak
        · simpa [mapKeys] using h
      have := ih this
      simp only [mapKeys, List.map_cons] at this ⊢
      rw [this]

theorem mapKeys_mapSet (m : GoMap κ ν) (k : κ) (v : ν) :
    mapKeys (mapSet m k v) = if k ∈ mapKeys m then mapKeys m else mapKeys m ++ [k] := by
  by_cases h : k ∈ mapKeys m
  · rw [if_pos h, mapKeys_mapSet_of_mem m k v h]
  · rw [if_neg h, mapSet_fresh m k v h]
    simp [mapKeys]

theorem mapKeys_mapSet_nodup (m : GoMap κ ν) (k : κ) (v : ν) (h : (mapKeys m).Nodup) :
    (mapKeys (mapSet m k v)).Nodup := by
  rw [mapKeys_mapSet]
  split
  · exact h
  · rename_i hk
    rw [List.nodup_append]
    refine ⟨h, by simp, ?_⟩
    intro a ha hb
    simp at hb; subst hb; exact hk ha

theorem mem_mapKeys_mapSet (m : GoMap κ ν) (k k' : κ) (v : ν) :
    k' ∈ mapKeys (mapSet m k v) ↔ k' = k ∨ k' ∈ mapKeys m := by
  rw [mapKeys_mapSet]
  split
  · rename_i hk
    constructor
    · intro h; exact Or.inr h
    · rintro (h | h)
      · subst h; exact hk
      · exact h
  · simp [or_comm]

end GoMapLemmas3

theorem exportMap_fold {ν : Type} (m : GoMap typeKey ν) :
    ∀ (acc : GoMap String ν),
      (mapKeys acc ++ (mapKeys m).map (fun k => k.Typ ++ "|" ++ k.Key)).Nodup →
      m.foldl (fun dst kv => mapSet dst (kv.1.Typ ++ "|" ++ kv.1.Key) kv.2) acc
        = acc ++ m.map (fun kv => (kv.1.Typ ++ "|" ++ kv.1.Key, kv.2)) := by
  induction m with
  | nil => intro acc _; simp
  | cons p m ih =>
    intro acc hnd
    obtain ⟨k, v⟩ := p
    simp only [List.foldl_cons]
    have hfresh : (k.Typ ++ "|" ++ k.Key) ∉ mapKeys acc := by
      intro hmem
      rw [List.nodup_append] at hnd
      exact hnd.2.2 hmem (by simp [mapKeys])
    rw [mapSet_fresh acc _ v hfresh, ih]
    · simp
    · have : mapKeys (acc ++ [(k.Typ ++ "|" ++ k.Key, v)]) = mapKeys acc ++ [k.Typ ++ "|" ++ k.Key] := by
        simp [mapKeys]
      rw [this]
      simpa [mapKeys] using hnd

theorem restoreMap_fold {ν : Type} (m : GoMap typeKey ν)
    (hgood : ∀ k ∈ mapKeys m, '|' ∉ k.Typ.toList) :
    ∀ (acc : GoMap typeKey ν), (mapKeys acc ++ mapKeys m).Nodup →
      restoreMap (m.map (fun kv => (kv.1.Typ ++ "|" ++ kv.1.Key, kv.2))) acc = acc ++ m := by
  induction m with
  | nil => intro acc _; simp [restoreMap]
  | cons p m ih =>
    intro acc hnd
    obtain ⟨k, v⟩ := p
    have hk : '|' ∉ k.Typ.toList := hgood k (by simp [mapKeys])
    unfold restoreMap
    simp only [List.map_cons, List.foldl_cons, parseTypeKey_encode k.Typ k.Key hk]
    have hfresh : k ∉ mapKeys acc := by
      intro hmem
      rw [List.nodup_append] at hnd
      exact hnd.2.2 hmem (by simp [mapKeys])
    have hkk : ({ Typ := k.Typ, Key := k.Key } : typeKey) = k := rfl
    rw [hkk, mapSet_fresh acc k v hfresh]
    have := ih (fun k' hk' => hgood k' (by simp [mapKeys] at hk' ⊢; exact Or.inr hk'))
      (acc ++ [(k, v)]) (by
        have e : mapKeys (acc ++ [(k, v)]) = mapKeys acc ++ [k] := by simp [mapKeys]
        rw [e]
        simpa [mapKeys] using hnd)
    unfold restoreMap at this
    rw [this]
    simp

/-- export then restore gives back a map whose keys have types without `|` -/
theorem restoreMap_exportMap {ν : Type} (m : GoMap typeKey ν) (hnd : (mapKeys m).Nodup)
    (hgood : ∀ k ∈ mapKeys m, '|' ∉ k.Typ.toList) :
    restoreMap (exportMap m) [] = m := by
  have hinj : ∀ x ∈ mapKeys m, ∀ y ∈ mapKeys m,
      x.Typ ++ "|" ++ x.Key = y.Typ ++ "|" ++ y.Key → x = y := by
    intro x hx y hy hxy
    have h1 := parseTypeKey_encode x.Typ x.Key (hgood x hx)
    have h2 := parseTypeKey_encode y.Typ y.Key (hgood y hy)
    rw [hxy, h2] at h1
    injection h1 with e1 e2
    cases x; cases y; simp only at e1 e2; subst e1; subst e2; rfl
  unfold exportMap
  rw [exportMap_fold m [] (by simpa [mapKeys] using List.Nodup.map_on hinj hnd)]
  rw [List.nil_append, restoreMap_fold m hgood [] (by simpa using hnd)]
  rfl

/-! ### What `count` changes and maintains -/

theorem countLargestEntries_frame (c : Counter) (e : Entry) (n : Int) :
    countLargestEntries c e n =
      { c with largestEntries := (countLargestEntries c e n).largestEntries } := by
  unfold countLargestEntries
  simp only
  split
  · rfl
  · split
    · split
      · split <;> rfl
      · rfl
    · rfl

theorem countLargestEntries_fold_frame (n : Int) (es : List Entry) :
    ∀ c : Counter, es.foldl (fun c e => countLargestEntries c e n) c =
      { c with largestEntries :=
          (es.foldl (fun c e => countLargestEntries c e n) c).largestEntries } := by
  induction es with
  | nil => intro c; rfl
  | cons e es ih =>
    intro c
    simp only [List.foldl_cons]
    rw [ih (countLargestEntries c e n)]
    generalize (es.foldl (fun c e => countLargestEntries c e n)
      (countLargestEntries c e n)).largestEntries = l
    rw [countLargestEntries_frame c e n]

theorem countLargestEntries_length (c : Counter) (e : Entry)
    (h : c.largestEntries.length ≤ 500) :
    (countLargestEntries c e 500).largestEntries.length ≤ 500 := by
  unfold countLargestEntries
  simp only
  split
  · simp only
    rw [(heap_Push_perm _ _ _).length_eq]
    simp only [List.length_cons]
    omega
  · split
    · split
      · split
        · simp only
          rw [(heap_Push_perm _ _ _).length_eq]
          simp only [List.length_cons]
          rw [heap_Pop_length]
          omega
        · exact h
      · exact h
    · exact h

theorem countByKeyPrefix_frame (e : Entry) (ps : List String) :
    ∀ c : Counter, ps.foldl (countByKeyPrefix_step e) c =
      { c with
        keyPrefixBytes := (ps.foldl (countByKeyPrefix_step e) c).keyPrefixBytes
        keyPrefixNum := (ps.foldl (countByKeyPrefix_step e) c).keyPrefixNum } := by
  induction ps with
  | nil => intro c; rfl
  | cons p ps ih =>
    intro c
    simp only [List.foldl_cons]
    rw [ih (countByKeyPrefix_step e c p)]
    generalize (ps.foldl (countByKeyPrefix_step e) (countByKeyPrefix_step e c p)).keyPrefixBytes
      = kb
    generalize (ps.foldl (countByKeyPrefix_step e) (countByKeyPrefix_step e c p)).keyPrefixNum
      = kn
    unfold countByKeyPrefix_step
    split <;> rfl

theorem countLargestEntries_fields (c : Counter) (e : Entry) (n : Int) :
    (countLargestEntries c e n).lengthLevelBytes = c.lengthLevelBytes ∧
    (countLargestEntries c e n).lengthLevelNum = c.lengthLevelNum ∧
    (countLargestEntries c e n).keyPrefixDb = c.keyPrefixDb ∧
    (countLargestEntries c e n).typeBytes = c.typeBytes ∧
    (countLargestEntries c e n).typeNum = c.typeNum ∧
    (countLargestEntries c e n).TotalCount = c.TotalCount ∧
    (countLargestEntries c e n).largestKeyPrefixes = c.largestKeyPrefixes := by
  have h := countLargestEntries_frame c e n
  generalize (countLargestEntries c e n).largestEntries = l at h
  rw [h]
  exact ⟨rfl, rfl, rfl, rfl, rfl, rfl, rfl⟩

theorem countBySlot_fields (Slot : String → Int) (c : Counter) (e : Entry) :
    (countBySlot Slot c e).largestEntries = c.largestEntries ∧
    (countBySlot Slot c e).lengthLevelBytes = c.lengthLevelBytes ∧
    (countBySlot Slot c e).lengthLevelNum = c.lengthLevelNum ∧
    (countBySlot Slot c e).keyPrefixDb = c.keyPrefixDb ∧
    (countBySlot Slot c e).TotalCount = c.TotalCount := by
  unfold countBySlot
  split <;> exact ⟨rfl, rfl, rfl, rfl, rfl⟩

theorem countByKeyPrefix_fields (c : Counter) (e : Entry) :
    (countByKeyPrefix c e).largestEntries = c.largestEntries ∧
    (countByKeyPrefix c e).lengthLevelBytes = c.lengthLevelBytes ∧
    (countByKeyPrefix c e).lengthLevelNum = c.lengthLevelNum ∧
    (countByKeyPrefix c e).keyPrefixDb = c.keyPrefixDb ∧
    (countByKeyPrefix c e).TotalCount = c.TotalCount := by
  unfold countByKeyPrefix
  simp only
  rw [countByKeyPrefix_frame]
  exact ⟨rfl, rfl, rfl, rfl, rfl⟩

theorem countByLength_fields (c : Counter) (e : Entry) :
    (countByLength c e).largestEntries = c.largestEntries ∧
    (countByLength c e).keyPrefixDb = c.keyPrefixDb ∧
    (countByLength c e).TotalCount = c.TotalCount := by
  unfold countByLength countByLength_add
  (repeat' split) <;> exact ⟨rfl, rfl, rfl⟩

/-- the fields of `count` that the round trip reads -/
theorem count_fields (Slot : String → Int) (c : Counter) (e : Entry) :
    (count Slot c e).largestEntries = (countLargestEntries c e 500).largestEntries ∧
    (count Slot c e).lengthLevelBytes
      = (countByLength (countByType (countLargestEntries c e 500) e) e).lengthLevelBytes ∧
    (count Slot c e).lengthLevelNum
      = (countByLength (countByType (countLargestEntries c e 500) e) e).lengthLevelNum ∧
    (count Slot c e).keyPrefixDb = c.keyPrefixDb := by
  unfold count
  simp only
  have hk := (countLargestEntries_fields c e 500).2.2.1
  generalize countLargestEntries c e 500 = X at hk ⊢
  obtain ⟨s1, s2, s3, s4, _⟩ := countBySlot_fields Slot
    (countByKeyPrefix (countByLength (countByType X e) e) e) e
  obtain ⟨p1, p2, p3, p4, _⟩ := countByKeyPrefix_fields (countByLength (countByType X e) e) e
  obtain ⟨l1, l2, _⟩ := countByLength_fields (countByType X e) e
  rw [s1, s2, s3, s4, p1, p2, p3, p4, l1, l2]
  exact ⟨rfl, rfl, rfl, hk⟩

theorem countByLength_keys (c : Counter) (e : Entry) :
    (countByLength c e).lengthLevelBytes = c.lengthLevelBytes ∧
      (countByLength c e).lengthLevelNum = c.lengthLevelNum ∨
    ∃ (key : typeKey) (v w : Nat), key.Typ = e.Typ ∧
      (countByLength c e).lengthLevelBytes = mapSet c.lengthLevelBytes key v ∧
      (countByLength c e).lengthLevelNum = mapSet c.lengthLevelNum key w := by
  unfold countByLength countByLength_add
  (repeat' split)
  all_goals first
    | exact Or.inl ⟨rfl, rfl⟩
    | exact Or.inr ⟨_, _, _, rfl, rfl, rfl⟩

theorem count_inv (Slot : String → Int) (c : Counter) (e : Entry) (inv : CountInv c)
    (he : '|' ∉ e.Typ.toList) : CountInv (count Slot c e) := by
  obtain ⟨f1, f2, f3, f4⟩ := count_fields Slot c e
  obtain ⟨i1, i2, i3, i4, i5, i6⟩ := inv
  have hb : (countByType (countLargestEntries c e 500) e).lengthLevelBytes
      = c.lengthLevelBytes := by
    have h := (countLargestEntries_fields c e 500).1
    generalize countLargestEntries c e 500 = X at h ⊢
    exact h
  have hn : (countByType (countLargestEntries c e 500) e).lengthLevelNum
      = c.lengthLevelNum := by
    have h := (countLargestEntries_fields c e 500).2.1
    generalize countLargestEntries c e 500 = X at h ⊢
    exact h
  unfold CountInv
  rw [f1, f2, f3, f4]
  refine ⟨countLargestEntries_length c e i1, ?_⟩
  rcases countByLength_keys (countByType (countLargestEntries c e 500) e) e with ⟨h1, h2⟩ | ⟨key, v, w, hk, h1, h2⟩
  · rw [h1, h2, hb, hn]
    exact ⟨i2, i3, i4, i5, i6⟩
  · rw [h1, h2, hb, hn]
    refine ⟨mapKeys_mapSet_nodup _ _ _ i2, ?_, mapKeys_mapSet_nodup _ _ _ i4, ?_, i6⟩
    · intro k hk'
      rcases (mem_mapKeys_mapSet _ _ _ _).1 hk' with h | h
      · rw [h, hk]; exact he
      · exact i3 k h
    · intro k hk'
      rcases (mem_mapKeys_mapSet _ _ _ _).1 hk' with h | h
      · rw [h, hk]; exact he
      · exact i5 k h

theorem newCounter_inv : CountInv NewCounter := by
  unfold CountInv NewCounter mapKeys
  simp

theorem count_fold_inv (Slot : String → Int) (es : List Entry) :
    ∀ c : Counter, CountInv c → (∀ e ∈ es, '|' ∉ e.Typ.toList) →
      CountInv (es.foldl (count Slot) c) := by
  induction es with
  | nil => intro c h _; exact h
  | cons e es ih =>
    intro c h he
    simp only [List.foldl_cons]
    exact ih _ (count_inv Slot c e h (he e (by simp))) (fun e' h' => he e' (by simp [h']))

/-! ### C6: round trip of the type totals and length buckets -/

theorem toCounter_fields (dto : CounterDTO) :
    (ToCounter dto).typeBytes = dto.TypeBytes ∧
    (ToCounter dto).typeNum = dto.TypeNum ∧
    (ToCounter dto).lengthLevelBytes = restoreMap dto.LengthLevelBytes [] ∧
    (ToCounter dto).lengthLevelNum = restoreMap dto.LengthLevelNum [] ∧
    (ToCounter dto).keyPrefixDb = restoreMap dto.KeyPrefixDb [] ∧
    (ToCounter dto).TotalCount = 0 := by
  unfold ToCounter
  simp only
  rw [countLargestEntries_fold_frame]
  generalize (List.foldl (fun c e => countLargestEntries c e 500) _ dto.LargestEntries).largestEntries = l
  exact ⟨rfl, rfl, rfl, rfl, rfl, rfl⟩

theorem toCounter_largestEntries (dto : CounterDTO) :
    (ToCounter dto).largestEntries =
      (dto.LargestEntries.foldl (fun c e => countLargestEntries c e 500)
        { NewCounter with
          lengthLevel0 := dto.LengthLevel0
          lengthLevel1 := dto.LengthLevel1
          lengthLevel2 := dto.LengthLevel2
          lengthLevel3 := dto.LengthLevel3
          lengthLevel4 := dto.LengthLevel4
          typeBytes := dto.TypeBytes
          typeNum := dto.TypeNum
          slotBytes := dto.SlotBytes
          slotNum := dto.SlotNum }).largestEntries := by
  unfold ToCounter
  simp only

theorem getLenLevelCount_congr (c c' : Counter)
    (h1 : c'.lengthLevelBytes = c.lengthLevelBytes) (h2 : c'.lengthLevelNum = c.lengthLevelNum)
    (h3 : c'.keyPrefixDb = c.keyPrefixDb) : GetLenLevelCount c' = GetLenLevelCount c := by
  unfold GetLenLevelCount
  rw [h1, h2, h3]

/-- C6. For every counter reached from `NewCounter` by `count` on entries whose
type holds no `|`, `ToCounter(ToDTO(c))` has the `typeBytes` and `typeNum` of `c`,
and `GetLenLevelCount` returns the same records on both (as a multiset: the order
of a map iteration is not specified). -/
theorem toCounter_toDTO_types_lengths (Slot : String → Int) (es : List Entry)
    (htyp : ∀ e ∈ es, '|' ∉ e.Typ.toList) :
    (ToCounter (ToDTO (es.foldl (count Slot) NewCounter))).typeBytes
      = (es.foldl (count Slot) NewCounter).typeBytes ∧
    (ToCounter (ToDTO (es.foldl (count Slot) NewCounter))).typeNum
      = (es.foldl (count Slot) NewCounter).typeNum ∧
    (GetLenLevelCount (ToCounter (ToDTO (es.foldl (count Slot) NewCounter)))).Perm
      (GetLenLevelCount (es.foldl (count Slot) NewCounter)) := by
  obtain ⟨_, i2, i3, i4, i5, i6⟩ := count_fold_inv Slot es NewCounter newCounter_inv htyp
  generalize es.foldl (count Slot) NewCounter = c at *
  obtain ⟨f1, f2, f3, f4, f5, _⟩ := toCounter_fields (ToDTO c)
  refine ⟨by rw [f1]; rfl, by rw [f2]; rfl, ?_⟩
  rw [getLenLevelCount_congr c (ToCounter (ToDTO c))]
  · rw [f3]
    exact restoreMap_exportMap c.lengthLevelBytes i2 i3
  · rw [f4]
    exact restoreMap_exportMap c.lengthLevelNum i4 i5
  · rw [f5]
    show restoreMap (exportMap c.keyPrefixDb) [] = c.keyPrefixDb
    rw [i6]
    rfl

/-- C6 at a concrete input: a hash of 1500 elements and a short string. -/
theorem toCounter_toDTO_types_lengths_witness :
    (∀ e ∈ sampleTyped, '|' ∉ e.Typ.toList) ∧
    ((ToCounter (ToDTO (sampleTyped.foldl (count sampleSlot) NewCounter))).typeBytes
      = (sampleTyped.foldl (count sampleSlot) NewCounter).typeBytes ∧
    (ToCounter (ToDTO (sampleTyped.foldl (count sampleSlot) NewCounter))).typeNum
      = (sampleTyped.foldl (count sampleSlot) NewCounter).typeNum ∧
    (GetLenLevelCount (ToCounter (ToDTO (sampleTyped.foldl (count sampleSlot) NewCounter)))).Perm
      (GetLenLevelCount (sampleTyped.foldl (count sampleSlot) NewCounter))) :=
  ⟨by decide, toCounter_toDTO_types_lengths sampleSlot sampleTyped (by decide)⟩

/-! ### C7: round trip of the largest entries -/

theorem count_fold_heap_length (Slot : String → Int) (es : List Entry) :
    ∀ c : Counter, c.largestEntries.length ≤ 500 →
      (es.foldl (count Slot) c).largestEntries.length ≤ 500 := by
  induction es with
  | nil => intro c h; exact h
  | cons e es ih =>
    intro c h
    simp only [List.foldl_cons]
    apply ih
    rw [(count_fields Slot c e).1]
    exact countLargestEntries_length c e h

/-- below the capacity, `countLargestEntries` pushes every entry -/
theorem countLargestEntries_fold_perm (L : List Entry) :
    ∀ c : Counter, c.largestEntries.length + L.length ≤ 500 →
      (L.foldl (fun c e => countLargestEntries c e 500) c).largestEntries.Perm
        (c.largestEntries ++ L) := by
  induction L with
  | nil => intro c _; simp
  | cons e L ih =>
    intro c h
    simp only [List.foldl_cons, List.length_cons] at h ⊢
    have hstep : (countLargestEntries c e 500).largestEntries
        = heap_Push entryLess c.largestEntries e := by
      unfold countLargestEntries
      simp only
      rw [if_pos (by omega)]
    have hp := heap_Push_perm entryLess c.largestEntries e
    have := ih (countLargestEntries c e 500) (by rw [hstep, hp.length_eq]; simp; omega)
    refine this.trans ?_
    rw [hstep]
    exact (hp.append_right L).trans (by simpa using List.perm_middle.symm)

theorem getLargestEntries_ok (c : Counter) (num sizeFilter : Int) (hnum : 0 ≤ num) :
    GetLargestEntries c num sizeFilter = Except.ok
      ((sort_Sort (sort_Reverse entryLess) (c.largestEntries.filter
        (fun e => if sizeFilter > 0 then decide (e.Bytes > toUint64 sizeFilter) else true))).take
        num.toNat) := by
  unfold GetLargestEntries
  simp only
  generalize sort_Sort (sort_Reverse entryLess) (c.largestEntries.filter
    (fun e => if sizeFilter > 0 then decide (e.Bytes > toUint64 sizeFilter) else true)) = sorted
  by_cases h : num < (sorted.length : Int)
  · rw [if_pos h, if_neg (by omega)]
  · rw [if_neg h, List.take_of_length_le (by omega)]

theorem toDTO_largestEntries_perm (c : Counter) (h : c.largestEntries.length ≤ 500) :
    (ToDTO c).LargestEntries.Perm c.largestEntries := by
  have h1 : (ToDTO c).LargestEntries =
      match GetLargestEntries c 500 0 with
      | Except.ok res => res
      | Except.error _ => [] := rfl
  rw [h1, getLargestEntries_ok c 500 0 (by decide)]
  simp only
  have hf : c.largestEntries.filter
      (fun e => if (0 : Int) > 0 then decide (e.Bytes > toUint64 0) else true)
      = c.largestEntries := by
    simp
  rw [hf]
  have hs := (sort_Sort_sorted_perm (sort_Reverse entryLess)
    (sort_Reverse_strictWeak _ entryLess_strictWeak) c.largestEntries).2
  rw [List.take_of_length_le (by rw [hs.length_eq]; simpa using h)]
  exact hs

theorem toCounter_toDTO_heap_perm (c : Counter) (h : c.largestEntries.length ≤ 500) :
    (ToCounter (ToDTO c)).largestEntries.Perm c.largestEntries := by
  rw [toCounter_largestEntries]
  have hp := toDTO_largestEntries_perm c h
  refine (countLargestEntries_fold_perm _ _ ?_).trans ?_
  · show 0 + (ToDTO c).LargestEntries.length ≤ 500
    rw [hp.length_eq]; omega
  · show ([] ++ (ToDTO c).LargestEntries).Perm c.largestEntries
    simpa using hp

/-- the sorted `Bytes` of two heaps holding the same entries agree -/
theorem sorted_bytes_eq (P : Entry → Bool) (H H' : List Entry) (hp : H'.Perm H) :
    (sort_Sort (sort_Reverse entryLess) (H'.filter P)).map Entry.Bytes
      = (sort_Sort (sort_Reverse entryLess) (H.filter P)).map Entry.Bytes := by
  have sw := sort_Reverse_strictWeak _ entryLess_strictWeak
  obtain ⟨s1, p1⟩ := sort_Sort_sorted_perm (sort_Reverse entryLess) sw (H'.filter P)
  obtain ⟨s2, p2⟩ := sort_Sort_sorted_perm (sort_Reverse entryLess) sw (H.filter P)
  have key : ∀ l : List Entry, l.Pairwise (fun a b => sort_Reverse entryLess b a = false) →
      (l.map Entry.Bytes).Sorted (fun a b => a ≥ b) := by
    intro l hl
    unfold List.Sorted
    rw [List.pairwise_map]
    refine hl.imp ?_
    intro a b hab
    simp only [sort_Reverse, entryLess, decide_eq_false_iff_not] at hab
    omega
  apply List.eq_of_perm_of_sorted (r := fun a b : Nat => a ≥ b) _ (key _ s1) (key _ s2)
  exact (p1.trans ((hp.filter P).trans p2.symm)).map _

theorem sorted_eq_of_nodup (P : Entry → Bool) (H H' : List Entry) (hp : H'.Perm H)
    (hnd : (H.map Entry.Bytes).Nodup) :
    sort_Sort (sort_Reverse entryLess) (H'.filter P)
      = sort_Sort (sort_Reverse entryLess) (H.filter P) := by
  have sw := sort_Reverse_strictWeak _ entryLess_strictWeak
  obtain ⟨s1, p1⟩ := sort_Sort_sorted_perm (sort_Reverse entryLess) sw (H'.filter P)
  obtain ⟨s2, p2⟩ := sort_Sort_sorted_perm (sort_Reverse entryLess) sw (H.filter P)
  refine List.Perm.eq_of_sorted ?_ s1 s2 (p1.trans ((hp.filter P).trans p2.symm))
  intro a b ha hb hab hba
  have ha' : a ∈ H := hp.mem_iff.1 (List.mem_of_mem_filter (p1.mem_iff.1 ha))
  have hb' : b ∈ H := List.mem_of_mem_filter (p2.mem_iff.1 hb)
  simp only [sort_Reverse, entryLess, decide_eq_false_iff_not] at hab hba
  exact List.inj_on_of_nodup_map hnd ha' hb' (by omega)

/-- C7, amended. For every counter reached from `NewCounter` by `count`, every
`num >= 0` and every `sizeFilter`, `GetLargestEntries` succeeds on `c` and on
`ToCounter(ToDTO(c))`, and the two lists carry the same sequence of `Bytes`; they
are the identical list when no two held entries have equal `Bytes`, and hold the
same entries (possibly in another order among equal `Bytes`) when `num` cuts
nothing off. -/
theorem getLargestEntries_roundTrip (Slot : String → Int) (es : List Entry)
    (num sizeFilter : Int) (hnum : 0 ≤ num) :
    ∃ l l', GetLargestEntries (es.foldl (count Slot) NewCounter) num sizeFilter = Except.ok l ∧
      GetLargestEntries (ToCounter (ToDTO (es.foldl (count Slot) NewCounter))) num sizeFilter
        = Except.ok l' ∧
      l'.map Entry.Bytes = l.map Entry.Bytes ∧
      (((es.foldl (count Slot) NewCounter).largestEntries.map Entry.Bytes).Nodup → l' = l) ∧
      (((es.foldl (count Slot) NewCounter).largestEntries.length : Int) ≤ num → l'.Perm l) := by
  have hlen := count_fold_heap_length Slot es NewCounter (by simp [NewCounter])
  generalize es.foldl (count Slot) NewCounter = c at *
  have hp := toCounter_toDTO_heap_perm c hlen
  refine ⟨_, _, getLargestEntries_ok c num sizeFilter hnum,
    getLargestEntries_ok (ToCounter (ToDTO c)) num sizeFilter hnum, ?_, ?_, ?_⟩
  · rw [List.map_take, List.map_take, sorted_bytes_eq _ _ _ hp]
  · intro hnd
    rw [sorted_eq_of_nodup _ _ _ hp hnd]
  · intro hfit
    have sw := sort_Reverse_strictWeak _ entryLess_strictWeak
    obtain ⟨_, p1⟩ := sort_Sort_sorted_perm (sort_Reverse entryLess) sw
      ((ToCounter (ToDTO c)).largestEntries.filter
        (fun e => if sizeFilter > 0 then decide (e.Bytes > toUint64 sizeFilter) else true))
    obtain ⟨_, p2⟩ := sort_Sort_sorted_perm (sort_Reverse entryLess) sw
      (c.largestEntries.filter
        (fun e => if sizeFilter > 0 then decide (e.Bytes > toUint64 sizeFilter) else true))
    have l1 := List.length_filter_le
      (fun e => if sizeFilter > 0 then decide (e.Bytes > toUint64 sizeFilter) else true)
      c.largestEntries
    have l2 := List.length_filter_le
      (fun e => if sizeFilter > 0 then decide (e.Bytes > toUint64 sizeFilter) else true)
      (ToCounter (ToDTO c)).largestEntries
    have l3 := hp.length_eq
    rw [List.take_of_length_le (by rw [p1.length_eq]; omega),
      List.take_of_length_le (by rw [p2.length_eq]; omega)]
    exact p1.trans ((hp.filter _).trans p2.symm)

/-- C7 as stated fails: with three held entries of equal `Bytes` the list returned
after the round trip orders them differently. -/
theorem roundTrip_reorders_equal_bytes :
    GetLargestEntries (sampleTies.foldl (count sampleSlot) NewCounter) 4 0
      = Except.ok [mkEntry "P" "string" 7 0, mkEntry "Q" "string" 7 0,
          mkEntry "R" "string" 7 0, mkEntry "A" "string" 5 0] ∧
    GetLargestEntries (ToCounter (ToDTO (sampleTies.foldl (count sampleSlot) NewCounter))) 4 0
      = Except.ok [mkEntry "P" "string" 7 0, mkEntry "R" "string" 7 0,
          mkEntry "Q" "string" 7 0, mkEntry "A" "string" 5 0] ∧
    GetLargestEntries (ToCounter (ToDTO (sampleTies.foldl (count sampleSlot) NewCounter))) 4 0
      ≠ GetLargestEntries (sampleTies.foldl (count sampleSlot) NewCounter) 4 0 := by
  have h1 : GetLargestEntries (sampleTies.foldl (count sampleSlot) NewCounter) 4 0
      = Except.ok [mkEntry "P" "string" 7 0, mkEntry "Q" "string" 7 0,
          mkEntry "R" "string" 7 0, mkEntry "A" "string" 5 0] := by rfl
  have h2 : GetLargestEntries
      (ToCounter (ToDTO (sampleTies.foldl (count sampleSlot) NewCounter))) 4 0
      = Except.ok [mkEntry "P" "string" 7 0, mkEntry "R" "string" 7 0,
          mkEntry "Q" "string" 7 0, mkEntry "A" "string" 5 0] := by rfl
  refine ⟨h1, h2, ?_⟩
  rw [h1, h2]
  intro h
  injection h with h
  revert h
  decide


/-- C7, amended, at a concrete input with equal `Bytes`. -/
theorem getLargestEntries_roundTrip_witness :
    (0 : Int) ≤ 4 ∧
    ∃ l l', GetLargestEntries (sampleTies.foldl (count sampleSlot) NewCounter) 4 0
        = Except.ok l ∧
      GetLargestEntries (ToCounter (ToDTO (sampleTies.foldl (count sampleSlot) NewCounter))) 4 0
        = Except.ok l' ∧
      l'.map Entry.Bytes = l.map Entry.Bytes ∧
      (((sampleTies.foldl (count sampleSlot) NewCounter).largestEntries.map
        Entry.Bytes).Nodup → l' = l) ∧
      (((sampleTies.foldl (count sampleSlot) NewCounter).largestEntries.length : Int) ≤ 4 →
        l'.Perm l) :=
  ⟨by decide, getLargestEntries_roundTrip sampleSlot sampleTies 4 0 (by decide)⟩

/-! ### C8: the running total and the DTO -/

theorem count_totalCount (Slot : String → Int) (c : Counter) (e : Entry) :
    (count Slot c e).TotalCount = c.TotalCount := by
  unfold count
  simp only
  have hk := (countLargestEntries_fields c e 500).2.2.2.2.2.1
  generalize countLargestEntries c e 500 = X at hk ⊢
  rw [(countBySlot_fields Slot _ e).2.2.2.2, (countByKeyPrefix_fields _ e).2.2.2.2,
    (countByLength_fields _ e).2.2]
  exact hk

theorem calcuLargestKeyPrefix_totalCount (num : Int) (ks : List typeKey) :
    ∀ c : Counter, (ks.foldl (calcuLargestKeyPrefix_step num) c).TotalCount = c.TotalCount := by
  induction ks with
  | nil => intro c; rfl
  | cons k ks ih =>
    intro c
    simp only [List.foldl_cons]
    rw [ih]
    rfl

theorem count_loop_totalCount (Slot : String → Int) (es : List Entry) :
    ∀ (c : Counter) (n : Nat), c.TotalCount = n → n < 18446744073709551616 →
      (es.foldl
        (fun (st : Counter × Nat) e =>
          ({ count Slot st.1 e with TotalCount := add64 st.2 1 }, add64 st.2 1))
        (c, n)).1.TotalCount = (n + es.length) % 18446744073709551616 := by
  induction es with
  | nil =>
    intro c n hc hn
    simp only [List.foldl_nil, List.length_nil, Nat.add_zero]
    rw [hc, Nat.mod_eq_of_lt hn]
  | cons e es ih =>
    intro c n hc hn
    simp only [List.foldl_cons, List.length_cons]
    rw [ih _ (add64 n 1) rfl (by unfold add64 wrap64; exact Nat.mod_lt _ (by decide))]
    unfold add64 wrap64
    omega

/-- C8, amended. After `Count` over `n` entries from `NewCounter` the running total
`TotalCount` is `n` (mod `2^64`, so `n` itself below `2^64`); `CounterDTO` has no
field for it and `ToCounter(ToDTO(c)).TotalCount` is 0. -/
theorem totalCount_not_exported (Slot : String → Int) (es : List Entry) :
    (Count Slot NewCounter es).TotalCount = es.length % 18446744073709551616 ∧
    (es.length < 18446744073709551616 → (Count Slot NewCounter es).TotalCount = es.length) ∧
    (ToCounter (ToDTO (Count Slot NewCounter es))).TotalCount = 0 := by
  have h1 : (Count Slot NewCounter es).TotalCount = es.length % 18446744073709551616 := by
    unfold Count calcuLargestKeyPrefix
    simp only
    rw [calcuLargestKeyPrefix_totalCount,
      count_loop_totalCount Slot es NewCounter 0 rfl (by decide)]
    simp
  refine ⟨h1, ?_, (toCounter_fields _).2.2.2.2.2⟩
  intro hlt
  rw [h1, Nat.mod_eq_of_lt hlt]

/-- C8 as stated fails: after `Count` over two entries `TotalCount` is 2, and 0
after export and import. -/
theorem totalCount_lost_in_roundTrip :
    (Count sampleSlot NewCounter sampleTyped).TotalCount = 2 ∧
    (ToCounter (ToDTO (Count sampleSlot NewCounter sampleTyped))).TotalCount = 0 ∧
    (ToCounter (ToDTO (Count sampleSlot NewCounter sampleTyped))).TotalCount
      ≠ (Count sampleSlot NewCounter sampleTyped).TotalCount := by
  refine ⟨by rfl, by rfl, ?_⟩
  have h1 : (Count sampleSlot NewCounter sampleTyped).TotalCount = 2 := by rfl
  have h2 : (ToCounter (ToDTO (Count sampleSlot NewCounter sampleTyped))).TotalCount = 0 := by rfl
  rw [h1, h2]
  decide

/-! ### C9: format versions below 10 in `Hset` -/

theorem updateLargest_bytes (e : Entry) (n : Nat) (s : String) :
    (updateLargest e n s).Bytes = e.Bytes := by
  unfold updateLargest
  split <;> rfl

theorem updateLargest_setBytes (e : Entry) (n : Nat) (s : String) (b : Nat) :
    updateLargest { e with Bytes := b } n s = { updateLargest e n s with Bytes := b } := by
  unfold updateLargest
  simp only
  split <;> rfl

/-- the cost that `Hset` adds for one pair of a `hashtable` hash at format version `ver` -/
theorem Hset_hashtable (d : Decoder) (key field value : String) (e : Entry) (i : Info)
    (he : d.currentEntry = some e) (hi : d.currentInfo = some i)
    (henc : i.Encoding = "hashtable") :
    ∃ e', Hset d key field value = Except.ok { d with currentEntry := some e' } ∧
      e'.Bytes = (e.Bytes + (d.m.SizeofString field + d.m.SizeofString value
        + d.m.HashTableEntryOverHead + (if d.rdbVer < 10 then 2 * d.m.RobjOverHead else 0)))
        % 18446744073709551616 ∧
      { e' with Bytes := 0 } = updateLargest { e with Bytes := 0 }
        (add64 (d.m.ElemLen field) (d.m.ElemLen value)) field := by
  unfold Hset
  rw [he, hi]
  simp only [henc, if_true]
  have hub := updateLargest_bytes e (add64 (d.m.ElemLen field) (d.m.ElemLen value)) field
  have hus := updateLargest_setBytes e (add64 (d.m.ElemLen field) (d.m.ElemLen value)) field 0
  generalize updateLargest e (add64 (d.m.ElemLen field) (d.m.ElemLen value)) field = u
    at hub hus ⊢
  refine ⟨_, rfl, ?_, ?_⟩
  · show (if d.rdbVer < 10 then _ else _) = _
    rw [hub]
    unfold add64 mul64 wrap64
    split <;> omega
  · rw [hus]

theorem Hset_fold_hashtable (key : String) (i : Info) (henc : i.Encoding = "hashtable")
    (pairs : List (String × String)) :
    ∀ (d : Decoder) (e : Entry), d.currentEntry = some e → d.currentInfo = some i →
      e.Bytes < 18446744073709551616 →
      ∃ e', pairs.foldlM (fun acc fv => Hset acc key fv.1 fv.2) d
          = Except.ok { d with currentEntry := some e' } ∧
        e'.Bytes = (e.Bytes + (pairs.map (fun fv => d.m.SizeofString fv.1
          + d.m.SizeofString fv.2 + d.m.HashTableEntryOverHead
          + (if d.rdbVer < 10 then 2 * d.m.RobjOverHead else 0))).sum) % 18446744073709551616 ∧
        { e' with Bytes := 0 } = pairs.foldl
          (fun a fv => updateLargest a (add64 (d.m.ElemLen fv.1) (d.m.ElemLen fv.2)) fv.1)
          { e with Bytes := 0 } := by
  induction pairs with
  | nil =>
    intro d e he _ hlt
    refine ⟨e, ?_, ?_, rfl⟩
    · simp only [List.foldlM_nil]
      have : ({ d with currentEntry := some e } : Decoder) = d := by
        cases d; simp only at he; subst he; rfl
      rw [this]; rfl
    · simp only [List.map_nil, List.sum_nil, Nat.add_zero]
      exact (Nat.mod_eq_of_lt hlt).symm
  | cons fv pairs ih =>
    intro d e he hi hlt
    obtain ⟨e1, h1, hb1, hr1⟩ := Hset_hashtable d key fv.1 fv.2 e i he hi henc
    obtain ⟨e', h2, hb2, hr2⟩ := ih { d with currentEntry := some e1 } e1 rfl hi
      (by rw [hb1]; exact Nat.mod_lt _ (by decide))
    refine ⟨e', ?_, ?_, ?_⟩
    · simp only [List.foldlM_cons, h1]
      exact h2
    · rw [hb2, hb1]
      simp only [List.map_cons, List.sum_cons]
      omega
    · rw [hr2, hr1]
      rfl


theorem sum_map_add_const {β : Type} (l : List β) (f : β → Nat) (c : Nat) :
    (l.map (fun x => f x + c)).sum = (l.map f).sum + l.length * c := by
  induction l with
  | nil => simp
  | cons x l ih =>
    simp only [List.map_cons, List.sum_cons, List.length_cons, ih]
    rw [Nat.add_mul]
    omega

/-- the record that one `hashtable` hash emits at format version `ver` -/
theorem feedHash_hashtable (d : Decoder) (ver : Int) (key : String) (length expiry : Int)
    (info : Info) (pairs : List (String × String)) (henc : info.Encoding = "hashtable") :
    ∃ d' e, feedHash d ver key length expiry info pairs = Except.ok d' ∧
      d'.Entries = d.Entries ++ [some e] ∧
      e.Bytes = (d.m.TopLevelObjOverhead key expiry + d.m.HashTableOverHead (toUint64 length)
        + (pairs.map (fun fv => d.m.SizeofString fv.1 + d.m.SizeofString fv.2
          + d.m.HashTableEntryOverHead + (if ver < 10 then 2 * d.m.RobjOverHead else 0))).sum)
        % 18446744073709551616 ∧
      { e with Bytes := 0 } = pairs.foldl
        (fun a fv => updateLargest a (add64 (d.m.ElemLen fv.1) (d.m.ElemLen fv.2)) fv.1)
        { Key := key, Bytes := 0, Typ := "hash", Encoding := info.Encoding,
          NumOfElem := toUint64 length, LenOfLargestElem := 0, FieldOfLargestElem := "",
          Expiration := expiry, LruIdle := info.Idle, LfuFreq := info.Freq, Db := d.Db } := by
  have hstart : StartHash (StartRDB d ver) key length expiry (some info) = Except.ok
      { StartRDB d ver with
        currentInfo := some info
        currentEntry := some
          { Key := key
            Bytes := add64 (d.m.TopLevelObjOverhead key expiry)
              (d.m.HashTableOverHead (toUint64 length))
            Typ := "hash", Encoding := info.Encoding,
            NumOfElem := toUint64 length, LenOfLargestElem := 0, FieldOfLargestElem := "",
            Expiration := expiry, LruIdle := info.Idle, LfuFreq := info.Freq, Db := d.Db } } := by
    unfold StartHash
    simp only [henc, if_true]
    rfl
  obtain ⟨e, hf, hb, hr⟩ := Hset_fold_hashtable key info henc pairs
    { StartRDB d ver with
      currentInfo := some info
      currentEntry := some
        { Key := key
          Bytes := add64 (d.m.TopLevelObjOverhead key expiry)
            (d.m.HashTableOverHead (toUint64 length))
          Typ := "hash", Encoding := info.Encoding,
          NumOfElem := toUint64 length, LenOfLargestElem := 0, FieldOfLargestElem := "",
          Expiration := expiry, LruIdle := info.Idle, LfuFreq := info.Freq, Db := d.Db } }
    { Key := key
      Bytes := add64 (d.m.TopLevelObjOverhead key expiry)
        (d.m.HashTableOverHead (toUint64 length))
      Typ := "hash", Encoding := info.Encoding,
      NumOfElem := toUint64 length, LenOfLargestElem := 0, FieldOfLargestElem := "",
      Expiration := expiry, LruIdle := info.Idle, LfuFreq := info.Freq, Db := d.Db }
    rfl rfl
    (show add64 (d.m.TopLevelObjOverhead key expiry) (d.m.HashTableOverHead (toUint64 length))
      < 18446744073709551616 from Nat.mod_lt _ (by decide))
  have hfeed : feedHash d ver key length expiry info pairs = Except.ok
      (sendEntry { StartRDB d ver with currentInfo := some info, currentEntry := some e }) := by
    unfold feedHash
    rw [hstart]
    simp only
    rw [hf]
    rfl
  refine ⟨_, e, hfeed, rfl, ?_, hr⟩
  · rw [hb]
    show (add64 _ _ + (pairs.map (fun fv => d.m.SizeofString fv.1 + d.m.SizeofString fv.2
          + d.m.HashTableEntryOverHead + (if ver < 10 then 2 * d.m.RobjOverHead else 0))).sum)
        % 18446744073709551616 = _
    unfold add64 wrap64
    omega

/-- C9. For a hash opened by `StartHash` with encoding `hashtable`, followed by `n`
`Hset` calls and `EndHash`, both format versions emit one record; the `Bytes` at a
version below 10 is the `Bytes` at a version from 10 on plus `2*n*RobjOverHead()`
(mod `2^64`), every other field is the same, and from version 10 on the `Bytes` is
the sum of the top-level, hash-table, string and entry overheads alone. -/
theorem feedHash_below_version_10 (d : Decoder) (v1 v2 : Int) (key : String) (length expiry : Int)
    (info : Info) (pairs : List (String × String)) (henc : info.Encoding = "hashtable")
    (h1 : v1 < 10) (h2 : 10 ≤ v2) :
    ∃ d1 d2 e1 e2,
      feedHash d v1 key length expiry info pairs = Except.ok d1 ∧
      feedHash d v2 key length expiry info pairs = Except.ok d2 ∧
      d1.Entries = d.Entries ++ [some e1] ∧ d2.Entries = d.Entries ++ [some e2] ∧
      e1.Bytes = (e2.Bytes + 2 * pairs.length * d.m.RobjOverHead) % 18446744073709551616 ∧
      e1 = { e2 with Bytes := e1.Bytes } ∧
      e2.Bytes = (d.m.TopLevelObjOverhead key expiry + d.m.HashTableOverHead (toUint64 length)
        + (pairs.map (fun fv => d.m.SizeofString fv.1 + d.m.SizeofString fv.2
          + d.m.HashTableEntryOverHead)).sum) % 18446744073709551616 := by
  obtain ⟨d1, e1, r1, n1, b1, s1⟩ := feedHash_hashtable d v1 key length expiry info pairs henc
  obtain ⟨d2, e2, r2, n2, b2, s2⟩ := feedHash_hashtable d v2 key length expiry info pairs henc
  rw [if_pos h1, sum_map_add_const] at b1
  rw [if_neg (by omega)] at b2
  simp only [Nat.add_zero] at b2
  refine ⟨d1, d2, e1, e2, r1, r2, n1, n2, ?_, ?_, b2⟩
  · rw [b1, b2]
    have : pairs.length * (2 * d.m.RobjOverHead) = 2 * pairs.length * d.m.RobjOverHead := by
      rw [Nat.mul_comm 2, Nat.mul_assoc, Nat.mul_comm 2]
      rw [← Nat.mul_assoc]
    rw [this]
    omega
  · have h := s1.trans s2.symm
    cases e1; cases e2
    simp only [Entry.mk.injEq] at h ⊢
    obtain ⟨a1, _, a3, a4, a5, a6, a7, a8, a9, a10, a11⟩ := h
    exact ⟨a1, trivial, a3, a4, a5, a6, a7, a8, a9, a10, a11⟩

/-- C9 at a concrete input: three pairs, versions 9 and 10. -/
theorem feedHash_below_version_10_witness :
    (sampleHashInfo.Encoding = "hashtable" ∧ (9 : Int) < 10 ∧ (10 : Int) ≤ 10) ∧
    ∃ d1 d2 e1 e2,
      feedHash sampleDecoder 9 "h" 3 0 sampleHashInfo [("a", "1"), ("b", "2"), ("c", "3")]
        = Except.ok d1 ∧
      feedHash sampleDecoder 10 "h" 3 0 sampleHashInfo [("a", "1"), ("b", "2"), ("c", "3")]
        = Except.ok d2 ∧
      d1.Entries = sampleDecoder.Entries ++ [some e1] ∧
      d2.Entries = sampleDecoder.Entries ++ [some e2] ∧
      e1.Bytes = (e2.Bytes + 2 * [("a", "1"), ("b", "2"), ("c", "3")].length
        * sampleDecoder.m.RobjOverHead) % 18446744073709551616 ∧
      e1 = { e2 with Bytes := e1.Bytes } ∧
      e2.Bytes = (sampleDecoder.m.TopLevelObjOverhead "h" 0
        + sampleDecoder.m.HashTableOverHead (toUint64 3)
        + ([("a", "1"), ("b", "2"), ("c", "3")].map (fun fv =>
            sampleDecoder.m.SizeofString fv.1 + sampleDecoder.m.SizeofString fv.2
            + sampleDecoder.m.HashTableEntryOverHead)).sum) % 18446744073709551616 :=
  ⟨⟨by decide, by decide, by decide⟩,
    feedHash_below_version_10 sampleDecoder 9 10 "h" 3 0 sampleHashInfo
      [("a", "1"), ("b", "2"), ("c", "3")] (by decide) (by decide) (by decide)⟩

/-! ### C10: format versions below 10 in the other containers -/

/-- C10 as stated fails: with `RobjOverHead() = 16`, after `StartRDB(ver)` and the
`Start...` callback, one `Sadd` on a `hashtable` set, one `Zadd` on a `skiplist`
sorted set and one `Rpush` on a `linkedlist` list each leave 16 bytes more in the
open record at version 9 than at version 10, not 32. -/
theorem sadd_zadd_rpush_one_robj :
    currentBytes ((StartSet (StartRDB sampleDecoder 9) "k" 1 0 (some sampleHashInfo)).bind
      (fun d => Sadd d "k" "member")) = some 176 ∧
    currentBytes ((StartSet (StartRDB sampleDecoder 10) "k" 1 0 (some sampleHashInfo)).bind
      (fun d => Sadd d "k" "member")) = some 160 ∧
    currentBytes ((StartZSet (StartRDB sampleDecoder 9) "k" 1 0
        (some { sampleHashInfo with Encoding := "skiplist" })).bind
      (fun d => Zadd d "k" "member")) = some 232 ∧
    currentBytes ((StartZSet (StartRDB sampleDecoder 10) "k" 1 0
        (some { sampleHashInfo with Encoding := "skiplist" })).bind
      (fun d => Zadd d "k" "member")) = some 216 ∧
    currentBytes ((StartList (StartRDB sampleDecoder 9) "k" 1 0
        (some { sampleHashInfo with Encoding := "linkedlist" })).bind
      (fun d => Rpush d "k" "member" 0)) = some 112 ∧
    currentBytes ((StartList (StartRDB sampleDecoder 10) "k" 1 0
        (some { sampleHashInfo with Encoding := "linkedlist" })).bind
      (fun d => Rpush d "k" "member" 0)) = some 96 ∧
    sampleDecoder.m.RobjOverHead = 16 ∧
    (176 : Nat) ≠ (160 + 2 * 16) % 18446744073709551616 ∧
    (232 : Nat) ≠ (216 + 2 * 16) % 18446744073709551616 ∧
    (112 : Nat) ≠ (96 + 2 * 16) % 18446744073709551616 := by
  refine ⟨by rfl, by rfl, by rfl, by rfl, by rfl, by rfl, by rfl, by decide, by decide,
    by decide⟩

theorem Sadd_hashtable (d : Decoder) (key member : String) (e : Entry) (i : Info)
    (he : d.currentEntry = some e) (hi : d.currentInfo = some i)
    (henc : i.Encoding = "hashtable") :
    ∃ e', Sadd d key member = Except.ok { d with currentEntry := some e' } ∧
      e'.Bytes = (e.Bytes + (d.m.SizeofString member + d.m.HashTableEntryOverHead
        + (if d.rdbVer < 10 then d.m.RobjOverHead else 0))) % 18446744073709551616 ∧
      { e' with Bytes := 0 } = updateLargest { e with Bytes := 0 } (d.m.ElemLen member) member := by
  unfold Sadd
  rw [he, hi]
  simp only [henc, if_true]
  have hub := updateLargest_bytes e (d.m.ElemLen member) member
  have hus := updateLargest_setBytes e (d.m.ElemLen member) member 0
  generalize updateLargest e (d.m.ElemLen member) member = u at hub hus ⊢
  refine ⟨_, rfl, ?_, ?_⟩
  · show (if d.rdbVer < 10 then _ else _) = _
    rw [hub]
    unfold add64 wrap64
    split <;> omega
  · rw [hus]

theorem updateLargest_idem (e : Entry) (n : Nat) (s : String) :
    updateLargest (updateLargest e n s) n s = updateLargest e n s := by
  unfold updateLargest
  by_cases h : n > e.LenOfLargestElem
  · rw [if_pos h]
    simp only
    rw [if_neg (by omega)]
  · rw [if_neg h, if_neg h]

theorem Zadd_skiplist (d : Decoder) (key member : String) (e : Entry) (i : Info)
    (he : d.currentEntry = some e) (hi : d.currentInfo = some i)
    (henc : i.Encoding = "skiplist") :
    ∃ e', Zadd d key member = Except.ok { d with currentEntry := some e' } ∧
      e'.Bytes = (e.Bytes + (8 + d.m.SizeofString member + d.m.SkipListEntryOverHead
        + (if d.rdbVer < 10 then d.m.RobjOverHead else 0))) % 18446744073709551616 ∧
      { e' with Bytes := 0 } = updateLargest { e with Bytes := 0 } (d.m.ElemLen member) member := by
  unfold Zadd
  rw [he, hi]
  simp only [henc, if_true]
  have hub := updateLargest_bytes e (d.m.ElemLen member) member
  have hus := updateLargest_setBytes e (d.m.ElemLen member) member
  have hid := updateLargest_idem e (d.m.ElemLen member) member
  generalize updateLargest e (d.m.ElemLen member) member = u at hub hus hid ⊢
  have hu2 : ∀ b, updateLargest { u with Bytes := b } (d.m.ElemLen member) member
      = { u with Bytes := b } := by
    intro b
    rw [updateLargest_setBytes, hid]
  refine ⟨_, rfl, ?_, ?_⟩
  · show (if d.rdbVer < 10 then _ else _) = _
    rw [hu2]
    simp only
    rw [hub]
    unfold add64 wrap64
    split <;> omega
  · rw [hu2, hus]

theorem Rpush_linkedlist (d : Decoder) (key value : String) (n : Nat) (e : Entry) (i : Info)
    (he : d.currentEntry = some e) (hi : d.currentInfo = some i)
    (henc : i.Encoding = "linkedlist") :
    ∃ e', Rpush d key value n = Except.ok { d with currentEntry := some e' } ∧
      e'.Bytes = (e.Bytes + (d.m.LinkedListEntryOverHead
        + (if strconv_ParseInt_ok value 32 then 0 else d.m.SizeofString value)
        + (if d.rdbVer < 10 then d.m.RobjOverHead else 0))) % 18446744073709551616 ∧
      { e' with Bytes := 0 } = updateLargest
        { e with Bytes := 0, NumOfElem := add64 e.NumOfElem 1 } (d.m.ElemLen value) value := by
  unfold Rpush
  rw [he, hi]
  have h1 : i.Encoding ≠ "quicklist" := by rw [henc]; decide
  have h2 : i.Encoding ≠ "ziplist" := by rw [henc]; decide
  simp only [h1, h2, if_false]
  simp only [henc, if_true]
  refine ⟨_, rfl, ?_, ?_⟩
  · rw [updateLargest_bytes]
    show (if d.rdbVer < 10 then _ else _) = _
    unfold add64 wrap64
    split <;> split <;> omega
  · rw [← updateLargest_setBytes]


theorem entry_eq_of_erase (e1 e2 : Entry)
    (h : ({ e1 with Bytes := 0 } : Entry) = { e2 with Bytes := 0 }) :
    e1 = { e2 with Bytes := e1.Bytes } := by
  cases e1; cases e2
  simp only [Entry.mk.injEq] at h ⊢
  obtain ⟨a1, _, a3, a4, a5, a6, a7, a8, a9, a10, a11⟩ := h
  exact ⟨a1, trivial, a3, a4, a5, a6, a7, a8, a9, a10, a11⟩

/-- C10, amended. Below format version 10 an element added to a pointer-based
container costs exactly one `RobjOverHead()` more than the same element at a
version from 10 on for `Sadd` on a `hashtable` set, `Zadd` on a `skiplist` sorted
set and `Rpush` on a `linkedlist` list, and exactly two for `Hset` on a
`hashtable` hash (mod `2^64`); the other fields of the open record do not depend
on the version. -/
theorem element_below_version_10 (dS dZ dL dH : Decoder) (eS eZ eL eH : Entry)
    (iS iZ iL iH : Info)
    (v1 v2 : Int) (key x y : String) (n : Nat)
    (hS : dS.currentEntry = some eS ∧ dS.currentInfo = some iS ∧ iS.Encoding = "hashtable")
    (hZ : dZ.currentEntry = some eZ ∧ dZ.currentInfo = some iZ ∧ iZ.Encoding = "skiplist")
    (hL : dL.currentEntry = some eL ∧ dL.currentInfo = some iL ∧ iL.Encoding = "linkedlist")
    (hH : dH.currentEntry = some eH ∧ dH.currentInfo = some iH ∧ iH.Encoding = "hashtable")
    (h1 : v1 < 10) (h2 : 10 ≤ v2) :
    (∃ e1 e2, Sadd (StartRDB dS v1) key x
          = Except.ok { StartRDB dS v1 with currentEntry := some e1 } ∧
        Sadd (StartRDB dS v2) key x = Except.ok { StartRDB dS v2 with currentEntry := some e2 } ∧
        e1.Bytes = (e2.Bytes + dS.m.RobjOverHead) % 18446744073709551616 ∧
        e1 = { e2 with Bytes := e1.Bytes }) ∧
    (∃ e1 e2, Zadd (StartRDB dZ v1) key x
          = Except.ok { StartRDB dZ v1 with currentEntry := some e1 } ∧
        Zadd (StartRDB dZ v2) key x = Except.ok { StartRDB dZ v2 with currentEntry := some e2 } ∧
        e1.Bytes = (e2.Bytes + dZ.m.RobjOverHead) % 18446744073709551616 ∧
        e1 = { e2 with Bytes := e1.Bytes }) ∧
    (∃ e1 e2, Rpush (StartRDB dL v1) key x n
          = Except.ok { StartRDB dL v1 with currentEntry := some e1 } ∧
        Rpush (StartRDB dL v2) key x n
          = Except.ok { StartRDB dL v2 with currentEntry := some e2 } ∧
        e1.Bytes = (e2.Bytes + dL.m.RobjOverHead) % 18446744073709551616 ∧
        e1 = { e2 with Bytes := e1.Bytes }) ∧
    (∃ e1 e2, Hset (StartRDB dH v1) key x y
          = Except.ok { StartRDB dH v1 with currentEntry := some e1 } ∧
        Hset (StartRDB dH v2) key x y
          = Except.ok { StartRDB dH v2 with currentEntry := some e2 } ∧
        e1.Bytes = (e2.Bytes + 2 * dH.m.RobjOverHead) % 18446744073709551616 ∧
        e1 = { e2 with Bytes := e1.Bytes }) := by
  have n2 : ¬ v2 < 10 := by omega
  refine ⟨?_, ?_, ?_, ?_⟩
  · obtain ⟨e1, r1, b1, s1⟩ := Sadd_hashtable (StartRDB dS v1) key x eS iS hS.1 hS.2.1 hS.2.2
    obtain ⟨e2, r2, b2, s2⟩ := Sadd_hashtable (StartRDB dS v2) key x eS iS hS.1 hS.2.1 hS.2.2
    refine ⟨e1, e2, r1, r2, ?_, entry_eq_of_erase e1 e2 (s1.trans s2.symm)⟩
    rw [b1, b2]
    simp only [StartRDB, if_pos h1, if_neg n2]
    omega
  · obtain ⟨e1, r1, b1, s1⟩ := Zadd_skiplist (StartRDB dZ v1) key x eZ iZ hZ.1 hZ.2.1 hZ.2.2
    obtain ⟨e2, r2, b2, s2⟩ := Zadd_skiplist (StartRDB dZ v2) key x eZ iZ hZ.1 hZ.2.1 hZ.2.2
    refine ⟨e1, e2, r1, r2, ?_, entry_eq_of_erase e1 e2 (s1.trans s2.symm)⟩
    rw [b1, b2]
    simp only [StartRDB, if_pos h1, if_neg n2]
    omega
  · obtain ⟨e1, r1, b1, s1⟩ := Rpush_linkedlist (StartRDB dL v1) key x n eL iL hL.1 hL.2.1 hL.2.2
    obtain ⟨e2, r2, b2, s2⟩ := Rpush_linkedlist (StartRDB dL v2) key x n eL iL hL.1 hL.2.1 hL.2.2
    refine ⟨e1, e2, r1, r2, ?_, entry_eq_of_erase e1 e2 (s1.trans s2.symm)⟩
    rw [b1, b2]
    simp only [StartRDB, if_pos h1, if_neg n2]
    omega
  · obtain ⟨e1, r1, b1, s1⟩ := Hset_hashtable (StartRDB dH v1) key x y eH iH hH.1 hH.2.1 hH.2.2
    obtain ⟨e2, r2, b2, s2⟩ := Hset_hashtable (StartRDB dH v2) key x y eH iH hH.1 hH.2.1 hH.2.2
    refine ⟨e1, e2, r1, r2, ?_, entry_eq_of_erase e1 e2 (s1.trans s2.symm)⟩
    rw [b1, b2]
    simp only [StartRDB, if_pos h1, if_neg n2]
    omega

/-- C10, amended, at the records opened by `StartSet`, `StartZSet` and `StartList`
on the sample decoder, versions 9 and 10. -/
theorem element_below_version_10_witness :
    (sampleSetOpen.currentEntry = some
        { mkEntry "k" "set" 121 1 with Encoding := "hashtable" } ∧
      sampleSetOpen.currentInfo = some sampleHashInfo ∧
      sampleHashInfo.Encoding = "hashtable") ∧
    (sampleZSetOpen.currentEntry = some
        { mkEntry "k" "sortedset" 153 1 with Encoding := "skiplist" } ∧
      sampleZSetOpen.currentInfo = some { sampleHashInfo with Encoding := "skiplist" } ∧
      ({ sampleHashInfo with Encoding := "skiplist" } : Info).Encoding = "skiplist") ∧
    (sampleListOpen.currentEntry = some
        { mkEntry "k" "list" 57 0 with Encoding := "linkedlist" } ∧
      sampleListOpen.currentInfo = some { sampleHashInfo with Encoding := "linkedlist" } ∧
      ({ sampleHashInfo with Encoding := "linkedlist" } : Info).Encoding = "linkedlist") ∧
    (sampleHashOpen.currentEntry = some
        { mkEntry "k" "hash" 121 1 with Encoding := "hashtable" } ∧
      sampleHashOpen.currentInfo = some sampleHashInfo ∧
      sampleHashInfo.Encoding = "hashtable") ∧
    ((9 : Int) < 10 ∧ (10 : Int) ≤ 10) ∧
    ((∃ e1 e2, Sadd (StartRDB sampleSetOpen 9) "k" "member"
          = Except.ok { StartRDB sampleSetOpen 9 with currentEntry := some e1 } ∧
        Sadd (StartRDB sampleSetOpen 10) "k" "member"
          = Except.ok { StartRDB sampleSetOpen 10 with currentEntry := some e2 } ∧
        e1.Bytes = (e2.Bytes + sampleSetOpen.m.RobjOverHead) % 18446744073709551616 ∧
        e1 = { e2 with Bytes := e1.Bytes }) ∧
    (∃ e1 e2, Zadd (StartRDB sampleZSetOpen 9) "k" "member"
          = Except.ok { StartRDB sampleZSetOpen 9 with currentEntry := some e1 } ∧
        Zadd (StartRDB sampleZSetOpen 10) "k" "member"
          = Except.ok { StartRDB sampleZSetOpen 10 with currentEntry := some e2 } ∧
        e1.Bytes = (e2.Bytes + sampleZSetOpen.m.RobjOverHead) % 18446744073709551616 ∧
        e1 = { e2 with Bytes := e1.Bytes }) ∧
    (∃ e1 e2, Rpush (StartRDB sampleListOpen 9) "k" "member" 0
          = Except.ok { StartRDB sampleListOpen 9 with currentEntry := some e1 } ∧
        Rpush (StartRDB sampleListOpen 10) "k" "member" 0
          = Except.ok { StartRDB sampleListOpen 10 with currentEntry := some e2 } ∧
        e1.Bytes = (e2.Bytes + sampleListOpen.m.RobjOverHead) % 18446744073709551616 ∧
        e1 = { e2 with Bytes := e1.Bytes }) ∧
    (∃ e1 e2, Hset (StartRDB sampleHashOpen 9) "k" "member" "value"
          = Except.ok { StartRDB sampleHashOpen 9 with currentEntry := some e1 } ∧
        Hset (StartRDB sampleHashOpen 10) "k" "member" "value"
          = Except.ok { StartRDB sampleHashOpen 10 with currentEntry := some e2 } ∧
        e1.Bytes = (e2.Bytes + 2 * sampleHashOpen.m.RobjOverHead) % 18446744073709551616 ∧
        e1 = { e2 with Bytes := e1.Bytes })) :=
  ⟨⟨rfl, rfl, rfl⟩, ⟨rfl, rfl, rfl⟩, ⟨rfl, rfl, rfl⟩, ⟨rfl, rfl, rfl⟩, ⟨by decide, by decide⟩,
    element_below_version_10 sampleSetOpen sampleZSetOpen sampleListOpen sampleHashOpen
      { mkEntry "k" "set" 121 1 with Encoding := "hashtable" }
      { mkEntry "k" "sortedset" 153 1 with Encoding := "skiplist" }
      { mkEntry "k" "list" 57 0 with Encoding := "linkedlist" }
      { mkEntry "k" "hash" 121 1 with Encoding := "hashtable" }
      sampleHashInfo { sampleHashInfo with Encoding := "skiplist" }
      { sampleHashInfo with Encoding := "linkedlist" } sampleHashInfo
      9 10 "k" "member" "value" 0
      ⟨rfl, rfl, rfl⟩ ⟨rfl, rfl, rfl⟩ ⟨rfl, rfl, rfl⟩ ⟨rfl, rfl, rfl⟩ (by decide) (by decide)⟩

/-! ### C14, C15, C16: the accessors of the two heaps -/

/-- C14, the code at the failing input: a counter holding entries of 100 and 101
bytes, asked with `sizeFilter = 100`, returns the entry of 101 bytes only; the
entry whose `Bytes` equals the threshold is dropped (`Bytes > uint64(sizeFilter)`),
while the comment of `GetLargestEntries` speaks of keys smaller than the threshold.
With `sizeFilter = 0` both are returned. -/
theorem getLargestEntries_drops_threshold_entry :
    ([mkEntry "a" "string" 100 0, mkEntry "b" "string" 101 0].foldl (count sampleSlot)
        NewCounter).largestEntries = [mkEntry "a" "string" 100 0, mkEntry "b" "string" 101 0] ∧
    GetLargestEntries ([mkEntry "a" "string" 100 0, mkEntry "b" "string" 101 0].foldl
        (count sampleSlot) NewCounter) 10 100 = Except.ok [mkEntry "b" "string" 101 0] ∧
    GetLargestEntries ([mkEntry "a" "string" 100 0, mkEntry "b" "string" 101 0].foldl
        (count sampleSlot) NewCounter) 10 0
      = Except.ok [mkEntry "b" "string" 101 0, mkEntry "a" "string" 100 0] := by
  refine ⟨by rfl, by rfl, by rfl⟩

theorem count_loop_heap_length (Slot : String → Int) (es : List Entry) :
    ∀ (st : Counter × Nat), st.1.largestEntries.length ≤ 500 →
      (es.foldl
        (fun (st : Counter × Nat) e =>
          ({ count Slot st.1 e with TotalCount := add64 st.2 1 }, add64 st.2 1))
        st).1.largestEntries.length ≤ 500 := by
  induction es with
  | nil => intro st h; exact h
  | cons e es ih =>
    intro st h
    simp only [List.foldl_cons]
    apply ih
    show (count Slot st.1 e).largestEntries.length ≤ 500
    rw [(count_fields Slot st.1 e).1]
    exact countLargestEntries_length st.1 e h

theorem calcuLargestKeyPrefix_largestEntries (num : Int) (ks : List typeKey) :
    ∀ c : Counter,
      (ks.foldl (calcuLargestKeyPrefix_step num) c).largestEntries = c.largestEntries := by
  induction ks with
  | nil => intro c; rfl
  | cons k ks ih =>
    intro c
    simp only [List.foldl_cons]
    rw [ih]
    rfl

theorem Count_heap_length (Slot : String → Int) (es : List Entry) :
    (Count Slot NewCounter es).largestEntries.length ≤ 500 := by
  unfold Count calcuLargestKeyPrefix
  simp only
  rw [calcuLargestKeyPrefix_largestEntries]
  exact count_loop_heap_length Slot es (NewCounter, 0) (by simp [NewCounter])

/-- C15. For every `num >= 0`, `GetLargestEntries(num, sizeFilter)` returns a list
in non-increasing order of `Bytes`, of length `min(num, c)` for `c` the number of
held entries that pass the filter; the passing entries are the returned ones and
the ones left out, and no entry left out has more `Bytes` than a returned one;
for a counter built by `Count` the list has at most 500 entries.  The call only
reads the heap: the sort works on the local slice `res`. -/
theorem getLargestEntries_sorted_capped (c : Counter) (num sizeFilter : Int) (hnum : 0 ≤ num) :
    ∃ l rest, GetLargestEntries c num sizeFilter = Except.ok l ∧
      l.Pairwise (fun a b => a.Bytes ≥ b.Bytes) ∧
      l.length = min num.toNat (c.largestEntries.filter
        (fun e => if sizeFilter > 0 then decide (e.Bytes > toUint64 sizeFilter) else true)).length ∧
      (c.largestEntries.filter
        (fun e => if sizeFilter > 0 then decide (e.Bytes > toUint64 sizeFilter) else true)).Perm
        (l ++ rest) ∧
      (∀ r ∈ rest, ∀ x ∈ l, r.Bytes ≤ x.Bytes) ∧
      (∀ (Slot : String → Int) (es : List Entry), c = Count Slot NewCounter es →
        l.length ≤ 500) := by
  have sw := sort_Reverse_strictWeak _ entryLess_strictWeak
  obtain ⟨hs, hp⟩ := sort_Sort_sorted_perm (sort_Reverse entryLess) sw
    (c.largestEntries.filter
      (fun e => if sizeFilter > 0 then decide (e.Bytes > toUint64 sizeFilter) else true))
  have hs' : (sort_Sort (sort_Reverse entryLess) (c.largestEntries.filter
      (fun e => if sizeFilter > 0 then decide (e.Bytes > toUint64 sizeFilter) else true))).Pairwise
      (fun a b => a.Bytes ≥ b.Bytes) := by
    refine hs.imp ?_
    intro a b hab
    simp only [sort_Reverse, entryLess, decide_eq_false_iff_not] at hab
    omega
  have hok := getLargestEntries_ok c num sizeFilter hnum
  generalize sort_Sort (sort_Reverse entryLess) (c.largestEntries.filter
      (fun e => if sizeFilter > 0 then decide (e.Bytes > toUint64 sizeFilter) else true))
    = sorted at hs hp hs' hok
  refine ⟨sorted.take num.toNat, sorted.drop num.toNat, hok,
    hs'.sublist (List.take_sublist _ _), ?_, ?_, ?_, ?_⟩
  · rw [List.length_take, hp.length_eq]
  · rw [List.take_append_drop]
    exact hp.symm
  · intro r hr x hx
    have h := hs'
    rw [← List.take_append_drop num.toNat sorted, List.pairwise_append] at h
    exact h.2.2 x hx r hr
  · intro Slot es hc
    have h1 := Count_heap_length Slot es
    rw [← hc] at h1
    have h2 := List.length_filter_le
      (fun e => if sizeFilter > 0 then decide (e.Bytes > toUint64 sizeFilter) else true)
      c.largestEntries
    have h3 := hp.length_eq
    have h4 : (List.take num.toNat sorted).length ≤ sorted.length := by
      rw [List.length_take]; exact Nat.min_le_right _ _
    omega

/-- C16. `GetLargestKeyPrefixes` returns the entries of `largestKeyPrefixes`, each
exactly once, most preferred first: `Bytes` non-increasing; among equal `Bytes`,
`Num` non-increasing; among equal `Bytes` and `Num`, the prefix strings in
non-decreasing lexicographic order. -/
theorem getLargestKeyPrefixes_order (c : Counter) :
    (GetLargestKeyPrefixes c).Perm c.largestKeyPrefixes ∧
    (GetLargestKeyPrefixes c).Pairwise (fun a b =>
      a.Bytes > b.Bytes ∨ (a.Bytes = b.Bytes ∧ a.Num > b.Num) ∨
        (a.Bytes = b.Bytes ∧ a.Num = b.Num ∧ a.Key ≤ b.Key)) := by
  have sw := sort_Reverse_strictWeak _ prefixLess_strictWeak
  obtain ⟨hs, hp⟩ := sort_Sort_sorted_perm (sort_Reverse prefixLess) sw c.largestKeyPrefixes
  refine ⟨hp, ?_⟩
  unfold GetLargestKeyPrefixes
  refine hs.imp ?_
  intro a b hab
  have hn : ¬ prefixLess a b = true := by
    simp only [sort_Reverse] at hab
    rw [hab]; simp
  rw [prefixLess_iff] at hn
  push_neg at hn
  obtain ⟨h1, h2, h3⟩ := hn
  rcases Nat.lt_or_ge b.Bytes a.Bytes with h | h
  · exact Or.inl h
  · have e1 : a.Bytes = b.Bytes := by omega
    rcases Nat.lt_or_ge b.Num a.Num with h' | h'
    · exact Or.inr (Or.inl ⟨e1, h'⟩)
    · have := h2 e1
      have e2 : a.Num = b.Num := by omega
      exact Or.inr (Or.inr ⟨e1, e2, not_lt.1 (h3 e1 e2)⟩)

/-- C15 at a concrete input: `Count` over four entries, `num = 2`, `sizeFilter = 6`. -/
theorem getLargestEntries_sorted_capped_witness :
    (0 : Int) ≤ 2 ∧
    ∃ l rest, GetLargestEntries (Count sampleSlot NewCounter sampleTies) 2 6 = Except.ok l ∧
      l.Pairwise (fun a b => a.Bytes ≥ b.Bytes) ∧
      l.length = min (2 : Int).toNat ((Count sampleSlot NewCounter sampleTies).largestEntries.filter
        (fun e => if (6 : Int) > 0 then decide (e.Bytes > toUint64 6) else true)).length ∧
      ((Count sampleSlot NewCounter sampleTies).largestEntries.filter
        (fun e => if (6 : Int) > 0 then decide (e.Bytes > toUint64 6) else true)).Perm
        (l ++ rest) ∧
      (∀ r ∈ rest, ∀ x ∈ l, r.Bytes ≤ x.Bytes) ∧
      (∀ (Slot : String → Int) (es : List Entry),
        Count sampleSlot NewCounter sampleTies = Count Slot NewCounter es → l.length ≤ 500) :=
  ⟨by decide, getLargestEntries_sorted_capped (Count sampleSlot NewCounter sampleTies) 2 6
    (by decide)⟩

/-! ### C17, C18, C19: the map aggregates -/

section MapAggLemmas
variable {κ : Type} [DecidableEq κ]

theorem lookup_mapAdd (m : GoMap κ Nat) (k k' : κ) (x : Nat) :
    (mapAdd m k x).lookup k' =
      if k' = k then some ((mapGet 0 m k + x) % 18446744073709551616) else m.lookup k' := by
  unfold mapAdd
  rw [lookup_mapSet]
  rfl

theorem mapGet_mapAdd_self (m : GoMap κ Nat) (k : κ) (x : Nat) :
    mapGet 0 (mapAdd m k x) k = (mapGet 0 m k + x) % 18446744073709551616 := by
  simp [mapGet, lookup_mapAdd]

theorem mapGet_mapAdd_other (m : GoMap κ Nat) (k k' : κ) (x : Nat) (h : k' ≠ k) :
    mapGet 0 (mapAdd m k x) k' = mapGet 0 m k' := by
  simp [mapGet, lookup_mapAdd, h]

/-- a map after a run of `m[k] += x`, read at one key -/
theorem lookup_mapAccum (upds : List (κ × Nat)) :
    ∀ (m : GoMap κ Nat) (k : κ),
      (mapAccum m upds).lookup k =
        if upds.filter (fun u => decide (u.1 = k)) = [] then m.lookup k
        else some ((mapGet 0 m k + ((upds.filter (fun u => decide (u.1 = k))).map Prod.snd).sum)
          % 18446744073709551616) := by
  induction upds with
  | nil => intro m k; simp [mapAccum]
  | cons u upds ih =>
    intro m k
    have hstep : mapAccum m (u :: upds) = mapAccum (mapAdd m u.1 u.2) upds := rfl
    rw [hstep, ih]
    by_cases huk : u.1 = k
    · have hf : (u :: upds).filter (fun u => decide (u.1 = k))
          = u :: upds.filter (fun u => decide (u.1 = k)) :=
        List.filter_cons_of_pos (by simpa using huk)
      rw [hf, if_neg (List.cons_ne_nil _ _)]
      subst huk
      rw [mapGet_mapAdd_self, lookup_mapAdd, if_pos rfl]
      by_cases hnil : upds.filter (fun v => decide (v.1 = u.1)) = []
      · rw [if_pos hnil, hnil]
        simp only [List.map_cons, List.map_nil, List.sum_cons, List.sum_nil, Nat.add_zero]
      · rw [if_neg hnil]
        simp only [List.map_cons, List.sum_cons]
        congr 1
        omega
    · have hf : (u :: upds).filter (fun u => decide (u.1 = k))
          = upds.filter (fun u => decide (u.1 = k)) :=
        List.filter_cons_of_neg (by simpa using huk)
      rw [hf, lookup_mapAdd, if_neg (Ne.symm huk), mapGet_mapAdd_other _ _ _ _ (Ne.symm huk)]

theorem mapGet_mapAccum (upds : List (κ × Nat)) (m : GoMap κ Nat) (k : κ)
    (hm : mapGet 0 m k < 18446744073709551616) :
    mapGet 0 (mapAccum m upds) k =
      (mapGet 0 m k + ((upds.filter (fun u => decide (u.1 = k))).map Prod.snd).sum)
        % 18446744073709551616 := by
  have hl := lookup_mapAccum upds m k
  by_cases hnil : upds.filter (fun u => decide (u.1 = k)) = []
  · rw [if_pos hnil] at hl
    rw [hnil]
    simp only [List.map_nil, List.sum_nil, Nat.add_zero]
    rw [Nat.mod_eq_of_lt hm]
    unfold mapGet
    rw [hl]
  · rw [if_neg hnil] at hl
    simp only [mapGet, hl]

theorem lookup_mapAccum_perm (m : GoMap κ Nat) (u1 u2 : List (κ × Nat)) (h : u1.Perm u2)
    (k : κ) : (mapAccum m u1).lookup k = (mapAccum m u2).lookup k := by
  rw [lookup_mapAccum, lookup_mapAccum]
  have hf := h.filter (fun u => decide (u.1 = k))
  have hs : ((u1.filter (fun u => decide (u.1 = k))).map Prod.snd).sum
      = ((u2.filter (fun u => decide (u.1 = k))).map Prod.snd).sum :=
    (hf.map Prod.snd).sum_eq
  have hn : u1.filter (fun u => decide (u.1 = k)) = [] ↔
      u2.filter (fun u => decide (u.1 = k)) = [] := by
    constructor
    · intro h1; rw [h1] at hf; exact hf.symm.eq_nil
    · intro h1; rw [h1] at hf; exact hf.eq_nil
  by_cases h1 : u1.filter (fun u => decide (u.1 = k)) = []
  · rw [if_pos h1, if_pos (hn.1 h1)]
  · rw [if_neg h1, if_neg (fun h2 => h1 (hn.2 h2)), hs]

theorem mapAccum_append (m : GoMap κ Nat) (a b : List (κ × Nat)) :
    mapAccum m (a ++ b) = mapAccum (mapAccum m a) b := by
  unfold mapAccum
  rw [List.foldl_append]

theorem mapSum_mapSet (m : GoMap κ Nat) (k : κ) (v : Nat) :
    mapSum (mapSet m k v) + mapGet 0 m k = mapSum m + v := by
  induction m with
  | nil => simp [mapSet, mapSum, mapGet, lookup_nil_none]
  | cons p m ih =>
    obtain ⟨a, b⟩ := p
    unfold mapSet
    by_cases hak : a = k
    · rw [if_pos hak]
      subst hak
      simp only [mapSum, mapGet, lookup_cons_ite, if_true, List.map_cons, List.sum_cons]
      omega
    · rw [if_neg hak]
      have hg : mapGet 0 ((a, b) :: m) k = mapGet 0 m k := by
        simp only [mapGet, lookup_cons_ite, if_neg (Ne.symm hak)]
      rw [hg]
      simp only [mapSum, List.map_cons, List.sum_cons] at ih ⊢
      omega

theorem mapGet_le_mapSum (m : GoMap κ Nat) (k : κ) : mapGet 0 m k ≤ mapSum m := by
  induction m with
  | nil => simp [mapGet, lookup_nil_none]
  | cons p m ih =>
    obtain ⟨a, b⟩ := p
    by_cases hak : k = a
    · simp only [mapSum, mapGet, lookup_cons_ite, if_pos hak, List.map_cons, List.sum_cons]
      omega
    · have hg : mapGet 0 ((a, b) :: m) k = mapGet 0 m k := by
        simp only [mapGet, lookup_cons_ite, if_neg hak]
      rw [hg]
      simp only [mapSum, List.map_cons, List.sum_cons] at ih ⊢
      omega

theorem mapSum_mapAdd (m : GoMap κ Nat) (k : κ) (x : Nat) :
    mapSum (mapAdd m k x) % 18446744073709551616 = (mapSum m + x) % 18446744073709551616 ∧
    (mapSum m + x < 18446744073709551616 → mapSum (mapAdd m k x) = mapSum m + x) := by
  have h := mapSum_mapSet m k (add64 (mapGet 0 m k) x)
  have hle := mapGet_le_mapSum m k
  unfold mapAdd
  unfold add64 wrap64 at h ⊢
  constructor
  · omega
  · intro hlt
    omega

theorem mapSum_mapAccum (upds : List (κ × Nat)) :
    ∀ m : GoMap κ Nat,
      mapSum (mapAccum m upds) % 18446744073709551616
        = (mapSum m + (upds.map Prod.snd).sum) % 18446744073709551616 ∧
      (mapSum m + (upds.map Prod.snd).sum < 18446744073709551616 →
        mapSum (mapAccum m upds) = mapSum m + (upds.map Prod.snd).sum) := by
  induction upds with
  | nil => intro m; simp [mapAccum]
  | cons u upds ih =>
    intro m
    have hstep : mapAccum m (u :: upds) = mapAccum (mapAdd m u.1 u.2) upds := rfl
    obtain ⟨h1, h2⟩ := mapSum_mapAdd m u.1 u.2
    obtain ⟨i1, i2⟩ := ih (mapAdd m u.1 u.2)
    rw [hstep]
    simp only [List.map_cons, List.sum_cons]
    constructor
    · rw [i1]
      omega
    · intro hlt
      rw [i2 (by rw [h2 (by omega)]; omega), h2 (by omega)]
      omega

theorem mapKeys_mapAccum_nodup (upds : List (κ × Nat)) :
    ∀ m : GoMap κ Nat, (mapKeys m).Nodup → (mapKeys (mapAccum m upds)).Nodup := by
  induction upds with
  | nil => intro m h; exact h
  | cons u upds ih =>
    intro m h
    exact ih _ (mapKeys_mapSet_nodup m u.1 _ h)

end MapAggLemmas

theorem countByType_eq (c : Counter) (e : Entry) :
    countByType c e =
      { c with typeNum := mapAdd c.typeNum e.Typ 1
               typeBytes := mapAdd c.typeBytes e.Typ e.Bytes } := rfl

theorem countByLength_eq (c : Counter) (e : Entry) :
    countByLength c e =
      { c with
        lengthLevelBytes :=
          mapAccum c.lengthLevelBytes ((lengthKey c e).toList.map (fun k => (k, e.Bytes)))
        lengthLevelNum :=
          mapAccum c.lengthLevelNum ((lengthKey c e).toList.map (fun k => (k, 1))) } := by
  unfold countByLength lengthKey countByLength_add
  (repeat' split) <;> rfl

theorem countByKeyPrefix_fold_eq (e : Entry) (ps : List String) :
    ∀ c : Counter, ps.foldl (countByKeyPrefix_step e) c =
      { c with
        keyPrefixBytes := mapAccum c.keyPrefixBytes
          (((ps.filter (fun p => decide (p.length ≠ 0))).map
            (fun p => ({ Typ := e.Typ, Key := p } : typeKey))).map (fun k => (k, e.Bytes)))
        keyPrefixNum := mapAccum c.keyPrefixNum
          (((ps.filter (fun p => decide (p.length ≠ 0))).map
            (fun p => ({ Typ := e.Typ, Key := p } : typeKey))).map (fun k => (k, 1))) } := by
  induction ps with
  | nil => intro c; rfl
  | cons p ps ih =>
    intro c
    simp only [List.foldl_cons]
    rw [ih]
    unfold countByKeyPrefix_step
    by_cases hp : p.length = 0
    · rw [if_pos hp, List.filter_cons_of_neg (by simpa using hp)]
    · rw [if_neg hp, List.filter_cons_of_pos (by simpa using hp)]
      rfl

theorem countByKeyPrefix_eq (c : Counter) (e : Entry) :
    countByKeyPrefix c e =
      { c with
        keyPrefixBytes := mapAccum c.keyPrefixBytes ((prefixKeys c e).map (fun k => (k, e.Bytes)))
        keyPrefixNum := mapAccum c.keyPrefixNum ((prefixKeys c e).map (fun k => (k, 1))) } := by
  unfold countByKeyPrefix prefixKeys
  simp only
  rw [countByKeyPrefix_fold_eq]

theorem countBySlot_eq (Slot : String → Int) (c : Counter) (e : Entry) :
    countBySlot Slot c e =
      { c with
        slotNum := mapAccum c.slotNum ((slotKey Slot e).toList.map (fun k => (k, 1)))
        slotBytes := mapAccum c.slotBytes ((slotKey Slot e).toList.map (fun k => (k, e.Bytes))) } := by
  unfold countBySlot slotKey
  split <;> rfl

/-- Go `count` as one update of the counter: the heap step and one run of
`m[k] += x` statements on each of the eight maps -/
theorem count_eq (Slot : String → Int) (c : Counter) (e : Entry) :
    count Slot c e =
      { c with
        largestEntries := (countLargestEntries c e 500).largestEntries
        typeNum := mapAccum c.typeNum [(e.Typ, 1)]
        typeBytes := mapAccum c.typeBytes [(e.Typ, e.Bytes)]
        lengthLevelBytes :=
          mapAccum c.lengthLevelBytes ((lengthKey c e).toList.map (fun k => (k, e.Bytes)))
        lengthLevelNum :=
          mapAccum c.lengthLevelNum ((lengthKey c e).toList.map (fun k => (k, 1)))
        keyPrefixBytes := mapAccum c.keyPrefixBytes ((prefixKeys c e).map (fun k => (k, e.Bytes)))
        keyPrefixNum := mapAccum c.keyPrefixNum ((prefixKeys c e).map (fun k => (k, 1)))
        slotNum := mapAccum c.slotNum ((slotKey Slot e).toList.map (fun k => (k, 1)))
        slotBytes := mapAccum c.slotBytes ((slotKey Slot e).toList.map (fun k => (k, e.Bytes))) } := by
  unfold count
  simp only
  rw [countLargestEntries_frame c e 500]
  generalize (countLargestEntries c e 500).largestEntries = h
  rw [countBySlot_eq, countByKeyPrefix_eq, countByLength_eq, countByType_eq]
  rfl

theorem lengthKey_congr (c c' : Counter) (e : Entry)
    (h0 : c'.lengthLevel0 = c.lengthLevel0) (h1 : c'.lengthLevel1 = c.lengthLevel1)
    (h2 : c'.lengthLevel2 = c.lengthLevel2) (h3 : c'.lengthLevel3 = c.lengthLevel3)
    (h4 : c'.lengthLevel4 = c.lengthLevel4) : lengthKey c' e = lengthKey c e := by
  unfold lengthKey
  rw [h0, h1, h2, h3, h4]

theorem prefixKeys_congr (c c' : Counter) (e : Entry) (h : c'.separators = c.separators) :
    prefixKeys c' e = prefixKeys c e := by
  unfold prefixKeys
  rw [h]

theorem count_params (Slot : String → Int) (c : Counter) (e : Entry) :
    (count Slot c e).lengthLevel0 = c.lengthLevel0 ∧
    (count Slot c e).lengthLevel1 = c.lengthLevel1 ∧
    (count Slot c e).lengthLevel2 = c.lengthLevel2 ∧
    (count Slot c e).lengthLevel3 = c.lengthLevel3 ∧
    (count Slot c e).lengthLevel4 = c.lengthLevel4 ∧
    (count Slot c e).separators = c.separators := by
  rw [count_eq]
  exact ⟨rfl, rfl, rfl, rfl, rfl, rfl⟩

/-- the eight maps after a run of `count`: each is the start map after the
`m[k] += x` statements of all entries, in order -/
theorem count_fold_eq (Slot : String → Int) (es : List Entry) :
    ∀ c : Counter,
      (es.foldl (count Slot) c).typeNum = mapAccum c.typeNum (es.map (fun e => (e.Typ, 1))) ∧
      (es.foldl (count Slot) c).typeBytes
        = mapAccum c.typeBytes (es.map (fun e => (e.Typ, e.Bytes))) ∧
      (es.foldl (count Slot) c).lengthLevelBytes
        = mapAccum c.lengthLevelBytes
            (es.flatMap (fun e => (lengthKey c e).toList.map (fun k => (k, e.Bytes)))) ∧
      (es.foldl (count Slot) c).lengthLevelNum
        = mapAccum c.lengthLevelNum
            (es.flatMap (fun e => (lengthKey c e).toList.map (fun k => (k, 1)))) ∧
      (es.foldl (count Slot) c).keyPrefixBytes
        = mapAccum c.keyPrefixBytes
            (es.flatMap (fun e => (prefixKeys c e).map (fun k => (k, e.Bytes)))) ∧
      (es.foldl (count Slot) c).keyPrefixNum
        = mapAccum c.keyPrefixNum
            (es.flatMap (fun e => (prefixKeys c e).map (fun k => (k, 1)))) ∧
      (es.foldl (count Slot) c).slotNum
        = mapAccum c.slotNum
            (es.flatMap (fun e => (slotKey Slot e).toList.map (fun k => (k, 1)))) ∧
      (es.foldl (count Slot) c).slotBytes
        = mapAccum c.slotBytes
            (es.flatMap (fun e => (slotKey Slot e).toList.map (fun k => (k, e.Bytes)))) := by
  induction es with
  | nil => intro c; exact ⟨rfl, rfl, rfl, rfl, rfl, rfl, rfl, rfl⟩
  | cons e es ih =>
    intro c
    obtain ⟨p0, p1, p2, p3, p4, ps⟩ := count_params Slot c e
    obtain ⟨i1, i2, i3, i4, i5, i6, i7, i8⟩ := ih (count Slot c e)
    have hl : ∀ e', lengthKey (count Slot c e) e' = lengthKey c e' :=
      fun e' => lengthKey_congr c _ e' p0 p1 p2 p3 p4
    have hp : ∀ e', prefixKeys (count Slot c e) e' = prefixKeys c e' :=
      fun e' => prefixKeys_congr c _ e' ps
    simp only [hl, hp] at i3 i4 i5 i6
    simp only [List.foldl_cons, List.map_cons, List.flatMap_cons, mapAccum_append]
    rw [i1, i2, i3, i4, i5, i6, i7, i8, count_eq]
    exact ⟨rfl, rfl, rfl, rfl, rfl, rfl, rfl, rfl⟩

theorem sum_filter_keyed {κ : Type} [DecidableEq κ] (key : Entry → κ) (val : Entry → Nat)
    (k : κ) (es : List Entry) :
    (((es.map (fun e => (key e, val e))).filter (fun u => decide (u.1 = k))).map Prod.snd).sum
      = ((es.filter (fun e => decide (key e = k))).map val).sum := by
  induction es with
  | nil => rfl
  | cons e es ih =>
    by_cases h : key e = k
    · simp only [List.map_cons]
      rw [List.filter_cons_of_pos (by simpa using h), List.filter_cons_of_pos (by simpa using h)]
      simp only [List.map_cons, List.sum_cons]
      rw [← ih]
    · simp only [List.map_cons]
      rw [List.filter_cons_of_neg (by simpa using h), List.filter_cons_of_neg (by simpa using h)]
      exact ih

theorem sum_map_one {α : Type} (l : List α) : (l.map (fun _ => 1)).sum = l.length := by
  induction l with
  | nil => rfl
  | cons a l ih => simp only [List.map_cons, List.sum_cons, List.length_cons, ih]; omega

theorem sum_slot_updates (Slot : String → Int) (val : Entry → Nat) (es : List Entry) :
    ((es.flatMap (fun e => (slotKey Slot e).toList.map (fun k => (k, val e)))).map Prod.snd).sum
      = ((es.filter (fun e => decide (e.Key.length > 0))).map val).sum := by
  induction es with
  | nil => rfl
  | cons e es ih =>
    simp only [List.flatMap_cons, List.map_append, List.sum_append]
    rw [ih]
    unfold slotKey
    by_cases h : e.Key.length > 0
    · rw [if_pos h, List.filter_cons_of_pos (by simpa using h)]
      simp
    · rw [if_neg h, List.filter_cons_of_neg (by simpa using h)]
      simp

theorem count_topInv (Slot : String → Int) (c : Counter) (e : Entry) (D seen : List Entry)
    (inv : TopInv entryLess 500 c.largestEntries D seen) :
    ∃ D', TopInv entryLess 500 (count Slot c e).largestEntries D' (seen ++ [e]) := by
  rw [(count_fields Slot c e).1]
  exact countLargestEntries_topInv 500 (by decide) c e D seen inv

theorem count_fold_topInv (Slot : String → Int) (es : List Entry) :
    ∀ (c : Counter) (D seen : List Entry), TopInv entryLess 500 c.largestEntries D seen →
      ∃ D', TopInv entryLess 500 (es.foldl (count Slot) c).largestEntries D' (seen ++ es) := by
  induction es with
  | nil => intro c D seen inv; exact ⟨D, by simpa using inv⟩
  | cons e es ih =>
    intro c D seen inv
    obtain ⟨D1, inv1⟩ := count_topInv Slot c e D seen inv
    obtain ⟨D2, inv2⟩ := ih _ D1 (seen ++ [e]) inv1
    exact ⟨D2, by simpa using inv2⟩

theorem largestValues_perm (K : Nat) (v1 v2 : List Nat) (h : v1.Perm v2) :
    largestValues K v1 = largestValues K v2 := by
  unfold largestValues
  congr 1
  apply List.eq_of_perm_of_sorted (r := fun a b : Nat => a ≥ b)
  · exact (List.perm_insertionSort _ _).trans (h.trans (List.perm_insertionSort _ _).symm)
  · exact List.sorted_insertionSort _ _
  · exact List.sorted_insertionSort _ _

/-- C17. For every slot function and every sequence of entries processed by `count`
from a fresh counter: the slots of `slotNum` are distinct, the sum of `slotNum` over
all slots is the number of entries with a non-empty key (modulo 2^64, and exactly
when fewer than 2^64 entries have one), the sum of `slotBytes` is the sum of their
`Bytes` modulo 2^64, and an entry with an empty key changes neither map of any
counter. -/
theorem count_slot_sums (Slot : String → Int) (es : List Entry) :
    (mapKeys (es.foldl (count Slot) NewCounter).slotNum).Nodup ∧
    (mapKeys (es.foldl (count Slot) NewCounter).slotBytes).Nodup ∧
    mapSum (es.foldl (count Slot) NewCounter).slotNum % 18446744073709551616
      = (es.filter (fun e => decide (e.Key.length > 0))).length % 18446744073709551616 ∧
    ((es.filter (fun e => decide (e.Key.length > 0))).length < 18446744073709551616 →
      mapSum (es.foldl (count Slot) NewCounter).slotNum
        = (es.filter (fun e => decide (e.Key.length > 0))).length) ∧
    mapSum (es.foldl (count Slot) NewCounter).slotBytes % 18446744073709551616
      = ((es.filter (fun e => decide (e.Key.length > 0))).map Entry.Bytes).sum
          % 18446744073709551616 ∧
    (∀ (c : Counter) (e : Entry), e.Key.length = 0 →
      (count Slot c e).slotNum = c.slotNum ∧ (count Slot c e).slotBytes = c.slotBytes) := by
  obtain ⟨_, _, _, _, _, _, h7, h8⟩ := count_fold_eq Slot es NewCounter
  rw [h7, h8]
  have hn := mapSum_mapAccum
    (es.flatMap (fun e => (slotKey Slot e).toList.map (fun k => (k, 1)))) NewCounter.slotNum
  have hb := mapSum_mapAccum
    (es.flatMap (fun e => (slotKey Slot e).toList.map (fun k => (k, e.Bytes))))
    NewCounter.slotBytes
  rw [sum_slot_updates Slot (fun _ => 1) es, sum_map_one] at hn
  rw [sum_slot_updates Slot Entry.Bytes es] at hb
  have h0 : mapSum NewCounter.slotNum = 0 := rfl
  have h0' : mapSum NewCounter.slotBytes = 0 := rfl
  rw [h0, Nat.zero_add] at hn
  rw [h0', Nat.zero_add] at hb
  refine ⟨mapKeys_mapAccum_nodup _ _ List.nodup_nil, mapKeys_mapAccum_nodup _ _ List.nodup_nil,
    hn.1, hn.2, hb.1, ?_⟩
  intro c e he
  rw [count_eq]
  have hk : slotKey Slot e = none := by
    unfold slotKey
    rw [if_neg (by omega)]
  simp only [hk]
  exact ⟨rfl, rfl⟩

/-- C17 at a concrete input: three entries, one of them with an empty key, every key
in slot 0. -/
theorem count_slot_sums_witness :
    ([mkEntry "a" "string" 5 0, mkEntry "" "string" 7 0, mkEntry "b" "hash" 9 2].filter
        (fun e => decide (e.Key.length > 0))).length < 18446744073709551616 ∧
    mapSum ([mkEntry "a" "string" 5 0, mkEntry "" "string" 7 0, mkEntry "b" "hash" 9 2].foldl
        (count sampleSlot) NewCounter).slotNum
      = ([mkEntry "a" "string" 5 0, mkEntry "" "string" 7 0, mkEntry "b" "hash" 9 2].filter
          (fun e => decide (e.Key.length > 0))).length ∧
    ((mkEntry "" "string" 7 0).Key.length = 0 ∧
      (count sampleSlot NewCounter (mkEntry "" "string" 7 0)).slotNum = NewCounter.slotNum ∧
      (count sampleSlot NewCounter (mkEntry "" "string" 7 0)).slotBytes
        = NewCounter.slotBytes) :=
  ⟨by decide,
    (count_slot_sums sampleSlot
      [mkEntry "a" "string" 5 0, mkEntry "" "string" 7 0, mkEntry "b" "hash" 9 2]).2.2.2.1
      (by decide),
    by decide,
    (count_slot_sums sampleSlot []).2.2.2.2.2 NewCounter (mkEntry "" "string" 7 0) (by decide)⟩

/-- C18. For every sequence of entries processed by `count` from a fresh counter and
every type `t`: `typeNum[t]` is the number of entries of type `t` and `typeBytes[t]`
the sum of their `Bytes`, both modulo 2^64; the types of `typeNum` are distinct and
the sum of `typeNum` over them is the number of entries modulo 2^64; with fewer than
2^64 entries the two counts are exact. -/
theorem count_type_totals (Slot : String → Int) (es : List Entry) (t : String) :
    mapGet 0 (es.foldl (count Slot) NewCounter).typeNum t
      = (es.filter (fun e => decide (e.Typ = t))).length % 18446744073709551616 ∧
    mapGet 0 (es.foldl (count Slot) NewCounter).typeBytes t
      = ((es.filter (fun e => decide (e.Typ = t))).map Entry.Bytes).sum
          % 18446744073709551616 ∧
    (mapKeys (es.foldl (count Slot) NewCounter).typeNum).Nodup ∧
    mapSum (es.foldl (count Slot) NewCounter).typeNum % 18446744073709551616
      = es.length % 18446744073709551616 ∧
    (es.length < 18446744073709551616 →
      mapGet 0 (es.foldl (count Slot) NewCounter).typeNum t
        = (es.filter (fun e => decide (e.Typ = t))).length ∧
      mapSum (es.foldl (count Slot) NewCounter).typeNum = es.length) := by
  obtain ⟨h1, h2, _⟩ := count_fold_eq Slot es NewCounter
  rw [h1, h2]
  have hg0 : mapGet 0 NewCounter.typeNum t = 0 := rfl
  have hg0' : mapGet 0 NewCounter.typeBytes t = 0 := rfl
  have hs0 : mapSum NewCounter.typeNum = 0 := rfl
  have hn := mapGet_mapAccum (es.map (fun e => (e.Typ, 1))) NewCounter.typeNum t
    (by rw [hg0]; decide)
  have hb := mapGet_mapAccum (es.map (fun e => (e.Typ, e.Bytes))) NewCounter.typeBytes t
    (by rw [hg0']; decide)
  rw [sum_filter_keyed Entry.Typ (fun _ => 1) t es, sum_map_one, hg0, Nat.zero_add] at hn
  rw [sum_filter_keyed Entry.Typ Entry.Bytes t es, hg0', Nat.zero_add] at hb
  have hsum := mapSum_mapAccum (es.map (fun e => (e.Typ, 1))) NewCounter.typeNum
  have hmm : ((es.map (fun e => (e.Typ, 1))).map Prod.snd).sum = es.length := by
    rw [List.map_map]
    exact sum_map_one es
  rw [hmm, hs0, Nat.zero_add] at hsum
  refine ⟨hn, hb, mapKeys_mapAccum_nodup _ _ List.nodup_nil, hsum.1, ?_⟩
  intro hlt
  refine ⟨?_, hsum.2 hlt⟩
  rw [hn]
  apply Nat.mod_eq_of_lt
  have := List.length_filter_le (fun e => decide (e.Typ = t)) es
  omega

/-- C18 at a concrete input: a hash and a string, read at the type "hash". -/
theorem count_type_totals_witness :
    sampleTyped.length < 18446744073709551616 ∧
    mapGet 0 (sampleTyped.foldl (count sampleSlot) NewCounter).typeNum "hash"
      = (sampleTyped.filter (fun e => decide (e.Typ = "hash"))).length ∧
    mapSum (sampleTyped.foldl (count sampleSlot) NewCounter).typeNum = sampleTyped.length :=
  ⟨by decide, (count_type_totals sampleSlot sampleTyped "hash").2.2.2.2 (by decide)⟩

/-- C19. For two entry sequences that are permutations of each other, processed by
`count` from a fresh counter with the same slot function: each of the eight maps
(`typeBytes`, `typeNum`, `lengthLevelBytes`, `lengthLevelNum`, `slotBytes`, `slotNum`,
`keyPrefixBytes`, `keyPrefixNum`) holds the same value, or no value, at every key in
both results, and the two heaps hold the same multiset of `Bytes` values. -/
theorem count_order_insensitive (Slot : String → Int) (es1 es2 : List Entry)
    (h : es1.Perm es2) :
    (∀ t, (es1.foldl (count Slot) NewCounter).typeBytes.lookup t
        = (es2.foldl (count Slot) NewCounter).typeBytes.lookup t) ∧
    (∀ t, (es1.foldl (count Slot) NewCounter).typeNum.lookup t
        = (es2.foldl (count Slot) NewCounter).typeNum.lookup t) ∧
    (∀ k, (es1.foldl (count Slot) NewCounter).lengthLevelBytes.lookup k
        = (es2.foldl (count Slot) NewCounter).lengthLevelBytes.lookup k) ∧
    (∀ k, (es1.foldl (count Slot) NewCounter).lengthLevelNum.lookup k
        = (es2.foldl (count Slot) NewCounter).lengthLevelNum.lookup k) ∧
    (∀ s, (es1.foldl (count Slot) NewCounter).slotBytes.lookup s
        = (es2.foldl (count Slot) NewCounter).slotBytes.lookup s) ∧
    (∀ s, (es1.foldl (count Slot) NewCounter).slotNum.lookup s
        = (es2.foldl (count Slot) NewCounter).slotNum.lookup s) ∧
    (∀ k, (es1.foldl (count Slot) NewCounter).keyPrefixBytes.lookup k
        = (es2.foldl (count Slot) NewCounter).keyPrefixBytes.lookup k) ∧
    (∀ k, (es1.foldl (count Slot) NewCounter).keyPrefixNum.lookup k
        = (es2.foldl (count Slot) NewCounter).keyPrefixNum.lookup k) ∧
    ((es1.foldl (count Slot) NewCounter).largestEntries.map Entry.Bytes).Perm
      ((es2.foldl (count Slot) NewCounter).largestEntries.map Entry.Bytes) := by
  obtain ⟨a1, a2, a3, a4, a5, a6, a7, a8⟩ := count_fold_eq Slot es1 NewCounter
  obtain ⟨b1, b2, b3, b4, b5, b6, b7, b8⟩ := count_fold_eq Slot es2 NewCounter
  rw [a1, a2, a3, a4, a5, a6, a7, a8, b1, b2, b3, b4, b5, b6, b7, b8]
  refine ⟨fun t => lookup_mapAccum_perm _ _ _ (h.map _) t,
    fun t => lookup_mapAccum_perm _ _ _ (h.map _) t,
    fun k => lookup_mapAccum_perm _ _ _ (h.flatMap_right _) k,
    fun k => lookup_mapAccum_perm _ _ _ (h.flatMap_right _) k,
    fun k => lookup_mapAccum_perm _ _ _ (h.flatMap_right _) k,
    fun k => lookup_mapAccum_perm _ _ _ (h.flatMap_right _) k,
    fun k => lookup_mapAccum_perm _ _ _ (h.flatMap_right _) k,
    fun k => lookup_mapAccum_perm _ _ _ (h.flatMap_right _) k, ?_⟩
  obtain ⟨D1, inv1⟩ := count_fold_topInv Slot es1 NewCounter [] [] (topInv_nil entryLess 500)
  obtain ⟨D2, inv2⟩ := count_fold_topInv Slot es2 NewCounter [] [] (topInv_nil entryLess 500)
  rw [List.nil_append] at inv1 inv2
  have p1 := topInv_largestValues _ _ _ _ inv1
  have p2 := topInv_largestValues _ _ _ _ inv2
  rw [largestValues_perm 500 _ _ (h.map Entry.Bytes)] at p1
  exact p1.trans p2.symm

/-- C19 at a concrete input: four entries with ties, and the same entries in
another order. -/
theorem count_order_insensitive_witness :
    sampleTies.Perm sampleTies.reverse ∧
    (∀ t, (sampleTies.foldl (count sampleSlot) NewCounter).typeBytes.lookup t
        = (sampleTies.reverse.foldl (count sampleSlot) NewCounter).typeBytes.lookup t) ∧
    ((sampleTies.foldl (count sampleSlot) NewCounter).largestEntries.map Entry.Bytes).Perm
      ((sampleTies.reverse.foldl (count sampleSlot) NewCounter).largestEntries.map
        Entry.Bytes) :=
  ⟨(List.reverse_perm sampleTies).symm,
    (count_order_insensitive sampleSlot sampleTies sampleTies.reverse
      (List.reverse_perm sampleTies).symm).1,
    (count_order_insensitive sampleSlot sampleTies sampleTies.reverse
      (List.reverse_perm sampleTies).symm).2.2.2.2.2.2.2.2⟩

/-! ### C20: keys that differ in their digits -/

theorem map_digitToStar_eq (l1 l2 : List Char)
    (h : List.Forall₂ (fun a b => a = b ∨
      ((a.toNat ≥ 48 ∧ a.toNat ≤ 57) ∧ (b.toNat ≥ 48 ∧ b.toNat ≤ 57))) l1 l2) :
    l1.map digitToStar = l2.map digitToStar := by
  induction h with
  | nil => rfl
  | cons hab _ ih =>
    simp only [List.map_cons]
    rw [ih]
    congr 1
    rcases hab with hab | ⟨ha, hb⟩
    · rw [hab]
    · unfold digitToStar
      rw [if_pos ha, if_pos hb]

/-- C20 as stated fails: the keys `user:7:profile` and `user:123:profile` differ
only in their numeric runs, and `countByKeyPrefix` credits the first to the prefixes
`user` and `user:*` and the second to `user` and `user:***`. -/
theorem countByKeyPrefix_run_lengths_differ :
    (countByKeyPrefix NewCounter (mkEntry "user:7:profile" "string" 1 0)).keyPrefixNum
      = [({ Typ := "string", Key := "user" }, 1), ({ Typ := "string", Key := "user:*" }, 1)] ∧
    (countByKeyPrefix NewCounter (mkEntry "user:123:profile" "string" 1 0)).keyPrefixNum
      = [({ Typ := "string", Key := "user" }, 1), ({ Typ := "string", Key := "user:***" }, 1)] ∧
    ¬ (∀ k : typeKey,
        ((countByKeyPrefix NewCounter (mkEntry "user:7:profile" "string" 1 0)).keyPrefixNum.lookup
            k).isSome
          = ((countByKeyPrefix NewCounter
              (mkEntry "user:123:profile" "string" 1 0)).keyPrefixNum.lookup k).isSome) := by
  refine ⟨by decide, by decide, ?_⟩
  intro h
  have h1 := h { Typ := "string", Key := "user:*" }
  revert h1
  decide

/-- C20, amended. Two keys of the same length that agree at every position, except
that a digit of one may stand where the other has another digit, are credited by
`countByKeyPrefix` to the same `(type, prefix)` counters: for entries of the same
type the resulting `keyPrefixNum` maps are equal, and with equal `Bytes` the whole
resulting counters are equal. (A numeric run is normalized digit by digit, so runs of
different lengths are not identified.) -/
theorem countByKeyPrefix_same_digit_positions (c : Counter) (e1 e2 : Entry)
    (ht : e1.Typ = e2.Typ)
    (hk : List.Forall₂ (fun a b => a = b ∨
      ((a.toNat ≥ 48 ∧ a.toNat ≤ 57) ∧ (b.toNat ≥ 48 ∧ b.toNat ≤ 57)))
      e1.Key.toList e2.Key.toList) :
    getPrefixes (strings_Map digitToStar e1.Key) c.separators
      = getPrefixes (strings_Map digitToStar e2.Key) c.separators ∧
    (countByKeyPrefix c e1).keyPrefixNum = (countByKeyPrefix c e2).keyPrefixNum ∧
    (e1.Bytes = e2.Bytes → countByKeyPrefix c e1 = countByKeyPrefix c e2) := by
  have hn : strings_Map digitToStar e1.Key = strings_Map digitToStar e2.Key := by
    unfold strings_Map
    rw [map_digitToStar_eq _ _ hk]
  have hp : prefixKeys c e1 = prefixKeys c e2 := by
    unfold prefixKeys
    rw [hn, ht]
  refine ⟨by rw [hn], ?_, ?_⟩
  · rw [countByKeyPrefix_eq, countByKeyPrefix_eq, hp]
  · intro hb
    rw [countByKeyPrefix_eq, countByKeyPrefix_eq, hp, hb]

/-- C20 at a concrete input: `user:123:profile` and `user:456:profile`. -/
theorem countByKeyPrefix_same_digit_positions_witness :
    (mkEntry "user:123:profile" "string" 8 0).Typ = (mkEntry "user:456:profile" "string" 8 0).Typ ∧
    List.Forall₂ (fun a b => a = b ∨
      ((a.toNat ≥ 48 ∧ a.toNat ≤ 57) ∧ (b.toNat ≥ 48 ∧ b.toNat ≤ 57)))
      (mkEntry "user:123:profile" "string" 8 0).Key.toList
      (mkEntry "user:456:profile" "string" 8 0).Key.toList ∧
    (countByKeyPrefix NewCounter (mkEntry "user:123:profile" "string" 8 0)).keyPrefixNum
      = (countByKeyPrefix NewCounter (mkEntry "user:456:profile" "string" 8 0)).keyPrefixNum :=
  ⟨by decide, by decide,
    (countByKeyPrefix_same_digit_positions NewCounter (mkEntry "user:123:profile" "string" 8 0)
      (mkEntry "user:456:profile" "string" 8 0) (by decide) (by decide)).2.1⟩

/-! ### C11: the bytes that the callbacks add -/

theorem updateLargest_key (e : Entry) (n : Nat) (s : String) :
    (updateLargest e n s).Key = e.Key := by
  unfold updateLargest
  split <;> rfl

theorem updateLargest_expiration (e : Entry) (n : Nat) (s : String) :
    (updateLargest e n s).Expiration = e.Expiration := by
  unfold updateLargest
  split <;> rfl

theorem Set_entry (d d' : Decoder) (key value : String) (expiry : Int) (info : Option Info)
    (h : Set d key value expiry info = Except.ok d') :
    d'.m = d.m ∧ d'.currentEntry = d.currentEntry ∧
    ∃ e, d'.Entries = d.Entries ++ [some e] ∧ e.Key = key ∧ e.Expiration = expiry ∧
      (d.m.TopLevelObjOverhead key expiry + d.m.SizeofString value < 18446744073709551616 →
        e.Bytes = d.m.TopLevelObjOverhead key expiry + d.m.SizeofString value) := by
  unfold Set at h
  cases info with
  | none => simp at h
  | some i =>
    simp only [Except.ok.injEq] at h
    subst h
    refine ⟨rfl, rfl, _, rfl, rfl, rfl, ?_⟩
    intro hlt
    show add64 _ _ = _
    unfold add64 wrap64
    omega

theorem StartHash_entry (d d' : Decoder) (key : String) (length expiry : Int)
    (info : Option Info) (h : StartHash d key length expiry info = Except.ok d') :
    d'.m = d.m ∧ d'.Entries = d.Entries ∧
    ∃ e, d'.currentEntry = some e ∧ e.Key = key ∧ e.Expiration = expiry ∧
      (d.m.TopLevelObjOverhead key expiry
          + (bytesAdded d (Event.startHash key length expiry info)).sum < 18446744073709551616 →
        e.Bytes = d.m.TopLevelObjOverhead key expiry
          + (bytesAdded d (Event.startHash key length expiry info)).sum) := by
  unfold StartHash at h
  cases info with
  | none => simp at h
  | some i =>
    simp only at h
    unfold bytesAdded encodingOf sizeOfValueAdded
    simp only
    by_cases h1 : i.Encoding = "hashtable"
    · rw [if_pos h1] at h
      simp only [Except.ok.injEq] at h
      subst h
      refine ⟨rfl, rfl, _, rfl, rfl, rfl, ?_⟩
      rw [if_pos h1]
      simp only [List.sum_cons, List.sum_nil, add64, wrap64]
      omega
    · rw [if_neg h1] at h
      rw [if_neg h1]
      by_cases h2 : i.Encoding = "listpack" ∨ i.Encoding = "ziplist" ∨ i.Encoding = "zipmap"
      · rw [if_pos h2] at h
        by_cases h3 : i.SizeOfValue > 0
        · rw [if_pos h3] at h
          simp only [Except.ok.injEq] at h
          subst h
          refine ⟨rfl, rfl, _, rfl, rfl, rfl, ?_⟩
          rw [if_pos h3]
          simp only [List.sum_cons, List.sum_nil, add64, wrap64]
          omega
        · rw [if_neg h3] at h
          simp only [Except.ok.injEq] at h
          subst h
          refine ⟨rfl, rfl, _, rfl, rfl, rfl, ?_⟩
          rw [if_neg h3]
          simp only [List.sum_cons, List.sum_nil, add64, wrap64]
          omega
      · rw [if_neg h2] at h
        simp at h

theorem StartSet_entry (d d' : Decoder) (key : String) (cardinality expiry : Int)
    (info : Option Info) (h : StartSet d key cardinality expiry info = Except.ok d') :
    d'.m = d.m ∧ d'.Entries = d.Entries ∧
    ∃ e, d'.currentEntry = some e ∧ e.Key = key ∧ e.Expiration = expiry ∧
      (d.m.TopLevelObjOverhead key expiry
          + (bytesAdded d (Event.startSet key cardinality expiry info)).sum
            < 18446744073709551616 →
        e.Bytes = d.m.TopLevelObjOverhead key expiry
          + (bytesAdded d (Event.startSet key cardinality expiry info)).sum) := by
  unfold StartSet at h
  cases info with
  | none => simp at h
  | some i =>
    simp only at h
    unfold bytesAdded encodingOf sizeOfValueAdded
    simp only
    by_cases h1 : i.Encoding = "intset" ∧ i.SizeOfValue > 0
    · rw [if_pos h1] at h
      simp only [Except.ok.injEq] at h
      subst h
      refine ⟨rfl, rfl, _, rfl, rfl, rfl, ?_⟩
      rw [if_neg (by rw [h1.1]; decide), if_pos h1.2]
      simp only [List.sum_cons, List.sum_nil, add64, wrap64]
      omega
    · rw [if_neg h1] at h
      by_cases h2 : i.Encoding = "hashtable"
      · rw [if_pos h2] at h
        simp only [Except.ok.injEq] at h
        subst h
        refine ⟨rfl, rfl, _, rfl, rfl, rfl, ?_⟩
        rw [if_pos h2]
        simp only [List.sum_cons, List.sum_nil, add64, wrap64]
        omega
      · rw [if_neg h2] at h
        by_cases h3 : i.Encoding = "listpack" ∧ i.SizeOfValue > 0
        · rw [if_pos h3] at h
          simp only [Except.ok.injEq] at h
          subst h
          refine ⟨rfl, rfl, _, rfl, rfl, rfl, ?_⟩
          rw [if_neg h2, if_pos h3.2]
          simp only [List.sum_cons, List.sum_nil, add64, wrap64]
          omega
        · rw [if_neg h3] at h
          simp at h

theorem StartZSet_entry (d d' : Decoder) (key : String) (cardinality expiry : Int)
    (info : Option Info) (h : StartZSet d key cardinality expiry info = Except.ok d') :
    d'.m = d.m ∧ d'.Entries = d.Entries ∧
    ∃ e, d'.currentEntry = some e ∧ e.Key = key ∧ e.Expiration = expiry ∧
      (d.m.TopLevelObjOverhead key expiry
          + (bytesAdded d (Event.startZSet key cardinality expiry info)).sum
            < 18446744073709551616 →
        e.Bytes = d.m.TopLevelObjOverhead key expiry
          + (bytesAdded d (Event.startZSet key cardinality expiry info)).sum) := by
  unfold StartZSet at h
  cases info with
  | none => simp at h
  | some i =>
    simp only at h
    unfold bytesAdded encodingOf sizeOfValueAdded
    simp only
    by_cases h1 : i.Encoding = "ziplist" ∧ i.SizeOfValue > 0
    · rw [if_pos h1] at h
      simp only [Except.ok.injEq] at h
      subst h
      refine ⟨rfl, rfl, _, rfl, rfl, rfl, ?_⟩
      rw [if_neg (by rw [h1.1]; decide), if_pos h1.2]
      simp only [List.sum_cons, List.sum_nil, add64, wrap64]
      omega
    · rw [if_neg h1] at h
      by_cases h2 : i.Encoding = "skiplist"
      · rw [if_pos h2] at h
        simp only [Except.ok.injEq] at h
        subst h
        refine ⟨rfl, rfl, _, rfl, rfl, rfl, ?_⟩
        rw [if_pos h2]
        simp only [List.sum_cons, List.sum_nil, add64, wrap64]
        omega
      · rw [if_neg h2] at h
        by_cases h3 : i.Encoding = "listpack" ∧ i.SizeOfValue > 0
        · rw [if_pos h3] at h
          simp only [Except.ok.injEq] at h
          subst h
          refine ⟨rfl, rfl, _, rfl, rfl, rfl, ?_⟩
          rw [if_neg h2, if_pos h3.2]
          simp only [List.sum_cons, List.sum_nil, add64, wrap64]
          omega
        · rw [if_neg h3] at h
          simp at h

theorem StartList_entry (d d' : Decoder) (key : String) (length expiry : Int)
    (info : Option Info) (h : StartList d key length expiry info = Except.ok d') :
    d'.m = d.m ∧ d'.Entries = d.Entries ∧
    ∃ e, d'.currentEntry = some e ∧ e.Key = key ∧ e.Expiration = expiry ∧
      e.Bytes = d.m.TopLevelObjOverhead key expiry := by
  unfold StartList at h
  cases info with
  | none => simp at h
  | some i =>
    simp only [Except.ok.injEq] at h
    subst h
    exact ⟨rfl, rfl, _, rfl, rfl, rfl, rfl⟩

theorem StartStream_entry (d d' : Decoder) (key : String) (cardinality expiry : Int)
    (info : Option Info) (h : StartStream d key cardinality expiry info = Except.ok d') :
    d'.m = d.m ∧ d'.Entries = d.Entries ∧
    ∃ e, d'.currentEntry = some e ∧ e.Key = key ∧ e.Expiration = expiry ∧
      (d.m.TopLevelObjOverhead key expiry
          + (bytesAdded d (Event.startStream key cardinality expiry info)).sum
            < 18446744073709551616 →
        e.Bytes = d.m.TopLevelObjOverhead key expiry
          + (bytesAdded d (Event.startStream key cardinality expiry info)).sum) := by
  unfold StartStream at h
  cases info with
  | none => simp at h
  | some i =>
    simp only [Except.ok.injEq] at h
    subst h
    refine ⟨rfl, rfl, _, rfl, rfl, rfl, ?_⟩
    unfold bytesAdded encodingOf sizeOfValueAdded
    simp only
    by_cases h1 : i.Encoding = "stream_v2" <;> by_cases h2 : i.SizeOfValue > 0
    all_goals simp only [h1, h2, if_true, if_false, List.sum_cons, List.sum_nil,
      List.sum_append, List.append_nil, List.cons_append, List.nil_append, add64, wrap64]
    all_goals omega
theorem Hset_entry (d d' : Decoder) (key field value : String)
    (h : Hset d key field value = Except.ok d') :
    d'.m = d.m ∧ d'.Entries = d.Entries ∧ d'.currentInfo = d.currentInfo ∧
    ∃ e0 e, d.currentEntry = some e0 ∧ d'.currentEntry = some e ∧ e.Key = e0.Key ∧
      e.Expiration = e0.Expiration ∧
      (e0.Bytes + (bytesAdded d (Event.hset key field value)).sum < 18446744073709551616 →
        e.Bytes = e0.Bytes + (bytesAdded d (Event.hset key field value)).sum) := by
  unfold Hset at h
  cases hce : d.currentEntry with
  | none => rw [hce] at h; simp at h
  | some e0 =>
    cases hci : d.currentInfo with
    | none => rw [hce, hci] at h; simp at h
    | some i =>
      rw [hce, hci] at h
      simp only at h
      have hk := updateLargest_key e0 (add64 (d.m.ElemLen field) (d.m.ElemLen value)) field
      have hx := updateLargest_expiration e0 (add64 (d.m.ElemLen field) (d.m.ElemLen value)) field
      have hb := updateLargest_bytes e0 (add64 (d.m.ElemLen field) (d.m.ElemLen value)) field
      generalize updateLargest e0 (add64 (d.m.ElemLen field) (d.m.ElemLen value)) field = u
        at h hk hx hb
      unfold bytesAdded currentEncoding
      simp only [hci]
      by_cases h1 : i.Encoding = "hashtable"
      · rw [if_pos h1] at h
        simp only [Except.ok.injEq] at h
        subst h
        refine ⟨rfl, rfl, rfl, e0, _, rfl, rfl, hk, hx, ?_⟩
        rw [if_pos h1]
        by_cases h2 : d.rdbVer < 10
        all_goals simp only [h2, if_true, if_false, List.sum_cons, List.sum_nil,
          List.sum_append, List.append_nil, List.cons_append, List.nil_append, add64, wrap64, hb]
        all_goals omega
      · rw [if_neg h1] at h
        simp only [Except.ok.injEq] at h
        subst h
        refine ⟨rfl, rfl, rfl, e0, _, rfl, rfl, hk, hx, ?_⟩
        rw [if_neg h1]
        simp only [List.sum_nil, hb]
        omega

theorem Sadd_entry (d d' : Decoder) (key member : String)
    (h : Sadd d key member = Except.ok d') :
    d'.m = d.m ∧ d'.Entries = d.Entries ∧ d'.currentInfo = d.currentInfo ∧
    ∃ e0 e, d.currentEntry = some e0 ∧ d'.currentEntry = some e ∧ e.Key = e0.Key ∧
      e.Expiration = e0.Expiration ∧
      (e0.Bytes + (bytesAdded d (Event.sadd key member)).sum < 18446744073709551616 →
        e.Bytes = e0.Bytes + (bytesAdded d (Event.sadd key member)).sum) := by
  unfold Sadd at h
  cases hce : d.currentEntry with
  | none => rw [hce] at h; simp at h
  | some e0 =>
    cases hci : d.currentInfo with
    | none => rw [hce, hci] at h; simp at h
    | some i =>
      rw [hce, hci] at h
      simp only at h
      have hk := updateLargest_key e0 (d.m.ElemLen member) member
      have hx := updateLargest_expiration e0 (d.m.ElemLen member) member
      have hb := updateLargest_bytes e0 (d.m.ElemLen member) member
      generalize updateLargest e0 (d.m.ElemLen member) member = u at h hk hx hb
      unfold bytesAdded currentEncoding
      simp only [hci]
      by_cases h1 : i.Encoding = "hashtable"
      · rw [if_pos h1] at h
        simp only [Except.ok.injEq] at h
        subst h
        refine ⟨rfl, rfl, rfl, e0, _, rfl, rfl, hk, hx, ?_⟩
        rw [if_pos h1]
        by_cases h2 : d.rdbVer < 10
        all_goals simp only [h2, if_true, if_false, List.sum_cons, List.sum_nil,
          List.sum_append, List.append_nil, List.cons_append, List.nil_append, add64, wrap64, hb]
        all_goals omega
      · rw [if_neg h1] at h
        simp only [Except.ok.injEq] at h
        subst h
        refine ⟨rfl, rfl, rfl, e0, _, rfl, rfl, hk, hx, ?_⟩
        rw [if_neg h1]
        simp only [List.sum_nil, hb]
        omega

theorem Zadd_entry (d d' : Decoder) (key member : String)
    (h : Zadd d key member = Except.ok d') :
    d'.m = d.m ∧ d'.Entries = d.Entries ∧ d'.currentInfo = d.currentInfo ∧
    ∃ e0 e, d.currentEntry = some e0 ∧ d'.currentEntry = some e ∧ e.Key = e0.Key ∧
      e.Expiration = e0.Expiration ∧
      (e0.Bytes + (bytesAdded d (Event.zadd key member)).sum < 18446744073709551616 →
        e.Bytes = e0.Bytes + (bytesAdded d (Event.zadd key member)).sum) := by
  unfold Zadd at h
  cases hce : d.currentEntry with
  | none => rw [hce] at h; simp at h
  | some e0 =>
    cases hci : d.currentInfo with
    | none => rw [hce, hci] at h; simp at h
    | some i =>
      rw [hce, hci] at h
      simp only at h
      have hk := updateLargest_key e0 (d.m.ElemLen member) member
      have hx := updateLargest_expiration e0 (d.m.ElemLen member) member
      have hb := updateLargest_bytes e0 (d.m.ElemLen member) member
      generalize updateLargest e0 (d.m.ElemLen member) member = u at h hk hx hb
      unfold bytesAdded currentEncoding
      simp only [hci]
      by_cases h1 : i.Encoding = "skiplist"
      · rw [if_pos h1] at h
        simp only [Except.ok.injEq] at h
        have hk2 := updateLargest_key
          { u with Bytes := (add64 (add64 (add64 u.Bytes 8) (d.m.SizeofString member))
              d.m.SkipListEntryOverHead) } (d.m.ElemLen member) member
        have hx2 := updateLargest_expiration
          { u with Bytes := (add64 (add64 (add64 u.Bytes 8) (d.m.SizeofString member))
              d.m.SkipListEntryOverHead) } (d.m.ElemLen member) member
        have hb2 := updateLargest_bytes
          { u with Bytes := (add64 (add64 (add64 u.Bytes 8) (d.m.SizeofString member))
              d.m.SkipListEntryOverHead) } (d.m.ElemLen member) member
        generalize updateLargest
          { u with Bytes := (add64 (add64 (add64 u.Bytes 8) (d.m.SizeofString member))
              d.m.SkipListEntryOverHead) } (d.m.ElemLen member) member = u2 at h hk2 hx2 hb2
        subst h
        refine ⟨rfl, rfl, rfl, e0, _, rfl, rfl, hk2.trans hk, hx2.trans hx, ?_⟩
        rw [if_pos h1]
        simp only at hb2
        by_cases h2 : d.rdbVer < 10
        all_goals simp only [h2, if_true, if_false, List.sum_cons, List.sum_nil,
          List.sum_append, List.append_nil, List.cons_append, List.nil_append, add64, wrap64, hb,
          hb2]
        all_goals omega
      · rw [if_neg h1] at h
        simp only [Except.ok.injEq] at h
        subst h
        refine ⟨rfl, rfl, rfl, e0, _, rfl, rfl, hk, hx, ?_⟩
        rw [if_neg h1]
        simp only [List.sum_nil, hb]
        omega

theorem Xadd_entry (d d' : Decoder) (key id listpack : String)
    (h : Xadd d key id listpack = Except.ok d') :
    d'.m = d.m ∧ d'.Entries = d.Entries ∧ d'.currentInfo = d.currentInfo ∧
    ∃ e0 e, d.currentEntry = some e0 ∧ d'.currentEntry = some e ∧ e.Key = e0.Key ∧
      e.Expiration = e0.Expiration ∧
      (e0.Bytes + (bytesAdded d (Event.xadd key id listpack)).sum < 18446744073709551616 →
        e.Bytes = e0.Bytes + (bytesAdded d (Event.xadd key id listpack)).sum) := by
  unfold Xadd at h
  cases hce : d.currentEntry with
  | none => rw [hce] at h; simp at h
  | some e0 =>
    rw [hce] at h
    simp only [Except.ok.injEq] at h
    subst h
    refine ⟨rfl, rfl, rfl, e0, _, rfl, rfl, rfl, rfl, ?_⟩
    unfold bytesAdded
    simp only [List.sum_cons, List.sum_nil, add64, wrap64]
    omega
theorem Rpush_entry (d d' : Decoder) (key value : String) (n : Nat)
    (h : Rpush d key value n = Except.ok d') :
    d'.m = d.m ∧ d'.Entries = d.Entries ∧ d'.currentInfo = d.currentInfo ∧
    ∃ e0 e, d.currentEntry = some e0 ∧ d'.currentEntry = some e ∧ e.Key = e0.Key ∧
      e.Expiration = e0.Expiration ∧
      (e0.Bytes + (bytesAdded d (Event.rpush key value n)).sum < 18446744073709551616 →
        e.Bytes = e0.Bytes + (bytesAdded d (Event.rpush key value n)).sum) := by
  unfold Rpush at h
  cases hce : d.currentEntry with
  | none => rw [hce] at h; simp at h
  | some e0 =>
    cases hci : d.currentInfo with
    | none => rw [hce, hci] at h; simp at h
    | some i =>
      rw [hce, hci] at h
      simp only at h
      unfold bytesAdded currentEncoding
      simp only [hci]
      have fin : ∀ e1 : Entry, e1.Key = e0.Key → e1.Expiration = e0.Expiration →
          (Except.ok { d with
              currentInfo := some i
              currentEntry := some (updateLargest e1 (d.m.ElemLen value) value) }
            : Except String Decoder) = Except.ok d' →
          (d'.m = d.m ∧ d'.Entries = d.Entries ∧ d'.currentInfo = some i ∧
            ∃ e0' e, some e0 = some e0' ∧ d'.currentEntry = some e ∧ e.Key = e0'.Key ∧
              e.Expiration = e0'.Expiration ∧ e.Bytes = e1.Bytes) := by
        intro e1 hk hx heq
        simp only [Except.ok.injEq] at heq
        subst heq
        exact ⟨rfl, rfl, rfl, e0, _, rfl, rfl,
          (updateLargest_key _ _ _).trans hk, (updateLargest_expiration _ _ _).trans hx,
          updateLargest_bytes _ _ _⟩
      by_cases h1 : i.Encoding = "quicklist"
      · rw [if_pos h1] at h
        simp only at h
        obtain ⟨a, b, c, e0', e, p1, p2, p3, p4, p5⟩ := fin _ (by rfl) (by rfl) h
        refine ⟨a, b, c, e0', e, p1, p2, p3, p4, ?_⟩
        cases p1
        rw [p5, if_pos (Or.inl h1)]
        simp only [List.sum_cons, List.sum_nil, add64, wrap64]
        omega
      · rw [if_neg h1] at h
        by_cases h2 : i.Encoding = "ziplist"
        · rw [if_pos h2] at h
          simp only at h
          obtain ⟨a, b, c, e0', e, p1, p2, p3, p4, p5⟩ := fin _ (by rfl) (by rfl) h
          refine ⟨a, b, c, e0', e, p1, p2, p3, p4, ?_⟩
          cases p1
          rw [p5, if_pos (Or.inr h2)]
          simp only [List.sum_cons, List.sum_nil, add64, wrap64]
          omega
        · rw [if_neg h2] at h
          rw [if_neg (by intro hh; rcases hh with hh | hh; exact h1 hh; exact h2 hh)]
          by_cases h3 : i.Encoding = "linkedlist"
          · rw [if_pos h3] at h
            simp only at h
            obtain ⟨a, b, c, e0', e, p1, p2, p3, p4, p5⟩ := fin _ (by rfl) (by rfl) h
            refine ⟨a, b, c, e0', e, p1, p2, p3, p4, ?_⟩
            cases p1
            rw [p5, if_pos h3]
            by_cases h4 : d.rdbVer < 10 <;> by_cases h5 : strconv_ParseInt_ok value 32 = true
            all_goals simp only [h4, h5, if_true, if_false, List.sum_cons, List.sum_nil,
              List.sum_append, List.append_nil, List.cons_append, List.nil_append, add64, wrap64]
            all_goals omega
          · rw [if_neg h3] at h
            rw [if_neg h3]
            by_cases h4 : i.Encoding = "quicklist2"
            · rw [if_pos h4] at h
              by_cases h5 : n = 1
              · rw [if_pos h5] at h
                by_cases h6 : strconv_ParseInt_ok value 32 = true
                · rw [if_pos h6] at h
                  simp only at h
                  obtain ⟨a, b, c, e0', e, p1, p2, p3, p4, p5⟩ := fin _ (by rfl) (by rfl) h
                  refine ⟨a, b, c, e0', e, p1, p2, p3, p4, ?_⟩
                  cases p1
                  rw [p5, if_neg (by simp [h6])]
                  simp only [List.sum_nil]
                  omega
                · rw [if_neg h6] at h
                  simp only at h
                  obtain ⟨a, b, c, e0', e, p1, p2, p3, p4, p5⟩ := fin _ (by rfl) (by rfl) h
                  refine ⟨a, b, c, e0', e, p1, p2, p3, p4, ?_⟩
                  cases p1
                  rw [p5, if_pos ⟨h5, h6⟩]
                  simp only [List.sum_cons, List.sum_nil, add64, wrap64]
                  omega
              · rw [if_neg h5] at h
                simp only at h
                obtain ⟨a, b, c, e0', e, p1, p2, p3, p4, p5⟩ := fin _ (by rfl) (by rfl) h
                refine ⟨a, b, c, e0', e, p1, p2, p3, p4, ?_⟩
                cases p1
                rw [p5, if_neg (fun hh => h5 hh.1)]
                simp only [List.sum_nil]
                omega
            · rw [if_neg h4] at h
              simp at h

theorem sendEntry_fields (d : Decoder) :
    (sendEntry d).m = d.m ∧ (sendEntry d).currentEntry = none ∧
    (sendEntry d).Entries = d.Entries ++ [d.currentEntry] ∧
    (sendEntry d).currentInfo = d.currentInfo := ⟨rfl, rfl, rfl, rfl⟩

theorem EndList_idle (d : Decoder) (key : String) (hce : d.currentEntry = none) :
    ∃ msg, EndList d key = Except.error msg ∧
      ((d.currentInfo = none ∧ msg = "nil pointer dereference") ∨
        ∃ i, d.currentInfo = some i ∧
          ((i.Encoding ∈ ["quicklist", "ziplist", "linkedlist", "quicklist2"] ∧
              msg = "nil pointer dereference") ∨
            (i.Encoding ∉ ["quicklist", "ziplist", "linkedlist", "quicklist2"] ∧
              msg = "unknown encoding:" ++ i.Encoding))) := by
  unfold EndList
  cases hci : d.currentInfo with
  | none => exact ⟨_, rfl, Or.inl ⟨rfl, rfl⟩⟩
  | some i =>
    simp only [hce, List.mem_cons, List.mem_singleton, List.not_mem_nil, or_false]
    by_cases h1 : i.Encoding = "quicklist"
    · rw [if_pos h1]
      exact ⟨_, rfl, Or.inr ⟨i, rfl, Or.inl ⟨Or.inl h1, rfl⟩⟩⟩
    · rw [if_neg h1]
      by_cases h2 : i.Encoding = "ziplist"
      · rw [if_pos h2]
        exact ⟨_, rfl, Or.inr ⟨i, rfl, Or.inl ⟨Or.inr (Or.inl h2), rfl⟩⟩⟩
      · rw [if_neg h2]
        by_cases h3 : i.Encoding = "linkedlist"
        · rw [if_pos h3]
          exact ⟨_, rfl, Or.inr ⟨i, rfl, Or.inl ⟨Or.inr (Or.inr (Or.inl h3)), rfl⟩⟩⟩
        · rw [if_neg h3]
          by_cases h4 : i.Encoding = "quicklist2"
          · rw [if_pos h4]
            exact ⟨_, rfl, Or.inr ⟨i, rfl, Or.inl ⟨Or.inr (Or.inr (Or.inr h4)), rfl⟩⟩⟩
          · rw [if_neg h4]
            refine ⟨_, rfl, Or.inr ⟨i, rfl, Or.inr ⟨?_, rfl⟩⟩⟩
            rintro (h | h | h | h)
            · exact h1 h
            · exact h2 h
            · exact h3 h
            · exact h4 h

theorem EndList_entry (d d' : Decoder) (key : String) (h : EndList d key = Except.ok d') :
    d'.m = d.m ∧ d'.currentEntry = none ∧
    ∃ e0 e, d.currentEntry = some e0 ∧ d'.Entries = d.Entries ++ [some e] ∧ e.Key = e0.Key ∧
      e.Expiration = e0.Expiration ∧
      (e0.Bytes + (bytesAdded d (Event.endList key)).sum < 18446744073709551616 →
        e.Bytes = e0.Bytes + (bytesAdded d (Event.endList key)).sum) := by
  cases hce : d.currentEntry with
  | none =>
    obtain ⟨msg, hm, _⟩ := EndList_idle d key hce
    rw [hm] at h
    simp at h
  | some e0 =>
    unfold EndList at h
    cases hci : d.currentInfo with
    | none => rw [hci] at h; simp at h
    | some i =>
      rw [hce, hci] at h
      simp only at h
      unfold bytesAdded sizeOfValueAdded
      simp only [hci]
      by_cases h1 : i.Encoding = "quicklist"
      · rw [if_pos h1] at h
        simp only [Except.ok.injEq] at h
        subst h
        refine ⟨rfl, rfl, e0, _, rfl, rfl, rfl, rfl, ?_⟩
        rw [if_pos h1]
        simp only [List.sum_cons, List.sum_nil, add64, wrap64]
        omega
      · rw [if_neg h1] at h
        rw [if_neg h1]
        by_cases h2 : i.Encoding = "ziplist"
        · rw [if_pos h2] at h
          simp only [Except.ok.injEq] at h
          subst h
          refine ⟨rfl, rfl, e0, _, rfl, rfl, rfl, rfl, ?_⟩
          rw [if_pos h2]
          simp only [List.sum_cons, List.sum_nil, add64, wrap64]
          omega
        · rw [if_neg h2] at h
          rw [if_neg h2]
          by_cases h3 : i.Encoding = "linkedlist"
          · rw [if_pos h3] at h
            simp only [Except.ok.injEq] at h
            subst h
            refine ⟨rfl, rfl, e0, _, rfl, rfl, rfl, rfl, ?_⟩
            rw [if_pos h3]
            simp only [List.sum_cons, List.sum_nil, add64, wrap64]
            omega
          · rw [if_neg h3] at h
            rw [if_neg h3]
            by_cases h4 : i.Encoding = "quicklist2"
            · rw [if_pos h4] at h
              simp only [Except.ok.injEq] at h
              subst h
              refine ⟨rfl, rfl, e0, _, rfl, rfl, rfl, rfl, ?_⟩
              by_cases h5 : i.SizeOfValue > 0
              all_goals simp only [h5, if_true, if_false, List.sum_cons, List.sum_nil,
                List.sum_append, List.append_nil, List.cons_append, List.nil_append, add64,
                wrap64, sendEntry]
              all_goals omega
            · rw [if_neg h4] at h
              simp at h

theorem EndStream_consumers_sum (d : Decoder) (cg : StreamGroup) (cs : List StreamConsumerData) :
    ∀ b : Nat,
      b + (cs.flatMap (fun c => [d.m.StreamConsumer c.Name,
          d.m.SizeofStreamRadixTree (toUint64 cg.Pending.length)])).sum < 18446744073709551616 →
      cs.foldl (EndStream_consumer d cg) b
        = b + (cs.flatMap (fun c => [d.m.StreamConsumer c.Name,
          d.m.SizeofStreamRadixTree (toUint64 cg.Pending.length)])).sum := by
  induction cs with
  | nil => intro b _; rfl
  | cons c cs ih =>
    intro b hlt
    simp only [List.flatMap_cons, List.sum_append, List.sum_cons, List.sum_nil,
      List.foldl_cons] at hlt ⊢
    have h1 : EndStream_consumer d cg b c
        = b + (d.m.StreamConsumer c.Name
          + d.m.SizeofStreamRadixTree (toUint64 cg.Pending.length)) := by
      unfold EndStream_consumer
      simp only [add64, wrap64]
      omega
    rw [ih _ (by rw [h1]; omega), h1]
    omega

theorem EndStream_groups_sum (d : Decoder) (i : Info) (hci : d.currentInfo = some i)
    (gs : List StreamGroup) :
    ∀ b : Nat, ∃ b', EndStream_groups d gs b = Except.ok b' ∧
      (b + (bytesAdded d (Event.endStream "" 0 "" gs)).sum < 18446744073709551616 →
        b' = b + (bytesAdded d (Event.endStream "" 0 "" gs)).sum) := by
  induction gs with
  | nil => intro b; exact ⟨b, rfl, fun _ => rfl⟩
  | cons cg gs ih =>
    intro b
    unfold EndStream_groups EndStream_group
    simp only [hci]
    obtain ⟨b', hb', hsum⟩ := ih
      (cg.Consumers.foldl (EndStream_consumer d cg)
        (if i.Encoding = "stream_v2" then
          add64 (add64 (add64 b (d.m.SizeofStreamRadixTree (toUint64 cg.Pending.length)))
            (d.m.StreamNACK (toUint64 cg.Pending.length))) 8
        else add64 (add64 b (d.m.SizeofStreamRadixTree (toUint64 cg.Pending.length)))
            (d.m.StreamNACK (toUint64 cg.Pending.length))))
    refine ⟨b', hb', ?_⟩
    intro hlt
    unfold bytesAdded currentEncoding at hlt hsum ⊢
    simp only [hci, List.flatMap_cons, List.sum_append, List.sum_cons, List.sum_nil] at hlt hsum ⊢
    have hc := EndStream_consumers_sum d cg cg.Consumers
    generalize (cg.Consumers.flatMap (fun c => [d.m.StreamConsumer c.Name,
          d.m.SizeofStreamRadixTree (toUint64 cg.Pending.length)])).sum = S at hc hlt hsum ⊢
    by_cases h1 : i.Encoding = "stream_v2"
    · simp only [h1, if_true, List.sum_cons, List.sum_nil] at hlt hsum hc ⊢
      have hb3 : add64 (add64 (add64 b (d.m.SizeofStreamRadixTree (toUint64 cg.Pending.length)))
            (d.m.StreamNACK (toUint64 cg.Pending.length))) 8
          = b + d.m.SizeofStreamRadixTree (toUint64 cg.Pending.length)
            + d.m.StreamNACK (toUint64 cg.Pending.length) + 8 := by
        simp only [add64, wrap64]
        omega
      rw [hb3] at hsum
      rw [hc _ (by omega)] at hsum
      rw [hsum (by omega)]
      omega
    · simp only [h1, if_false, List.sum_nil] at hlt hsum hc ⊢
      have hb3 : add64 (add64 b (d.m.SizeofStreamRadixTree (toUint64 cg.Pending.length)))
            (d.m.StreamNACK (toUint64 cg.Pending.length))
          = b + d.m.SizeofStreamRadixTree (toUint64 cg.Pending.length)
            + d.m.StreamNACK (toUint64 cg.Pending.length) := by
        simp only [add64, wrap64]
        omega
      rw [hb3] at hsum
      rw [hc _ (by omega)] at hsum
      rw [hsum (by omega)]
      omega
theorem EndStream_entry (d d' : Decoder) (key : String) (items : Nat) (lastEntryID : String)
    (gs : List StreamGroup) (h : EndStream d key items lastEntryID gs = Except.ok d') :
    d'.m = d.m ∧ d'.currentEntry = none ∧
    ((d.currentEntry = none ∧ d'.Entries = d.Entries ++ [none]) ∨
      ∃ e0 e, d.currentEntry = some e0 ∧ d'.Entries = d.Entries ++ [some e] ∧ e.Key = e0.Key ∧
        e.Expiration = e0.Expiration ∧
        (e0.Bytes + (bytesAdded d (Event.endStream key items lastEntryID gs)).sum
            < 18446744073709551616 →
          e.Bytes = e0.Bytes + (bytesAdded d (Event.endStream key items lastEntryID gs)).sum)) := by
  unfold EndStream at h
  cases gs with
  | nil =>
    simp only [Except.ok.injEq] at h
    subst h
    refine ⟨rfl, rfl, ?_⟩
    cases hce : d.currentEntry with
    | none => exact Or.inl ⟨rfl, by simp [sendEntry, hce]⟩
    | some e0 =>
      refine Or.inr ⟨e0, e0, rfl, by simp [sendEntry, hce], rfl, rfl, ?_⟩
      intro _
      simp [bytesAdded]
  | cons cg gs =>
    simp only at h
    cases hce : d.currentEntry with
    | none => rw [hce] at h; simp at h
    | some e0 =>
      rw [hce] at h
      simp only at h
      cases hci : d.currentInfo with
      | none =>
        unfold EndStream_groups EndStream_group at h
        simp only [hci] at h
        simp at h
      | some i =>
        obtain ⟨b', hb', hsum⟩ := EndStream_groups_sum d i hci (cg :: gs) e0.Bytes
        rw [hb'] at h
        simp only [Except.ok.injEq] at h
        subst h
        exact ⟨rfl, rfl, Or.inr ⟨e0, _, rfl, rfl, rfl, rfl, hsum⟩⟩

/-- every record that a callback leaves behind is a record that was there before, or
the record that the callback wrote: its key and expiry are those of `bytesOrigin`,
and its `Bytes` is `bytesBase` plus the amounts of `bytesAdded` when this sum is
below 2^64 -/
theorem callback_entry (d d' : Decoder) (ev : Event) (h : callback d ev = Except.ok d') :
    d'.m = d.m ∧
    ∀ e, (some e ∈ d'.Entries ∨ d'.currentEntry = some e) →
      (some e ∈ d.Entries ∨ d.currentEntry = some e) ∨
      (bytesOrigin d ev = some (e.Key, e.Expiration) ∧
        (bytesBase d ev + (bytesAdded d ev).sum < 18446744073709551616 →
          e.Bytes = bytesBase d ev + (bytesAdded d ev).sum)) := by
  cases ev with
  | startRDB ver =>
    simp only [callback, Except.ok.injEq] at h
    subst h
    exact ⟨rfl, fun e he => Or.inl he⟩
  | startDatabase n =>
    simp only [callback, Except.ok.injEq] at h
    subst h
    exact ⟨rfl, fun e he => Or.inl he⟩
  | aux key value =>
    simp only [callback, Except.ok.injEq] at h
    subst h
    refine ⟨?_, fun e he => Or.inl ?_⟩
    · unfold Aux
      split
      · rfl
      · split <;> rfl
    · revert he
      unfold Aux
      split
      · exact id
      · split <;> exact id
  | set key value expiry info =>
    obtain ⟨hm, hc, e1, hE, hk, hx, hb⟩ := Set_entry d d' key value expiry info h
    refine ⟨hm, fun e he => ?_⟩
    rw [hE, hc] at he
    rcases he with he | he
    · rw [List.mem_append] at he
      rcases he with he | he
      · exact Or.inl (Or.inl he)
      · simp only [List.mem_singleton, Option.some.injEq] at he
        subst he
        refine Or.inr ⟨by simp [bytesOrigin, hk, hx], ?_⟩
        simpa [bytesBase, bytesAdded] using hb
    · exact Or.inl (Or.inr he)
  | startHash key length expiry info =>
    obtain ⟨hm, hE, e1, hc, hk, hx, hb⟩ := StartHash_entry d d' key length expiry info h
    refine ⟨hm, fun e he => ?_⟩
    rw [hE, hc] at he
    rcases he with he | he
    · exact Or.inl (Or.inl he)
    · simp only [Option.some.injEq] at he
      subst he
      exact Or.inr ⟨by simp [bytesOrigin, hk, hx], hb⟩
  | startSet key cardinality expiry info =>
    obtain ⟨hm, hE, e1, hc, hk, hx, hb⟩ := StartSet_entry d d' key cardinality expiry info h
    refine ⟨hm, fun e he => ?_⟩
    rw [hE, hc] at he
    rcases he with he | he
    · exact Or.inl (Or.inl he)
    · simp only [Option.some.injEq] at he
      subst he
      exact Or.inr ⟨by simp [bytesOrigin, hk, hx], hb⟩
  | startZSet key cardinality expiry info =>
    obtain ⟨hm, hE, e1, hc, hk, hx, hb⟩ := StartZSet_entry d d' key cardinality expiry info h
    refine ⟨hm, fun e he => ?_⟩
    rw [hE, hc] at he
    rcases he with he | he
    · exact Or.inl (Or.inl he)
    · simp only [Option.some.injEq] at he
      subst he
      exact Or.inr ⟨by simp [bytesOrigin, hk, hx], hb⟩
  | startStream key cardinality expiry info =>
    obtain ⟨hm, hE, e1, hc, hk, hx, hb⟩ := StartStream_entry d d' key cardinality expiry info h
    refine ⟨hm, fun e he => ?_⟩
    rw [hE, hc] at he
    rcases he with he | he
    · exact Or.inl (Or.inl he)
    · simp only [Option.some.injEq] at he
      subst he
      exact Or.inr ⟨by simp [bytesOrigin, hk, hx], hb⟩
  | startList key length expiry info =>
    obtain ⟨hm, hE, e1, hc, hk, hx, hb⟩ := StartList_entry d d' key length expiry info h
    refine ⟨hm, fun e he => ?_⟩
    rw [hE, hc] at he
    rcases he with he | he
    · exact Or.inl (Or.inl he)
    · simp only [Option.some.injEq] at he
      subst he
      refine Or.inr ⟨by simp [bytesOrigin, hk, hx], ?_⟩
      intro _
      simp [bytesBase, bytesAdded, hb]
  | hset key field value =>
    obtain ⟨hm, hE, _, e0, e1, hc0, hc, hk, hx, hb⟩ := Hset_entry d d' key field value h
    refine ⟨hm, fun e he => ?_⟩
    rw [hE, hc] at he
    rcases he with he | he
    · exact Or.inl (Or.inl he)
    · simp only [Option.some.injEq] at he
      subst he
      exact Or.inr ⟨by simp [bytesOrigin, hc0, hk, hx], by simpa [bytesBase, hc0] using hb⟩
  | sadd key member =>
    obtain ⟨hm, hE, _, e0, e1, hc0, hc, hk, hx, hb⟩ := Sadd_entry d d' key member h
    refine ⟨hm, fun e he => ?_⟩
    rw [hE, hc] at he
    rcases he with he | he
    · exact Or.inl (Or.inl he)
    · simp only [Option.some.injEq] at he
      subst he
      exact Or.inr ⟨by simp [bytesOrigin, hc0, hk, hx], by simpa [bytesBase, hc0] using hb⟩
  | zadd key member =>
    obtain ⟨hm, hE, _, e0, e1, hc0, hc, hk, hx, hb⟩ := Zadd_entry d d' key member h
    refine ⟨hm, fun e he => ?_⟩
    rw [hE, hc] at he
    rcases he with he | he
    · exact Or.inl (Or.inl he)
    · simp only [Option.some.injEq] at he
      subst he
      exact Or.inr ⟨by simp [bytesOrigin, hc0, hk, hx], by simpa [bytesBase, hc0] using hb⟩
  | rpush key value n =>
    obtain ⟨hm, hE, _, e0, e1, hc0, hc, hk, hx, hb⟩ := Rpush_entry d d' key value n h
    refine ⟨hm, fun e he => ?_⟩
    rw [hE, hc] at he
    rcases he with he | he
    · exact Or.inl (Or.inl he)
    · simp only [Option.some.injEq] at he
      subst he
      exact Or.inr ⟨by simp [bytesOrigin, hc0, hk, hx], by simpa [bytesBase, hc0] using hb⟩
  | xadd key id listpack =>
    obtain ⟨hm, hE, _, e0, e1, hc0, hc, hk, hx, hb⟩ := Xadd_entry d d' key id listpack h
    refine ⟨hm, fun e he => ?_⟩
    rw [hE, hc] at he
    rcases he with he | he
    · exact Or.inl (Or.inl he)
    · simp only [Option.some.injEq] at he
      subst he
      exact Or.inr ⟨by simp [bytesOrigin, hc0, hk, hx], by simpa [bytesBase, hc0] using hb⟩
  | endHash key =>
    simp only [callback, EndHash, Except.ok.injEq] at h
    subst h
    refine ⟨rfl, fun e he => Or.inl ?_⟩
    simp only [sendEntry, List.mem_append, List.mem_singleton] at he
    rcases he with (he | he) | he
    · exact Or.inl he
    · exact Or.inr he.symm
    · simp at he
  | endSet key =>
    simp only [callback, EndSet, Except.ok.injEq] at h
    subst h
    refine ⟨rfl, fun e he => Or.inl ?_⟩
    simp only [sendEntry, List.mem_append, List.mem_singleton] at he
    rcases he with (he | he) | he
    · exact Or.inl he
    · exact Or.inr he.symm
    · simp at he
  | endZSet key =>
    simp only [callback, EndZSet, Except.ok.injEq] at h
    subst h
    refine ⟨rfl, fun e he => Or.inl ?_⟩
    simp only [sendEntry, List.mem_append, List.mem_singleton] at he
    rcases he with (he | he) | he
    · exact Or.inl he
    · exact Or.inr he.symm
    · simp at he
  | endList key =>
    obtain ⟨hm, hc, e0, e1, hc0, hE, hk, hx, hb⟩ := EndList_entry d d' key h
    refine ⟨hm, fun e he => ?_⟩
    rw [hE, hc] at he
    rcases he with he | he
    · rw [List.mem_append] at he
      rcases he with he | he
      · exact Or.inl (Or.inl he)
      · simp only [List.mem_singleton, Option.some.injEq] at he
        subst he
        exact Or.inr ⟨by simp [bytesOrigin, hc0, hk, hx], by simpa [bytesBase, hc0] using hb⟩
    · simp at he
  | endStream key items lastEntryID gs =>
    obtain ⟨hm, hc, hcase⟩ := EndStream_entry d d' key items lastEntryID gs h
    refine ⟨hm, fun e he => ?_⟩
    rw [hc] at he
    rcases hcase with ⟨hc0, hE⟩ | ⟨e0, e1, hc0, hE, hk, hx, hb⟩
    · rw [hE] at he
      rcases he with he | he
      · rw [List.mem_append] at he
        rcases he with he | he
        · exact Or.inl (Or.inl he)
        · simp at he
      · simp at he
    · rw [hE] at he
      rcases he with he | he
      · rw [List.mem_append] at he
        rcases he with he | he
        · exact Or.inl (Or.inl he)
        · simp only [List.mem_singleton, Option.some.injEq] at he
          subst he
          exact Or.inr ⟨by simp [bytesOrigin, hc0, hk, hx], by simpa [bytesBase, hc0] using hb⟩
      · simp at he

theorem bytesBase_ge (d : Decoder) (ev : Event) (k : String) (x : Int)
    (inv : ∀ e, (some e ∈ d.Entries ∨ d.currentEntry = some e) →
      e.Bytes ≥ d.m.TopLevelObjOverhead e.Key e.Expiration)
    (ho : bytesOrigin d ev = some (k, x)) :
    bytesBase d ev ≥ d.m.TopLevelObjOverhead k x := by
  cases ev
  all_goals simp only [bytesOrigin, Option.some.injEq, Prod.mk.injEq] at ho
  all_goals simp only [bytesBase]
  all_goals first
    | (obtain ⟨rfl, rfl⟩ := ho; exact Nat.le_refl _)
    | (cases hce : d.currentEntry with
       | none => rw [hce] at ho; simp at ho
       | some e0 =>
         rw [hce] at ho
         simp only [Option.some.injEq, Prod.mk.injEq] at ho
         obtain ⟨rfl, rfl⟩ := ho
         exact inv e0 (Or.inr hce))
    | simp at ho

theorem panicState_frame (d : Decoder) (ev : Event) :
    (panicState d ev).Entries = d.Entries ∧ (panicState d ev).m = d.m ∧
    (panicState d ev).rdbVer = d.rdbVer ∧ (panicState d ev).Db = d.Db := by
  cases hce : d.currentEntry <;> cases ev <;> simp only [panicState, hce] <;>
    first
      | exact ⟨rfl, rfl, rfl, rfl⟩
      | (rename_i gs
         cases gs <;> exact ⟨rfl, rfl, rfl, rfl⟩)
      | simp

/-- what a panicking callback leaves of an open record: the fields outside `Bytes`,
`NumOfElem` and the largest element stay -/
theorem panicState_entry (d : Decoder) (ev : Event) (e0 : Entry)
    (hce : d.currentEntry = some e0) (hev : isElement ev = true ∨ isEnd ev = true) :
    (panicState d ev).currentInfo = d.currentInfo ∧
    ∃ e1, (panicState d ev).currentEntry = some e1 ∧ staticFields e1 = staticFields e0 := by
  have hul : ∀ (n : Nat) (f : String), staticFields (updateLargest e0 n f) = staticFields e0 := by
    intro n f
    unfold updateLargest
    split <;> rfl
  cases ev <;> simp only [isElement, isEnd, Bool.false_eq_true, or_self] at hev
  case hset key field value =>
    have hp : panicState d (Event.hset key field value) = { d with
        currentEntry :=
          some (updateLargest e0 (add64 (d.m.ElemLen field) (d.m.ElemLen value)) field) } := by
      simp only [panicState, hce]
    rw [hp]
    exact ⟨rfl, _, rfl, hul _ _⟩
  case sadd key member =>
    have hp : panicState d (Event.sadd key member) = { d with
        currentEntry := some (updateLargest e0 (d.m.ElemLen member) member) } := by
      simp only [panicState, hce]
    rw [hp]
    exact ⟨rfl, _, rfl, hul _ _⟩
  case zadd key member =>
    have hp : panicState d (Event.zadd key member) = { d with
        currentEntry := some (updateLargest e0 (d.m.ElemLen member) member) } := by
      simp only [panicState, hce]
    rw [hp]
    exact ⟨rfl, _, rfl, hul _ _⟩
  case rpush key value ne =>
    have hp : panicState d (Event.rpush key value ne) = { d with
        currentEntry := some { e0 with NumOfElem := add64 e0.NumOfElem 1 } } := by
      simp only [panicState, hce]
    rw [hp]
    exact ⟨rfl, _, rfl, rfl⟩
  case xadd key id listpack => exact ⟨rfl, e0, hce, rfl⟩
  case endHash key => exact ⟨rfl, e0, hce, rfl⟩
  case endSet key => exact ⟨rfl, e0, hce, rfl⟩
  case endList key => exact ⟨rfl, e0, hce, rfl⟩
  case endZSet key => exact ⟨rfl, e0, hce, rfl⟩
  case endStream key items lastEntryID gs =>
    cases gs with
    | nil => exact ⟨rfl, e0, hce, rfl⟩
    | cons cg gs =>
      have hp : panicState d (Event.endStream key items lastEntryID (cg :: gs)) = { d with
          currentEntry := some { e0 with
            Bytes := add64 (add64 e0.Bytes (d.m.SizeofStreamRadixTree (toUint64 cg.Pending.length)))
              (d.m.StreamNACK (toUint64 cg.Pending.length)) } } := by
        simp only [panicState, hce]
      rw [hp]
      exact ⟨rfl, _, rfl, rfl⟩

theorem callback_inv (d d' : Decoder) (ev : Event) (h : callback d ev = Except.ok d')
    (hno : bytesBase d ev + (bytesAdded d ev).sum < 18446744073709551616)
    (inv : ∀ e, (some e ∈ d.Entries ∨ d.currentEntry = some e) →
      e.Bytes ≥ d.m.TopLevelObjOverhead e.Key e.Expiration) :
    d'.m = d.m ∧ ∀ e, (some e ∈ d'.Entries ∨ d'.currentEntry = some e) →
      e.Bytes ≥ d'.m.TopLevelObjOverhead e.Key e.Expiration := by
  obtain ⟨hm, hent⟩ := callback_entry d d' ev h
  refine ⟨hm, fun e he => ?_⟩
  rw [hm]
  rcases hent e he with hold | ⟨ho, hb⟩
  · exact inv e hold
  · have := bytesBase_ge d ev e.Key e.Expiration inv ho
    rw [hb hno]
    omega

theorem callbacks_inv (evs : List Event) :
    ∀ d : Decoder, NoOverflow d evs = true →
      (∀ e, (some e ∈ d.Entries ∨ d.currentEntry = some e) →
        e.Bytes ≥ d.m.TopLevelObjOverhead e.Key e.Expiration) →
      (callbacks d evs).1.m = d.m ∧
      ∀ e, some e ∈ (callbacks d evs).1.Entries →
        e.Bytes ≥ d.m.TopLevelObjOverhead e.Key e.Expiration := by
  induction evs with
  | nil => intro d _ inv; exact ⟨rfl, fun e he => inv e (Or.inl he)⟩
  | cons ev evs ih =>
    intro d hno inv
    unfold NoOverflow at hno
    unfold callbacks
    cases hcb : callback d ev with
    | error msg =>
      obtain ⟨f1, f2, _, _⟩ := panicState_frame d ev
      refine ⟨f2, fun e he => inv e (Or.inl ?_)⟩
      rw [← f1]
      exact he
    | ok d1 =>
      rw [hcb] at hno
      simp only [Bool.and_eq_true, decide_eq_true_eq] at hno
      obtain ⟨hm, inv1⟩ := callback_inv d d1 ev hcb hno.1 inv
      obtain ⟨hm2, inv2⟩ := ih d1 hno.2 inv1
      simp only
      rw [hm] at hm2 inv2
      exact ⟨hm2, inv2⟩

/-- C11. Run any sequence of callbacks on a new decoder, up to the first panic if
there is one. If no `uint64` addition of these callbacks overflows, every record
sent on `Entries` has `Bytes` at least `TopLevelObjOverhead` of its key and expiry,
for every memory profiler and every `SizeOfValue`. -/
theorem record_bytes_lower_bound (m : MemProfiler) (evs : List Event)
    (hno : NoOverflow (NewDecoder m) evs = true) :
    ∀ e ∈ Records (callbacks (NewDecoder m) evs).1,
      e.Bytes ≥ m.TopLevelObjOverhead e.Key e.Expiration := by
  intro e he
  have hinv := (callbacks_inv evs (NewDecoder m) hno (by
    intro e he
    rcases he with he | he
    · simp [NewDecoder] at he
    · simp [NewDecoder] at he)).2
  apply hinv e
  unfold Records at he
  rw [List.mem_filterMap] at he
  obtain ⟨a, ha, hae⟩ := he
  simp only [id] at hae
  rw [← hae]
  exact ha

/-- C11 at a concrete input: a hash, a string with an expiry and a stream are sent
with 197, 87 and 454 bytes, above their top-level overheads 57, 73 and 57, before a
list of unknown encoding ends the run. -/
theorem record_bytes_lower_bound_witness :
    NoOverflow (NewDecoder sampleProfiler) sampleRun = true ∧
    (Records (callbacks (NewDecoder sampleProfiler) sampleRun).1).map
      (fun e => (e.Key, e.Typ, e.Bytes, sampleProfiler.TopLevelObjOverhead e.Key e.Expiration))
      = [("h", "hash", 197, 57), ("s", "string", 87, 73), ("x", "stream", 454, 57)] ∧
    ∀ e ∈ Records (callbacks (NewDecoder sampleProfiler) sampleRun).1,
      e.Bytes ≥ sampleProfiler.TopLevelObjOverhead e.Key e.Expiration :=
  ⟨by decide, by decide, record_bytes_lower_bound sampleProfiler sampleRun (by decide)⟩

/-! ### C12: sequences with an unknown encoding -/

theorem StartHash_unknown (d : Decoder) (key : String) (n expiry : Int) (i : Info)
    (h : i.Encoding ∉ ["hashtable", "listpack", "ziplist", "zipmap"]) :
    StartHash d key n expiry (some i)
      = Except.error ("unexpected size(0) or encoding:" ++ i.Encoding) := by
  simp only [List.mem_cons, List.mem_singleton, List.not_mem_nil, or_false, not_or] at h
  unfold StartHash
  simp only [h.1, h.2.1, h.2.2.1, h.2.2.2, if_false, or_self]

theorem StartSet_unknown (d : Decoder) (key : String) (n expiry : Int) (i : Info)
    (h : i.Encoding ∉ ["intset", "hashtable", "listpack"]) :
    StartSet d key n expiry (some i)
      = Except.error ("unexpected size(0) or encoding:" ++ i.Encoding) := by
  simp only [List.mem_cons, List.mem_singleton, List.not_mem_nil, or_false, not_or] at h
  unfold StartSet
  simp only [h.1, h.2.1, h.2.2, if_false, false_and]

theorem StartZSet_unknown (d : Decoder) (key : String) (n expiry : Int) (i : Info)
    (h : i.Encoding ∉ ["ziplist", "skiplist", "listpack"]) :
    StartZSet d key n expiry (some i)
      = Except.error ("unexpected size(0) or encoding:" ++ i.Encoding) := by
  simp only [List.mem_cons, List.mem_singleton, List.not_mem_nil, or_false, not_or] at h
  unfold StartZSet
  simp only [h.1, h.2.1, h.2.2, if_false, false_and]

theorem Rpush_unknown (d : Decoder) (key value : String) (ne : Nat) (e : Entry) (i : Info)
    (hce : d.currentEntry = some e) (hci : d.currentInfo = some i)
    (h : i.Encoding ∉ ["quicklist", "ziplist", "linkedlist", "quicklist2"]) :
    Rpush d key value ne = Except.error ("unknown encoding:" ++ i.Encoding) := by
  simp only [List.mem_cons, List.mem_singleton, List.not_mem_nil, or_false, not_or] at h
  unfold Rpush
  rw [hce, hci]
  simp only [h.1, h.2.1, h.2.2.1, h.2.2.2, if_false]

theorem EndList_unknown (d : Decoder) (key : String) (e : Entry) (i : Info)
    (hce : d.currentEntry = some e) (hci : d.currentInfo = some i)
    (h : i.Encoding ∉ ["quicklist", "ziplist", "linkedlist", "quicklist2"]) :
    EndList d key = Except.error ("unknown encoding:" ++ i.Encoding) := by
  simp only [List.mem_cons, List.mem_singleton, List.not_mem_nil, or_false, not_or] at h
  unfold EndList
  rw [hce, hci]
  simp only [h.1, h.2.1, h.2.2.1, h.2.2.2, if_false]

theorem callbacks_error (d : Decoder) (ev : Event) (evs : List Event) (msg : String)
    (h : callback d ev = Except.error msg) :
    callbacks d (ev :: evs) = (panicState d ev, some msg) := by
  unfold callbacks
  rw [h]

theorem callbacks_ok (d d1 : Decoder) (ev : Event) (evs : List Event)
    (h : callback d ev = Except.ok d1) : callbacks d (ev :: evs) = callbacks d1 evs := by
  rw [callbacks, h]

theorem EndStream_ok (d : Decoder) (key : String) (items : Nat) (lastEntryID : String)
    (gs : List StreamGroup) (e : Entry) (i : Info)
    (hce : d.currentEntry = some e) (hci : d.currentInfo = some i) :
    ∃ b, EndStream d key items lastEntryID gs
      = Except.ok { d with Entries := d.Entries ++ [some { e with Bytes := b }]
                           currentEntry := none } := by
  unfold EndStream
  cases gs with
  | nil =>
    refine ⟨e.Bytes, ?_⟩
    simp only [sendEntry, hce]
  | cons cg gs =>
    obtain ⟨b', hb', _⟩ := EndStream_groups_sum d i hci (cg :: gs) e.Bytes
    refine ⟨b', ?_⟩
    simp only [hce, hb', sendEntry]

theorem Xadd_ok (d : Decoder) (key id listpack : String) (e : Entry)
    (hce : d.currentEntry = some e) :
    ∃ d2 e2, callback d (Event.xadd key id listpack) = Except.ok d2 ∧
      d2.Entries = d.Entries ∧ d2.currentEntry = some e2 ∧ d2.currentInfo = d.currentInfo ∧
      e2.Key = e.Key ∧ e2.Typ = e.Typ ∧ e2.Encoding = e.Encoding := by
  refine ⟨{ d with
      currentEntry := some
        { e with
          NumOfElem := add64 e.NumOfElem 1
          Bytes := add64 e.Bytes (d.m.mallocOverhead (toUint64 listpack.length)) } }, _,
    ?_, rfl, rfl, rfl, rfl, rfl, rfl⟩
  simp only [callback, Xadd, hce]

theorem StartList_ok (d : Decoder) (key : String) (n expiry : Int) (i : Info) :
    ∃ d1 e, callback d (Event.startList key n expiry (some i)) = Except.ok d1 ∧
      d1.Entries = d.Entries ∧ d1.currentEntry = some e ∧ d1.currentInfo = some i :=
  ⟨_, _, rfl, rfl, rfl, rfl⟩

theorem StartStream_ok (d : Decoder) (key : String) (n expiry : Int) (i : Info) :
    ∃ d1 e, callback d (Event.startStream key n expiry (some i)) = Except.ok d1 ∧
      d1.Entries = d.Entries ∧ d1.currentEntry = some e ∧ d1.currentInfo = some i ∧
      e.Key = key ∧ e.Typ = "stream" ∧ e.Encoding = i.Encoding :=
  ⟨_, _, rfl, rfl, rfl, rfl, rfl, rfl, rfl⟩

theorem xadd_events (key : String) (items : Nat) (lastEntryID : String) (gs : List StreamGroup)
    (i : Info) (ls : List (String × String)) :
    ∀ (d : Decoder) (e : Entry), d.currentEntry = some e → d.currentInfo = some i →
      ∃ d1 e1, callbacks d (ls.map (fun l => Event.xadd key l.1 l.2) ++
          [Event.endStream key items lastEntryID gs]) = (d1, none) ∧
        d1.Entries = d.Entries ++ [some e1] ∧ d1.currentEntry = none ∧ e1.Key = e.Key ∧
        e1.Typ = e.Typ ∧ e1.Encoding = e.Encoding := by
  induction ls with
  | nil =>
    intro d e hce hci
    obtain ⟨b, hb⟩ := EndStream_ok d key items lastEntryID gs e i hce hci
    refine ⟨{ d with Entries := d.Entries ++ [some { e with Bytes := b }]
                     currentEntry := none }, { e with Bytes := b },
      ?_, rfl, rfl, rfl, rfl, rfl⟩
    simp only [List.map_nil, List.nil_append]
    rw [callbacks_ok d _ (Event.endStream key items lastEntryID gs) [] hb]
    rfl
  | cons l ls ih =>
    intro d e hce hci
    obtain ⟨d2, e2, hx, x1, x2, x3, x4, x5, x6⟩ := Xadd_ok d key l.1 l.2 e hce
    obtain ⟨d1, e1, h1, h2, h3, h4, h5, h6⟩ := ih d2 e2 x2 (x3.trans hci)
    refine ⟨d1, e1, ?_, by rw [h2, x1], h3, h4.trans x4, h5.trans x5, h6.trans x6⟩
    simp only [List.map_cons, List.cons_append]
    rw [callbacks_ok d _ _ _ hx]
    exact h1

/-- C12 as stated fails for streams: a stream whose encoding tag is `hashtable` runs
through `StartStream`, `Xadd` and `EndStream` without a panic and its record is
sent. -/
theorem stream_unknown_encoding_is_sent :
    (callbacks (NewDecoder sampleProfiler)
      (streamEvents "x" 1 0 { sampleHashInfo with Encoding := "hashtable" }
        [("1-1", "listpack")] 1 "1-1" [])).2 = none ∧
    (Records (callbacks (NewDecoder sampleProfiler)
      (streamEvents "x" 1 0 { sampleHashInfo with Encoding := "hashtable" }
        [("1-1", "listpack")] 1 "1-1" [])).1).map
      (fun e => (e.Key, e.Typ, e.Encoding, e.Bytes)) = [("x", "stream", "hashtable", 197)] := by
  decide

/-- C12, amended. A hash, set or sorted-set sequence whose encoding tag is not an
encoding of its shape panics in its `Start...` callback, and a list sequence in its
first `Rpush` (in `EndList` if the list has no values), with a message that ends in
the tag; nothing is sent on `Entries`.  The panic leaves the decoder as it was for a
hash and a set; for a sorted set `StartZSet` has already stored the info as current
info; for a list `StartList` has opened the record, and `Rpush` has counted its
value, before the panic.  A stream sequence checks no tag: for every encoding it
runs without a panic and sends its record. -/
theorem unknown_encoding_sequence (d : Decoder) (key : String) (n expiry : Int) (i : Info)
    (pairs : List (String × String)) (members : List String) (values : List (String × Nat))
    (listpacks : List (String × String)) (items : Nat) (lastEntryID : String)
    (gs : List StreamGroup) :
    (i.Encoding ∉ ["hashtable", "listpack", "ziplist", "zipmap"] →
      callbacks d (hashEvents key n expiry i pairs)
        = (d, some ("unexpected size(0) or encoding:" ++ i.Encoding))) ∧
    (i.Encoding ∉ ["intset", "hashtable", "listpack"] →
      callbacks d (setEvents key n expiry i members)
        = (d, some ("unexpected size(0) or encoding:" ++ i.Encoding))) ∧
    (i.Encoding ∉ ["ziplist", "skiplist", "listpack"] →
      callbacks d (zsetEvents key n expiry i members)
        = ({ d with currentInfo := some i },
            some ("unexpected size(0) or encoding:" ++ i.Encoding))) ∧
    (i.Encoding ∉ ["quicklist", "ziplist", "linkedlist", "quicklist2"] →
      callbacks d (listEvents key n expiry i values)
        = ({ d with
              currentInfo := some i
              currentEntry := some
                { Key := key, Bytes := d.m.TopLevelObjOverhead key expiry, Typ := "list",
                  Encoding := i.Encoding, NumOfElem := (if values = [] then 0 else 1),
                  LenOfLargestElem := 0, FieldOfLargestElem := "", Expiration := expiry,
                  LruIdle := i.Idle, LfuFreq := i.Freq, Db := d.Db } },
            some ("unknown encoding:" ++ i.Encoding))) ∧
    (∃ d1 e, callbacks d (streamEvents key n expiry i listpacks items lastEntryID gs)
          = (d1, none) ∧
        d1.Entries = d.Entries ++ [some e] ∧ e.Key = key ∧ e.Typ = "stream" ∧
        e.Encoding = i.Encoding) := by
  refine ⟨fun h => ?_, fun h => ?_, fun h => ?_, fun h => ?_, ?_⟩
  · exact callbacks_error d _ _ _ (StartHash_unknown d key n expiry i h)
  · exact callbacks_error d _ _ _ (StartSet_unknown d key n expiry i h)
  · exact callbacks_error d _ _ _ (StartZSet_unknown d key n expiry i h)
  · obtain ⟨e0, he0⟩ : ∃ e0 : Entry, e0 =
        { Key := key, Bytes := d.m.TopLevelObjOverhead key expiry, Typ := "list",
          Encoding := i.Encoding, NumOfElem := 0, LenOfLargestElem := 0,
          FieldOfLargestElem := "", Expiration := expiry, LruIdle := i.Idle,
          LfuFreq := i.Freq, Db := d.Db } := ⟨_, rfl⟩
    obtain ⟨d1, hd1⟩ : ∃ d1 : Decoder, d1 =
        { d with currentInfo := some i, currentEntry := some e0 } := ⟨_, rfl⟩
    have hs : callback d (Event.startList key n expiry (some i)) = Except.ok d1 := by
      rw [hd1, he0]
      rfl
    have hce : d1.currentEntry = some e0 := by rw [hd1]
    have hci : d1.currentInfo = some i := by rw [hd1]
    unfold listEvents
    simp only [List.singleton_append, List.cons_append]
    rw [callbacks_ok d _ _ _ hs]
    cases values with
    | nil =>
      have hp : callbacks d1 [Event.endList key]
          = (panicState d1 (Event.endList key), some ("unknown encoding:" ++ i.Encoding)) :=
        callbacks_error d1 (Event.endList key) [] _ (EndList_unknown d1 key e0 i hce hci h)
      show callbacks d1 [Event.endList key] = _
      rw [hp]
      simp only [panicState, if_pos, hd1, he0]
    | cons v vs =>
      have hp : callbacks d1 (Event.rpush key v.1 v.2 ::
            (vs.map (fun v => Event.rpush key v.1 v.2) ++ [Event.endList key]))
          = (panicState d1 (Event.rpush key v.1 v.2),
              some ("unknown encoding:" ++ i.Encoding)) :=
        callbacks_error d1 (Event.rpush key v.1 v.2) _ _
          (Rpush_unknown d1 key v.1 v.2 e0 i hce hci h)
      show callbacks d1 (Event.rpush key v.1 v.2 ::
            (vs.map (fun v => Event.rpush key v.1 v.2) ++ [Event.endList key])) = _
      rw [hp]
      simp only [panicState, hce]
      rw [hd1, he0]
      simp [add64, wrap64]
  · obtain ⟨d0, e0, hs, s1, s2, s3, s4, s5, s6⟩ := StartStream_ok d key n expiry i
    obtain ⟨d1, e1, h1, h2, h3, h4, h5, h6⟩ :=
      xadd_events key items lastEntryID gs i listpacks d0 e0 s2 s3
    refine ⟨d1, e1, ?_, by rw [h2, s1], h4.trans s4, h5.trans s5, h6.trans s6⟩
    unfold streamEvents
    simp only [List.singleton_append, List.cons_append, List.append_assoc]
    rw [callbacks_ok d _ _ _ hs]
    exact h1

/-- C12 at a concrete input: the tag `bogus` on a hash, a set, a sorted set and a
list, each with one element. -/
theorem unknown_encoding_sequence_witness :
    (sampleBogusInfo.Encoding ∉ ["hashtable", "listpack", "ziplist", "zipmap"] ∧
      callbacks sampleDecoder (hashEvents "k" 1 0 sampleBogusInfo [("f", "v")])
        = (sampleDecoder, some ("unexpected size(0) or encoding:" ++ sampleBogusInfo.Encoding))) ∧
    (sampleBogusInfo.Encoding ∉ ["intset", "hashtable", "listpack"] ∧
      callbacks sampleDecoder (setEvents "k" 1 0 sampleBogusInfo ["m"])
        = (sampleDecoder, some ("unexpected size(0) or encoding:" ++ sampleBogusInfo.Encoding))) ∧
    (sampleBogusInfo.Encoding ∉ ["ziplist", "skiplist", "listpack"] ∧
      callbacks sampleDecoder (zsetEvents "k" 1 0 sampleBogusInfo ["m"])
        = ({ sampleDecoder with currentInfo := some sampleBogusInfo },
            some ("unexpected size(0) or encoding:" ++ sampleBogusInfo.Encoding))) ∧
    (sampleBogusInfo.Encoding ∉ ["quicklist", "ziplist", "linkedlist", "quicklist2"] ∧
      callbacks sampleDecoder (listEvents "k" 1 0 sampleBogusInfo [("v", 0)])
        = ({ sampleDecoder with
              currentInfo := some sampleBogusInfo
              currentEntry := some
                { Key := "k", Bytes := 57, Typ := "list", Encoding := "bogus", NumOfElem := 1,
                  LenOfLargestElem := 0, FieldOfLargestElem := "", Expiration := 0,
                  LruIdle := 0, LfuFreq := 0, Db := 0 } },
            some ("unknown encoding:" ++ sampleBogusInfo.Encoding))) :=
  ⟨⟨by decide,
      (unknown_encoding_sequence sampleDecoder "k" 1 0 sampleBogusInfo [("f", "v")] ["m"]
        [("v", 0)] [] 0 "" []).1 (by decide)⟩,
    ⟨by decide,
      (unknown_encoding_sequence sampleDecoder "k" 1 0 sampleBogusInfo [("f", "v")] ["m"]
        [("v", 0)] [] 0 "" []).2.1 (by decide)⟩,
    ⟨by decide,
      (unknown_encoding_sequence sampleDecoder "k" 1 0 sampleBogusInfo [("f", "v")] ["m"]
        [("v", 0)] [] 0 "" []).2.2.1 (by decide)⟩,
    ⟨by decide,
      (unknown_encoding_sequence sampleDecoder "k" 1 0 sampleBogusInfo [("f", "v")] ["m"]
        [("v", 0)] [] 0 "" []).2.2.2.1 (by decide)⟩⟩

/-! ### C13: the message of an encoding failure -/

theorem StartHash_error_iff (d : Decoder) (key : String) (n expiry : Int) (i : Info)
    (msg : String) :
    StartHash d key n expiry (some i) = Except.error msg ↔
      i.Encoding ∉ ["hashtable", "listpack", "ziplist", "zipmap"] ∧
        msg = "unexpected size(0) or encoding:" ++ i.Encoding := by
  unfold StartHash
  simp only [List.mem_cons, List.mem_singleton, List.not_mem_nil, or_false, not_or]
  by_cases h1 : i.Encoding = "hashtable"
  · simp [h1]
  · by_cases h2 : i.Encoding = "listpack" ∨ i.Encoding = "ziplist" ∨ i.Encoding = "zipmap"
    · rw [if_neg h1, if_pos h2]
      by_cases h3 : i.SizeOfValue > 0
      · rw [if_pos h3]
        simp only [false_iff, reduceCtorEq]
        intro hh
        rcases h2 with h2 | h2 | h2
        · exact hh.1.2.1 h2
        · exact hh.1.2.2.1 h2
        · exact hh.1.2.2.2 h2
      · rw [if_neg h3]
        simp only [false_iff, reduceCtorEq]
        intro hh
        rcases h2 with h2 | h2 | h2
        · exact hh.1.2.1 h2
        · exact hh.1.2.2.1 h2
        · exact hh.1.2.2.2 h2
    · rw [if_neg h1, if_neg h2]
      simp only [Except.error.injEq]
      simp only [not_or] at h2
      constructor
      · intro hh
        exact ⟨⟨h1, h2.1, h2.2.1, h2.2.2⟩, hh.symm⟩
      · intro hh
        exact hh.2.symm

theorem StartSet_error_iff (d : Decoder) (key : String) (n expiry : Int) (i : Info)
    (msg : String) :
    StartSet d key n expiry (some i) = Except.error msg ↔
      (¬ (i.Encoding = "intset" ∧ i.SizeOfValue > 0) ∧ i.Encoding ≠ "hashtable" ∧
        ¬ (i.Encoding = "listpack" ∧ i.SizeOfValue > 0)) ∧
        msg = "unexpected size(0) or encoding:" ++ i.Encoding := by
  unfold StartSet
  simp only
  by_cases h1 : i.Encoding = "intset" ∧ i.SizeOfValue > 0
  · rw [if_pos h1]
    simp only [false_iff, reduceCtorEq]
    exact fun hh => hh.1.1 h1
  · rw [if_neg h1]
    by_cases h2 : i.Encoding = "hashtable"
    · rw [if_pos h2]
      simp only [false_iff, reduceCtorEq]
      exact fun hh => hh.1.2.1 h2
    · rw [if_neg h2]
      by_cases h3 : i.Encoding = "listpack" ∧ i.SizeOfValue > 0
      · rw [if_pos h3]
        simp only [false_iff, reduceCtorEq]
        exact fun hh => hh.1.2.2 h3
      · rw [if_neg h3]
        simp only [Except.error.injEq]
        exact ⟨fun hh => ⟨⟨h1, h2, h3⟩, hh.symm⟩, fun hh => hh.2.symm⟩

theorem StartZSet_error_iff (d : Decoder) (key : String) (n expiry : Int) (i : Info)
    (msg : String) :
    StartZSet d key n expiry (some i) = Except.error msg ↔
      (¬ (i.Encoding = "ziplist" ∧ i.SizeOfValue > 0) ∧ i.Encoding ≠ "skiplist" ∧
        ¬ (i.Encoding = "listpack" ∧ i.SizeOfValue > 0)) ∧
        msg = "unexpected size(0) or encoding:" ++ i.Encoding := by
  unfold StartZSet
  simp only
  by_cases h1 : i.Encoding = "ziplist" ∧ i.SizeOfValue > 0
  · rw [if_pos h1]
    simp only [false_iff, reduceCtorEq]
    exact fun hh => hh.1.1 h1
  · rw [if_neg h1]
    by_cases h2 : i.Encoding = "skiplist"
    · rw [if_pos h2]
      simp only [false_iff, reduceCtorEq]
      exact fun hh => hh.1.2.1 h2
    · rw [if_neg h2]
      by_cases h3 : i.Encoding = "listpack" ∧ i.SizeOfValue > 0
      · rw [if_pos h3]
        simp only [false_iff, reduceCtorEq]
        exact fun hh => hh.1.2.2 h3
      · rw [if_neg h3]
        simp only [Except.error.injEq]
        exact ⟨fun hh => ⟨⟨h1, h2, h3⟩, hh.symm⟩, fun hh => hh.2.symm⟩

theorem Rpush_error_iff (d : Decoder) (key value : String) (ne : Nat) (e : Entry) (i : Info)
    (hce : d.currentEntry = some e) (hci : d.currentInfo = some i) (msg : String) :
    Rpush d key value ne = Except.error msg ↔
      i.Encoding ∉ ["quicklist", "ziplist", "linkedlist", "quicklist2"] ∧
        msg = "unknown encoding:" ++ i.Encoding := by
  constructor
  · intro h
    by_cases hm : i.Encoding ∈ ["quicklist", "ziplist", "linkedlist", "quicklist2"]
    · exfalso
      unfold Rpush at h
      rw [hce, hci] at h
      simp only [List.mem_cons, List.mem_singleton, List.not_mem_nil, or_false] at hm
      by_cases h1 : i.Encoding = "quicklist"
      · simp [h1] at h
      · by_cases h2 : i.Encoding = "ziplist"
        · simp [h1, h2] at h
        · by_cases h3 : i.Encoding = "linkedlist"
          · simp [h1, h2, h3] at h
          · have h4 : i.Encoding = "quicklist2" := by
              rcases hm with hm | hm | hm | hm
              · exact absurd hm h1
              · exact absurd hm h2
              · exact absurd hm h3
              · exact hm
            simp only [h1, h2, h3, h4, if_false, if_true] at h
            by_cases h5 : ne = 1 <;> by_cases h6 : strconv_ParseInt_ok value 32 = true
            all_goals simp [h5, h6] at h
    · refine ⟨hm, ?_⟩
      rw [Rpush_unknown d key value ne e i hce hci hm] at h
      simp only [Except.error.injEq] at h
      exact h.symm
  · intro h
    rw [h.2]
    exact Rpush_unknown d key value ne e i hce hci h.1

theorem EndList_error_iff (d : Decoder) (key : String) (e : Entry) (i : Info)
    (hce : d.currentEntry = some e) (hci : d.currentInfo = some i) (msg : String) :
    EndList d key = Except.error msg ↔
      i.Encoding ∉ ["quicklist", "ziplist", "linkedlist", "quicklist2"] ∧
        msg = "unknown encoding:" ++ i.Encoding := by
  constructor
  · intro h
    by_cases hm : i.Encoding ∈ ["quicklist", "ziplist", "linkedlist", "quicklist2"]
    · exfalso
      unfold EndList at h
      rw [hce, hci] at h
      simp only [List.mem_cons, List.mem_singleton, List.not_mem_nil, or_false] at hm
      by_cases h1 : i.Encoding = "quicklist"
      · simp [h1] at h
      · by_cases h2 : i.Encoding = "ziplist"
        · simp [h1, h2] at h
        · by_cases h3 : i.Encoding = "linkedlist"
          · simp [h1, h2, h3] at h
          · have h4 : i.Encoding = "quicklist2" := by
              rcases hm with hm | hm | hm | hm
              · exact absurd hm h1
              · exact absurd hm h2
              · exact absurd hm h3
              · exact hm
            simp [h1, h2, h3, h4] at h
    · refine ⟨hm, ?_⟩
      rw [EndList_unknown d key e i hce hci hm] at h
      simp only [Except.error.injEq] at h
      exact h.symm
  · intro h
    rw [h.2]
    exact EndList_unknown d key e i hce hci h.1

/-- C13 as stated fails: `StartHash` for the key `mykey` with the unknown encoding
`bogus` panics with a message that holds the encoding and not the key. -/
theorem startHash_message_lacks_key :
    StartHash sampleDecoder "mykey" 1 0 (some sampleBogusInfo)
      = Except.error "unexpected size(0) or encoding:bogus" ∧
    ¬ ("mykey".toList <:+: "unexpected size(0) or encoding:bogus".toList) ∧
    "bogus".toList <:+: "unexpected size(0) or encoding:bogus".toList := by
  refine ⟨rfl, by decide, by decide⟩

/-- C13, amended. The panic message of an encoding failure is a fixed text followed
by the offending encoding tag, and it does not depend on the key: `StartHash`,
`StartSet` and `StartZSet` fail with `unexpected size(0) or encoding:` and the tag of
their info, `Rpush` and `EndList` with `unknown encoding:` and the tag of the
current info, and the same call for any other key fails with the same message;
`StartList` and `StartStream` never fail when an info is present. -/
theorem encoding_error_message (d : Decoder) (key key' : String) (n expiry : Int) (i : Info)
    (value : String) (ne : Nat) (e : Entry) (msg : String) :
    (StartHash d key n expiry (some i) = Except.error msg →
      msg = "unexpected size(0) or encoding:" ++ i.Encoding ∧
        StartHash d key' n expiry (some i) = Except.error msg) ∧
    (StartSet d key n expiry (some i) = Except.error msg →
      msg = "unexpected size(0) or encoding:" ++ i.Encoding ∧
        StartSet d key' n expiry (some i) = Except.error msg) ∧
    (StartZSet d key n expiry (some i) = Except.error msg →
      msg = "unexpected size(0) or encoding:" ++ i.Encoding ∧
        StartZSet d key' n expiry (some i) = Except.error msg) ∧
    (d.currentEntry = some e → d.currentInfo = some i →
      Rpush d key value ne = Except.error msg →
      msg = "unknown encoding:" ++ i.Encoding ∧ Rpush d key' value ne = Except.error msg) ∧
    (d.currentEntry = some e → d.currentInfo = some i →
      EndList d key = Except.error msg →
      msg = "unknown encoding:" ++ i.Encoding ∧ EndList d key' = Except.error msg) ∧
    StartList d key n expiry (some i) ≠ Except.error msg ∧
    StartStream d key n expiry (some i) ≠ Except.error msg := by
  refine ⟨fun h => ?_, fun h => ?_, fun h => ?_, fun hce hci h => ?_, fun hce hci h => ?_, ?_, ?_⟩
  · have h' := (StartHash_error_iff d key n expiry i msg).1 h
    exact ⟨h'.2, (StartHash_error_iff d key' n expiry i msg).2 h'⟩
  · have h' := (StartSet_error_iff d key n expiry i msg).1 h
    exact ⟨h'.2, (StartSet_error_iff d key' n expiry i msg).2 h'⟩
  · have h' := (StartZSet_error_iff d key n expiry i msg).1 h
    exact ⟨h'.2, (StartZSet_error_iff d key' n expiry i msg).2 h'⟩
  · have h' := (Rpush_error_iff d key value ne e i hce hci msg).1 h
    exact ⟨h'.2, (Rpush_error_iff d key' value ne e i hce hci msg).2 h'⟩
  · have h' := (EndList_error_iff d key e i hce hci msg).1 h
    exact ⟨h'.2, (EndList_error_iff d key' e i hce hci msg).2 h'⟩
  · intro h
    simp [StartList] at h
  · intro h
    simp [StartStream] at h

/-- C13 at a concrete input: the tag `bogus`, on the three `Start...` callbacks that
check it and on `Rpush` and `EndList` of an open list, for the keys `mykey` and
`other`. -/
theorem encoding_error_message_witness :
    (StartHash sampleBogusListOpen "mykey" 1 0 (some sampleBogusInfo)
        = Except.error "unexpected size(0) or encoding:bogus" ∧
      StartHash sampleBogusListOpen "other" 1 0 (some sampleBogusInfo)
        = Except.error "unexpected size(0) or encoding:bogus") ∧
    (StartSet sampleBogusListOpen "mykey" 1 0 (some sampleBogusInfo)
        = Except.error "unexpected size(0) or encoding:bogus" ∧
      StartSet sampleBogusListOpen "other" 1 0 (some sampleBogusInfo)
        = Except.error "unexpected size(0) or encoding:bogus") ∧
    (StartZSet sampleBogusListOpen "mykey" 1 0 (some sampleBogusInfo)
        = Except.error "unexpected size(0) or encoding:bogus" ∧
      StartZSet sampleBogusListOpen "other" 1 0 (some sampleBogusInfo)
        = Except.error "unexpected size(0) or encoding:bogus") ∧
    (sampleBogusListOpen.currentEntry
        = some { mkEntry "k" "list" 57 0 with Encoding := "bogus" } ∧
      sampleBogusListOpen.currentInfo = some sampleBogusInfo ∧
      Rpush sampleBogusListOpen "mykey" "v" 0 = Except.error "unknown encoding:bogus" ∧
      Rpush sampleBogusListOpen "other" "v" 0 = Except.error "unknown encoding:bogus") ∧
    (EndList sampleBogusListOpen "mykey" = Except.error "unknown encoding:bogus" ∧
      EndList sampleBogusListOpen "other" = Except.error "unknown encoding:bogus") :=
  ⟨⟨rfl, ((encoding_error_message sampleBogusListOpen "mykey" "other" 1 0 sampleBogusInfo "v" 0
      { mkEntry "k" "list" 57 0 with Encoding := "bogus" }
      "unexpected size(0) or encoding:bogus").1 rfl).2⟩,
    ⟨rfl, ((encoding_error_message sampleBogusListOpen "mykey" "other" 1 0 sampleBogusInfo "v" 0
      { mkEntry "k" "list" 57 0 with Encoding := "bogus" }
      "unexpected size(0) or encoding:bogus").2.1 rfl).2⟩,
    ⟨rfl, ((encoding_error_message sampleBogusListOpen "mykey" "other" 1 0 sampleBogusInfo "v" 0
      { mkEntry "k" "list" 57 0 with Encoding := "bogus" }
      "unexpected size(0) or encoding:bogus").2.2.1 rfl).2⟩,
    ⟨rfl, rfl, rfl,
      ((encoding_error_message sampleBogusListOpen "mykey" "other" 1 0 sampleBogusInfo "v" 0
        { mkEntry "k" "list" 57 0 with Encoding := "bogus" }
        "unknown encoding:bogus").2.2.2.1 rfl rfl rfl).2⟩,
    ⟨rfl,
      ((encoding_error_message sampleBogusListOpen "mykey" "other" 1 0 sampleBogusInfo "v" 0
        { mkEntry "k" "list" 57 0 with Encoding := "bogus" }
        "unknown encoding:bogus").2.2.2.2.1 rfl rfl rfl).2⟩⟩

/-! ### C21, C22, C23, C24: prefixes of a key -/

theorem strings_IndexAny_none (s sep : String) (h : ∀ c ∈ s.toList, c ∉ sep.toList) :
    strings_IndexAny s sep = none := by
  unfold strings_IndexAny
  rw [List.findIdx?_eq_none_iff]
  intro c hc
  simpa using h c hc

theorem getPrefixesLoop_none (sep : String) (fuel : Nat) (res : List String) (s : String) :
    getPrefixesLoop sep fuel res s none = res := by
  cases fuel <;> rfl

theorem hasAnySuffix_iff (s sep : String) :
    hasAnySuffix s sep = true ↔ ∃ c ∈ sep.toList, s.toList.getLast? = some c := by
  unfold hasAnySuffix
  simp [List.any_eq_true]

theorem hasAnySuffix_false_of_no_sep (s sep : String) (h : ∀ c ∈ s.toList, c ∉ sep.toList) :
    hasAnySuffix s sep = false := by
  cases hs : hasAnySuffix s sep with
  | false => rfl
  | true =>
    exfalso
    obtain ⟨c, hc, hl⟩ := (hasAnySuffix_iff s sep).1 hs
    exact h c (List.mem_of_getLast?_eq_some hl) hc

theorem trimSuffixLoop_of_false (sep : String) (fuel : Nat) (s : String)
    (h : hasAnySuffix s sep = false) : trimSuffixLoop sep fuel s = s := by
  cases fuel with
  | zero => rfl
  | succ n =>
    unfold trimSuffixLoop
    rw [h]
    rfl

theorem getPrefixes_of_no_sep (s sep : String) (h : ∀ c ∈ s.toList, c ∉ sep.toList) :
    getPrefixes s sep = [s] := by
  unfold getPrefixes
  simp only [strings_IndexAny_none s sep h, getPrefixesLoop_none, List.map_cons, List.map_nil,
    trimSuffixLoop_of_false sep _ s (hasAnySuffix_false_of_no_sep s sep h)]
  rfl

theorem length_strings_Map (f : Char → Char) (s : String) :
    (strings_Map f s).length = s.length := by
  unfold strings_Map
  show (List.map f s.toList).length = s.toList.length
  exact List.length_map _ _

theorem digitToStar_not_default_sep (ch : Char) (h : ch ∉ NewCounter.separators.toList) :
    digitToStar ch ∉ NewCounter.separators.toList := by
  unfold digitToStar
  split
  · decide
  · exact h

theorem prefixKeys_of_no_sep (c : Counter) (e : Entry)
    (h : ∀ ch ∈ (strings_Map digitToStar e.Key).toList, ch ∉ c.separators.toList) :
    prefixKeys c e =
      if e.Key.length = 0 then []
      else [{ Typ := e.Typ, Key := strings_Map digitToStar e.Key }] := by
  unfold prefixKeys
  rw [getPrefixes_of_no_sep _ _ h]
  have hl := length_strings_Map digitToStar e.Key
  by_cases h0 : e.Key.length = 0
  · rw [if_pos h0, List.filter_cons_of_neg (by simp [hl, h0])]
    rfl
  · rw [if_neg h0, List.filter_cons_of_pos (by simp [hl, h0])]
    rfl

/-- C21. A string that holds none of the separator characters has the one-element
prefix list `[s]`. So `countByKeyPrefix` credits an entry whose digit-normalized key
holds no separator of the counter to exactly one prefix, the normalized key itself,
and to none if the key is empty; with the separators of `NewCounter` this is every
entry whose key holds no separator. -/
theorem getPrefixes_no_separator (s sep : String) (c : Counter) (e : Entry) :
    ((∀ ch ∈ s.toList, ch ∉ sep.toList) → getPrefixes s sep = [s]) ∧
    ((∀ ch ∈ (strings_Map digitToStar e.Key).toList, ch ∉ c.separators.toList) →
      countByKeyPrefix c e =
        if e.Key.length = 0 then c
        else
          { c with
            keyPrefixBytes :=
              mapSet c.keyPrefixBytes { Typ := e.Typ, Key := strings_Map digitToStar e.Key }
                (add64 (mapGet 0 c.keyPrefixBytes
                  { Typ := e.Typ, Key := strings_Map digitToStar e.Key }) e.Bytes)
            keyPrefixNum :=
              mapSet c.keyPrefixNum { Typ := e.Typ, Key := strings_Map digitToStar e.Key }
                (add64 (mapGet 0 c.keyPrefixNum
                  { Typ := e.Typ, Key := strings_Map digitToStar e.Key }) 1) }) ∧
    (c.separators = NewCounter.separators →
      (∀ ch ∈ e.Key.toList, ch ∉ c.separators.toList) →
      ∀ ch ∈ (strings_Map digitToStar e.Key).toList, ch ∉ c.separators.toList) := by
  refine ⟨getPrefixes_of_no_sep s sep, fun h => ?_, fun hsep h ch hch => ?_⟩
  · rw [countByKeyPrefix_eq, prefixKeys_of_no_sep c e h]
    by_cases h0 : e.Key.length = 0
    · rw [if_pos h0, if_pos h0]
      rfl
    · rw [if_neg h0, if_neg h0]
      rfl
  · rw [hsep] at h ⊢
    have hch' : ch ∈ List.map digitToStar e.Key.toList := hch
    rw [List.mem_map] at hch'
    obtain ⟨a, ha, rfl⟩ := hch'
    exact digitToStar_not_default_sep a (h a ha)

/-- C21 at a concrete input: the key `session42` under the separators of `NewCounter`. -/
theorem getPrefixes_no_separator_witness :
    (∀ ch ∈ "session**".toList, ch ∉ ":;,_- ".toList) ∧
    getPrefixes "session**" ":;,_- " = ["session**"] ∧
    (countByKeyPrefix NewCounter (mkEntry "session42" "string" 10 0)).keyPrefixNum
      = [({ Typ := "string", Key := "session**" }, 1)] :=
  ⟨by decide,
    (getPrefixes_no_separator "session**" ":;,_- " NewCounter
      (mkEntry "session42" "string" 10 0)).1 (by decide),
    by
      rw [(getPrefixes_no_separator "session**" ":;,_- " NewCounter
        (mkEntry "session42" "string" 10 0)).2.1 (by decide)]
      decide⟩

theorem digitToStar_idem (c : Char) : digitToStar (digitToStar c) = digitToStar c := by
  unfold digitToStar
  by_cases h : c.toNat ≥ 48 ∧ c.toNat ≤ 57
  · rw [if_pos h]
    decide
  · rw [if_neg h, if_neg h]

theorem digitToStar_not_digit (c : Char) :
    ¬ ((digitToStar c).toNat ≥ 48 ∧ (digitToStar c).toNat ≤ 57) := by
  unfold digitToStar
  by_cases h : c.toNat ≥ 48 ∧ c.toNat ≤ 57
  · rw [if_pos h]
    decide
  · rw [if_neg h]
    exact h

/-- C22. The digit normalization of `countByKeyPrefix` replaces every character
from `0` to `9` by `*` and keeps every other character; normalizing a normalized key
returns it unchanged, and the normalized key has the length of the key and holds no
digit. -/
theorem digit_normalization_idempotent (s : String) :
    (strings_Map digitToStar s).toList
      = s.toList.map (fun c => if c.toNat ≥ 48 ∧ c.toNat ≤ 57 then '*' else c) ∧
    strings_Map digitToStar (strings_Map digitToStar s) = strings_Map digitToStar s ∧
    (strings_Map digitToStar s).length = s.length ∧
    ∀ c ∈ (strings_Map digitToStar s).toList, ¬ (c.toNat ≥ 48 ∧ c.toNat ≤ 57) := by
  refine ⟨rfl, ?_, length_strings_Map _ _, ?_⟩
  · unfold strings_Map
    show String.mk (List.map digitToStar (List.map digitToStar s.toList)) = _
    rw [List.map_map]
    congr 1
    apply List.map_congr_left
    intro a _
    exact digitToStar_idem a
  · intro c hc
    have hc' : c ∈ List.map digitToStar s.toList := hc
    rw [List.mem_map] at hc'
    obtain ⟨a, _, rfl⟩ := hc'
    exact digitToStar_not_digit a
theorem hasAnySuffix_empty (sep : String) (s : String) (h : s.length = 0) :
    hasAnySuffix s sep = false := by
  have hl : s.toList = [] := List.length_eq_zero.1 h
  cases hs : hasAnySuffix s sep with
  | false => rfl
  | true =>
    obtain ⟨c, _, hc⟩ := (hasAnySuffix_iff s sep).1 hs
    rw [hl] at hc
    simp at hc

theorem trimSuffixLoop_trimmed (sep : String) (fuel : Nat) :
    ∀ s : String, s.length ≤ fuel → hasAnySuffix (trimSuffixLoop sep fuel s) sep = false := by
  induction fuel with
  | zero =>
    intro s hs
    exact hasAnySuffix_empty sep s (by omega)
  | succ n ih =>
    intro s hs
    unfold trimSuffixLoop
    by_cases h : hasAnySuffix s sep = true
    · rw [if_pos h]
      apply ih
      have : (sliceTo s (s.length - 1)).length = (s.toList.take (s.length - 1)).length := rfl
      rw [this, List.length_take]
      have : s.toList.length = s.length := rfl
      omega
    · rw [if_neg h]
      simpa using h

theorem mem_removeDuplicatesUnordered_fold (l : List String) :
    ∀ (m : GoMap String Bool) (p : String),
      p ∈ mapKeys (l.foldl (fun encountered v => mapSet encountered v true) m) ↔
        p ∈ l ∨ p ∈ mapKeys m := by
  induction l with
  | nil => intro m p; simp
  | cons a l ih =>
    intro m p
    simp only [List.foldl_cons, List.mem_cons]
    rw [ih, mem_mapKeys_mapSet]
    constructor
    · rintro (h | h | h)
      · exact Or.inl (Or.inr h)
      · exact Or.inl (Or.inl h)
      · exact Or.inr h
    · rintro ((h | h) | h)
      · exact Or.inr (Or.inl h)
      · exact Or.inl h
      · exact Or.inr (Or.inr h)

theorem mem_removeDuplicatesUnordered (l : List String) (p : String) :
    p ∈ removeDuplicatesUnordered l ↔ p ∈ l := by
  unfold removeDuplicatesUnordered
  rw [mem_removeDuplicatesUnordered_fold]
  simp [mapKeys]

theorem removeDuplicatesUnordered_nodup_fold (l : List String) :
    ∀ m : GoMap String Bool, (mapKeys m).Nodup →
      (mapKeys (l.foldl (fun encountered v => mapSet encountered v true) m)).Nodup := by
  induction l with
  | nil => intro m h; exact h
  | cons a l ih =>
    intro m h
    exact ih _ (mapKeys_mapSet_nodup m a true h)

theorem removeDuplicatesUnordered_nodup (l : List String) :
    (removeDuplicatesUnordered l).Nodup := by
  unfold removeDuplicatesUnordered
  exact removeDuplicatesUnordered_nodup_fold l [] List.nodup_nil

/-- C23. No string returned by `getPrefixes(s, sep)` ends with a character of `sep`:
`hasAnySuffix` is false on it, that is, its last character, if it has one, is no
character of `sep`. -/
theorem getPrefixes_no_trailing_separator (s sep : String) :
    ∀ p ∈ getPrefixes s sep,
      hasAnySuffix p sep = false ∧ ∀ c ∈ sep.toList, p.toList.getLast? ≠ some c := by
  intro p hp
  unfold getPrefixes at hp
  simp only at hp
  rw [mem_removeDuplicatesUnordered, List.mem_map] at hp
  obtain ⟨r, _, rfl⟩ := hp
  have h := trimSuffixLoop_trimmed sep r.length r (Nat.le_refl _)
  refine ⟨h, fun c hc hl => ?_⟩
  have := (hasAnySuffix_iff _ sep).2 ⟨c, hc, hl⟩
  rw [h] at this
  exact Bool.noConfusion this

/-- C23 at a concrete input: the key `a::b:-c` with the separators `:` and `-`. -/
theorem getPrefixes_no_trailing_separator_witness :
    getPrefixes "a::b:-c" ":-" = ["a", "a::b"] ∧
    "a::b" ∈ getPrefixes "a::b:-c" ":-" ∧
    hasAnySuffix "a::b" ":-" = false ∧ ∀ c ∈ ":-".toList, "a::b".toList.getLast? ≠ some c :=
  ⟨by decide, by decide,
    getPrefixes_no_trailing_separator "a::b:-c" ":-" "a::b" (by decide)⟩

theorem filter_key_of_nodup {κ : Type} [DecidableEq κ] (x : Nat) (k : κ) (l : List κ)
    (h : l.Nodup) :
    (l.map (fun a => (a, x))).filter (fun u => decide (u.1 = k))
      = if k ∈ l then [(k, x)] else [] := by
  induction l with
  | nil => rfl
  | cons a l ih =>
    rw [List.nodup_cons] at h
    simp only [List.map_cons]
    by_cases hak : a = k
    · subst hak
      rw [List.filter_cons_of_pos (by simp), ih h.2, if_neg h.1, if_pos (by simp)]
    · rw [List.filter_cons_of_neg (by simpa using hak), ih h.2]
      by_cases hk : k ∈ l
      · rw [if_pos hk, if_pos (by simp [hk])]
      · rw [if_neg hk, if_neg (by simp [hk, Ne.symm hak])]

theorem mem_prefixKeys (c : Counter) (e : Entry) (k : typeKey) :
    k ∈ prefixKeys c e ↔
      k.Typ = e.Typ ∧ k.Key.length ≠ 0 ∧
        k.Key ∈ getPrefixes (strings_Map digitToStar e.Key) c.separators := by
  unfold prefixKeys
  simp only [List.mem_map, List.mem_filter, decide_eq_true_eq]
  constructor
  · rintro ⟨p, ⟨hp, hl⟩, rfl⟩
    exact ⟨rfl, hl, hp⟩
  · rintro ⟨h1, h2, h3⟩
    refine ⟨k.Key, ⟨h3, h2⟩, ?_⟩
    cases k
    simp only at h1
    rw [h1]

theorem prefixKeys_nodup (c : Counter) (e : Entry) : (prefixKeys c e).Nodup := by
  unfold prefixKeys
  apply List.Nodup.map
  · intro a b hab
    simp only [typeKey.mk.injEq, true_and] at hab
    exact hab
  · exact (removeDuplicatesUnordered_nodup _).filter _
/-- C24. The list of `getPrefixes` has no duplicates. So for one entry
`countByKeyPrefix` adds 1 to `keyPrefixNum` and `e.Bytes` to `keyPrefixBytes` (both
modulo 2^64) exactly once at each `(type, prefix)` key whose type is the type of the
entry and whose prefix is a non-empty prefix of the normalized key, and leaves every
other key of the two maps as it was. -/
theorem countByKeyPrefix_once (s sep : String) (c : Counter) (e : Entry) (k : typeKey) :
    (getPrefixes s sep).Nodup ∧
    ((k.Typ = e.Typ ∧ k.Key.length ≠ 0 ∧
        k.Key ∈ getPrefixes (strings_Map digitToStar e.Key) c.separators) →
      (countByKeyPrefix c e).keyPrefixNum.lookup k
        = some ((mapGet 0 c.keyPrefixNum k + 1) % 18446744073709551616) ∧
      (countByKeyPrefix c e).keyPrefixBytes.lookup k
        = some ((mapGet 0 c.keyPrefixBytes k + e.Bytes) % 18446744073709551616)) ∧
    (¬ (k.Typ = e.Typ ∧ k.Key.length ≠ 0 ∧
        k.Key ∈ getPrefixes (strings_Map digitToStar e.Key) c.separators) →
      (countByKeyPrefix c e).keyPrefixNum.lookup k = c.keyPrefixNum.lookup k ∧
      (countByKeyPrefix c e).keyPrefixBytes.lookup k = c.keyPrefixBytes.lookup k) := by
  refine ⟨removeDuplicatesUnordered_nodup _, fun h => ?_, fun h => ?_⟩
  · have hk := (mem_prefixKeys c e k).2 h
    rw [countByKeyPrefix_eq]
    simp only
    rw [lookup_mapAccum, lookup_mapAccum, filter_key_of_nodup 1 k _ (prefixKeys_nodup c e),
      filter_key_of_nodup e.Bytes k _ (prefixKeys_nodup c e), if_pos hk, if_pos hk]
    simp
  · have hk : k ∉ prefixKeys c e := fun hm => h ((mem_prefixKeys c e k).1 hm)
    rw [countByKeyPrefix_eq]
    simp only
    rw [lookup_mapAccum, lookup_mapAccum, filter_key_of_nodup 1 k _ (prefixKeys_nodup c e),
      filter_key_of_nodup e.Bytes k _ (prefixKeys_nodup c e), if_neg hk, if_neg hk]
    simp

/-- C24 at a concrete input: the key `a::b`, whose cumulative prefixes `a:` and
`a::` both become `a`, is credited once to `a`. -/
theorem countByKeyPrefix_once_witness :
    getPrefixes "a::b" NewCounter.separators = ["a"] ∧
    (countByKeyPrefix NewCounter (mkEntry "a::b" "string" 10 0)).keyPrefixNum
      = [({ Typ := "string", Key := "a" }, 1)] ∧
    (countByKeyPrefix NewCounter (mkEntry "a::b" "string" 10 0)).keyPrefixBytes
      = [({ Typ := "string", Key := "a" }, 10)] ∧
    ((countByKeyPrefix NewCounter (mkEntry "a::b" "string" 10 0)).keyPrefixNum.lookup
        { Typ := "string", Key := "a" }
      = some ((mapGet 0 NewCounter.keyPrefixNum { Typ := "string", Key := "a" } + 1)
          % 18446744073709551616) ∧
    (countByKeyPrefix NewCounter (mkEntry "a::b" "string" 10 0)).keyPrefixBytes.lookup
        { Typ := "string", Key := "a" }
      = some ((mapGet 0 NewCounter.keyPrefixBytes { Typ := "string", Key := "a" }
          + (mkEntry "a::b" "string" 10 0).Bytes) % 18446744073709551616)) ∧
    ((countByKeyPrefix NewCounter (mkEntry "a::b" "string" 10 0)).keyPrefixNum.lookup
        { Typ := "string", Key := "a:" }
      = NewCounter.keyPrefixNum.lookup { Typ := "string", Key := "a:" } ∧
    (countByKeyPrefix NewCounter (mkEntry "a::b" "string" 10 0)).keyPrefixBytes.lookup
        { Typ := "string", Key := "a:" }
      = NewCounter.keyPrefixBytes.lookup { Typ := "string", Key := "a:" }) :=
  ⟨by decide, by decide, by decide,
    (countByKeyPrefix_once "a::b" ":" NewCounter (mkEntry "a::b" "string" 10 0)
      { Typ := "string", Key := "a" }).2.1 (by decide),
    (countByKeyPrefix_once "a::b" ":" NewCounter (mkEntry "a::b" "string" 10 0)
      { Typ := "string", Key := "a:" }).2.2 (by decide)⟩

/-! ### C25: draining the provisional prefix maps -/

section DrainLemmas
variable {κ ν : Type} [DecidableEq κ]

theorem foldl_mapDelete (ks : List κ) :
    ∀ m : GoMap κ ν, ks.foldl mapDelete m = m.filter (fun p => decide (p.1 ∉ ks)) := by
  induction ks with
  | nil => intro m; simp
  | cons k ks ih =>
    intro m
    simp only [List.foldl_cons]
    rw [ih]
    unfold mapDelete
    rw [List.filter_filter]
    congr 1
    funext p
    by_cases h1 : p.1 = k <;> by_cases h2 : p.1 ∈ ks <;> simp [h1, h2]

theorem mapKeys_mapAccum_congr (u1 u2 : List (κ × Nat)) (h : u1.map Prod.fst = u2.map Prod.fst) :
    ∀ m1 m2 : GoMap κ Nat, mapKeys m1 = mapKeys m2 →
      mapKeys (mapAccum m1 u1) = mapKeys (mapAccum m2 u2) := by
  induction u1 generalizing u2 with
  | nil =>
    intro m1 m2 hm
    cases u2 with
    | nil => exact hm
    | cons b u2 => simp at h
  | cons a u1 ih =>
    intro m1 m2 hm
    cases u2 with
    | nil => simp at h
    | cons b u2 =>
      simp only [List.map_cons, List.cons.injEq] at h
      have hstep1 : mapAccum m1 (a :: u1) = mapAccum (mapAdd m1 a.1 a.2) u1 := rfl
      have hstep2 : mapAccum m2 (b :: u2) = mapAccum (mapAdd m2 b.1 b.2) u2 := rfl
      rw [hstep1, hstep2]
      apply ih u2 h.2
      unfold mapAdd
      rw [mapKeys_mapSet, mapKeys_mapSet, hm, h.1]

end DrainLemmas

theorem calcuLargestKeyPrefix_fold_maps (num : Int) (ks : List typeKey) :
    ∀ c : Counter,
      (ks.foldl (calcuLargestKeyPrefix_step num) c).keyPrefixBytes
        = ks.foldl mapDelete c.keyPrefixBytes ∧
      (ks.foldl (calcuLargestKeyPrefix_step num) c).keyPrefixNum
        = ks.foldl mapDelete c.keyPrefixNum := by
  induction ks with
  | nil => intro c; exact ⟨rfl, rfl⟩
  | cons k ks ih =>
    intro c
    simp only [List.foldl_cons]
    obtain ⟨h1, h2⟩ := ih (calcuLargestKeyPrefix_step num c k)
    rw [h1, h2]
    exact ⟨rfl, rfl⟩

theorem calcuLargestKeyPrefix_maps (c : Counter) (num : Int) :
    (calcuLargestKeyPrefix c num).keyPrefixBytes = [] ∧
    (calcuLargestKeyPrefix c num).keyPrefixNum
      = c.keyPrefixNum.filter (fun p => decide (p.1 ∉ mapKeys c.keyPrefixBytes)) := by
  unfold calcuLargestKeyPrefix
  obtain ⟨h1, h2⟩ := calcuLargestKeyPrefix_fold_maps num (mapKeys c.keyPrefixBytes) c
  rw [h1, h2, foldl_mapDelete, foldl_mapDelete]
  refine ⟨?_, rfl⟩
  rw [List.filter_eq_nil_iff]
  intro p hp
  simp only [decide_eq_true_eq, not_not]
  exact List.mem_map_of_mem Prod.fst hp

theorem calcuLargestKeyPrefix_of_empty (c : Counter) (num : Int) (h : c.keyPrefixBytes = []) :
    calcuLargestKeyPrefix c num = c := by
  unfold calcuLargestKeyPrefix
  rw [h]
  rfl

theorem count_prefix_keys (Slot : String → Int) (c : Counter) (e : Entry)
    (h : mapKeys c.keyPrefixNum = mapKeys c.keyPrefixBytes) :
    mapKeys (count Slot c e).keyPrefixNum = mapKeys (count Slot c e).keyPrefixBytes := by
  rw [count_eq]
  simp only
  apply mapKeys_mapAccum_congr _ _ _ _ _ h
  rw [List.map_map, List.map_map]
  rfl

theorem count_loop_prefix_keys (Slot : String → Int) (es : List Entry) :
    ∀ st : Counter × Nat, mapKeys st.1.keyPrefixNum = mapKeys st.1.keyPrefixBytes →
      mapKeys (es.foldl
        (fun (st : Counter × Nat) e =>
          ({ count Slot st.1 e with TotalCount := add64 st.2 1 }, add64 st.2 1))
        st).1.keyPrefixNum
      = mapKeys (es.foldl
        (fun (st : Counter × Nat) e =>
          ({ count Slot st.1 e with TotalCount := add64 st.2 1 }, add64 st.2 1))
        st).1.keyPrefixBytes := by
  induction es with
  | nil => intro st h; exact h
  | cons e es ih =>
    intro st h
    simp only [List.foldl_cons]
    apply ih
    exact count_prefix_keys Slot st.1 e h

/-- C25. After `calcuLargestKeyPrefix` the map `keyPrefixBytes` is empty and
`keyPrefixNum` holds only the keys it had outside `keyPrefixBytes`, so it is empty
too when every key of `keyPrefixNum` is a key of `keyPrefixBytes`, as on every
Counter that `Count` fills from `NewCounter`; a second call right afterwards, with
any `num`, returns the Counter unchanged. -/
theorem calcuLargestKeyPrefix_drains (c : Counter) (num num' : Int) (Slot : String → Int)
    (es : List Entry) :
    (calcuLargestKeyPrefix c num).keyPrefixBytes = [] ∧
    (calcuLargestKeyPrefix c num).keyPrefixNum
      = c.keyPrefixNum.filter (fun p => decide (p.1 ∉ mapKeys c.keyPrefixBytes)) ∧
    ((∀ k ∈ mapKeys c.keyPrefixNum, k ∈ mapKeys c.keyPrefixBytes) →
      (calcuLargestKeyPrefix c num).keyPrefixNum = []) ∧
    calcuLargestKeyPrefix (calcuLargestKeyPrefix c num) num' = calcuLargestKeyPrefix c num ∧
    (Count Slot NewCounter es).keyPrefixBytes = [] ∧
    (Count Slot NewCounter es).keyPrefixNum = [] ∧
    calcuLargestKeyPrefix (Count Slot NewCounter es) num' = Count Slot NewCounter es := by
  obtain ⟨h1, h2⟩ := calcuLargestKeyPrefix_maps c num
  have h3 : (∀ k ∈ mapKeys c.keyPrefixNum, k ∈ mapKeys c.keyPrefixBytes) →
      (calcuLargestKeyPrefix c num).keyPrefixNum = [] := by
    intro hk
    rw [h2, List.filter_eq_nil_iff]
    intro p hp
    simp only [decide_eq_true_eq, not_not]
    exact hk p.1 (List.mem_map_of_mem Prod.fst hp)
  refine ⟨h1, h2, h3, calcuLargestKeyPrefix_of_empty _ _ h1, ?_⟩
  unfold Count
  simp only
  have hkeys := count_loop_prefix_keys Slot es (NewCounter, 0) rfl
  generalize (es.foldl
        (fun (st : Counter × Nat) e =>
          ({ count Slot st.1 e with TotalCount := add64 st.2 1 }, add64 st.2 1))
        (NewCounter, 0)).1 = X at hkeys
  obtain ⟨g1, g2⟩ := calcuLargestKeyPrefix_maps X 1000
  refine ⟨g1, ?_, calcuLargestKeyPrefix_of_empty _ _ g1⟩
  rw [g2, List.filter_eq_nil_iff]
  intro p hp
  simp only [decide_eq_true_eq, not_not]
  rw [← hkeys]
  exact List.mem_map_of_mem Prod.fst hp

/-- C25 at a concrete input: a Counter with two accumulated prefixes. -/
theorem calcuLargestKeyPrefix_drains_witness :
    (∀ k ∈ mapKeys samplePrefixCounter.keyPrefixNum,
      k ∈ mapKeys samplePrefixCounter.keyPrefixBytes) ∧
    (calcuLargestKeyPrefix samplePrefixCounter 1).keyPrefixBytes = [] ∧
    (calcuLargestKeyPrefix samplePrefixCounter 1).keyPrefixNum = [] ∧
    calcuLargestKeyPrefix (calcuLargestKeyPrefix samplePrefixCounter 1) 1
      = calcuLargestKeyPrefix samplePrefixCounter 1 :=
  ⟨by decide,
    (calcuLargestKeyPrefix_drains samplePrefixCounter 1 1 sampleSlot []).1,
    (calcuLargestKeyPrefix_drains samplePrefixCounter 1 1 sampleSlot []).2.2.1 (by decide),
    (calcuLargestKeyPrefix_drains samplePrefixCounter 1 1 sampleSlot []).2.2.2.1⟩

/-! ### C30: `Aux` and malformed numerals -/

theorem foldl_digits_ge (ds : List Char) :
    ∀ n : Nat, n ≤ ds.foldl (fun n c => 10 * n + (c.toNat - 48)) n := by
  induction ds with
  | nil => intro n; exact Nat.le_refl _
  | cons c cs ih =>
    intro n
    simp only [List.foldl_cons]
    exact Nat.le_trans (by omega) (ih _)

/-- the digit loop of `ParseUint` in closed form: a range error if the leading digits
exceed the bound, else a syntax error if a character that is no digit follows them,
else their value -/
theorem strconv_ParseUint_loop_eq (bitSize : Nat) (ds : List Char) :
    ∀ n : Nat, n ≤ 2 ^ bitSize - 1 →
      strconv_ParseUint_loop bitSize ds n =
        if (ds.takeWhile isDigit).foldl (fun n c => 10 * n + (c.toNat - 48)) n > 2 ^ bitSize - 1
        then Except.error true
        else if ds.takeWhile isDigit ≠ ds then Except.error false
        else Except.ok ((ds.takeWhile isDigit).foldl (fun n c => 10 * n + (c.toNat - 48)) n) := by
  induction ds with
  | nil =>
    intro n hn
    simp only [strconv_ParseUint_loop, List.takeWhile_nil, List.foldl_nil]
    rw [if_neg (by omega), if_neg (by simp)]
  | cons c cs ih =>
    intro n hn
    unfold strconv_ParseUint_loop
    by_cases hd : c.toNat ≥ 48 ∧ c.toNat ≤ 57
    · have hd' : isDigit c = true := by simp [isDigit, hd]
      rw [if_pos hd, List.takeWhile_cons_of_pos hd']
      simp only [List.foldl_cons]
      by_cases hov : 10 * n + (c.toNat - 48) > 2 ^ bitSize - 1
      · rw [if_pos hov, if_pos (Nat.lt_of_lt_of_le hov (foldl_digits_ge _ _))]
      · rw [if_neg hov, ih _ (by omega)]
        simp only [ne_eq, List.cons.injEq, true_and]
    · have hd' : ¬ isDigit c = true := by simp [isDigit, hd]
      rw [if_neg hd, List.takeWhile_cons_of_neg hd']
      simp only [List.foldl_nil]
      rw [if_neg (by omega), if_pos (by simp)]

theorem strconv_ParseInt_eq (v : String) (bitSize : Nat) :
    strconv_ParseInt v bitSize =
      if numBody v = [] then (0, false)
      else if decimal ((numBody v).takeWhile isDigit) > 2 ^ bitSize - 1 then
        (if numNeg v then (-((2 ^ (bitSize - 1) : Nat) : Int), false)
          else (((2 ^ (bitSize - 1) : Nat) : Int) - 1, false))
      else if (numBody v).takeWhile isDigit ≠ numBody v then (0, false)
      else if ¬ numNeg v ∧ decimal (numBody v) ≥ 2 ^ (bitSize - 1) then
        (((2 ^ (bitSize - 1) : Nat) : Int) - 1, false)
      else if numNeg v ∧ decimal (numBody v) > 2 ^ (bitSize - 1) then
        (-((2 ^ (bitSize - 1) : Nat) : Int), false)
      else if numNeg v then (-(decimal (numBody v) : Int), true)
      else ((decimal (numBody v) : Int), true) := by
  unfold strconv_ParseInt numBody numNeg decimal
  cases hv : v.toList with
  | nil => simp
  | cons c0 rest =>
    simp only [List.head?_cons, Option.some.injEq]
    generalize hds : (if c0 = '+' ∨ c0 = '-' then rest else c0 :: rest) = ds
    cases ds with
    | nil => simp
    | cons a as =>
      simp only [if_neg (List.cons_ne_nil a as)]
      rw [strconv_ParseUint_loop_eq bitSize (a :: as) 0 (Nat.zero_le _)]
      by_cases h1 : List.foldl (fun n c => 10 * n + (c.toNat - 48)) 0
          (List.takeWhile isDigit (a :: as)) > 2 ^ bitSize - 1
      · rw [if_pos h1, if_pos h1]
      · rw [if_neg h1, if_neg h1]
        by_cases h2 : List.takeWhile isDigit (a :: as) ≠ a :: as
        · rw [if_pos h2, if_pos h2]
        · rw [if_neg h2, if_neg h2]
          simp only [ne_eq, not_not] at h2
          rw [h2]

theorem strconv_ParseInt_64 (v : String) :
    strconv_ParseInt v 64 =
      if numBody v = [] then (0, false)
      else if decimal ((numBody v).takeWhile isDigit) > 18446744073709551615 then
        (if numNeg v then (-9223372036854775808, false) else (9223372036854775807, false))
      else if (numBody v).takeWhile isDigit ≠ numBody v then (0, false)
      else if ¬ numNeg v ∧ decimal (numBody v) ≥ 9223372036854775808 then
        (9223372036854775807, false)
      else if numNeg v ∧ decimal (numBody v) > 9223372036854775808 then
        (-9223372036854775808, false)
      else if numNeg v then (-(decimal (numBody v) : Int), true)
      else ((decimal (numBody v) : Int), true) := by
  rw [strconv_ParseInt_eq]
  norm_num

/-- C30 as stated fails: for the digit string `9223372036854775808`, which is out
of the int64 range, `Aux("ctime", ...)` stores 9223372036854775807, and for
`-99999999999999999999` `Aux("used-mem", ...)` stores -9223372036854775808. -/
theorem aux_out_of_range_not_zero :
    strconv_ParseInt "9223372036854775808" 64 = (9223372036854775807, false) ∧
    GetTimestamp (Aux sampleDecoder "ctime" "9223372036854775808") = 9223372036854775807 ∧
    GetUsedMem (Aux sampleDecoder "used-mem" "-99999999999999999999")
      = -9223372036854775808 := by
  decide

/-- C30, amended. `Aux` never fails and stores the value that `ParseInt` returns with
its error. That value is 0 when the numeral has no character after its optional
sign, or holds a character that is no digit while the digits before it stay below
2^64 (a syntax error). It is 9223372036854775807, or -9223372036854775808 after the
sign `-`, when the leading digits reach 2^64 or the numeral is a digit string out of
the int64 range (a range error). -/
theorem aux_parse_failure (d : Decoder) (v : String) :
    GetTimestamp (Aux d "ctime" v) = (strconv_ParseInt v 64).1 ∧
    GetUsedMem (Aux d "used-mem" v) = (strconv_ParseInt v 64).1 ∧
    (numBody v = [] → strconv_ParseInt v 64 = (0, false)) ∧
    (decimal ((numBody v).takeWhile isDigit) < 18446744073709551616 →
      (numBody v).takeWhile isDigit ≠ numBody v → strconv_ParseInt v 64 = (0, false)) ∧
    (numBody v ≠ [] →
      (decimal ((numBody v).takeWhile isDigit) ≥ 18446744073709551616 ∨
        ((∀ c ∈ numBody v, isDigit c = true) ∧ decimal (numBody v) ≥ 9223372036854775808)) →
      numNeg v = false → strconv_ParseInt v 64 = (9223372036854775807, false)) ∧
    (numBody v ≠ [] →
      (decimal ((numBody v).takeWhile isDigit) ≥ 18446744073709551616 ∨
        ((∀ c ∈ numBody v, isDigit c = true) ∧ decimal (numBody v) > 9223372036854775808)) →
      numNeg v = true → strconv_ParseInt v 64 = (-9223372036854775808, false)) ∧
    ((strconv_ParseInt v 64).2 = false →
      (strconv_ParseInt v 64).1 = 0 ∨ (strconv_ParseInt v 64).1 = 9223372036854775807 ∨
        (strconv_ParseInt v 64).1 = -9223372036854775808) := by
  have hc := strconv_ParseInt_64 v
  refine ⟨rfl, rfl, fun h => ?_, fun h1 h2 => ?_, fun h0 h hn => ?_, fun h0 h hn => ?_,
    fun h => ?_⟩
  · rw [hc, if_pos h]
  · by_cases h0 : numBody v = []
    · rw [hc, if_pos h0]
    · rw [hc, if_neg h0, if_neg (by omega), if_pos h2]
  · rw [hc, if_neg h0]
    by_cases h1 : decimal ((numBody v).takeWhile isDigit) > 18446744073709551615
    · rw [if_pos h1, hn]
      rfl
    · rw [if_neg h1]
      rcases h with h | ⟨ha, hb⟩
      · omega
      · have ht : (numBody v).takeWhile isDigit = numBody v :=
          List.takeWhile_eq_self_iff.2 ha
        rw [if_neg (by simp [ht]), if_pos ⟨by simp [hn], hb⟩]
  · rw [hc, if_neg h0]
    by_cases h1 : decimal ((numBody v).takeWhile isDigit) > 18446744073709551615
    · rw [if_pos h1, hn]
      rfl
    · rw [if_neg h1]
      rcases h with h | ⟨ha, hb⟩
      · omega
      · have ht : (numBody v).takeWhile isDigit = numBody v :=
          List.takeWhile_eq_self_iff.2 ha
        rw [if_neg (by simp [ht]), if_neg (by simp [hn]), if_pos ⟨hn, hb⟩]
  · rw [hc] at h ⊢
    by_cases c1 : numBody v = []
    · rw [if_pos c1]; exact Or.inl rfl
    · rw [if_neg c1] at h ⊢
      by_cases c2 : decimal ((numBody v).takeWhile isDigit) > 18446744073709551615
      · rw [if_pos c2]
        by_cases cn : numNeg v = true
        · rw [if_pos cn]; exact Or.inr (Or.inr rfl)
        · rw [if_neg cn]; exact Or.inr (Or.inl rfl)
      · rw [if_neg c2] at h ⊢
        by_cases c3 : (numBody v).takeWhile isDigit ≠ numBody v
        · rw [if_pos c3]; exact Or.inl rfl
        · rw [if_neg c3] at h ⊢
          by_cases c4 : ¬ numNeg v = true ∧ decimal (numBody v) ≥ 9223372036854775808
          · rw [if_pos c4]; exact Or.inr (Or.inl rfl)
          · rw [if_neg c4] at h ⊢
            by_cases c5 : numNeg v = true ∧ decimal (numBody v) > 9223372036854775808
            · rw [if_pos c5]; exact Or.inr (Or.inr rfl)
            · rw [if_neg c5] at h
              exfalso
              by_cases cn : numNeg v = true
              · rw [if_pos cn] at h
                exact Bool.noConfusion h
              · rw [if_neg cn] at h
                exact Bool.noConfusion h

/-- C30 at a concrete input: the empty value, the value `12x`, and the digit strings
`99999999999999999999` and `-9223372036854775809`. -/
theorem aux_parse_failure_witness :
    (numBody "" = [] ∧ strconv_ParseInt "" 64 = (0, false)) ∧
    (decimal ((numBody "12x").takeWhile isDigit) < 18446744073709551616 ∧
      (numBody "12x").takeWhile isDigit ≠ numBody "12x" ∧
      strconv_ParseInt "12x" 64 = (0, false)) ∧
    (numBody "99999999999999999999" ≠ [] ∧
      decimal ((numBody "99999999999999999999").takeWhile isDigit) ≥ 18446744073709551616 ∧
      numNeg "99999999999999999999" = false ∧
      strconv_ParseInt "99999999999999999999" 64 = (9223372036854775807, false)) ∧
    (numBody "-9223372036854775809" ≠ [] ∧
      ((∀ c ∈ numBody "-9223372036854775809", isDigit c = true) ∧
        decimal (numBody "-9223372036854775809") > 9223372036854775808) ∧
      numNeg "-9223372036854775809" = true ∧
      strconv_ParseInt "-9223372036854775809" 64 = (-9223372036854775808, false)) ∧
    GetTimestamp (Aux sampleDecoder "ctime" "12x") = 0 :=
  ⟨⟨by decide, (aux_parse_failure sampleDecoder "").2.2.1 (by decide)⟩,
    ⟨by decide, by decide,
      (aux_parse_failure sampleDecoder "12x").2.2.2.1 (by decide) (by decide)⟩,
    ⟨by decide, by decide, by decide,
      (aux_parse_failure sampleDecoder "99999999999999999999").2.2.2.2.1 (by decide)
        (Or.inl (by decide)) (by decide)⟩,
    ⟨by decide, by decide, by decide,
      (aux_parse_failure sampleDecoder "-9223372036854775809").2.2.2.2.2.1 (by decide)
        (Or.inr (by decide)) (by decide)⟩,
    by decide⟩

/-! ### C26, C27: the largest element of a container -/

theorem updateLargest_eq (e : Entry) (n : Nat) (f : String) :
    updateLargest e n f =
      { e with
        FieldOfLargestElem := if n > e.LenOfLargestElem then sampleOf f else e.FieldOfLargestElem
        LenOfLargestElem := if n > e.LenOfLargestElem then n else e.LenOfLargestElem } := by
  unfold updateLargest sampleOf
  split <;> rfl

/-- an element callback keeps `Entries`, the profiler and the current info, and
writes the open record: the fields outside `Bytes`, `NumOfElem` and the largest
element stay, and the largest element is updated by the block `updateLargest` -/
theorem element_shape (d d' : Decoder) (ev : Event) (hel : isElement ev = true)
    (h : callback d ev = Except.ok d') :
    d'.Entries = d.Entries ∧ d'.m = d.m ∧ d'.currentInfo = d.currentInfo ∧
    d'.rdbVer = d.rdbVer ∧
    ∃ e0 e, d.currentEntry = some e0 ∧ d'.currentEntry = some e ∧
      staticFields e = staticFields e0 ∧
      e.LenOfLargestElem =
        (match elemOf d.m ev with
          | some (n, _) => if n > e0.LenOfLargestElem then n else e0.LenOfLargestElem
          | none => e0.LenOfLargestElem) ∧
      e.FieldOfLargestElem =
        (match elemOf d.m ev with
          | some (n, f) => if n > e0.LenOfLargestElem then sampleOf f else e0.FieldOfLargestElem
          | none => e0.FieldOfLargestElem) := by
  cases ev <;> simp only [isElement, Bool.false_eq_true] at hel
  case hset key field value =>
    simp only [callback, Hset] at h
    cases hce : d.currentEntry with
    | none => rw [hce] at h; simp at h
    | some e0 =>
      cases hci : d.currentInfo with
      | none => rw [hce, hci] at h; simp at h
      | some i =>
        rw [hce, hci] at h
        simp only [updateLargest_eq] at h
        by_cases h1 : i.Encoding = "hashtable"
        · rw [if_pos h1] at h
          simp only [Except.ok.injEq] at h
          subst h
          exact ⟨rfl, rfl, rfl, rfl, e0, _, rfl, rfl, rfl, rfl, rfl⟩
        · rw [if_neg h1] at h
          simp only [Except.ok.injEq] at h
          subst h
          exact ⟨rfl, rfl, rfl, rfl, e0, _, rfl, rfl, rfl, rfl, rfl⟩
  case sadd key member =>
    simp only [callback, Sadd] at h
    cases hce : d.currentEntry with
    | none => rw [hce] at h; simp at h
    | some e0 =>
      cases hci : d.currentInfo with
      | none => rw [hce, hci] at h; simp at h
      | some i =>
        rw [hce, hci] at h
        simp only [updateLargest_eq] at h
        by_cases h1 : i.Encoding = "hashtable"
        · rw [if_pos h1] at h
          simp only [Except.ok.injEq] at h
          subst h
          exact ⟨rfl, rfl, rfl, rfl, e0, _, rfl, rfl, rfl, rfl, rfl⟩
        · rw [if_neg h1] at h
          simp only [Except.ok.injEq] at h
          subst h
          exact ⟨rfl, rfl, rfl, rfl, e0, _, rfl, rfl, rfl, rfl, rfl⟩
  case xadd key id listpack =>
    simp only [callback, Xadd] at h
    cases hce : d.currentEntry with
    | none => rw [hce] at h; simp at h
    | some e0 =>
      rw [hce] at h
      simp only [Except.ok.injEq] at h
      subst h
      exact ⟨rfl, rfl, rfl, rfl, e0, _, rfl, rfl, rfl, rfl, rfl⟩
  case zadd key member =>
    simp only [callback, Zadd] at h
    cases hce : d.currentEntry with
    | none => rw [hce] at h; simp at h
    | some e0 =>
      cases hci : d.currentInfo with
      | none => rw [hce, hci] at h; simp at h
      | some i =>
        rw [hce, hci] at h
        simp only [updateLargest_eq] at h
        by_cases h1 : i.Encoding = "skiplist"
        · rw [if_pos h1] at h
          simp only [Except.ok.injEq] at h
          subst h
          refine ⟨rfl, rfl, rfl, rfl, e0, _, rfl, rfl, rfl, ?_, ?_⟩
          · simp only [elemOf]
            by_cases h2 : d.m.ElemLen member > e0.LenOfLargestElem
            · simp only [h2, if_true, gt_iff_lt, Nat.lt_irrefl, if_false]
            · simp only [h2, if_false]
          · simp only [elemOf]
            by_cases h2 : d.m.ElemLen member > e0.LenOfLargestElem
            · simp only [h2, if_true, gt_iff_lt, Nat.lt_irrefl, if_false]
            · simp only [h2, if_false]
        · rw [if_neg h1] at h
          simp only [Except.ok.injEq] at h
          subst h
          exact ⟨rfl, rfl, rfl, rfl, e0, _, rfl, rfl, rfl, rfl, rfl⟩
  case rpush key value ne =>
    simp only [callback, Rpush] at h
    cases hce : d.currentEntry with
    | none => rw [hce] at h; simp at h
    | some e0 =>
      cases hci : d.currentInfo with
      | none => rw [hce, hci] at h; simp at h
      | some i =>
        rw [hce, hci] at h
        simp only [updateLargest_eq] at h
        by_cases h1 : i.Encoding = "quicklist"
        · rw [if_pos h1] at h
          simp only [Except.ok.injEq] at h
          subst h
          exact ⟨rfl, rfl, rfl, rfl, e0, _, rfl, rfl, rfl, rfl, rfl⟩
        · rw [if_neg h1] at h
          by_cases h2 : i.Encoding = "ziplist"
          · rw [if_pos h2] at h
            simp only [Except.ok.injEq] at h
            subst h
            exact ⟨rfl, rfl, rfl, rfl, e0, _, rfl, rfl, rfl, rfl, rfl⟩
          · rw [if_neg h2] at h
            by_cases h3 : i.Encoding = "linkedlist"
            · rw [if_pos h3] at h
              simp only [Except.ok.injEq] at h
              subst h
              exact ⟨rfl, rfl, rfl, rfl, e0, _, rfl, rfl, rfl, rfl, rfl⟩
            · rw [if_neg h3] at h
              by_cases h4 : i.Encoding = "quicklist2"
              · rw [if_pos h4] at h
                by_cases h5 : ne = 1 <;> by_cases h6 : strconv_ParseInt_ok value 32 = true
                all_goals simp only [h5, h6, if_true, if_false, Bool.false_eq_true, reduceIte, Except.ok.injEq] at h
                all_goals subst h
                all_goals exact ⟨rfl, rfl, rfl, rfl, e0, _, rfl, rfl, rfl, rfl, rfl⟩
              · rw [if_neg h4] at h
                simp at h
/-- a `Start...` callback that returns keeps `Entries` and opens a record with the
key and type of the callback, the encoding of its info, and no largest element -/
theorem start_shape (d d' : Decoder) (ev : Event) (hst : isStart ev = true)
    (h : callback d ev = Except.ok d') :
    d'.Entries = d.Entries ∧ d'.m = d.m ∧ d'.rdbVer = d.rdbVer ∧
    ∃ key typ i e, startArgs ev = some (key, typ, some i) ∧ d'.currentInfo = some i ∧
      d'.currentEntry = some e ∧ e.Key = key ∧ e.Typ = typ ∧ e.Encoding = i.Encoding ∧
      e.LenOfLargestElem = 0 ∧ e.FieldOfLargestElem = "" := by
  cases ev <;> simp only [isStart, Bool.false_eq_true] at hst
  case startHash key length expiry info =>
    cases info with
    | none => simp [callback, StartHash] at h
    | some i =>
      simp only [callback, StartHash] at h
      split at h
      · simp at h
      · rename_i b hb
        simp only [Except.ok.injEq] at h
        subst h
        exact ⟨rfl, rfl, rfl, key, "hash", i, _, rfl, rfl, rfl, rfl, rfl, rfl, rfl, rfl⟩
  case startSet key cardinality expiry info =>
    cases info with
    | none => simp [callback, StartSet] at h
    | some i =>
      simp only [callback, StartSet] at h
      split at h
      · simp at h
      · rename_i b hb
        simp only [Except.ok.injEq] at h
        subst h
        exact ⟨rfl, rfl, rfl, key, "set", i, _, rfl, rfl, rfl, rfl, rfl, rfl, rfl, rfl⟩
  case startZSet key cardinality expiry info =>
    cases info with
    | none => simp [callback, StartZSet] at h
    | some i =>
      simp only [callback, StartZSet] at h
      split at h
      · simp at h
      · rename_i b hb
        simp only [Except.ok.injEq] at h
        subst h
        exact ⟨rfl, rfl, rfl, key, "sortedset", i, _, rfl, rfl, rfl, rfl, rfl, rfl, rfl, rfl⟩
  case startList key length expiry info =>
    cases info with
    | none => simp [callback, StartList] at h
    | some i =>
      simp only [callback, StartList, Except.ok.injEq] at h
      subst h
      exact ⟨rfl, rfl, rfl, key, "list", i, _, rfl, rfl, rfl, rfl, rfl, rfl, rfl, rfl⟩
  case startStream key cardinality expiry info =>
    cases info with
    | none => simp [callback, StartStream] at h
    | some i =>
      simp only [callback, StartStream, Except.ok.injEq] at h
      subst h
      exact ⟨rfl, rfl, rfl, key, "stream", i, _, rfl, rfl, rfl, rfl, rfl, rfl, rfl, rfl⟩

/-- an `End...` callback that returns closes the open record: it is appended to
`Entries` with the same fields apart from `Bytes`, and no record is open -/
theorem end_shape (d d' : Decoder) (ev : Event) (hend : isEnd ev = true)
    (h : callback d ev = Except.ok d') :
    d'.m = d.m ∧ d'.currentEntry = none ∧ d'.currentInfo = d.currentInfo ∧
    d'.rdbVer = d.rdbVer ∧
    ((d.currentEntry = none ∧ d'.Entries = d.Entries ++ [none]) ∨
      ∃ e0 e, d.currentEntry = some e0 ∧ d'.Entries = d.Entries ++ [some e] ∧
        e = { e0 with Bytes := e.Bytes }) := by
  have hsend : ∀ x : Decoder, x.m = d.m → x.currentInfo = d.currentInfo →
      x.rdbVer = d.rdbVer → x.Entries = d.Entries →
      (∃ e0 e, d.currentEntry = some e0 ∧ x.currentEntry = some e ∧
        e = { e0 with Bytes := e.Bytes }) ∨ (d.currentEntry = none ∧ x.currentEntry = none) →
      (sendEntry x).m = d.m ∧ (sendEntry x).currentEntry = none ∧
      (sendEntry x).currentInfo = d.currentInfo ∧ (sendEntry x).rdbVer = d.rdbVer ∧
      ((d.currentEntry = none ∧ (sendEntry x).Entries = d.Entries ++ [none]) ∨
        ∃ e0 e, d.currentEntry = some e0 ∧ (sendEntry x).Entries = d.Entries ++ [some e] ∧
          e = { e0 with Bytes := e.Bytes }) := by
    intro x h1 h2 h3 h4 h5
    refine ⟨h1, rfl, h2, h3, ?_⟩
    rcases h5 with ⟨e0, e, a, b, c⟩ | ⟨a, b⟩
    · exact Or.inr ⟨e0, e, a, by simp [sendEntry, h4, b], c⟩
    · exact Or.inl ⟨a, by simp [sendEntry, h4, b]⟩
  have hself : (∃ e0 e, d.currentEntry = some e0 ∧ d.currentEntry = some e ∧
        e = { e0 with Bytes := e.Bytes }) ∨ (d.currentEntry = none ∧ d.currentEntry = none) := by
    cases hce : d.currentEntry with
    | none => exact Or.inr ⟨rfl, rfl⟩
    | some e0 => exact Or.inl ⟨e0, e0, rfl, rfl, rfl⟩
  cases ev <;> simp only [isEnd, Bool.false_eq_true] at hend
  case endHash key =>
    simp only [callback, EndHash, Except.ok.injEq] at h
    subst h
    exact hsend d rfl rfl rfl rfl hself
  case endSet key =>
    simp only [callback, EndSet, Except.ok.injEq] at h
    subst h
    exact hsend d rfl rfl rfl rfl hself
  case endZSet key =>
    simp only [callback, EndZSet, Except.ok.injEq] at h
    subst h
    exact hsend d rfl rfl rfl rfl hself
  case endList key =>
    simp only [callback] at h
    cases hce : d.currentEntry with
    | none =>
      obtain ⟨msg, hm, _⟩ := EndList_idle d key hce
      rw [hm] at h
      simp at h
    | some e0 =>
      simp only [EndList] at h
      cases hci : d.currentInfo with
      | none => rw [hci] at h; simp at h
      | some i =>
        rw [hce, hci] at h
        simp only at h
        split at h
        · simp at h
        · rename_i e1 he1
          simp only [Except.ok.injEq] at h
          subst h
          have hx : e1 = { e0 with Bytes := e1.Bytes } := by
            split at he1
            · simp only [Except.ok.injEq] at he1; subst he1; rfl
            · split at he1
              · simp only [Except.ok.injEq] at he1; subst he1; rfl
              · split at he1
                · simp only [Except.ok.injEq] at he1; subst he1; rfl
                · split at he1
                  · simp only [Except.ok.injEq] at he1; subst he1; rfl
                  · simp at he1
          have := hsend { d with currentEntry := some e1 } rfl rfl rfl rfl
            (Or.inl ⟨e0, e1, hce, rfl, hx⟩)
          rw [hce, hci] at this
          exact this
  case endStream key items lastEntryID gs =>
    simp only [callback, EndStream] at h
    cases gs with
    | nil =>
      simp only [Except.ok.injEq] at h
      subst h
      exact hsend d rfl rfl rfl rfl hself
    | cons cg gs =>
      simp only at h
      cases hce : d.currentEntry with
      | none => rw [hce] at h; simp at h
      | some e0 =>
        rw [hce] at h
        simp only at h
        split at h
        · simp at h
        · rename_i b hb
          simp only [Except.ok.injEq] at h
          subst h
          have := hsend { d with currentEntry := some { e0 with Bytes := b } } rfl rfl rfl rfl
            (Or.inl ⟨e0, _, hce, rfl, rfl⟩)
          rw [hce] at this
          exact this

/-- `Set` appends one record of type `string` with the key of the call and no
largest element, and keeps the open record -/
theorem set_shape (d d' : Decoder) (key value : String) (expiry : Int) (info : Option Info)
    (h : callback d (Event.set key value expiry info) = Except.ok d') :
    d'.m = d.m ∧ d'.currentEntry = d.currentEntry ∧ d'.currentInfo = d.currentInfo ∧
    d'.rdbVer = d.rdbVer ∧
    ∃ i e, info = some i ∧ d'.Entries = d.Entries ++ [some e] ∧ e.Key = key ∧
      e.Typ = "string" ∧ e.LenOfLargestElem = 0 ∧ e.FieldOfLargestElem = "" := by
  cases info with
  | none => simp [callback, Set] at h
  | some i =>
    simp only [callback, Set, Except.ok.injEq] at h
    subst h
    exact ⟨rfl, rfl, rfl, rfl, i, _, rfl, rfl, rfl, rfl, rfl, rfl⟩

theorem Aux_fields (d : Decoder) (key value : String) :
    (Aux d key value).Entries = d.Entries ∧ (Aux d key value).m = d.m ∧
    (Aux d key value).currentEntry = d.currentEntry ∧
    (Aux d key value).currentInfo = d.currentInfo ∧ (Aux d key value).rdbVer = d.rdbVer := by
  unfold Aux
  split
  · exact ⟨rfl, rfl, rfl, rfl, rfl⟩
  · split <;> exact ⟨rfl, rfl, rfl, rfl, rfl⟩

/-- every callback is `StartRDB`, `StartDatabase`, `Aux`, `Set`, a `Start...`, an
element or an `End...` callback -/
theorem event_kinds (ev : Event) :
    (∃ ver, ev = Event.startRDB ver) ∨ (∃ n, ev = Event.startDatabase n) ∨
    (∃ key value, ev = Event.aux key value) ∨
    (∃ key value expiry info, ev = Event.set key value expiry info) ∨
    isStart ev = true ∨ isElement ev = true ∨ isEnd ev = true := by
  cases ev <;> simp [isStart, isElement, isEnd]
/-- the fold of the "largest element" block over a list of elements: the length is
the largest one, and the sample comes from the first element that attains it -/
theorem largest_fold (elems : List (Nat × String)) :
    ∀ init : Nat × String,
      (elems.foldl (fun (cur : Nat × String) (x : Nat × String) =>
          if x.1 > cur.1 then (x.1, sampleOf x.2) else cur) init).1
        = max init.1 (maxLen elems) ∧
      (maxLen elems ≤ init.1 →
        (elems.foldl (fun (cur : Nat × String) (x : Nat × String) =>
          if x.1 > cur.1 then (x.1, sampleOf x.2) else cur) init).2 = init.2) ∧
      (maxLen elems > init.1 →
        ∃ pre x post, elems = pre ++ x :: post ∧ x.1 = maxLen elems ∧
          (∀ y ∈ pre, y.1 < x.1) ∧
          (elems.foldl (fun (cur : Nat × String) (x : Nat × String) =>
            if x.1 > cur.1 then (x.1, sampleOf x.2) else cur) init).2 = sampleOf x.2) := by
  induction elems with
  | nil =>
    intro init
    refine ⟨by simp [maxLen], fun _ => rfl, fun h => ?_⟩
    simp [maxLen] at h
  | cons x xs ih =>
    intro init
    have hm : maxLen (x :: xs) = max x.1 (maxLen xs) := rfl
    simp only [List.foldl_cons]
    rw [hm]
    by_cases hx : x.1 > init.1
    · rw [if_pos hx]
      obtain ⟨i1, i2, i3⟩ := ih (x.1, sampleOf x.2)
      simp only at i1 i2 i3
      refine ⟨?_, ?_, fun _ => ?_⟩
      · clear i2 i3; rw [i1]; omega
      · clear i2 i3; intro h; omega
      by_cases hle : maxLen xs ≤ x.1
      · refine ⟨[], x, xs, rfl, ?_, by simp, i2 hle⟩
        clear i2 i3; omega
      · obtain ⟨pre, y, post, h1, h2, h3, h4⟩ := i3 (Nat.lt_of_not_le hle)
        refine ⟨x :: pre, y, post, by rw [h1]; rfl, ?_, ?_, h4⟩
        · clear i2 i3 h3; omega
        · intro z hz
          rcases List.mem_cons.1 hz with rfl | hz
          · clear i2 i3 h3; omega
          · exact h3 z hz
    · rw [if_neg hx]
      obtain ⟨i1, i2, i3⟩ := ih init
      refine ⟨?_, fun h => i2 ?_, fun h => ?_⟩
      · clear i2 i3; rw [i1]; omega
      · clear i2 i3; omega
      have hgt : maxLen xs > init.1 := by clear i2 i3; omega
      obtain ⟨pre, y, post, h1, h2, h3, h4⟩ := i3 hgt
      refine ⟨x :: pre, y, post, by rw [h1]; rfl, ?_, ?_, h4⟩
      · clear i2 i3 h3; omega
      · intro z hz
        rcases List.mem_cons.1 hz with rfl | hz
        · clear i2 i3 h3; omega
        · exact h3 z hz

/-- an element callback returns when a record is open with its info, and, for
`Rpush`, the encoding is one of a list -/
theorem element_ok (d : Decoder) (ev : Event) (e0 : Entry) (i : Info)
    (hel : isElement ev = true) (hce : d.currentEntry = some e0)
    (hci : d.currentInfo = some i)
    (hrp : checksListEncoding ev = true →
      i.Encoding ∈ ["quicklist", "ziplist", "linkedlist", "quicklist2"]) :
    ∃ d', callback d ev = Except.ok d' := by
  cases ev <;> simp only [isElement, Bool.false_eq_true] at hel
  case hset key field value =>
    simp only [callback, Hset, hce, hci]
    split <;> exact ⟨_, rfl⟩
  case sadd key member =>
    simp only [callback, Sadd, hce, hci]
    split <;> exact ⟨_, rfl⟩
  case zadd key member =>
    simp only [callback, Zadd, hce, hci]
    split <;> exact ⟨_, rfl⟩
  case xadd key id listpack =>
    simp only [callback, Xadd, hce]
    exact ⟨_, rfl⟩
  case rpush key value ne =>
    cases h : callback d (Event.rpush key value ne) with
    | ok d' => exact ⟨d', rfl⟩
    | error msg =>
      exfalso
      exact ((Rpush_error_iff d key value ne e0 i hce hci msg).1 h).1 (hrp rfl)

theorem element_run (evs : List Event) :
    ∀ (d : Decoder) (e0 : Entry) (i : Info), d.currentEntry = some e0 →
      d.currentInfo = some i →
      (∀ ev ∈ evs, (elemOf d.m ev).isSome = true) →
      (∀ ev ∈ evs, checksListEncoding ev = true →
        i.Encoding ∈ ["quicklist", "ziplist", "linkedlist", "quicklist2"]) →
      ∃ e, (callbacks d evs).2 = none ∧ (callbacks d evs).1.currentEntry = some e ∧
        (e.LenOfLargestElem, e.FieldOfLargestElem)
          = (evs.filterMap (elemOf d.m)).foldl
              (fun (cur : Nat × String) (x : Nat × String) =>
                if x.1 > cur.1 then (x.1, sampleOf x.2) else cur)
              (e0.LenOfLargestElem, e0.FieldOfLargestElem) := by
  induction evs with
  | nil =>
    intro d e0 i hce _ _ _
    exact ⟨e0, rfl, hce, rfl⟩
  | cons ev evs ih =>
    intro d e0 i hce hci hel hrp
    have hev := hel ev (List.mem_cons_self _ _)
    have hisel : isElement ev = true := by
      cases ev <;> simp [elemOf] at hev <;> rfl
    obtain ⟨d1, hd1⟩ := element_ok d ev e0 i hisel hce hci (hrp ev (List.mem_cons_self _ _))
    obtain ⟨_, hm, hinfo, _, e0', e1, hc0, hc1, _, hlen, hfield⟩ :=
      element_shape d d1 ev hisel hd1
    rw [hce] at hc0
    cases hc0
    obtain ⟨e, h1, h2, h3⟩ := ih d1 e1 i hc1 (hinfo.trans hci)
      (fun ev' h' => by rw [hm]; exact hel ev' (List.mem_cons_of_mem _ h'))
      (fun ev' h' => hrp ev' (List.mem_cons_of_mem _ h'))
    rw [callbacks_ok d d1 ev evs hd1]
    refine ⟨e, h1, h2, ?_⟩
    rw [h3, hm]
    cases hx : elemOf d.m ev with
    | none => rw [hx] at hev; simp at hev
    | some x =>
      obtain ⟨n, f⟩ := x
      rw [hx] at hlen hfield
      simp only at hlen hfield
      rw [List.filterMap_cons, hx]
      simp only [List.foldl_cons]
      congr 1
      rw [hlen, hfield]
      by_cases hn : n > e0.LenOfLargestElem
      · rw [if_pos hn, if_pos hn, if_pos hn]
      · rw [if_neg hn, if_neg hn, if_neg hn]

/-- C26. After a `Start...` callback and any sequence of `Hset`, `Sadd`, `Zadd` and
`Rpush` callbacks (for `Rpush` with an encoding of a list), no callback panics and
the open record has as `LenOfLargestElem` the largest element length seen, 0 if
there is none, where the length of a hash element is `ElemLen(field) +
ElemLen(value)` modulo 2^64 and that of any other element `ElemLen` of the member
or value. If that length is positive, `FieldOfLargestElem` is the sample of the
first element that attains it, so a later element of equal length does not replace
it; otherwise `FieldOfLargestElem` is empty. -/
theorem largest_element (d0 d : Decoder) (st : Event) (evs : List Event)
    (hst : isStart st = true) (hs : callback d0 st = Except.ok d)
    (hel : ∀ ev ∈ evs, (elemOf d.m ev).isSome = true)
    (hrp : ∀ ev ∈ evs, checksListEncoding ev = true →
      currentEncoding d ∈ ["quicklist", "ziplist", "linkedlist", "quicklist2"]) :
    ∃ e, (callbacks d evs).2 = none ∧ (callbacks d evs).1.currentEntry = some e ∧
      e.LenOfLargestElem = maxLen (evs.filterMap (elemOf d.m)) ∧
      (maxLen (evs.filterMap (elemOf d.m)) = 0 → e.FieldOfLargestElem = "") ∧
      (maxLen (evs.filterMap (elemOf d.m)) > 0 →
        ∃ pre x post, evs.filterMap (elemOf d.m) = pre ++ x :: post ∧
          x.1 = maxLen (evs.filterMap (elemOf d.m)) ∧ (∀ y ∈ pre, y.1 < x.1) ∧
          e.FieldOfLargestElem = sampleOf x.2) := by
  obtain ⟨_, _, _, key, typ, i, e0, _, hci, hce, _, _, _, hlen, hfield⟩ :=
    start_shape d0 d st hst hs
  have hrp' : ∀ ev ∈ evs, checksListEncoding ev = true →
      i.Encoding ∈ ["quicklist", "ziplist", "linkedlist", "quicklist2"] := by
    intro ev hev hc
    have := hrp ev hev hc
    simpa [currentEncoding, hci] using this
  obtain ⟨e, h1, h2, h3⟩ := element_run evs d e0 i hce hci hel hrp'
  obtain ⟨f1, f2, f3⟩ := largest_fold (evs.filterMap (elemOf d.m))
    (e0.LenOfLargestElem, e0.FieldOfLargestElem)
  rw [← h3] at f1 f2 f3
  simp only [hlen, hfield] at f1 f2 f3
  refine ⟨e, h1, h2, ?_, fun h0 => f2 ?_, fun hpos => f3 hpos⟩
  · clear f2 f3 hel hrp hrp'; rw [f1]; omega
  · clear f2 f3 hel hrp hrp'; omega

/-- C26 at a concrete input: a hash with the pairs `ab`/`x`, `cd`/`y` and `e`/`z`,
of lengths 3, 3 and 2: the largest length is 3 and the sample is `ab`. -/
theorem largest_element_witness :
    (isStart (Event.startHash "k" 1 0 (some sampleHashInfo)) = true ∧
      callback sampleDecoder (Event.startHash "k" 1 0 (some sampleHashInfo))
        = Except.ok sampleHashOpen ∧
      (∀ ev ∈ [Event.hset "k" "ab" "x", Event.hset "k" "cd" "y", Event.hset "k" "e" "z"],
        (elemOf sampleHashOpen.m ev).isSome = true) ∧
      (∀ ev ∈ [Event.hset "k" "ab" "x", Event.hset "k" "cd" "y", Event.hset "k" "e" "z"],
        checksListEncoding ev = true →
          currentEncoding sampleHashOpen ∈ ["quicklist", "ziplist", "linkedlist", "quicklist2"])) ∧
    (callbacks sampleHashOpen
        [Event.hset "k" "ab" "x", Event.hset "k" "cd" "y", Event.hset "k" "e" "z"]).1.currentEntry.map
      (fun e => (e.LenOfLargestElem, e.FieldOfLargestElem)) = some (3, "ab") ∧
    ∃ e, (callbacks sampleHashOpen
        [Event.hset "k" "ab" "x", Event.hset "k" "cd" "y", Event.hset "k" "e" "z"]).2 = none ∧
      (callbacks sampleHashOpen
        [Event.hset "k" "ab" "x", Event.hset "k" "cd" "y",
          Event.hset "k" "e" "z"]).1.currentEntry = some e ∧
      e.LenOfLargestElem = maxLen
        ([Event.hset "k" "ab" "x", Event.hset "k" "cd" "y", Event.hset "k" "e" "z"].filterMap
          (elemOf sampleHashOpen.m)) ∧
      (maxLen ([Event.hset "k" "ab" "x", Event.hset "k" "cd" "y",
          Event.hset "k" "e" "z"].filterMap (elemOf sampleHashOpen.m)) = 0 →
        e.FieldOfLargestElem = "") ∧
      (maxLen ([Event.hset "k" "ab" "x", Event.hset "k" "cd" "y",
          Event.hset "k" "e" "z"].filterMap (elemOf sampleHashOpen.m)) > 0 →
        ∃ pre x post,
          [Event.hset "k" "ab" "x", Event.hset "k" "cd" "y", Event.hset "k" "e" "z"].filterMap
            (elemOf sampleHashOpen.m) = pre ++ x :: post ∧
          x.1 = maxLen ([Event.hset "k" "ab" "x", Event.hset "k" "cd" "y",
            Event.hset "k" "e" "z"].filterMap (elemOf sampleHashOpen.m)) ∧
          (∀ y ∈ pre, y.1 < x.1) ∧ e.FieldOfLargestElem = sampleOf x.2) :=
  ⟨⟨rfl, rfl, by decide, by decide⟩, by decide,
    largest_element sampleDecoder sampleHashOpen (Event.startHash "k" 1 0 (some sampleHashInfo))
      [Event.hset "k" "ab" "x", Event.hset "k" "cd" "y", Event.hset "k" "e" "z"]
      rfl rfl (by decide) (by decide)⟩
theorem utf8Bytes_length (c : Char) : (utf8Bytes c).length = c.utf8Size := by
  unfold utf8Bytes Char.utf8Size
  have hle : ∀ k : Nat, k < 4294967296 → (c.val ≤ UInt32.ofNat k ↔ c.toNat ≤ k) := by
    intro k hk
    rw [UInt32.le_def]
    show c.val.toNat ≤ (UInt32.ofNat k).toNat ↔ _
    have : (UInt32.ofNat k).toNat = k := by
      show k % 4294967296 = k
      exact Nat.mod_eq_of_lt hk
    rw [this]
    rfl
  have a1 := hle 127 (by norm_num)
  have a2 := hle 2047 (by norm_num)
  have a3 := hle 65535 (by norm_num)
  by_cases h1 : c.toNat < 128
  · have : c.val ≤ 127 := a1.2 (by omega)
    simp [h1, this]
  · have n1 : ¬ c.val ≤ 127 := fun hh => h1 (by have := a1.1 hh; omega)
    by_cases h2 : c.toNat < 2048
    · have : c.val ≤ 2047 := a2.2 (by omega)
      simp [h1, h2, n1, this]
    · have n2 : ¬ c.val ≤ 2047 := fun hh => h2 (by have := a2.1 hh; omega)
      by_cases h3 : c.toNat < 65536
      · have : c.val ≤ 65535 := a3.2 (by omega)
        simp [h1, h2, h3, n1, n2, this]
      · have n3 : ¬ c.val ≤ 65535 := fun hh => h3 (by have := a3.1 hh; omega)
        simp [h1, h2, h3, n1, n2, n3]

theorem byteLen_eq_utf8ByteSize (s : String) : byteLen s = s.utf8ByteSize := by
  unfold byteLen goBytes
  show (s.toList.flatMap utf8Bytes).length = _
  obtain ⟨cs⟩ := s
  show (cs.flatMap utf8Bytes).length = String.utf8ByteSize.go cs
  induction cs with
  | nil => rfl
  | cons c cs ih =>
    rw [List.flatMap_cons, List.length_append, ih, utf8Bytes_length]
    simp [String.utf8ByteSize.go]
    omega

theorem goBytes_ascii (s : String) (h : ∀ c ∈ s.toList, c.toNat < 128) : goBytes s = s := by
  unfold goBytes
  obtain ⟨cs⟩ := s
  congr 1
  show cs.flatMap utf8Bytes = cs
  have h' : ∀ c ∈ cs, c.toNat < 128 := h
  clear h
  induction cs with
  | nil => rfl
  | cons c cs ih =>
    rw [List.flatMap_cons, ih (fun x hx => h' x (List.mem_cons_of_mem _ hx))]
    have : utf8Bytes c = [c] := by
      unfold utf8Bytes
      rw [if_pos (h' c (List.mem_cons_self _ _))]
    rw [this]
    rfl

theorem toNat_ofNat_small (n : Nat) (h : n < 256) : (Char.ofNat n).toNat = n := by
  have hv : n.isValidChar := Or.inl (by omega)
  unfold Char.ofNat
  rw [dif_pos hv]
  rfl

theorem utf8Bytes_small (c : Char) : ∀ b ∈ utf8Bytes c, b.toNat < 256 := by
  intro b hb
  have hc : c.toNat < 1114112 := by
    have := c.valid
    rcases this with h | ⟨_, h⟩
    · have : c.toNat < 55296 := h
      omega
    · exact h
  unfold utf8Bytes at hb
  split at hb
  · simp only [List.mem_singleton] at hb
    subst hb
    omega
  · split at hb
    · simp only [List.mem_cons, List.mem_singleton, List.not_mem_nil, or_false] at hb
      rcases hb with rfl | rfl <;> rw [toNat_ofNat_small _ (by omega)] <;> omega
    · split at hb
      · simp only [List.mem_cons, List.mem_singleton, List.not_mem_nil, or_false] at hb
        rcases hb with rfl | rfl | rfl <;> rw [toNat_ofNat_small _ (by omega)] <;> omega
      · simp only [List.mem_cons, List.mem_singleton, List.not_mem_nil, or_false] at hb
        rcases hb with rfl | rfl | rfl | rfl <;> rw [toNat_ofNat_small _ (by omega)] <;> omega

theorem goBytes_small (s : String) : ∀ b ∈ (goBytes s).toList, b.toNat < 256 := by
  intro b hb
  have hb' : b ∈ s.toList.flatMap utf8Bytes := hb
  rw [List.mem_flatMap] at hb'
  obtain ⟨c, _, hc⟩ := hb'
  exact utf8Bytes_small c b hc

theorem sampleOf_cases (f : String) :
    (byteLen f > 100 → sampleOf f = sliceTo (goBytes f) 100 ++ "..." ∧
      (sampleOf f).length = 103) ∧
    (byteLen f ≤ 100 → sampleOf f = goBytes f ∧ (sampleOf f).length = byteLen f) ∧
    (sampleOf f).length ≤ 103 := by
  have hlong : byteLen f > 100 → sampleOf f = sliceTo (goBytes f) 100 ++ "..." ∧
      (sampleOf f).length = 103 := by
    intro h
    have h1 : sampleOf f = sliceTo (goBytes f) 100 ++ "..." := by
      unfold sampleOf
      rw [if_pos h]
    refine ⟨h1, ?_⟩
    rw [h1, String.length_append]
    have h2 : (sliceTo (goBytes f) 100).length = ((goBytes f).toList.take 100).length := rfl
    have h3 : (goBytes f).toList.length = byteLen f := rfl
    have h4 : "...".length = 3 := by decide
    rw [h2, List.length_take, h3, h4]
    omega
  have hshort : byteLen f ≤ 100 → sampleOf f = goBytes f ∧ (sampleOf f).length = byteLen f := by
    intro h
    have h1 : sampleOf f = goBytes f := by
      unfold sampleOf
      rw [if_neg (by omega)]
    exact ⟨h1, by rw [h1]; rfl⟩
  refine ⟨hlong, hshort, ?_⟩
  by_cases h : byteLen f > 100
  · rw [(hlong h).2]
  · rw [(hshort (by omega)).2]
    omega

theorem sampleOf_empty : sampleOf "" = "" := by decide

/-- one callback keeps the samples: the `FieldOfLargestElem` of every record is the
sample of the empty string or of a field or member passed to an element callback -/
theorem callback_sample (d d' : Decoder) (ev : Event) (S : List String)
    (h : callback d ev = Except.ok d')
    (inv : ∀ e, (some e ∈ d.Entries ∨ d.currentEntry = some e) →
      ∃ f, (f = "" ∨ f ∈ S) ∧ e.FieldOfLargestElem = sampleOf f) :
    d'.m = d.m ∧
    ∀ e, (some e ∈ d'.Entries ∨ d'.currentEntry = some e) →
      ∃ f, (f = "" ∨ f ∈ S ++ ((elemOf d.m ev).map Prod.snd).toList) ∧
        e.FieldOfLargestElem = sampleOf f := by
  have mono : ∀ e : Entry, (∃ f, (f = "" ∨ f ∈ S) ∧ e.FieldOfLargestElem = sampleOf f) →
      ∃ f, (f = "" ∨ f ∈ S ++ ((elemOf d.m ev).map Prod.snd).toList) ∧
        e.FieldOfLargestElem = sampleOf f := by
    rintro e ⟨f, hf, he⟩
    refine ⟨f, ?_, he⟩
    rcases hf with hf | hf
    · exact Or.inl hf
    · exact Or.inr (List.mem_append_left _ hf)
  rcases event_kinds ev with ⟨ver, rfl⟩ | ⟨n, rfl⟩ | ⟨key, value, rfl⟩ |
    ⟨key, value, expiry, info, rfl⟩ | hst | hel | hend
  · simp only [callback, Except.ok.injEq] at h
    subst h
    exact ⟨rfl, fun e he => mono e (inv e he)⟩
  · simp only [callback, Except.ok.injEq] at h
    subst h
    exact ⟨rfl, fun e he => mono e (inv e he)⟩
  · simp only [callback, Except.ok.injEq] at h
    subst h
    obtain ⟨a1, a2, a3, _, _⟩ := Aux_fields d key value
    refine ⟨a2, fun e he => mono e (inv e ?_)⟩
    rw [a1, a3] at he
    exact he
  · obtain ⟨hm, hc, _, _, i, e1, _, hE, _, _, _, hf⟩ := set_shape d d' key value expiry info h
    refine ⟨hm, fun e he => ?_⟩
    rw [hE, hc, List.mem_append] at he
    rcases he with (he | he) | he
    · exact mono e (inv e (Or.inl he))
    · simp only [List.mem_singleton, Option.some.injEq] at he
      subst he
      exact ⟨"", Or.inl rfl, by rw [hf, sampleOf_empty]⟩
    · exact mono e (inv e (Or.inr he))
  · obtain ⟨hE, hm, _, key, typ, i, e1, _, _, hc, _, _, _, _, hf⟩ := start_shape d d' ev hst h
    refine ⟨hm, fun e he => ?_⟩
    rw [hE, hc] at he
    rcases he with he | he
    · exact mono e (inv e (Or.inl he))
    · simp only [Option.some.injEq] at he
      subst he
      exact ⟨"", Or.inl rfl, by rw [hf, sampleOf_empty]⟩
  · obtain ⟨hE, hm, _, _, e0, e1, hc0, hc, _, _, hf⟩ := element_shape d d' ev hel h
    refine ⟨hm, fun e he => ?_⟩
    rw [hE, hc] at he
    rcases he with he | he
    · exact mono e (inv e (Or.inl he))
    · simp only [Option.some.injEq] at he
      subst he
      cases hx : elemOf d.m ev with
      | none =>
        rw [hx] at hf
        simp only at hf
        rw [hf]
        have := mono e0 (inv e0 (Or.inr hc0))
        rw [hx] at this
        exact this
      | some x =>
        obtain ⟨n, f⟩ := x
        rw [hx] at hf
        simp only at hf
        rw [hf]
        by_cases hn : n > e0.LenOfLargestElem
        · rw [if_pos hn]
          exact ⟨f, Or.inr (by simp), rfl⟩
        · rw [if_neg hn]
          have := mono e0 (inv e0 (Or.inr hc0))
          rw [hx] at this
          exact this
  · obtain ⟨hm, hc, _, _, hcase⟩ := end_shape d d' ev hend h
    refine ⟨hm, fun e he => ?_⟩
    rw [hc] at he
    rcases hcase with ⟨_, hE⟩ | ⟨e0, e1, hc0, hE, heq⟩
    · rw [hE, List.mem_append] at he
      rcases he with (he | he) | he
      · exact mono e (inv e (Or.inl he))
      · simp at he
      · simp at he
    · rw [hE, List.mem_append] at he
      rcases he with (he | he) | he
      · exact mono e (inv e (Or.inl he))
      · simp only [List.mem_singleton, Option.some.injEq] at he
        subst he
        have := mono e0 (inv e0 (Or.inr hc0))
        rw [heq]
        exact this
      · simp at he

theorem callbacks_sample (evs : List Event) :
    ∀ (d : Decoder) (S : List String),
      (∀ e, (some e ∈ d.Entries ∨ d.currentEntry = some e) →
        ∃ f, (f = "" ∨ f ∈ S) ∧ e.FieldOfLargestElem = sampleOf f) →
      ∀ e, some e ∈ (callbacks d evs).1.Entries →
        ∃ f, (f = "" ∨ f ∈ S ++ (evs.filterMap (elemOf d.m)).map Prod.snd) ∧
          e.FieldOfLargestElem = sampleOf f := by
  induction evs with
  | nil =>
    intro d S inv e he
    simpa using inv e (Or.inl he)
  | cons ev evs ih =>
    intro d S inv e he
    unfold callbacks at he
    cases hcb : callback d ev with
    | error msg =>
      rw [hcb] at he
      simp only [(panicState_frame d ev).1] at he
      obtain ⟨f, hf, hef⟩ := inv e (Or.inl he)
      refine ⟨f, ?_, hef⟩
      rcases hf with hf | hf
      · exact Or.inl hf
      · exact Or.inr (List.mem_append_left _ hf)
    | ok d1 =>
      rw [hcb] at he
      obtain ⟨hm, inv1⟩ := callback_sample d d1 ev S hcb inv
      obtain ⟨f, hf, hef⟩ := ih d1 _ inv1 e he
      refine ⟨f, ?_, hef⟩
      rcases hf with hf | hf
      · exact Or.inl hf
      · right
        rw [hm] at hf
        rw [List.filterMap_cons]
        cases hx : elemOf d.m ev with
        | none =>
          rw [hx] at hf
          simpa using hf
        | some x =>
          rw [hx] at hf
          simp only [List.map_cons, List.mem_append, List.mem_cons] at hf ⊢
          simp only [Option.map_some', Option.toList_some, List.mem_singleton,
            List.mem_map] at hf
          rcases hf with (hf | hf) | hf
          · exact Or.inl hf
          · exact Or.inr (Or.inl hf)
          · exact Or.inr (Or.inr (List.mem_map.2 hf))

/-- C27. Run any sequence of callbacks on a new decoder, up to the first panic if
there is one. The `FieldOfLargestElem` of every record sent is the sample of the
empty string or of a field or member passed to an element callback of the sequence,
and the sample is taken in bytes: for a field of more than 100 bytes (in UTF-8, the
`len` of Go) it is the first 100 bytes followed by `...`, 103 bytes, and for any
other field it is the bytes of the field, unchanged and without marker; so it never
has more than 103 bytes.  The sample is held byte by byte (every character of it is
below 256), because byte 100 may lie inside a character; the bytes of an ASCII
field are the field itself. -/
theorem sample_bounded (m : MemProfiler) (evs : List Event) :
    (∀ e ∈ Records (callbacks (NewDecoder m) evs).1,
      (∃ f, (f = "" ∨ f ∈ (evs.filterMap (elemOf m)).map Prod.snd) ∧
        e.FieldOfLargestElem = sampleOf f) ∧
      e.FieldOfLargestElem.length ≤ 103) ∧
    ∀ f : String,
      (byteLen f > 100 → sampleOf f = sliceTo (goBytes f) 100 ++ "..." ∧
        (sampleOf f).length = 103) ∧
      (byteLen f ≤ 100 → sampleOf f = goBytes f ∧ (sampleOf f).length = byteLen f) ∧
      byteLen f = f.utf8ByteSize ∧
      (∀ b ∈ (goBytes f).toList, b.toNat < 256) ∧
      ((∀ c ∈ f.toList, c.toNat < 128) → goBytes f = f) := by
  refine ⟨fun e he => ?_, fun f => ⟨(sampleOf_cases f).1, (sampleOf_cases f).2.1,
    byteLen_eq_utf8ByteSize f, goBytes_small f, goBytes_ascii f⟩⟩
  have hmem : some e ∈ (callbacks (NewDecoder m) evs).1.Entries := by
    unfold Records at he
    rw [List.mem_filterMap] at he
    obtain ⟨a, ha, hae⟩ := he
    simp only [id] at hae
    rw [← hae]
    exact ha
  obtain ⟨f, hf, hef⟩ := callbacks_sample evs (NewDecoder m) [] (by
    intro e he
    rcases he with he | he <;> simp [NewDecoder] at he) e hmem
  refine ⟨⟨f, by simpa using hf, hef⟩, ?_⟩
  rw [hef]
  exact (sampleOf_cases f).2.2

set_option maxRecDepth 20000 in
/-- C27 at concrete inputs: a field of 101 bytes is sent as its first 100 bytes
followed by `...`; a field of 60 two-byte characters (120 bytes) as the bytes of
its first 50 characters followed by `...`; a member of 34 three-byte characters
(102 bytes) as the bytes of its first 33 characters, the first byte (226) of the
last one, and `...`; a short field is sent unchanged. -/
theorem sample_bounded_witness :
    (Records (callbacks (NewDecoder sampleProfiler) sampleLongRun).1).map
      (fun e => e.FieldOfLargestElem) = [String.mk (List.replicate 100 'a') ++ "..."] ∧
    (Records (callbacks (NewDecoder sampleProfiler) sampleAccentRun).1).map
      (fun e => e.FieldOfLargestElem)
      = [goBytes (String.mk (List.replicate 50 'é')) ++ "...",
          goBytes (String.mk (List.replicate 33 '€')) ++ String.mk [Char.ofNat 226] ++ "..."] ∧
    (sampleAccentField.length = 60 ∧ byteLen sampleAccentField = 120) ∧
    (goBytes "é").toList.map Char.toNat = [195, 169] ∧
    (goBytes "€").toList.map Char.toNat = [226, 130, 172] ∧
    (∀ e ∈ Records (callbacks (NewDecoder sampleProfiler) sampleAccentRun).1,
      e.FieldOfLargestElem.length ≤ 103) ∧
    byteLen sampleAccentField > 100 ∧
    (sampleOf sampleAccentField = sliceTo (goBytes sampleAccentField) 100 ++ "..." ∧
      (sampleOf sampleAccentField).length = 103) ∧
    (byteLen "short" ≤ 100 ∧ sampleOf "short" = "short") :=
  ⟨by decide, by decide, by decide, by decide, by decide,
    fun e he => ((sample_bounded sampleProfiler sampleAccentRun).1 e he).2,
    by decide,
    ((sample_bounded sampleProfiler sampleAccentRun).2 sampleAccentField).1 (by decide),
    by decide, by decide⟩

/-! ### C28: one record for each key -/

theorem callbacks_append (a b : List Event) :
    ∀ d : Decoder,
      ((callbacks d a).2 = none → callbacks d (a ++ b) = callbacks (callbacks d a).1 b) ∧
      ((callbacks d a).2 ≠ none → callbacks d (a ++ b) = callbacks d a) := by
  induction a with
  | nil =>
    intro d
    refine ⟨fun _ => rfl, fun h => ?_⟩
    exact absurd rfl h
  | cons ev a ih =>
    intro d
    cases hcb : callback d ev with
    | error msg =>
      have h1 : callbacks d (ev :: a) = (panicState d ev, some msg) :=
        callbacks_error d ev a msg hcb
      have h2 : callbacks d (ev :: a ++ b) = (panicState d ev, some msg) :=
        callbacks_error d ev (a ++ b) msg hcb
      rw [h1, h2]
      exact ⟨fun h => by simp at h, fun _ => rfl⟩
    | ok d1 =>
      have h1 : callbacks d (ev :: a) = callbacks d1 a := callbacks_ok d d1 ev a hcb
      have h2 : callbacks d (ev :: a ++ b) = callbacks d1 (a ++ b) :=
        callbacks_ok d d1 ev (a ++ b) hcb
      rw [h1, h2]
      exact ih d1

theorem staticFields_key (e1 e0 : Entry) (h : staticFields e1 = staticFields e0) :
    e1.Key = e0.Key ∧ e1.Typ = e0.Typ ∧ e1.Encoding = e0.Encoding ∧
    e1.Expiration = e0.Expiration ∧ e1.Db = e0.Db := by
  have hk : (staticFields e1).Key = (staticFields e0).Key := by rw [h]
  have ht : (staticFields e1).Typ = (staticFields e0).Typ := by rw [h]
  have he : (staticFields e1).Encoding = (staticFields e0).Encoding := by rw [h]
  have hx : (staticFields e1).Expiration = (staticFields e0).Expiration := by rw [h]
  have hd : (staticFields e1).Db = (staticFields e0).Db := by rw [h]
  exact ⟨hk, ht, he, hx, hd⟩

/-- a run of element callbacks keeps `Entries`, the profiler, the current info and
the fields of the open record outside `Bytes`, `NumOfElem` and the largest element,
also when it stops at a panic; it does not panic if the encoding is one of a list
or no `Rpush` occurs -/
theorem elements_frame (evs : List Event) :
    ∀ (d : Decoder) (e0 : Entry) (i : Info), d.currentEntry = some e0 →
      d.currentInfo = some i → (∀ ev ∈ evs, isElement ev = true) →
      (callbacks d evs).1.Entries = d.Entries ∧ (callbacks d evs).1.m = d.m ∧
      (callbacks d evs).1.currentInfo = some i ∧
      (callbacks d evs).1.rdbVer = d.rdbVer ∧
      (∃ e1, (callbacks d evs).1.currentEntry = some e1 ∧ staticFields e1 = staticFields e0) ∧
      ((∀ ev ∈ evs, checksListEncoding ev = true →
          i.Encoding ∈ ["quicklist", "ziplist", "linkedlist", "quicklist2"]) →
        (callbacks d evs).2 = none) := by
  induction evs with
  | nil =>
    intro d e0 i hce hci _
    exact ⟨rfl, rfl, hci, rfl, ⟨e0, hce, rfl⟩, fun _ => rfl⟩
  | cons ev evs ih =>
    intro d e0 i hce hci hel
    have hisel := hel ev (List.mem_cons_self _ _)
    cases hcb : callback d ev with
    | error msg =>
      rw [callbacks_error d ev evs msg hcb]
      obtain ⟨p1, p2, p3, _⟩ := panicState_frame d ev
      obtain ⟨p5, p6⟩ := panicState_entry d ev e0 hce (Or.inl hisel)
      refine ⟨p1, p2, p5.trans hci, p3, p6, fun hrp => ?_⟩
      exfalso
      obtain ⟨d', hd'⟩ := element_ok d ev e0 i hisel hce hci (hrp ev (List.mem_cons_self _ _))
      rw [hd'] at hcb
      exact Except.noConfusion hcb
    | ok d1 =>
      rw [callbacks_ok d d1 ev evs hcb]
      obtain ⟨hE, hm, hinfo, hver, e0', e1, hc0, hc1, hst, _, _⟩ :=
        element_shape d d1 ev hisel hcb
      rw [hce] at hc0
      cases hc0
      obtain ⟨a1, a2, a3, a4, ⟨e2, a5, a6⟩, a7⟩ := ih d1 e1 i hc1 (hinfo.trans hci)
        (fun ev' h' => hel ev' (List.mem_cons_of_mem _ h'))
      exact ⟨a1.trans hE, a2.trans hm, a3, a4.trans hver, ⟨e2, a5, a6.trans hst⟩,
        fun hrp => a7 (fun ev' h' => hrp ev' (List.mem_cons_of_mem _ h'))⟩

/-- an `End...` callback returns when a record is open with its info, and, for
`EndList`, the encoding is one of a list -/
theorem end_ok (d : Decoder) (ev : Event) (e0 : Entry) (i : Info)
    (hend : isEnd ev = true) (hce : d.currentEntry = some e0)
    (hci : d.currentInfo = some i)
    (hrp : checksListEncoding ev = true →
      i.Encoding ∈ ["quicklist", "ziplist", "linkedlist", "quicklist2"]) :
    ∃ d', callback d ev = Except.ok d' := by
  cases ev <;> simp only [isEnd, Bool.false_eq_true] at hend
  case endHash key => exact ⟨_, rfl⟩
  case endSet key => exact ⟨_, rfl⟩
  case endZSet key => exact ⟨_, rfl⟩
  case endList key =>
    cases h : callback d (Event.endList key) with
    | ok d' => exact ⟨d', rfl⟩
    | error msg =>
      exfalso
      exact ((EndList_error_iff d key e0 i hce hci msg).1 h).1 (hrp rfl)
  case endStream key items lastEntryID gs =>
    obtain ⟨b, hb⟩ := EndStream_ok d key items lastEntryID gs e0 i hce hci
    exact ⟨_, hb⟩

/-- the callbacks of one container, `Start...`, element callbacks, `End...`: either
a callback panics and nothing is sent, or one record with the key and type of the
`Start...` callback is sent and no record is open; no callback panics when
`Start...` returns and the encoding is one of a list or no callback checks it -/
theorem container_run (d : Decoder) (st en : Event) (elems : List Event)
    (hst : isStart st = true) (hel : ∀ ev ∈ elems, isElement ev = true)
    (hen : isEnd en = true) :
    (callbacks d (st :: (elems ++ [en]))).1.m = d.m ∧
    ((callbacks d (st :: (elems ++ [en]))).2 ≠ none →
      (callbacks d (st :: (elems ++ [en]))).1.Entries = d.Entries) ∧
    ((callbacks d (st :: (elems ++ [en]))).2 = none →
      ∃ key typ i e, startArgs st = some (key, typ, some i) ∧
        (callbacks d (st :: (elems ++ [en]))).1.Entries = d.Entries ++ [some e] ∧
        e.Key = key ∧ e.Typ = typ ∧
        (callbacks d (st :: (elems ++ [en]))).1.currentEntry = none) ∧
    (∀ d1 i, callback d st = Except.ok d1 → d1.currentInfo = some i →
      (∀ ev ∈ elems ++ [en], checksListEncoding ev = true →
        i.Encoding ∈ ["quicklist", "ziplist", "linkedlist", "quicklist2"]) →
      (callbacks d (st :: (elems ++ [en]))).2 = none) := by
  cases hcb : callback d st with
  | error msg =>
    rw [callbacks_error d st _ msg hcb]
    refine ⟨(panicState_frame d st).2.1, fun _ => (panicState_frame d st).1,
      fun h => by simp at h, fun d1 i h => ?_⟩
    exact Except.noConfusion h
  | ok d1 =>
    rw [callbacks_ok d d1 st _ hcb]
    obtain ⟨sE, sm, _, key, typ, i, e0, sargs, sinfo, scur, skey, styp, _, _, _⟩ :=
      start_shape d d1 st hst hcb
    obtain ⟨fE, fm, finfo, _, ⟨e1, fcur, fstat⟩, fok⟩ := elements_frame elems d1 e0 i scur sinfo hel
    obtain ⟨ap1, ap2⟩ := callbacks_append elems [en] d1
    obtain ⟨k1, k2, _⟩ := staticFields_key e1 e0 fstat
    cases hr : (callbacks d1 elems).2 with
    | some msg =>
      rw [ap2 (by rw [hr]; simp)]
      refine ⟨fm.trans sm, fun _ => fE.trans sE, fun h => ?_, fun d1' i' h1 h2 h3 => ?_⟩
      · rw [hr] at h; simp at h
      · exfalso
        simp only [Except.ok.injEq] at h1
        subst h1
        rw [sinfo] at h2
        cases h2
        have := fok (fun ev hev => h3 ev (List.mem_append_left _ hev))
        rw [hr] at this
        simp at this
    | none =>
      rw [ap1 hr]
      generalize (callbacks d1 elems).1 = d2 at fE fm finfo fcur
      cases hcb2 : callback d2 en with
      | error msg =>
        rw [callbacks_error d2 en [] msg hcb2]
        refine ⟨((panicState_frame d2 en).2.1.trans fm).trans sm,
          fun _ => ((panicState_frame d2 en).1.trans fE).trans sE, fun h => by simp at h,
          fun d1' i' h1 h2 h3 => ?_⟩
        exfalso
        simp only [Except.ok.injEq] at h1
        subst h1
        rw [sinfo] at h2
        cases h2
        obtain ⟨d', hd'⟩ := end_ok d2 en e1 i hen fcur finfo
          (h3 en (List.mem_append_right _ (List.mem_singleton_self _)))
        rw [hd'] at hcb2
        exact Except.noConfusion hcb2
      | ok d3 =>
        rw [callbacks_ok d2 d3 en [] hcb2]
        obtain ⟨em, ecur, _, _, ecase⟩ := end_shape d2 d3 en hen hcb2
        have hfin : callbacks d3 [] = (d3, none) := rfl
        rw [hfin]
        refine ⟨em.trans (fm.trans sm), fun h => absurd rfl h, fun _ => ?_, fun _ _ _ _ _ => rfl⟩
        rcases ecase with ⟨hnone, _⟩ | ⟨e0', e, hc0, hE, heq⟩
        · rw [fcur] at hnone
          exact Option.noConfusion hnone
        · rw [fcur] at hc0
          cases hc0
          refine ⟨key, typ, i, e, sargs, ?_, ?_, ?_, ecur⟩
          · show d3.Entries = _
            rw [hE, fE, sE]
          · rw [heq]
            exact k1.trans skey
          · rw [heq]
            exact k2.trans styp
theorem container_item (d : Decoder) (st en : Event) (elems : List Event) (key typ : String)
    (i : Info) (hst : isStart st = true) (hel : ∀ ev ∈ elems, isElement ev = true)
    (hen : isEnd en = true) (hargs : startArgs st = some (key, typ, some i)) :
    (callbacks d (st :: (elems ++ [en]))).1.m = d.m ∧
    ((callbacks d (st :: (elems ++ [en]))).2 ≠ none →
      (callbacks d (st :: (elems ++ [en]))).1.Entries = d.Entries) ∧
    ((callbacks d (st :: (elems ++ [en]))).2 = none →
      (callbacks d (st :: (elems ++ [en]))).1.Entries.map sentKey
        = d.Entries.map sentKey ++ [some (key, typ)] ∧
      (callbacks d (st :: (elems ++ [en]))).1.currentEntry = none) ∧
    ((∀ msg, callback d st ≠ Except.error msg) →
      (∀ ev ∈ elems ++ [en], checksListEncoding ev = true →
        i.Encoding ∈ ["quicklist", "ziplist", "linkedlist", "quicklist2"]) →
      (callbacks d (st :: (elems ++ [en]))).2 = none) := by
  obtain ⟨c1, c2, c3, c4⟩ := container_run d st en elems hst hel hen
  refine ⟨c1, c2, fun h => ?_, fun hok hrp => ?_⟩
  · obtain ⟨key', typ', i', e, ha, hE, hk, ht, hc⟩ := c3 h
    rw [hargs] at ha
    simp only [Option.some.injEq, Prod.mk.injEq] at ha
    obtain ⟨rfl, rfl, _⟩ := ha
    refine ⟨?_, hc⟩
    rw [hE, List.map_append]
    simp [sentKey, hk, ht]
  · cases hcb : callback d st with
    | error msg => exact absurd hcb (hok msg)
    | ok d1 =>
      obtain ⟨_, _, _, key', typ', i', e0, sargs, sinfo, _⟩ := start_shape d d1 st hst hcb
      rw [hargs] at sargs
      simp only [Option.some.injEq, Prod.mk.injEq] at sargs
      obtain ⟨_, _, hi⟩ := sargs
      exact c4 d1 i hcb (by rw [sinfo, hi]) hrp

/-- the callbacks of one item: either a callback panics and nothing is sent, or
exactly the record of the item's key, if it has one, is sent, and no record is open
afterwards if none was open before; an item with an accepted encoding does not
panic -/
theorem item_run (d : Decoder) (it : Item) :
    (callbacks d (itemEvents it)).1.m = d.m ∧
    ((callbacks d (itemEvents it)).2 ≠ none →
      (callbacks d (itemEvents it)).1.Entries = d.Entries) ∧
    ((callbacks d (itemEvents it)).2 = none →
      (callbacks d (itemEvents it)).1.Entries.map sentKey
        = d.Entries.map sentKey ++ (itemKey it).toList.map some ∧
      (d.currentEntry = none → (callbacks d (itemEvents it)).1.currentEntry = none)) ∧
    (itemAccepted it = true → (callbacks d (itemEvents it)).2 = none) := by
  cases it with
  | startRDB ver =>
    exact ⟨rfl, fun _ => rfl, fun _ => ⟨by simp [itemKey, itemEvents, callbacks, callback,
      StartRDB], fun h => h⟩, fun _ => rfl⟩
  | startDatabase n =>
    exact ⟨rfl, fun _ => rfl, fun _ => ⟨by simp [itemKey, itemEvents, callbacks, callback,
      StartDatabase], fun h => h⟩, fun _ => rfl⟩
  | aux key value =>
    obtain ⟨a1, a2, a3, _, _⟩ := Aux_fields d key value
    have hr : callbacks d (itemEvents (Item.aux key value)) = (Aux d key value, none) := rfl
    rw [hr]
    exact ⟨a2, fun _ => a1, fun _ => ⟨by simp [itemKey, a1], fun h => a3.trans h⟩, fun _ => rfl⟩
  | str key value expiry info =>
    have hok : ∃ d1, callback d (Event.set key value expiry (some info)) = Except.ok d1 :=
      ⟨_, rfl⟩
    obtain ⟨d1, hd1⟩ := hok
    have hr : callbacks d (itemEvents (Item.str key value expiry info)) = (d1, none) := by
      show callbacks d [Event.set key value expiry (some info)] = _
      rw [callbacks_ok d d1 _ [] hd1]
      rfl
    obtain ⟨hm, hc, _, _, i, e, _, hE, hk, ht, _, _⟩ :=
      set_shape d d1 key value expiry (some info) hd1
    rw [hr]
    refine ⟨hm, fun h => absurd rfl h, fun _ => ⟨?_, fun h => hc.trans h⟩, fun _ => rfl⟩
    show d1.Entries.map sentKey = _
    rw [hE, List.map_append]
    simp [sentKey, itemKey, hk, ht]
  | hash key length expiry info pairs =>
    have hev : itemEvents (Item.hash key length expiry info pairs)
        = Event.startHash key length expiry (some info)
          :: (pairs.map (fun fv => Event.hset key fv.1 fv.2) ++ [Event.endHash key]) := rfl
    rw [hev]
    obtain ⟨c1, c2, c3, c4⟩ := container_item d (Event.startHash key length expiry (some info))
      (Event.endHash key) (pairs.map (fun fv => Event.hset key fv.1 fv.2)) key "hash" info rfl
      (by intro ev hev; simp only [List.mem_map] at hev; obtain ⟨a, _, rfl⟩ := hev; rfl)
      rfl rfl
    refine ⟨c1, c2, fun h => ⟨(c3 h).1, fun _ => (c3 h).2⟩, fun hacc => c4 ?_ ?_⟩
    · intro msg hmsg
      have := (StartHash_error_iff d key length expiry info msg).1 hmsg
      simp only [itemAccepted, decide_eq_true_eq] at hacc
      exact this.1 hacc
    · intro ev hev hc
      simp only [List.mem_append, List.mem_map, List.mem_singleton] at hev
      rcases hev with ⟨a, _, rfl⟩ | rfl <;> simp [checksListEncoding] at hc
  | set key cardinality expiry info members =>
    have hev : itemEvents (Item.set key cardinality expiry info members)
        = Event.startSet key cardinality expiry (some info)
          :: (members.map (fun m => Event.sadd key m) ++ [Event.endSet key]) := rfl
    rw [hev]
    obtain ⟨c1, c2, c3, c4⟩ := container_item d
      (Event.startSet key cardinality expiry (some info))
      (Event.endSet key) (members.map (fun m => Event.sadd key m)) key "set" info rfl
      (by intro ev hev; simp only [List.mem_map] at hev; obtain ⟨a, _, rfl⟩ := hev; rfl)
      rfl rfl
    refine ⟨c1, c2, fun h => ⟨(c3 h).1, fun _ => (c3 h).2⟩, fun hacc => c4 ?_ ?_⟩
    · intro msg hmsg
      have := (StartSet_error_iff d key cardinality expiry info msg).1 hmsg
      simp only [itemAccepted, decide_eq_true_eq] at hacc
      rcases hacc with h | h | h
      · exact this.1.1 h
      · exact this.1.2.1 h
      · exact this.1.2.2 h
    · intro ev hev hc
      simp only [List.mem_append, List.mem_map, List.mem_singleton] at hev
      rcases hev with ⟨a, _, rfl⟩ | rfl <;> simp [checksListEncoding] at hc
  | zset key cardinality expiry info members =>
    have hev : itemEvents (Item.zset key cardinality expiry info members)
        = Event.startZSet key cardinality expiry (some info)
          :: (members.map (fun m => Event.zadd key m) ++ [Event.endZSet key]) := rfl
    rw [hev]
    obtain ⟨c1, c2, c3, c4⟩ := container_item d
      (Event.startZSet key cardinality expiry (some info))
      (Event.endZSet key) (members.map (fun m => Event.zadd key m)) key "sortedset" info rfl
      (by intro ev hev; simp only [List.mem_map] at hev; obtain ⟨a, _, rfl⟩ := hev; rfl)
      rfl rfl
    refine ⟨c1, c2, fun h => ⟨(c3 h).1, fun _ => (c3 h).2⟩, fun hacc => c4 ?_ ?_⟩
    · intro msg hmsg
      have := (StartZSet_error_iff d key cardinality expiry info msg).1 hmsg
      simp only [itemAccepted, decide_eq_true_eq] at hacc
      rcases hacc with h | h | h
      · exact this.1.1 h
      · exact this.1.2.1 h
      · exact this.1.2.2 h
    · intro ev hev hc
      simp only [List.mem_append, List.mem_map, List.mem_singleton] at hev
      rcases hev with ⟨a, _, rfl⟩ | rfl <;> simp [checksListEncoding] at hc
  | list key length expiry info values =>
    have hev : itemEvents (Item.list key length expiry info values)
        = Event.startList key length expiry (some info)
          :: (values.map (fun v => Event.rpush key v.1 v.2) ++ [Event.endList key]) := rfl
    rw [hev]
    obtain ⟨c1, c2, c3, c4⟩ := container_item d
      (Event.startList key length expiry (some info))
      (Event.endList key) (values.map (fun v => Event.rpush key v.1 v.2)) key "list" info rfl
      (by intro ev hev; simp only [List.mem_map] at hev; obtain ⟨a, _, rfl⟩ := hev; rfl)
      rfl rfl
    refine ⟨c1, c2, fun h => ⟨(c3 h).1, fun _ => (c3 h).2⟩, fun hacc => c4 ?_ ?_⟩
    · intro msg hmsg
      simp [callback, StartList] at hmsg
    · intro ev _ _
      simpa [itemAccepted] using hacc
  | stream key cardinality expiry info listpacks items lastEntryID gs =>
    have hev : itemEvents (Item.stream key cardinality expiry info listpacks items lastEntryID gs)
        = Event.startStream key cardinality expiry (some info)
          :: (listpacks.map (fun l => Event.xadd key l.1 l.2)
            ++ [Event.endStream key items lastEntryID gs]) := rfl
    rw [hev]
    obtain ⟨c1, c2, c3, c4⟩ := container_item d
      (Event.startStream key cardinality expiry (some info))
      (Event.endStream key items lastEntryID gs)
      (listpacks.map (fun l => Event.xadd key l.1 l.2)) key "stream" info rfl
      (by intro ev hev; simp only [List.mem_map] at hev; obtain ⟨a, _, rfl⟩ := hev; rfl)
      rfl rfl
    refine ⟨c1, c2, fun h => ⟨(c3 h).1, fun _ => (c3 h).2⟩, fun _ => c4 ?_ ?_⟩
    · intro msg hmsg
      simp [callback, StartStream] at hmsg
    · intro ev hev hc
      simp only [List.mem_append, List.mem_map, List.mem_singleton] at hev
      rcases hev with ⟨a, _, rfl⟩ | rfl <;> simp [checksListEncoding] at hc

theorem items_run (items : List Item) :
    ∀ d : Decoder, d.currentEntry = none →
      (∃ k, k ≤ items.length ∧
        (callbacks d (items.flatMap itemEvents)).1.Entries.map sentKey
          = d.Entries.map sentKey ++ ((items.take k).filterMap itemKey).map some ∧
        ((callbacks d (items.flatMap itemEvents)).2 = none →
          k = items.length ∧ (callbacks d (items.flatMap itemEvents)).1.currentEntry = none)) ∧
      ((∀ it ∈ items, itemAccepted it = true) →
        (callbacks d (items.flatMap itemEvents)).2 = none) := by
  induction items with
  | nil =>
    intro d hd
    exact ⟨⟨0, Nat.le_refl _, by simp [callbacks], fun _ => ⟨rfl, hd⟩⟩, fun _ => rfl⟩
  | cons it items ih =>
    intro d hd
    obtain ⟨_, r2, r3, r4⟩ := item_run d it
    obtain ⟨ap1, ap2⟩ := callbacks_append (itemEvents it) (items.flatMap itemEvents) d
    rw [List.flatMap_cons]
    cases hr : (callbacks d (itemEvents it)).2 with
    | some msg =>
      rw [ap2 (by rw [hr]; simp)]
      refine ⟨⟨0, Nat.zero_le _, ?_, fun h => ?_⟩, fun hacc => ?_⟩
      · rw [r2 (by rw [hr]; simp)]
        simp
      · rw [hr] at h
        simp at h
      · have := r4 (hacc it (List.mem_cons_self _ _))
        rw [hr] at this
        simp at this
    | none =>
      rw [ap1 hr]
      obtain ⟨hE, hc⟩ := r3 hr
      obtain ⟨⟨k, hk, hkE, hkn⟩, hacc'⟩ := ih (callbacks d (itemEvents it)).1 (hc hd)
      refine ⟨⟨k + 1, by simp only [List.length_cons]; omega, ?_, fun h => ?_⟩, fun hacc => ?_⟩
      · rw [hkE, hE, List.take_succ_cons, List.filterMap_cons]
        cases hik : itemKey it with
        | none => simp
        | some x => simp
      · obtain ⟨h1, h2⟩ := hkn h
        exact ⟨by simp only [List.length_cons]; omega, h2⟩
      · exact hacc' (fun it' h' => hacc it' (List.mem_cons_of_mem _ h'))

/-- C28. Take any sequence of items, each a string key, a container with its
elements, or a callback outside the keys, and run its callbacks on a new decoder.
`Entries` then holds, in the order of the items, exactly one record with the key
and type of each item that has a key, up to the item at which a callback panics, if
any; when no callback panics these are all the items and no record is open at the
end, and no callback panics when every encoding is accepted. A callback that returns
appends exactly one entry and leaves no record open if it is an `End...` callback,
and appends nothing if it is a `Start...` or an element callback. -/
theorem one_record_per_key (m : MemProfiler) (items : List Item) :
    (∃ k, k ≤ items.length ∧
      (callbacks (NewDecoder m) (items.flatMap itemEvents)).1.Entries.map sentKey
        = ((items.take k).filterMap itemKey).map some ∧
      ((callbacks (NewDecoder m) (items.flatMap itemEvents)).2 = none →
        k = items.length ∧
        (callbacks (NewDecoder m) (items.flatMap itemEvents)).1.currentEntry = none)) ∧
    ((∀ it ∈ items, itemAccepted it = true) →
      (callbacks (NewDecoder m) (items.flatMap itemEvents)).2 = none ∧
      (callbacks (NewDecoder m) (items.flatMap itemEvents)).1.Entries.map sentKey
        = (items.filterMap itemKey).map some ∧
      (callbacks (NewDecoder m) (items.flatMap itemEvents)).1.currentEntry = none) ∧
    (∀ (d d' : Decoder) (ev : Event), callback d ev = Except.ok d' →
      (isEnd ev = true → d'.currentEntry = none ∧ ∃ x, d'.Entries = d.Entries ++ [x]) ∧
      (isStart ev = true ∨ isElement ev = true → d'.Entries = d.Entries)) := by
  obtain ⟨⟨k, hk, hkE, hkn⟩, hacc⟩ := items_run items (NewDecoder m) rfl
  have hE0 : (NewDecoder m).Entries.map sentKey = [] := rfl
  rw [hE0, List.nil_append] at hkE
  refine ⟨⟨k, hk, hkE, hkn⟩, fun h => ?_, fun d d' ev hcb => ⟨fun hend => ?_, fun hse => ?_⟩⟩
  · have hnone := hacc h
    obtain ⟨h1, h2⟩ := hkn hnone
    refine ⟨hnone, ?_, h2⟩
    rw [hkE, h1, List.take_length]
  · obtain ⟨_, hc, _, _, hcase⟩ := end_shape d d' ev hend hcb
    refine ⟨hc, ?_⟩
    rcases hcase with ⟨_, hE⟩ | ⟨e0, e, _, hE, _⟩
    · exact ⟨none, hE⟩
    · exact ⟨some e, hE⟩
  · rcases hse with hs | he
    · exact (start_shape d d' ev hs hcb).1
    · exact (element_shape d d' ev he hcb).1

/-- C28 at a concrete input: a string, a hash, a list and a stream after the version
and database callbacks give four records, in this order. -/
theorem one_record_per_key_witness :
    (∀ it ∈ sampleItems, itemAccepted it = true) ∧
    (callbacks (NewDecoder sampleProfiler) (sampleItems.flatMap itemEvents)).1.Entries.map sentKey
      = [some ("s", "string"), some ("h", "hash"), some ("l", "list"), some ("x", "stream")] ∧
    ((callbacks (NewDecoder sampleProfiler) (sampleItems.flatMap itemEvents)).2 = none ∧
      (callbacks (NewDecoder sampleProfiler) (sampleItems.flatMap itemEvents)).1.Entries.map
          sentKey
        = (sampleItems.filterMap itemKey).map some ∧
      (callbacks (NewDecoder sampleProfiler)
        (sampleItems.flatMap itemEvents)).1.currentEntry = none) ∧
    (isEnd (Event.endHash "k") = true ∧
      callback sampleHashOpen (Event.endHash "k") = Except.ok (sendEntry sampleHashOpen) ∧
      (sendEntry sampleHashOpen).currentEntry = none) :=
  ⟨by decide, by decide,
    (one_record_per_key sampleProfiler sampleItems).2.1 (by decide),
    rfl, rfl,
    (((one_record_per_key sampleProfiler sampleItems).2.2 sampleHashOpen
      (sendEntry sampleHashOpen) (Event.endHash "k") rfl).1 rfl).1⟩

/-! ### C29: containers whose size is captured at `Start...` -/

/-- `Hset`, `Sadd` and `Zadd` on a record whose encoding is neither `hashtable` nor
`skiplist` return and leave `Bytes` and the key of the open record as they are -/
theorem compact_step (d : Decoder) (ev : Event) (e0 : Entry) (i : Info)
    (hev : (∃ k f v, ev = Event.hset k f v) ∨ (∃ k m, ev = Event.sadd k m) ∨
      (∃ k m, ev = Event.zadd k m))
    (hce : d.currentEntry = some e0) (hci : d.currentInfo = some i)
    (h1 : i.Encoding ≠ "hashtable") (h2 : i.Encoding ≠ "skiplist") :
    ∃ e1, callback d ev = Except.ok { d with currentEntry := some e1 } ∧
      e1.Bytes = e0.Bytes ∧ e1.Key = e0.Key := by
  rcases hev with ⟨k, f, v, rfl⟩ | ⟨k, m, rfl⟩ | ⟨k, m, rfl⟩
  · refine ⟨updateLargest e0 (add64 (d.m.ElemLen f) (d.m.ElemLen v)) f, ?_,
      updateLargest_bytes _ _ _, updateLargest_key _ _ _⟩
    simp only [callback, Hset, hce, hci, if_neg h1]
  · refine ⟨updateLargest e0 (d.m.ElemLen m) m, ?_,
      updateLargest_bytes _ _ _, updateLargest_key _ _ _⟩
    simp only [callback, Sadd, hce, hci, if_neg h1]
  · refine ⟨updateLargest e0 (d.m.ElemLen m) m, ?_,
      updateLargest_bytes _ _ _, updateLargest_key _ _ _⟩
    simp only [callback, Zadd, hce, hci, if_neg h2]

theorem compact_run (evs : List Event) (last : Event) (i : Info)
    (h1 : i.Encoding ≠ "hashtable") (h2 : i.Encoding ≠ "skiplist")
    (hlast : ∀ d : Decoder, callback d last = Except.ok (sendEntry d)) :
    ∀ (d : Decoder) (e0 : Entry),
      (∀ ev ∈ evs, (∃ k f v, ev = Event.hset k f v) ∨ (∃ k m, ev = Event.sadd k m) ∨
        (∃ k m, ev = Event.zadd k m)) →
      d.currentEntry = some e0 → d.currentInfo = some i →
      ∃ d1 e1, callbacks d (evs ++ [last]) = (d1, none) ∧
        d1.Entries = d.Entries ++ [some e1] ∧ e1.Bytes = e0.Bytes ∧ e1.Key = e0.Key := by
  induction evs with
  | nil =>
    intro d e0 _ hce _
    refine ⟨sendEntry d, e0, ?_, by simp [sendEntry, hce], rfl, rfl⟩
    simp only [List.nil_append]
    rw [callbacks_ok d _ last [] (hlast d)]
    rfl
  | cons ev evs ih =>
    intro d e0 hev hce hci
    obtain ⟨e1, hcb, hb, hk⟩ := compact_step d ev e0 i (hev ev (List.mem_cons_self _ _)) hce hci
      h1 h2
    obtain ⟨d2, e2, g1, g2, g3, g4⟩ := ih { d with currentEntry := some e1 } e1
      (fun ev' h' => hev ev' (List.mem_cons_of_mem _ h')) rfl hci
    refine ⟨d2, e2, ?_, g2, g3.trans hb, g4.trans hk⟩
    simp only [List.cons_append]
    rw [callbacks_ok d _ ev _ hcb]
    exact g1

/-- C29. A hash with encoding `listpack`, `ziplist` or `zipmap`, a set with `intset`
or `listpack` and a sorted set with `ziplist` or `listpack`, each with a positive
`SizeOfValue`, run without a panic and send one record whose `Bytes` is
`TopLevelObjOverhead(key, expiry) + SizeOfValue` (modulo 2^64), for every list of
elements and every decoder state, so for every format version. -/
theorem compact_container_bytes (d : Decoder) (key : String) (n expiry : Int) (i : Info)
    (pairs : List (String × String)) (members : List String) (hsz : i.SizeOfValue > 0) :
    (i.Encoding ∈ ["listpack", "ziplist", "zipmap"] →
      ∃ d1 e, callbacks d (hashEvents key n expiry i pairs) = (d1, none) ∧
        d1.Entries = d.Entries ++ [some e] ∧ e.Key = key ∧
        e.Bytes = add64 (d.m.TopLevelObjOverhead key expiry) (toUint64 i.SizeOfValue)) ∧
    (i.Encoding ∈ ["intset", "listpack"] →
      ∃ d1 e, callbacks d (setEvents key n expiry i members) = (d1, none) ∧
        d1.Entries = d.Entries ++ [some e] ∧ e.Key = key ∧
        e.Bytes = add64 (d.m.TopLevelObjOverhead key expiry) (toUint64 i.SizeOfValue)) ∧
    (i.Encoding ∈ ["ziplist", "listpack"] →
      ∃ d1 e, callbacks d (zsetEvents key n expiry i members) = (d1, none) ∧
        d1.Entries = d.Entries ++ [some e] ∧ e.Key = key ∧
        e.Bytes = add64 (d.m.TopLevelObjOverhead key expiry) (toUint64 i.SizeOfValue)) := by
  refine ⟨fun h => ?_, fun h => ?_, fun h => ?_⟩
  · have hne1 : i.Encoding ≠ "hashtable" := by
      intro e; rw [e] at h; revert h; decide
    have hne2 : i.Encoding ≠ "skiplist" := by
      intro e; rw [e] at h; revert h; decide
    have hor : i.Encoding = "listpack" ∨ i.Encoding = "ziplist" ∨ i.Encoding = "zipmap" := by
      simpa using h
    have hs : callback d (Event.startHash key n expiry (some i))
        = Except.ok { d with
            currentInfo := some i
            currentEntry := some
              { Key := key
                Bytes := add64 (d.m.TopLevelObjOverhead key expiry) (toUint64 i.SizeOfValue)
                Typ := "hash", Encoding := i.Encoding, NumOfElem := toUint64 n
                LenOfLargestElem := 0, FieldOfLargestElem := "", Expiration := expiry
                LruIdle := i.Idle, LfuFreq := i.Freq, Db := d.Db } } := by
      simp only [callback, StartHash, if_neg hne1, if_pos hor, if_pos hsz]
    obtain ⟨d0, e0, hs0, hE0, hc0, hi0, hb0, hk0⟩ : ∃ d0 e0,
        callback d (Event.startHash key n expiry (some i)) = Except.ok d0 ∧ d0.Entries = d.Entries ∧
        d0.currentEntry = some e0 ∧ d0.currentInfo = some i ∧
        e0.Bytes = add64 (d.m.TopLevelObjOverhead key expiry) (toUint64 i.SizeOfValue) ∧
        e0.Key = key := ⟨_, _, hs, rfl, rfl, rfl, rfl, rfl⟩
    obtain ⟨d1, e1, g1, g2, g3, g4⟩ := compact_run (pairs.map (fun fv => Event.hset key fv.1 fv.2))
      (Event.endHash key) i hne1 hne2 (fun _ => rfl) d0 e0
      (by intro ev hev; simp only [List.mem_map] at hev; obtain ⟨a, _, rfl⟩ := hev
          exact Or.inl ⟨_, _, _, rfl⟩) hc0 hi0
    refine ⟨d1, e1, ?_, by rw [g2, hE0], g4.trans hk0, g3.trans hb0⟩
    show callbacks d (Event.startHash key n expiry (some i)
      :: (pairs.map (fun fv => Event.hset key fv.1 fv.2) ++ [Event.endHash key])) = _
    rw [callbacks_ok d _ _ _ hs0]
    exact g1
  · have hne1 : i.Encoding ≠ "hashtable" := by
      intro e; rw [e] at h; revert h; decide
    have hne2 : i.Encoding ≠ "skiplist" := by
      intro e; rw [e] at h; revert h; decide
    have hor : i.Encoding = "intset" ∨ i.Encoding = "listpack" := by
      simpa using h
    have hs : callback d (Event.startSet key n expiry (some i))
        = Except.ok { d with
            currentInfo := some i
            currentEntry := some
              { Key := key
                Bytes := add64 (d.m.TopLevelObjOverhead key expiry) (toUint64 i.SizeOfValue)
                Typ := "set", Encoding := i.Encoding, NumOfElem := toUint64 n
                LenOfLargestElem := 0, FieldOfLargestElem := "", Expiration := expiry
                LruIdle := i.Idle, LfuFreq := i.Freq, Db := d.Db } } := by
      simp only [callback, StartSet]
      rcases hor with ho | ho
      · rw [if_pos ⟨ho, hsz⟩]
      · rw [if_neg (by rw [ho]; simp), if_neg hne1, if_pos ⟨ho, hsz⟩]
    obtain ⟨d0, e0, hs0, hE0, hc0, hi0, hb0, hk0⟩ : ∃ d0 e0,
        callback d (Event.startSet key n expiry (some i)) = Except.ok d0 ∧ d0.Entries = d.Entries ∧
        d0.currentEntry = some e0 ∧ d0.currentInfo = some i ∧
        e0.Bytes = add64 (d.m.TopLevelObjOverhead key expiry) (toUint64 i.SizeOfValue) ∧
        e0.Key = key := ⟨_, _, hs, rfl, rfl, rfl, rfl, rfl⟩
    obtain ⟨d1, e1, g1, g2, g3, g4⟩ := compact_run (members.map (fun m => Event.sadd key m))
      (Event.endSet key) i hne1 hne2 (fun _ => rfl) d0 e0
      (by intro ev hev; simp only [List.mem_map] at hev; obtain ⟨a, _, rfl⟩ := hev
          exact Or.inr (Or.inl ⟨_, _, rfl⟩)) hc0 hi0
    refine ⟨d1, e1, ?_, by rw [g2, hE0], g4.trans hk0, g3.trans hb0⟩
    show callbacks d (Event.startSet key n expiry (some i)
      :: (members.map (fun m => Event.sadd key m) ++ [Event.endSet key])) = _
    rw [callbacks_ok d _ _ _ hs0]
    exact g1
  · have hne1 : i.Encoding ≠ "hashtable" := by
      intro e; rw [e] at h; revert h; decide
    have hne2 : i.Encoding ≠ "skiplist" := by
      intro e; rw [e] at h; revert h; decide
    have hor : i.Encoding = "ziplist" ∨ i.Encoding = "listpack" := by
      simpa using h
    have hs : callback d (Event.startZSet key n expiry (some i))
        = Except.ok { d with
            currentInfo := some i
            currentEntry := some
              { Key := key
                Bytes := add64 (d.m.TopLevelObjOverhead key expiry) (toUint64 i.SizeOfValue)
                Typ := "sortedset", Encoding := i.Encoding, NumOfElem := toUint64 n
                LenOfLargestElem := 0, FieldOfLargestElem := "", Expiration := expiry
                LruIdle := i.Idle, LfuFreq := i.Freq, Db := d.Db } } := by
      simp only [callback, StartZSet]
      rcases hor with ho | ho
      · rw [if_pos ⟨ho, hsz⟩]
      · rw [if_neg (by rw [ho]; simp), if_neg hne2, if_pos ⟨ho, hsz⟩]
    obtain ⟨d0, e0, hs0, hE0, hc0, hi0, hb0, hk0⟩ : ∃ d0 e0,
        callback d (Event.startZSet key n expiry (some i)) = Except.ok d0 ∧ d0.Entries = d.Entries ∧
        d0.currentEntry = some e0 ∧ d0.currentInfo = some i ∧
        e0.Bytes = add64 (d.m.TopLevelObjOverhead key expiry) (toUint64 i.SizeOfValue) ∧
        e0.Key = key := ⟨_, _, hs, rfl, rfl, rfl, rfl, rfl⟩
    obtain ⟨d1, e1, g1, g2, g3, g4⟩ := compact_run (members.map (fun m => Event.zadd key m))
      (Event.endZSet key) i hne1 hne2 (fun _ => rfl) d0 e0
      (by intro ev hev; simp only [List.mem_map] at hev; obtain ⟨a, _, rfl⟩ := hev
          exact Or.inr (Or.inr ⟨_, _, rfl⟩)) hc0 hi0
    refine ⟨d1, e1, ?_, by rw [g2, hE0], g4.trans hk0, g3.trans hb0⟩
    show callbacks d (Event.startZSet key n expiry (some i)
      :: (members.map (fun m => Event.zadd key m) ++ [Event.endZSet key])) = _
    rw [callbacks_ok d _ _ _ hs0]
    exact g1

/-- C29 at a concrete input: a `listpack` hash, set and sorted set of 120 bytes,
with two elements at version 9, are sent with 57 + 120 bytes. -/
theorem compact_container_bytes_witness :
    sampleCompactInfo.SizeOfValue > 0 ∧
    (Records (callbacks (StartRDB sampleDecoder 9)
        (hashEvents "k" 2 0 sampleCompactInfo [("f", "v"), ("g", "w")])).1).map Entry.Bytes
      = [177] ∧
    (sampleCompactInfo.Encoding ∈ ["listpack", "ziplist", "zipmap"] ∧
      ∃ d1 e, callbacks (StartRDB sampleDecoder 9)
          (hashEvents "k" 2 0 sampleCompactInfo [("f", "v"), ("g", "w")]) = (d1, none) ∧
        d1.Entries = (StartRDB sampleDecoder 9).Entries ++ [some e] ∧ e.Key = "k" ∧
        e.Bytes = add64 ((StartRDB sampleDecoder 9).m.TopLevelObjOverhead "k" 0)
          (toUint64 sampleCompactInfo.SizeOfValue)) ∧
    (sampleCompactInfo.Encoding ∈ ["intset", "listpack"] ∧
      ∃ d1 e, callbacks (StartRDB sampleDecoder 9)
          (setEvents "k" 2 0 sampleCompactInfo ["m", "n"]) = (d1, none) ∧
        d1.Entries = (StartRDB sampleDecoder 9).Entries ++ [some e] ∧ e.Key = "k" ∧
        e.Bytes = add64 ((StartRDB sampleDecoder 9).m.TopLevelObjOverhead "k" 0)
          (toUint64 sampleCompactInfo.SizeOfValue)) ∧
    (sampleCompactInfo.Encoding ∈ ["ziplist", "listpack"] ∧
      ∃ d1 e, callbacks (StartRDB sampleDecoder 9)
          (zsetEvents "k" 2 0 sampleCompactInfo ["m", "n"]) = (d1, none) ∧
        d1.Entries = (StartRDB sampleDecoder 9).Entries ++ [some e] ∧ e.Key = "k" ∧
        e.Bytes = add64 ((StartRDB sampleDecoder 9).m.TopLevelObjOverhead "k" 0)
          (toUint64 sampleCompactInfo.SizeOfValue)) :=
  ⟨by decide, by decide,
    ⟨by decide,
      (compact_container_bytes (StartRDB sampleDecoder 9) "k" 2 0 sampleCompactInfo
        [("f", "v"), ("g", "w")] ["m", "n"] (by decide)).1 (by decide)⟩,
    ⟨by decide,
      (compact_container_bytes (StartRDB sampleDecoder 9) "k" 2 0 sampleCompactInfo
        [("f", "v"), ("g", "w")] ["m", "n"] (by decide)).2.1 (by decide)⟩,
    ⟨by decide,
      (compact_container_bytes (StartRDB sampleDecoder 9) "k" 2 0 sampleCompactInfo
        [("f", "v"), ("g", "w")] ["m", "n"] (by decide)).2.2 (by decide)⟩⟩

/-! ### C31, C35, C36: `Set` and the `Start...` callbacks of sets, sorted sets and hashes -/

/-- C31. `Set` with a present info never fails and sends exactly one record, at
once: it appends one entry to `Entries` whose type is "string", whose key,
expiration, database and encoding are the key, the expiry, the current database
index and `info.Encoding`, and whose `Bytes` is
`TopLevelObjOverhead(key, expiry) + SizeofString(value)` modulo 2^64; the open
record, the current info and every other field of the decoder are unchanged. -/
theorem set_sends_one_string_record (d : Decoder) (key value : String) (expiry : Int)
    (i : Info) :
    ∃ e : Entry,
      Set d key value expiry (some i) = Except.ok { d with Entries := d.Entries ++ [some e] } ∧
      callback d (Event.set key value expiry (some i))
        = Except.ok { d with Entries := d.Entries ++ [some e] } ∧
      ({ d with Entries := d.Entries ++ [some e] } : Decoder).currentEntry = d.currentEntry ∧
      ({ d with Entries := d.Entries ++ [some e] } : Decoder).currentInfo = d.currentInfo ∧
      e.Typ = "string" ∧ e.Key = key ∧ e.Expiration = expiry ∧ e.Db = d.Db ∧
      e.Encoding = i.Encoding ∧
      e.Bytes = (d.m.TopLevelObjOverhead key expiry + d.m.SizeofString value)
        % 18446744073709551616 ∧
      e.NumOfElem = d.m.ElemLen value ∧ e.LruIdle = i.Idle ∧ e.LfuFreq = i.Freq ∧
      e.LenOfLargestElem = 0 ∧ e.FieldOfLargestElem = "" :=
  ⟨_, rfl, rfl, rfl, rfl, rfl, rfl, rfl, rfl, rfl, rfl, rfl, rfl, rfl, rfl, rfl⟩

theorem startSet_opened (d d' : Decoder) (key : String) (n expiry : Int) (i : Info)
    (h : StartSet d key n expiry (some i) = Except.ok d') :
    ∃ e, d'.currentEntry = some e ∧ d'.currentInfo = some i ∧ d'.Entries = d.Entries ∧
      e.Typ = "set" ∧ e.Key = key ∧ e.NumOfElem = toUint64 n := by
  simp only [StartSet] at h
  split at h
  · simp at h
  · simp only [Except.ok.injEq] at h
    subst h
    exact ⟨_, rfl, rfl, rfl, rfl, rfl, rfl⟩

theorem startZSet_opened (d d' : Decoder) (key : String) (n expiry : Int) (i : Info)
    (h : StartZSet d key n expiry (some i) = Except.ok d') :
    ∃ e, d'.currentEntry = some e ∧ d'.currentInfo = some i ∧ d'.Entries = d.Entries ∧
      e.Typ = "sortedset" ∧ e.Key = key ∧ e.NumOfElem = toUint64 n := by
  simp only [StartZSet] at h
  split at h
  · simp at h
  · simp only [Except.ok.injEq] at h
    subst h
    exact ⟨_, rfl, rfl, rfl, rfl, rfl, rfl⟩

theorem toUint64_of_range (n : Int) (h0 : 0 ≤ n) (h1 : n < 18446744073709551616) :
    (toUint64 n : Int) = n := by
  unfold toUint64
  rw [Int.emod_eq_of_lt h0 h1]
  exact Int.toNat_of_nonneg h0

theorem except_ok_or_error (r : Except String Decoder) :
    (∃ d', r = Except.ok d') ↔ ¬ ∃ msg, r = Except.error msg := by
  cases r with
  | ok d' => simp
  | error msg => simp

/-- C35. With a present info, `StartSet` fails exactly when the encoding is not one
of intset, hashtable, listpack, or is intset or listpack with `SizeOfValue <= 0`;
`StartZSet` fails exactly when the encoding is not one of ziplist, skiplist,
listpack, or is ziplist or listpack with `SizeOfValue <= 0`.  Otherwise they
return, and the decoder they return has an open record of type "set" (resp.
"sortedset") for the key whose `NumOfElem` is the declared cardinality (as a
`uint64`: the cardinality itself when it is in range). -/
theorem startSet_startZSet_fail_iff (d : Decoder) (key : String) (n expiry : Int) (i : Info) :
    ((∃ msg, StartSet d key n expiry (some i) = Except.error msg) ↔
      (i.Encoding ∉ ["intset", "hashtable", "listpack"] ∨
        ((i.Encoding = "intset" ∨ i.Encoding = "listpack") ∧ i.SizeOfValue ≤ 0))) ∧
    ((∃ msg, StartZSet d key n expiry (some i) = Except.error msg) ↔
      (i.Encoding ∉ ["ziplist", "skiplist", "listpack"] ∨
        ((i.Encoding = "ziplist" ∨ i.Encoding = "listpack") ∧ i.SizeOfValue ≤ 0))) ∧
    ((¬ ∃ msg, StartSet d key n expiry (some i) = Except.error msg) →
      ∃ d' e, StartSet d key n expiry (some i) = Except.ok d' ∧
        d'.currentEntry = some e ∧ e.Typ = "set" ∧ e.Key = key ∧ e.NumOfElem = toUint64 n ∧
        (0 ≤ n → n < 18446744073709551616 → (e.NumOfElem : Int) = n)) ∧
    ((¬ ∃ msg, StartZSet d key n expiry (some i) = Except.error msg) →
      ∃ d' e, StartZSet d key n expiry (some i) = Except.ok d' ∧
        d'.currentEntry = some e ∧ e.Typ = "sortedset" ∧ e.Key = key ∧
        e.NumOfElem = toUint64 n ∧
        (0 ≤ n → n < 18446744073709551616 → (e.NumOfElem : Int) = n)) := by
  refine ⟨?_, ?_, ?_, ?_⟩
  · constructor
    · rintro ⟨msg, h⟩
      obtain ⟨⟨h1, h2, h3⟩, _⟩ := (StartSet_error_iff d key n expiry i msg).1 h
      simp only [List.mem_cons, List.mem_singleton, List.not_mem_nil, or_false, not_or]
      by_cases ha : i.Encoding = "intset"
      · exact Or.inr ⟨Or.inl ha, by
          by_contra hc
          exact h1 ⟨ha, by omega⟩⟩
      · by_cases hb : i.Encoding = "listpack"
        · exact Or.inr ⟨Or.inr hb, by
            by_contra hc
            exact h3 ⟨hb, by omega⟩⟩
        · exact Or.inl ⟨ha, h2, hb⟩
    · intro h
      refine ⟨_, (StartSet_error_iff d key n expiry i _).2 ⟨?_, rfl⟩⟩
      simp only [List.mem_cons, List.mem_singleton, List.not_mem_nil, or_false, not_or] at h
      rcases h with ⟨ha, hb, hc⟩ | ⟨ha | ha, hs⟩
      · exact ⟨fun hh => ha hh.1, hb, fun hh => hc hh.1⟩
      · refine ⟨fun hh => ?_, ?_, fun hh => ?_⟩
        · have := hh.2
          omega
        · rw [ha]; decide
        · have := hh.2
          omega
      · refine ⟨fun hh => ?_, ?_, fun hh => ?_⟩
        · have := hh.2
          omega
        · rw [ha]; decide
        · have := hh.2
          omega
  · constructor
    · rintro ⟨msg, h⟩
      obtain ⟨⟨h1, h2, h3⟩, _⟩ := (StartZSet_error_iff d key n expiry i msg).1 h
      simp only [List.mem_cons, List.mem_singleton, List.not_mem_nil, or_false, not_or]
      by_cases ha : i.Encoding = "ziplist"
      · exact Or.inr ⟨Or.inl ha, by
          by_contra hc
          exact h1 ⟨ha, by omega⟩⟩
      · by_cases hb : i.Encoding = "listpack"
        · exact Or.inr ⟨Or.inr hb, by
            by_contra hc
            exact h3 ⟨hb, by omega⟩⟩
        · exact Or.inl ⟨ha, h2, hb⟩
    · intro h
      refine ⟨_, (StartZSet_error_iff d key n expiry i _).2 ⟨?_, rfl⟩⟩
      simp only [List.mem_cons, List.mem_singleton, List.not_mem_nil, or_false, not_or] at h
      rcases h with ⟨ha, hb, hc⟩ | ⟨ha | ha, hs⟩
      · exact ⟨fun hh => ha hh.1, hb, fun hh => hc hh.1⟩
      · refine ⟨fun hh => ?_, ?_, fun hh => ?_⟩
        · have := hh.2
          omega
        · rw [ha]; decide
        · have := hh.2
          omega
      · refine ⟨fun hh => ?_, ?_, fun hh => ?_⟩
        · have := hh.2
          omega
        · rw [ha]; decide
        · have := hh.2
          omega
  · intro h
    obtain ⟨d', hd'⟩ := (except_ok_or_error _).2 h
    obtain ⟨e, he, _, _, ht, hk, hn⟩ := startSet_opened d d' key n expiry i hd'
    refine ⟨d', e, hd', he, ht, hk, hn, fun h0 h1 => ?_⟩
    rw [hn]
    exact toUint64_of_range n h0 h1
  · intro h
    obtain ⟨d', hd'⟩ := (except_ok_or_error _).2 h
    obtain ⟨e, he, _, _, ht, hk, hn⟩ := startZSet_opened d d' key n expiry i hd'
    refine ⟨d', e, hd', he, ht, hk, hn, fun h0 h1 => ?_⟩
    rw [hn]
    exact toUint64_of_range n h0 h1

theorem startSet_startZSet_fail_iff_witness :
    (¬ ∃ msg, StartSet sampleDecoder "s" 3 0 (some sampleHashInfo) = Except.error msg) ∧
    ∃ d' e, StartSet sampleDecoder "s" 3 0 (some sampleHashInfo) = Except.ok d' ∧
      d'.currentEntry = some e ∧ e.Typ = "set" ∧ e.Key = "s" ∧ e.NumOfElem = toUint64 3 ∧
      ((0 : Int) ≤ 3 → (3 : Int) < 18446744073709551616 → (e.NumOfElem : Int) = 3) :=
  ⟨fun h => h.elim (fun msg hm => by simp [StartSet, sampleHashInfo] at hm),
    (startSet_startZSet_fail_iff sampleDecoder "s" 3 0 sampleHashInfo).2.2.1
      (fun h => h.elim (fun msg hm => by simp [StartSet, sampleHashInfo] at hm))⟩

/-- C36, the code at the failing input: `StartHash` for a `listpack` hash whose
`SizeOfValue` is 0 does not fail; it opens a record whose `Bytes` is the top-level
overhead alone (57 for the key "k" under the sample profiler), and the same holds
for `ziplist` and `zipmap` and for a negative `SizeOfValue`.  `StartSet` and
`StartZSet` with the same info fail with "unexpected size(0) or encoding:listpack",
the message that the unreachable-for-size-0 panic of `StartHash` carries too. -/
theorem startHash_compact_size_zero_opens :
    StartHash sampleDecoder "k" 2 0 (some { sampleHashInfo with Encoding := "listpack" })
      = Except.ok { sampleDecoder with
          currentInfo := some { sampleHashInfo with Encoding := "listpack" }
          currentEntry := some
            { Key := "k", Bytes := 57, Typ := "hash", Encoding := "listpack", NumOfElem := 2,
              LenOfLargestElem := 0, FieldOfLargestElem := "", Expiration := 0, LruIdle := 0,
              LfuFreq := 0, Db := 0 } } ∧
    sampleDecoder.m.TopLevelObjOverhead "k" 0 = 57 ∧
    (∀ enc ∈ ["listpack", "ziplist", "zipmap"], ∀ size ∈ [(0 : Int), -1],
      (sampleOpened (StartHash sampleDecoder "k" 2 0
        (some { sampleHashInfo with Encoding := enc, SizeOfValue := size }))).currentEntry.map
          Entry.Bytes = some 57) ∧
    StartSet sampleDecoder "k" 2 0 (some { sampleHashInfo with Encoding := "listpack" })
      = Except.error "unexpected size(0) or encoding:listpack" ∧
    StartZSet sampleDecoder "k" 2 0 (some { sampleHashInfo with Encoding := "listpack" })
      = Except.error "unexpected size(0) or encoding:listpack" ∧
    StartZSet sampleDecoder "k" 2 0 (some { sampleHashInfo with Encoding := "ziplist" })
      = Except.error "unexpected size(0) or encoding:ziplist" ∧
    StartHash sampleDecoder "k" 2 0 (some { sampleHashInfo with Encoding := "intset" })
      = Except.error "unexpected size(0) or encoding:intset" := by
  refine ⟨by rfl, by rfl, by decide, by rfl, by rfl, by rfl, by rfl⟩

/-! ### C34: the key encoding of the DTO maps -/

theorem dtoKey_injective (t1 k1 t2 k2 : String) (h1 : '|' ∉ t1.toList) (h2 : '|' ∉ t2.toList)
    (h : t1 ++ "|" ++ k1 = t2 ++ "|" ++ k2) : t1 = t2 ∧ k1 = k2 := by
  have e1 := parseTypeKey_encode t1 k1 h1
  have e2 := parseTypeKey_encode t2 k2 h2
  rw [h, e2] at e1
  injection e1 with a b
  exact ⟨a.symm, b.symm⟩

theorem exportMap_eq_map {ν : Type} (m : GoMap typeKey ν) (hnd : (mapKeys m).Nodup)
    (hgood : ∀ k ∈ mapKeys m, '|' ∉ k.Typ.toList) :
    exportMap m = m.map (fun kv => (kv.1.Typ ++ "|" ++ kv.1.Key, kv.2)) ∧
    ((mapKeys m).map (fun k => k.Typ ++ "|" ++ k.Key)).Nodup := by
  have hinj : ∀ x ∈ mapKeys m, ∀ y ∈ mapKeys m,
      x.Typ ++ "|" ++ x.Key = y.Typ ++ "|" ++ y.Key → x = y := by
    intro x hx y hy hxy
    obtain ⟨a, b⟩ := dtoKey_injective x.Typ x.Key y.Typ y.Key (hgood x hx) (hgood y hy) hxy
    cases x; cases y; simp only at a b; subst a; subst b; rfl
  have hnd2 := List.Nodup.map_on hinj hnd
  refine ⟨?_, hnd2⟩
  unfold exportMap
  rw [exportMap_fold m [] (by simpa [mapKeys] using hnd2)]
  rfl

theorem lookup_map_dtoKey {ν : Type} (m : GoMap typeKey ν)
    (hgood : ∀ k ∈ mapKeys m, '|' ∉ k.Typ.toList) (k : typeKey) (hk : '|' ∉ k.Typ.toList) :
    (m.map (fun kv => (kv.1.Typ ++ "|" ++ kv.1.Key, kv.2))).lookup (k.Typ ++ "|" ++ k.Key)
      = m.lookup k := by
  induction m with
  | nil => rfl
  | cons p m ih =>
    obtain ⟨k', v⟩ := p
    have hk' : '|' ∉ k'.Typ.toList := hgood k' (by simp [mapKeys])
    have ih' := ih (fun x hx => hgood x (by
      simp only [mapKeys, List.map_cons, List.mem_cons]
      exact Or.inr hx))
    simp only [List.map_cons]
    by_cases e : k = k'
    · subst e
      simp [List.lookup]
    · have hne : ¬ (k.Typ ++ "|" ++ k.Key = k'.Typ ++ "|" ++ k'.Key) := by
        intro h
        obtain ⟨a, b⟩ := dtoKey_injective _ _ _ _ hk hk' h
        apply e
        cases k; cases k'; simp only at a b; subst a; subst b; rfl
      rw [List.lookup_cons, List.lookup_cons]
      have b1 : (k.Typ ++ "|" ++ k.Key == k'.Typ ++ "|" ++ k'.Key) = false := by
        simpa using hne
      have b2 : (k == k') = false := by simpa using e
      rw [b1, b2]
      exact ih'

/-- C34. `parseTypeKey` inverts the key encoding of the DTO: for every type `t`
without the character `|` and every key `k` (which may contain `|`),
`parseTypeKey(t + "|" + k) = (t, k)`; the encoding is injective on such pairs; and
so the export loops of `ToDTO` never merge two entries: a map with distinct keys
whose types hold no `|` is exported to a map with as many entries, with distinct
string keys, in which the string of every key holds the value of that key. -/
theorem parseTypeKey_inverts_dtoKey {ν : Type} :
    (∀ t k : String, '|' ∉ t.toList → parseTypeKey (t ++ "|" ++ k) = (t, k)) ∧
    (∀ t1 k1 t2 k2 : String, '|' ∉ t1.toList → '|' ∉ t2.toList →
      t1 ++ "|" ++ k1 = t2 ++ "|" ++ k2 → t1 = t2 ∧ k1 = k2) ∧
    (∀ m : GoMap typeKey ν, (mapKeys m).Nodup → (∀ k ∈ mapKeys m, '|' ∉ k.Typ.toList) →
      (exportMap m).length = m.length ∧ (mapKeys (exportMap m)).Nodup ∧
      mapKeys (exportMap m) = (mapKeys m).map (fun k => k.Typ ++ "|" ++ k.Key) ∧
      (∀ k ∈ mapKeys m, (exportMap m).lookup (k.Typ ++ "|" ++ k.Key) = m.lookup k) ∧
      restoreMap (exportMap m) [] = m) ∧
    (∀ c : Counter,
      (ToDTO c).LengthLevelBytes = exportMap c.lengthLevelBytes ∧
      (ToDTO c).LengthLevelNum = exportMap c.lengthLevelNum ∧
      (ToDTO c).KeyPrefixBytes = exportMap c.keyPrefixBytes ∧
      (ToDTO c).KeyPrefixNum = exportMap c.keyPrefixNum ∧
      (ToDTO c).KeyPrefixDb = exportMap c.keyPrefixDb) := by
  refine ⟨parseTypeKey_encode, dtoKey_injective, fun m hnd hgood => ?_,
    fun c => ⟨rfl, rfl, rfl, rfl, rfl⟩⟩
  obtain ⟨he, hnd2⟩ := exportMap_eq_map m hnd hgood
  have hkeys : mapKeys (exportMap m) = (mapKeys m).map (fun k => k.Typ ++ "|" ++ k.Key) := by
    rw [he]
    simp [mapKeys]
  refine ⟨by rw [he, List.length_map], by rw [hkeys]; exact hnd2, hkeys, fun k hk => ?_,
    restoreMap_exportMap m hnd hgood⟩
  rw [he]
  exact lookup_map_dtoKey m hgood k (hgood k hk)

theorem parseTypeKey_inverts_dtoKey_witness :
    '|' ∉ "hash".toList ∧ parseTypeKey ("hash" ++ "|" ++ "user|42") = ("hash", "user|42") :=
  ⟨by decide, (@parseTypeKey_inverts_dtoKey Nat).1 "hash" "user|42" (by decide)⟩

/-! ### C37: which callbacks dereference an absent record or info -/

theorem append_ne_of_head (a b c : String) (x y : Char) (ha : a.toList.head? = some x)
    (hc : c.toList.head? = some y) (hxy : x ≠ y) : a ++ b ≠ c := by
  intro h
  have h1 : (a ++ b).toList.head? = some x := by
    have happ : (a ++ b).toList = a.toList ++ b.toList := by simp
    rw [happ]
    cases hl : a.toList with
    | nil => rw [hl] at ha; simp at ha
    | cons z zs => rw [hl] at ha; simpa using ha
  rw [h, hc] at h1
  exact hxy (Option.some.inj h1).symm

theorem encoding_msg_ne_nil (enc : String) :
    "unexpected size(0) or encoding:" ++ enc ≠ "nil pointer dereference" ∧
    "unknown encoding:" ++ enc ≠ "nil pointer dereference" :=
  ⟨append_ne_of_head _ _ _ 'u' 'n' rfl rfl (by decide),
    append_ne_of_head _ _ _ 'u' 'n' rfl rfl (by decide)⟩

theorem start_error_msg (d : Decoder) (st : Event) (key typ : String) (i : Info) (msg : String)
    (hst : isStart st = true) (hargs : startArgs st = some (key, typ, some i))
    (h : callback d st = Except.error msg) :
    msg = "unexpected size(0) or encoding:" ++ i.Encoding := by
  cases st <;> simp only [isStart, Bool.false_eq_true] at hst
  case startHash key' n expiry info =>
    simp only [startArgs, Option.some.injEq, Prod.mk.injEq] at hargs
    obtain ⟨_, _, rfl⟩ := hargs
    exact ((StartHash_error_iff d key' n expiry i msg).1 h).2
  case startSet key' n expiry info =>
    simp only [startArgs, Option.some.injEq, Prod.mk.injEq] at hargs
    obtain ⟨_, _, rfl⟩ := hargs
    exact ((StartSet_error_iff d key' n expiry i msg).1 h).2
  case startZSet key' n expiry info =>
    simp only [startArgs, Option.some.injEq, Prod.mk.injEq] at hargs
    obtain ⟨_, _, rfl⟩ := hargs
    exact ((StartZSet_error_iff d key' n expiry i msg).1 h).2
  case startList key' n expiry info =>
    simp only [startArgs, Option.some.injEq, Prod.mk.injEq] at hargs
    obtain ⟨_, _, rfl⟩ := hargs
    simp [callback, StartList] at h
  case startStream key' n expiry info =>
    simp only [startArgs, Option.some.injEq, Prod.mk.injEq] at hargs
    obtain ⟨_, _, rfl⟩ := hargs
    simp [callback, StartStream] at h

theorem open_error_msg (d : Decoder) (ev : Event) (e0 : Entry) (i : Info) (msg : String)
    (hev : isElement ev = true ∨ isEnd ev = true) (hce : d.currentEntry = some e0)
    (hci : d.currentInfo = some i) (h : callback d ev = Except.error msg) :
    msg = "unknown encoding:" ++ i.Encoding := by
  by_cases hch : checksListEncoding ev = true
  · cases ev with
    | rpush key value ne => exact ((Rpush_error_iff d key value ne e0 i hce hci msg).1 h).2
    | endList key => exact ((EndList_error_iff d key e0 i hce hci msg).1 h).2
    | _ => simp [checksListEncoding] at hch
  · exfalso
    rcases hev with hel | hen
    · obtain ⟨d', hd'⟩ := element_ok d ev e0 i hel hce hci (fun hc => absurd hc hch)
      rw [hd'] at h
      cases h
    · obtain ⟨d', hd'⟩ := end_ok d ev e0 i hen hce hci (fun hc => absurd hc hch)
      rw [hd'] at h
      cases h

theorem elements_msg (evs : List Event) :
    ∀ (d : Decoder) (e0 : Entry) (i : Info) (msg : String), d.currentEntry = some e0 →
      d.currentInfo = some i → (∀ ev ∈ evs, isElement ev = true) →
      (callbacks d evs).2 = some msg → msg = "unknown encoding:" ++ i.Encoding := by
  induction evs with
  | nil =>
    intro d e0 i msg _ _ _ h
    simp [callbacks] at h
  | cons ev evs ih =>
    intro d e0 i msg hce hci hel h
    have hisel := hel ev (List.mem_cons_self _ _)
    cases hcb : callback d ev with
    | error m =>
      rw [callbacks_error d ev evs m hcb] at h
      simp only [Option.some.injEq] at h
      subst h
      exact open_error_msg d ev e0 i m (Or.inl hisel) hce hci hcb
    | ok d1 =>
      rw [callbacks_ok d d1 ev evs hcb] at h
      obtain ⟨_, _, hi1, _, e0', e1, _, he1, _⟩ := element_shape d d1 ev hisel hcb
      exact ih d1 e1 i msg he1 (hi1.trans hci)
        (fun x hx => hel x (List.mem_cons_of_mem _ hx)) h

theorem container_msg (d : Decoder) (st en : Event) (elems : List Event) (key typ : String)
    (i : Info) (msg : String) (hst : isStart st = true)
    (hel : ∀ ev ∈ elems, isElement ev = true) (hen : isEnd en = true)
    (hargs : startArgs st = some (key, typ, some i))
    (h : (callbacks d (st :: (elems ++ [en]))).2 = some msg) :
    msg = "unexpected size(0) or encoding:" ++ i.Encoding ∨
      msg = "unknown encoding:" ++ i.Encoding := by
  cases hcb : callback d st with
  | error m =>
    rw [callbacks_error d st _ m hcb] at h
    simp only [Option.some.injEq] at h
    subst h
    exact Or.inl (start_error_msg d st key typ i m hst hargs hcb)
  | ok d1 =>
    rw [callbacks_ok d d1 st _ hcb] at h
    obtain ⟨_, _, _, key', typ', i', e, ha, hi1, he1, _⟩ := start_shape d d1 st hst hcb
    rw [hargs] at ha
    simp only [Option.some.injEq, Prod.mk.injEq] at ha
    obtain ⟨_, _, rfl⟩ := ha
    obtain ⟨ap1, ap2⟩ := callbacks_append elems [en] d1
    obtain ⟨_, _, f3, _, ⟨e1, f5, _⟩, _⟩ := elements_frame elems d1 e i he1 hi1 hel
    refine Or.inr ?_
    by_cases hn : (callbacks d1 elems).2 = none
    · rw [ap1 hn] at h
      cases hcb2 : callback (callbacks d1 elems).1 en with
      | error m =>
        rw [callbacks_error _ en [] m hcb2] at h
        simp only [Option.some.injEq] at h
        subst h
        exact open_error_msg _ en e1 i m (Or.inr hen) f5 f3 hcb2
      | ok d2 =>
        rw [callbacks_ok _ d2 en [] hcb2] at h
        simp [callbacks] at h
    · rw [ap2 hn] at h
      exact elements_msg elems d1 e i msg he1 hi1 hel h

theorem item_msg (d : Decoder) (it : Item) (msg : String)
    (h : (callbacks d (itemEvents it)).2 = some msg) :
    ∃ enc, msg = "unexpected size(0) or encoding:" ++ enc ∨ msg = "unknown encoding:" ++ enc := by
  have hmap : ∀ {α : Type} (f : α → Event) (l : List α), (∀ a, isElement (f a) = true) →
      ∀ ev ∈ l.map f, isElement ev = true := by
    intro α f l hf ev hev
    simp only [List.mem_map] at hev
    obtain ⟨a, _, rfl⟩ := hev
    exact hf a
  cases it with
  | startRDB ver => simp [itemEvents, callbacks, callback] at h
  | startDatabase n => simp [itemEvents, callbacks, callback] at h
  | aux key value => simp [itemEvents, callbacks, callback] at h
  | str key value expiry info => simp [itemEvents, callbacks, callback, Set] at h
  | hash key length expiry info pairs =>
    exact ⟨info.Encoding, container_msg d (Event.startHash key length expiry (some info))
      (Event.endHash key) (pairs.map (fun fv : String × String => Event.hset key fv.1 fv.2)) key "hash" info msg
      rfl (hmap _ _ (fun _ => rfl)) rfl rfl h⟩
  | set key cardinality expiry info members =>
    exact ⟨info.Encoding, container_msg d (Event.startSet key cardinality expiry (some info))
      (Event.endSet key) (members.map (fun m => Event.sadd key m)) key "set" info msg
      rfl (hmap _ _ (fun _ => rfl)) rfl rfl h⟩
  | zset key cardinality expiry info members =>
    exact ⟨info.Encoding, container_msg d (Event.startZSet key cardinality expiry (some info))
      (Event.endZSet key) (members.map (fun m => Event.zadd key m)) key "sortedset" info msg
      rfl (hmap _ _ (fun _ => rfl)) rfl rfl h⟩
  | list key length expiry info values =>
    exact ⟨info.Encoding, container_msg d (Event.startList key length expiry (some info))
      (Event.endList key) (values.map (fun v : String × Nat => Event.rpush key v.1 v.2)) key "list" info msg
      rfl (hmap _ _ (fun _ => rfl)) rfl rfl h⟩
  | stream key cardinality expiry info listpacks items lastEntryID gs =>
    exact ⟨info.Encoding, container_msg d (Event.startStream key cardinality expiry (some info))
      (Event.endStream key items lastEntryID gs)
      (listpacks.map (fun l : String × String => Event.xadd key l.1 l.2)) key "stream" info msg
      rfl (hmap _ _ (fun _ => rfl)) rfl rfl h⟩

theorem items_msg (items : List Item) :
    ∀ (d : Decoder) (msg : String),
      (callbacks d (items.flatMap itemEvents)).2 = some msg →
      ∃ enc, msg = "unexpected size(0) or encoding:" ++ enc ∨
        msg = "unknown encoding:" ++ enc := by
  induction items with
  | nil =>
    intro d msg h
    simp [callbacks] at h
  | cons it items ih =>
    intro d msg h
    obtain ⟨ap1, ap2⟩ := callbacks_append (itemEvents it) (items.flatMap itemEvents) d
    rw [List.flatMap_cons] at h
    by_cases hn : (callbacks d (itemEvents it)).2 = none
    · rw [ap1 hn] at h
      exact ih _ msg h
    · rw [ap2 hn] at h
      exact item_msg d it msg h

theorem items_accepted_run (items : List Item) :
    ∀ d : Decoder, (∀ it ∈ items, itemAccepted it = true) →
      (callbacks d (items.flatMap itemEvents)).2 = none := by
  induction items with
  | nil => intro d _; rfl
  | cons it items ih =>
    intro d hacc
    obtain ⟨ap1, _⟩ := callbacks_append (itemEvents it) (items.flatMap itemEvents) d
    have hn := (item_run d it).2.2.2 (hacc it (List.mem_cons_self _ _))
    rw [List.flatMap_cons, ap1 hn]
    exact ih _ (fun x hx => hacc x (List.mem_cons_of_mem _ hx))

theorem element_idle (d : Decoder) (ev : Event) (hel : isElement ev = true)
    (hce : d.currentEntry = none) :
    callback d ev = Except.error "nil pointer dereference" := by
  cases ev <;> simp only [isElement, Bool.false_eq_true] at hel
  case hset key field value => simp only [callback, Hset, hce]
  case sadd key member => simp only [callback, Sadd, hce]
  case zadd key member => simp only [callback, Zadd, hce]
  case rpush key value ne => simp only [callback, Rpush, hce]
  case xadd key id listpack => simp only [callback, Xadd, hce]

/-- C37, counterexample: with no record open (the decoder at the start of a file),
`EndHash`, `EndSet`, `EndZSet` and `EndStream` without consumer groups do not reach
a nil dereference: they return and send a nil pointer on `Entries`.  And `EndList`
issued right after a complete hash panics on the stale encoding, not on the nil
record. -/
theorem endHash_idle_sends_nil_pointer :
    sampleDecoder.currentEntry = none ∧ sampleDecoder.currentInfo = none ∧
    callback sampleDecoder (Event.endHash "k")
      = Except.ok { sampleDecoder with Entries := [none] } ∧
    callback sampleDecoder (Event.endSet "k")
      = Except.ok { sampleDecoder with Entries := [none] } ∧
    callback sampleDecoder (Event.endZSet "k")
      = Except.ok { sampleDecoder with Entries := [none] } ∧
    callback sampleDecoder (Event.endStream "k" 0 "0-0" [])
      = Except.ok { sampleDecoder with Entries := [none] } ∧
    (callbacks sampleDecoder (hashEvents "h" 1 0 sampleHashInfo [("f", "v")])).1.currentEntry
      = none ∧
    (callbacks sampleDecoder (hashEvents "h" 1 0 sampleHashInfo [("f", "v")])).2 = none ∧
    callback (callbacks sampleDecoder (hashEvents "h" 1 0 sampleHashInfo [("f", "v")])).1
        (Event.endList "k")
      = Except.error "unknown encoding:hashtable" := by
  refine ⟨rfl, rfl, rfl, rfl, rfl, rfl, by rfl, by rfl, by rfl⟩

/-- C37, amended.  Along the callbacks of any sequence of well-formed items (every
element callback and every `End...` between the `Start...` of its kind and with a
present info), from any decoder, no callback dereferences an absent current record
or info: the run never stops with "nil pointer dereference" (a panic, if any, is
one of the two encoding messages), and when every item has an accepted encoding no
callback panics at all.  With no record open, every element callback (`Hset`,
`Sadd`, `Rpush`, `Zadd`, `Xadd`) and `EndStream` with at least one consumer group
reach the nil dereference; `EndList` reaches it when no info is left or the info
left has a list encoding, and panics with "unknown encoding:" otherwise; `EndHash`,
`EndSet`, `EndZSet` and `EndStream` without groups never fail: they send the
current record as it is, a nil pointer when none is open. -/
theorem nil_dereference_reachability :
    (∀ (items : List Item) (d : Decoder),
      (callbacks d (items.flatMap itemEvents)).2 ≠ some "nil pointer dereference") ∧
    (∀ (items : List Item) (d : Decoder), (∀ it ∈ items, itemAccepted it = true) →
      (callbacks d (items.flatMap itemEvents)).2 = none) ∧
    (∀ (d : Decoder) (ev : Event), d.currentEntry = none → isElement ev = true →
      callback d ev = Except.error "nil pointer dereference") ∧
    (∀ (d : Decoder) (key : String) (items : Nat) (lastEntryID : String) (cg : StreamGroup)
        (gs : List StreamGroup), d.currentEntry = none →
      callback d (Event.endStream key items lastEntryID (cg :: gs))
        = Except.error "nil pointer dereference") ∧
    (∀ (d : Decoder) (key : String), d.currentEntry = none →
      (d.currentInfo = none ∨ ∃ i, d.currentInfo = some i ∧
        i.Encoding ∈ ["quicklist", "ziplist", "linkedlist", "quicklist2"]) →
      callback d (Event.endList key) = Except.error "nil pointer dereference") ∧
    (∀ (d : Decoder) (key : String) (i : Info), d.currentEntry = none →
      d.currentInfo = some i →
      i.Encoding ∉ ["quicklist", "ziplist", "linkedlist", "quicklist2"] →
      callback d (Event.endList key) = Except.error ("unknown encoding:" ++ i.Encoding)) ∧
    (∀ (d : Decoder) (key : String) (items : Nat) (lastEntryID : String),
      callback d (Event.endHash key) = Except.ok (sendEntry d) ∧
      callback d (Event.endSet key) = Except.ok (sendEntry d) ∧
      callback d (Event.endZSet key) = Except.ok (sendEntry d) ∧
      callback d (Event.endStream key items lastEntryID []) = Except.ok (sendEntry d) ∧
      (sendEntry d).Entries = d.Entries ++ [d.currentEntry] ∧
      (d.currentEntry = none → (sendEntry d).Entries = d.Entries ++ [none])) := by
  refine ⟨fun items d h => ?_, items_accepted_run, fun d ev hce hel => element_idle d ev hel hce,
    fun d key items lastEntryID cg gs hce => ?_, fun d key hce hci => ?_,
    fun d key i hce hci henc => ?_,
    fun d key items lastEntryID => ⟨rfl, rfl, rfl, rfl, rfl, fun h => by simp [sendEntry, h]⟩⟩
  · obtain ⟨enc, he | he⟩ := items_msg items d _ h
    · exact (encoding_msg_ne_nil enc).1 he.symm
    · exact (encoding_msg_ne_nil enc).2 he.symm
  · simp only [callback, EndStream, hce]
  · obtain ⟨msg, hm, hcase⟩ := EndList_idle d key hce
    show EndList d key = _
    rw [hm]
    rcases hcase with ⟨_, rfl⟩ | ⟨i, hi, ⟨_, rfl⟩ | ⟨hn, _⟩⟩
    · rfl
    · rfl
    · exfalso
      rcases hci with hci | ⟨i', hi', hmem⟩
      · rw [hci] at hi
        cases hi
      · rw [hi'] at hi
        cases hi
        exact hn hmem
  · obtain ⟨msg, hm, hcase⟩ := EndList_idle d key hce
    show EndList d key = _
    rw [hm]
    rcases hcase with ⟨hnone, _⟩ | ⟨i', hi', ⟨hmem, _⟩ | ⟨_, rfl⟩⟩
    · rw [hnone] at hci
      cases hci
    · rw [hi'] at hci
      cases hci
      exact absurd hmem henc
    · rw [hi'] at hci
      cases hci
      rfl

theorem nil_dereference_reachability_witness :
    (∀ it ∈ sampleItems, itemAccepted it = true) ∧
    (callbacks (NewDecoder sampleProfiler) (sampleItems.flatMap itemEvents)).2 = none ∧
    sampleDecoder.currentEntry = none ∧ isElement (Event.hset "k" "f" "v") = true ∧
    callback sampleDecoder (Event.hset "k" "f" "v") = Except.error "nil pointer dereference" :=
  ⟨by decide,
    nil_dereference_reachability.2.1 sampleItems (NewDecoder sampleProfiler) (by decide),
    rfl, rfl, nil_dereference_reachability.2.2.1 sampleDecoder _ rfl rfl⟩

/-! ### C38: the prefixes are initial segments of the key -/

theorem toList_append (a b : String) : (a ++ b).toList = a.toList ++ b.toList := by simp

theorem getPrefixesLoop_initial (sep : String) (s0 : List Char) (fuel : Nat) :
    ∀ (res : List String) (s : String) (sepIdx : Option Nat) (consumed : List Char),
      consumed ++ s.toList = s0 →
      (∀ r ∈ res, r.toList <+: s0) →
      (∀ last, res.getLast? = some last → last.toList = consumed) →
      (res = [] → consumed = []) →
      ∀ r ∈ getPrefixesLoop sep fuel res s sepIdx, r.toList <+: s0 := by
  induction fuel with
  | zero =>
    intro res s sepIdx consumed _ hres _ _ r hr
    exact hres r hr
  | succ n ih =>
    intro res s sepIdx consumed hs0 hres hlast hnil r hr
    cases sepIdx with
    | none => exact hres r hr
    | some idx =>
      simp only [getPrefixesLoop] at hr
      have hr1 : ∀ x : String,
          x = (match res.getLast? with
            | some last => last ++ sliceTo s (idx + 1)
            | none => sliceTo s (idx + 1)) →
          x.toList = consumed ++ s.toList.take (idx + 1) := by
        intro x hx
        cases hgl : res.getLast? with
        | none =>
          rw [hgl] at hx
          have : res = [] := List.getLast?_eq_none_iff.1 hgl
          rw [hx, hnil this]
          rfl
        | some last =>
          rw [hgl] at hx
          rw [hx, toList_append, hlast last hgl]
          rfl
      have hnew := hr1 _ rfl
      refine ih (res ++ [_]) (sliceFrom s (idx + 1)) _ (consumed ++ s.toList.take (idx + 1))
        ?_ ?_ ?_ ?_ r hr
      · show (consumed ++ s.toList.take (idx + 1)) ++ s.toList.drop (idx + 1) = s0
        rw [List.append_assoc, List.take_append_drop]
        exact hs0
      · intro x hx
        rw [List.mem_append, List.mem_singleton] at hx
        rcases hx with hx | hx
        · exact hres x hx
        · rw [hr1 x hx, ← hs0]
          rw [List.prefix_append_right_inj]
          exact List.take_prefix _ _
      · intro last hl
        simp at hl
        rw [← hl]
        exact hnew
      · intro h
        simp at h

theorem trimSuffixLoop_initial (sep : String) (fuel : Nat) :
    ∀ s : String, (trimSuffixLoop sep fuel s).toList <+: s.toList := by
  induction fuel with
  | zero => intro s; exact List.prefix_refl _
  | succ n ih =>
    intro s
    unfold trimSuffixLoop
    split
    · exact (ih _).trans (List.take_prefix _ _)
    · exact List.prefix_refl _

theorem countP_drop_findIdx {α : Type} (p : α → Bool) :
    ∀ (l : List α) (idx : Nat), l.findIdx? p = some idx →
      (l.drop (idx + 1)).countP p + 1 = l.countP p := by
  intro l
  induction l with
  | nil => intro idx h; simp at h
  | cons a l ih =>
    intro idx h
    rw [List.findIdx?_cons] at h
    by_cases ha : p a = true
    · rw [if_pos ha] at h
      simp only [Option.some.injEq] at h
      subst h
      simp [List.countP_cons, ha]
    · rw [if_neg ha, List.findIdx?_succ] at h
      cases hj : List.findIdx? p l with
      | none => rw [hj] at h; simp at h
      | some j =>
        rw [hj] at h
        simp only [Option.map_some', Option.some.injEq] at h
        subst h
        have := ih j hj
        simp only [List.drop_succ_cons, List.countP_cons, ha, Bool.false_eq_true, if_false,
          Nat.add_zero]
        exact this

theorem getPrefixesLoop_length (sep : String) (fuel : Nat) :
    ∀ (res : List String) (s : String),
      (getPrefixesLoop sep fuel res s (strings_IndexAny s sep)).length
        ≤ res.length + s.toList.countP (fun c => sep.toList.contains c) := by
  induction fuel with
  | zero =>
    intro res s
    simp [getPrefixesLoop]
  | succ n ih =>
    intro res s
    cases hidx : strings_IndexAny s sep with
    | none => simp [getPrefixesLoop]
    | some idx =>
      simp only [getPrefixesLoop]
      refine (ih _ _).trans ?_
      have := countP_drop_findIdx (fun c => sep.toList.contains c) s.toList idx hidx
      have hd : (sliceFrom s (idx + 1)).toList = s.toList.drop (idx + 1) := rfl
      rw [hd, List.length_append, List.length_singleton]
      omega

theorem getPrefixesLoop_fuel (sep : String) (n : Nat) :
    ∀ (fuel1 fuel2 : Nat) (res : List String) (s : String), s.length ≤ n → n ≤ fuel1 →
      n ≤ fuel2 →
      getPrefixesLoop sep fuel1 res s (strings_IndexAny s sep)
        = getPrefixesLoop sep fuel2 res s (strings_IndexAny s sep) := by
  induction n with
  | zero =>
    intro fuel1 fuel2 res s hs _ _
    have hnil : s.toList = [] := List.eq_nil_of_length_eq_zero (by
      have : s.length = s.toList.length := rfl
      omega)
    have hnone : strings_IndexAny s sep = none := by
      unfold strings_IndexAny
      rw [hnil]
      rfl
    rw [hnone]
    cases fuel1 <;> cases fuel2 <;> rfl
  | succ n ih =>
    intro fuel1 fuel2 res s hs h1 h2
    cases fuel1 with
    | zero => omega
    | succ f1 =>
      cases fuel2 with
      | zero => omega
      | succ f2 =>
        cases hidx : strings_IndexAny s sep with
        | none => rfl
        | some idx =>
          simp only [getPrefixesLoop]
          apply ih
          · have hd : (sliceFrom s (idx + 1)).length = (s.toList.drop (idx + 1)).length := rfl
            have hl : s.length = s.toList.length := rfl
            rw [hd, List.length_drop]
            omega
          · omega
          · omega

theorem removeDuplicatesUnordered_length (l : List String) :
    (removeDuplicatesUnordered l).length ≤ l.length :=
  (List.subperm_of_subset (removeDuplicatesUnordered_nodup l)
    (fun x hx => (mem_removeDuplicatesUnordered l x).1 hx)).length_le

theorem mem_mapKeys_mapAccum {κ : Type} [DecidableEq κ] (upds : List (κ × Nat)) :
    ∀ (m : GoMap κ Nat) (k : κ),
      k ∈ mapKeys (mapAccum m upds) ↔ k ∈ mapKeys m ∨ k ∈ upds.map Prod.fst := by
  induction upds with
  | nil => intro m k; simp [mapAccum]
  | cons u upds ih =>
    intro m k
    have hstep : mapAccum m (u :: upds) = mapAccum (mapAdd m u.1 u.2) upds := rfl
    rw [hstep, ih, mapAdd, mem_mapKeys_mapSet]
    simp only [List.map_cons, List.mem_cons]
    constructor
    · rintro ((h | h) | h)
      · exact Or.inr (Or.inl h)
      · exact Or.inl h
      · exact Or.inr (Or.inr h)
    · rintro (h | h | h)
      · exact Or.inl (Or.inr h)
      · exact Or.inl (Or.inl h)
      · exact Or.inr h

theorem getPrefixes_mem_initial (s sep : String) (r : String) (hr : r ∈ getPrefixes s sep) :
    r.toList <+: s.toList := by
  unfold getPrefixes at hr
  simp only at hr
  rw [mem_removeDuplicatesUnordered, List.mem_map] at hr
  obtain ⟨x, hx, rfl⟩ := hr
  refine (trimSuffixLoop_initial sep _ x).trans ?_
  cases hidx : strings_IndexAny s sep with
  | none =>
    rw [hidx, getPrefixesLoop_none] at hx
    simp only [List.mem_singleton] at hx
    rw [hx]
  | some idx =>
    rw [hidx] at hx
    exact getPrefixesLoop_initial sep s.toList s.length [] s (some idx) [] (by simp)
      (fun y hy => by simp at hy) (fun last hl => by simp at hl) (fun _ => rfl) x hx

theorem string_initial_of_toList (r s : String) (h : r.toList <+: s.toList) :
    ∃ t : String, s = r ++ t := by
  obtain ⟨t, ht⟩ := h
  refine ⟨String.mk t, ?_⟩
  apply String.ext
  rw [String.data_append]
  exact ht.symm

theorem getPrefixes_length (s sep : String) :
    (getPrefixes s sep).length ≤ max 1 (s.toList.countP (fun c => sep.toList.contains c)) := by
  unfold getPrefixes
  simp only
  refine (removeDuplicatesUnordered_length _).trans ?_
  rw [List.length_map]
  cases hidx : strings_IndexAny s sep with
  | none =>
    rw [getPrefixesLoop_none]
    exact le_max_left _ _
  | some idx =>
    have := getPrefixesLoop_length sep s.length [] s
    rw [hidx] at this
    simp only [List.length_nil, Nat.zero_add] at this
    exact this.trans (le_max_right _ _)

theorem countByKeyPrefix_new_keys (c : Counter) (e : Entry) (k : typeKey)
    (h : k ∈ mapKeys (countByKeyPrefix c e).keyPrefixBytes ∨
      k ∈ mapKeys (countByKeyPrefix c e).keyPrefixNum) :
    (k ∈ mapKeys c.keyPrefixBytes ∨ k ∈ mapKeys c.keyPrefixNum) ∨
      (k.Typ = e.Typ ∧ k.Key ≠ "" ∧ k.Key.length ≠ 0 ∧
        ∃ t : String, strings_Map digitToStar e.Key = k.Key ++ t) := by
  rw [countByKeyPrefix_eq] at h
  simp only [mem_mapKeys_mapAccum, List.map_map] at h
  have hk : k ∈ prefixKeys c e → (k.Typ = e.Typ ∧ k.Key ≠ "" ∧ k.Key.length ≠ 0 ∧
      ∃ t : String, strings_Map digitToStar e.Key = k.Key ++ t) := by
    intro hm
    obtain ⟨h1, h2, h3⟩ := (mem_prefixKeys c e k).1 hm
    refine ⟨h1, fun he => h2 (by rw [he]; rfl), h2, ?_⟩
    exact string_initial_of_toList _ _ (getPrefixes_mem_initial _ _ _ h3)
  rcases h with (h | h) | (h | h)
  · exact Or.inl (Or.inl h)
  · refine Or.inr (hk ?_)
    simp only [List.mem_map, Function.comp] at h
    obtain ⟨a, ha, rfl⟩ := h
    exact ha
  · exact Or.inl (Or.inr h)
  · refine Or.inr (hk ?_)
    simp only [List.mem_map, Function.comp] at h
    obtain ⟨a, ha, rfl⟩ := h
    exact ha

/-- C38. Every string returned by `getPrefixes(s, sep)` is an initial segment of `s`
(possibly the empty one); the number of returned strings is at most
`max(1, number of characters of s that occur in sep)`; the loop over the
separators ends within `len(s)` iterations (more fuel does not change its result).
With the guard `len(prefix) == 0`, `countByKeyPrefix` never creates an entry of
`keyPrefixBytes` or `keyPrefixNum` whose prefix is empty: every key of these maps
after the call was a key before it, or has the type of the entry and a non-empty
prefix that is an initial segment of the digit-normalized key. -/
theorem getPrefixes_initial_segments (s sep : String) :
    (∀ r ∈ getPrefixes s sep, ∃ t : String, s = r ++ t) ∧
    (getPrefixes s sep).length ≤ max 1 (s.toList.countP (fun c => sep.toList.contains c)) ∧
    (∀ (fuel : Nat) (res : List String), s.length ≤ fuel →
      getPrefixesLoop sep fuel res s (strings_IndexAny s sep)
        = getPrefixesLoop sep s.length res s (strings_IndexAny s sep)) ∧
    (∀ (c : Counter) (e : Entry) (k : typeKey),
      (k ∈ mapKeys (countByKeyPrefix c e).keyPrefixBytes ∨
        k ∈ mapKeys (countByKeyPrefix c e).keyPrefixNum) →
      (k ∈ mapKeys c.keyPrefixBytes ∨ k ∈ mapKeys c.keyPrefixNum) ∨
        (k.Typ = e.Typ ∧ k.Key ≠ "" ∧ k.Key.length ≠ 0 ∧
          ∃ t : String, strings_Map digitToStar e.Key = k.Key ++ t)) :=
  ⟨fun r hr => string_initial_of_toList r s (getPrefixes_mem_initial s sep r hr),
    getPrefixes_length s sep,
    fun fuel res hf => getPrefixesLoop_fuel sep s.length fuel s.length res s (Nat.le_refl _) hf
      (Nat.le_refl _),
    countByKeyPrefix_new_keys⟩

theorem getPrefixes_initial_segments_witness :
    getPrefixes "user:***:profile" ":;,_- " = ["user", "user:***"] ∧
    getPrefixes ":a" ":;,_- " = [""] ∧
    "user:***" ∈ getPrefixes "user:***:profile" ":;,_- " ∧
    (∃ t : String, "user:***:profile" = "user:***" ++ t) ∧
    (countByKeyPrefix NewCounter (mkEntry ":a" "string" 10 0)).keyPrefixBytes = [] :=
  ⟨by decide, by decide, by decide,
    (getPrefixes_initial_segments "user:***:profile" ":;,_- ").1 "user:***" (by decide),
    by decide⟩

/-! ### C32, C33: `ConvertToEntry` on streams and hashes -/

theorem totalEntries_eq_sum (entries : List StreamEntry) :
    totalEntries entries = (entries.map (fun e => e.Fields.length)).sum := by
  unfold totalEntries
  have h : ∀ (l : List StreamEntry) (acc : Nat),
      l.foldl (fun total e => total + e.Fields.length) acc
        = acc + (l.map (fun e => e.Fields.length)).sum := by
    intro l
    induction l with
    | nil => intro acc; simp
    | cons a l ih =>
      intro acc
      simp only [List.foldl_cons, List.map_cons, List.sum_cons]
      rw [ih]
      omega
  rw [h]
  omega

/-- C32, the code at the failing input: for a stream with one entry of three fields
`ConvertToEntry` sets `NumOfElem` to 3, and for a stream with two entries without
fields to 0: it adds up `len(e.Fields)` over the entries (for every stream object
`NumOfElem` is `uint64` of that sum), while the comment of the case says "Stream
entries count" and the entries number 1 and 2. -/
theorem convertToEntry_stream_counts_fields :
    (ConvertToEntry (RedisObject.StreamObject (sampleHeader "stream")
      [{ Fields := ["a", "b", "c"] }])).NumOfElem = 3 ∧
    ([{ Fields := ["a", "b", "c"] }] : List StreamEntry).length = 1 ∧
    (ConvertToEntry (RedisObject.StreamObject (sampleHeader "stream")
      [{ Fields := [] }, { Fields := [] }])).NumOfElem = 0 ∧
    ([{ Fields := [] }, { Fields := [] }] : List StreamEntry).length = 2 ∧
    (∀ (h : ObjectHeader) (entries : List StreamEntry),
      (ConvertToEntry (RedisObject.StreamObject h entries)).NumOfElem
        = toUint64 ((entries.map (fun e => e.Fields.length)).sum : Nat)) := by
  refine ⟨by decide, rfl, by decide, rfl, fun h entries => ?_⟩
  show toUint64 (totalEntries entries : Nat) = _
  rw [totalEntries_eq_sum]

theorem largestField_fold (hash : GoMap String String) :
    ∀ acc : Nat × String,
      (hash.foldl (fun acc kv => if kv.2.length > acc.1 then (kv.2.length, kv.1) else acc)
          acc).1 = (hash.map (fun kv => kv.2.length)).foldl max acc.1 ∧
      ((hash.foldl (fun acc kv => if kv.2.length > acc.1 then (kv.2.length, kv.1) else acc)
          acc).2 = acc.2 ∨
        (hash.foldl (fun acc kv => if kv.2.length > acc.1 then (kv.2.length, kv.1) else acc)
          acc).2 ∈ mapKeys hash) := by
  induction hash with
  | nil => intro acc; exact ⟨rfl, Or.inl rfl⟩
  | cons kv hash ih =>
    intro acc
    simp only [List.foldl_cons, List.map_cons]
    by_cases h : kv.2.length > acc.1
    · rw [if_pos h]
      obtain ⟨i1, i2⟩ := ih (kv.2.length, kv.1)
      refine ⟨?_, ?_⟩
      · rw [i1]
        congr 1
        exact (Nat.max_eq_right (Nat.le_of_lt h)).symm
      · rcases i2 with i2 | i2
        · exact Or.inr (by rw [i2]; simp [mapKeys])
        · exact Or.inr (by simp only [mapKeys, List.map_cons, List.mem_cons]; exact Or.inr i2)
    · rw [if_neg h]
      obtain ⟨i1, i2⟩ := ih acc
      refine ⟨?_, ?_⟩
      · rw [i1]
        congr 1
        exact (Nat.max_eq_left (Nat.le_of_not_lt h)).symm
      · rcases i2 with i2 | i2
        · exact Or.inl i2
        · exact Or.inr (by simp only [mapKeys, List.map_cons, List.mem_cons]; exact Or.inr i2)

/-- C33, the code at the failing input: for the hash `{"field": "v"}`
`ConvertToEntry` sets `LenOfLargestElem` to 1, the length of the value alone (the
combined length of name and value is 6), and for a hash whose only field has a name
of 104 characters it stores the whole name in `FieldOfLargestElem`, without
truncation and without marker; a hash whose values are all empty gets no field at
all.  For every hash the length is the largest `len(value)` and the field is a
whole field name of the hash or the empty string.  `Hset`, the callback that builds
the same record, compares `ElemLen(field) + ElemLen(value)` and cuts the name at
100 bytes plus "...". -/
theorem convertToEntry_hash_value_length_only :
    (ConvertToEntry (RedisObject.HashObject (sampleHeader "hash")
      [("field", "v")])).LenOfLargestElem = 1 ∧
    "field".length + "v".length = 6 ∧
    (ConvertToEntry (RedisObject.HashObject (sampleHeader "hash")
      [("field", "v")])).FieldOfLargestElem = "field" ∧
    (ConvertToEntry (RedisObject.HashObject (sampleHeader "hash")
      [(sampleLongName, "v")])).FieldOfLargestElem = sampleLongName ∧
    sampleLongName.length = 104 ∧
    sampleOf sampleLongName ≠ sampleLongName ∧
    (ConvertToEntry (RedisObject.HashObject (sampleHeader "hash")
      [("field", "")])).FieldOfLargestElem = "" ∧
    (ConvertToEntry (RedisObject.HashObject (sampleHeader "hash")
      [("longfieldname", "v"), ("f", "vv")])).FieldOfLargestElem = "f" ∧
    (∀ (h : ObjectHeader) (hash : GoMap String String),
      (ConvertToEntry (RedisObject.HashObject h hash)).LenOfLargestElem
        = toUint64 ((hash.map (fun kv => kv.2.length)).foldl max 0 : Nat) ∧
      ((ConvertToEntry (RedisObject.HashObject h hash)).FieldOfLargestElem = "" ∨
        (ConvertToEntry (RedisObject.HashObject h hash)).FieldOfLargestElem ∈ mapKeys hash)) := by
  refine ⟨by decide, by decide, by decide, by decide, by decide, by decide, by decide,
    by decide, fun h hash => ?_⟩
  by_cases hpos : hash.length > 0
  · obtain ⟨f1, f2⟩ := largestField_fold hash (0, "")
    simp only [ConvertToEntry, if_pos hpos, largestField]
    exact ⟨by rw [f1], f2⟩
  · have hnil : hash = [] := List.eq_nil_of_length_eq_zero (by omega)
    subst hnil
    exact ⟨rfl, Or.inl rfl⟩

/-! ### C39: `FormatSize` and `formatBytes` -/

theorem unitLoop_stop (fuel : Nat) (n div : Int) (exp : Nat) (h : n < 1024) :
    unitLoop fuel n div exp = (div, exp) := by
  cases fuel with
  | zero => rfl
  | succ f =>
    unfold unitLoop
    rw [if_neg (by omega)]

theorem unitLoop_step (fuel : Nat) (n div : Int) (exp : Nat) (h : n ≥ 1024) :
    unitLoop (fuel + 1) n div exp = unitLoop fuel (n / 1024) (mulInt64 div 1024) (exp + 1) := by
  rw [unitLoop, if_pos h]

theorem unitLoop_exp (k : Nat) :
    ∀ (fuel : Nat) (n div : Int) (exp : Nat), k ≤ fuel → (k ≠ 0 → (1024 : Int) ^ k ≤ n) →
      n < (1024 : Int) ^ (k + 1) → (unitLoop fuel n div exp).2 = exp + k := by
  induction k with
  | zero =>
    intro fuel n div exp _ _ hlt
    rw [unitLoop_stop fuel n div exp (by simpa using hlt)]
    rfl
  | succ k ih =>
    intro fuel n div exp hf hge hlt
    have hge' : (1024 : Int) ^ (k + 1) ≤ n := hge (Nat.succ_ne_zero k)
    have hpos : (1 : Int) ≤ (1024 : Int) ^ k := one_le_pow₀ (by norm_num)
    have h1024 : n ≥ 1024 := by
      have : (1024 : Int) ^ (k + 1) = 1024 ^ k * 1024 := pow_succ _ _
      have h2 : (1024 : Int) ≤ 1024 ^ k * 1024 := by nlinarith
      omega
    cases fuel with
    | zero => omega
    | succ f =>
      rw [unitLoop_step f n div exp h1024]
      rw [ih f (n / 1024) (mulInt64 div 1024) (exp + 1) (by omega) ?_ ?_]
      · omega
      · intro _
        apply Int.le_ediv_of_mul_le (by norm_num)
        rw [← pow_succ]
        exact hge'
      · apply Int.ediv_lt_of_lt_mul (by norm_num)
        rw [← pow_succ]
        exact hlt

theorem unitLoop_fuel (k : Nat) :
    ∀ (fuel1 fuel2 : Nat) (n div : Int) (exp : Nat), k ≤ fuel1 → k ≤ fuel2 →
      n < (1024 : Int) ^ (k + 1) →
      unitLoop fuel1 n div exp = unitLoop fuel2 n div exp := by
  induction k with
  | zero =>
    intro fuel1 fuel2 n div exp _ _ hlt
    rw [unitLoop_stop fuel1 n div exp (by simpa using hlt),
      unitLoop_stop fuel2 n div exp (by simpa using hlt)]
  | succ k ih =>
    intro fuel1 fuel2 n div exp h1 h2 hlt
    by_cases hn : n < 1024
    · rw [unitLoop_stop fuel1 n div exp hn, unitLoop_stop fuel2 n div exp hn]
    · cases fuel1 with
      | zero => omega
      | succ f1 =>
        cases fuel2 with
        | zero => omega
        | succ f2 =>
          rw [unitLoop_step f1 n div exp (by omega), unitLoop_step f2 n div exp (by omega)]
          apply ih f1 f2 _ _ _ (by omega) (by omega)
          apply Int.ediv_lt_of_lt_mul (by norm_num)
          rw [← pow_succ]
          exact hlt

theorem unitLoop_exp_small (bytes div : Int) (h0 : 1024 ≤ bytes)
    (h1 : bytes < 1125899906842624) :
    (unitLoop 64 (bytes / 1024) div 0).2 ≤ 3 := by
  have hn0 : 0 ≤ bytes / 1024 := by omega
  have hn : bytes / 1024 < 1099511627776 := by omega
  by_cases a1 : bytes / 1024 < 1024
  · rw [unitLoop_exp 0 64 _ div 0 (by omega) (fun h => absurd rfl h) (by norm_num; omega)]
    omega
  · by_cases a2 : bytes / 1024 < 1048576
    · rw [unitLoop_exp 1 64 _ div 0 (by omega) (fun _ => by norm_num; omega)
        (by norm_num; omega)]
      omega
    · by_cases a3 : bytes / 1024 < 1073741824
      · rw [unitLoop_exp 2 64 _ div 0 (by omega) (fun _ => by norm_num; omega)
          (by norm_num; omega)]
        omega
      · rw [unitLoop_exp 3 64 _ div 0 (by omega) (fun _ => by norm_num; omega)
          (by norm_num; omega)]

theorem unitLoop_exp_large (bytes div : Int) (h0 : 1125899906842624 ≤ bytes)
    (h1 : bytes < 9223372036854775808) :
    (unitLoop 64 (bytes / 1024) div 0).2 = 4 ∨ (unitLoop 64 (bytes / 1024) div 0).2 = 5 := by
  by_cases a : bytes / 1024 < 1125899906842624
  · left
    rw [unitLoop_exp 4 64 _ div 0 (by omega) (fun _ => by norm_num; omega)
      (by norm_num; omega)]
  · right
    rw [unitLoop_exp 5 64 _ div 0 (by omega) (fun _ => by norm_num; omega)
      (by norm_num; omega)]

theorem indexString_KMGT_small (exp : Nat) (h : exp ≤ 3) :
    indexString "KMGT" exp = indexString "KMGTPE" exp ∧
      ∃ c, indexString "KMGT" exp = Except.ok c := by
  interval_cases exp
  · exact ⟨rfl, _, rfl⟩
  · exact ⟨rfl, _, rfl⟩
  · exact ⟨rfl, _, rfl⟩
  · exact ⟨rfl, _, rfl⟩

theorem formatSize_below_pebibyte (fmtFloat : Int → Int → String) (bytes : Int)
    (h : bytes < 1125899906842624) :
    FormatSize fmtFloat bytes = formatBytes fmtFloat bytes ∧
      ∃ s, FormatSize fmtFloat bytes = Except.ok s := by
  unfold FormatSize formatBytes
  by_cases hb : bytes < 1024
  · rw [if_pos hb, if_pos hb]
    exact ⟨rfl, _, rfl⟩
  · rw [if_neg hb, if_neg hb]
    simp only
    obtain ⟨e1, c, e2⟩ := indexString_KMGT_small _
      (unitLoop_exp_small bytes 1024 (by omega) h)
    rw [← e1, e2]
    exact ⟨rfl, _, rfl⟩

theorem formatSize_from_pebibyte (fmtFloat : Int → Int → String) (bytes : Int)
    (h0 : 1125899906842624 ≤ bytes) (h1 : bytes < 9223372036854775808) :
    FormatSize fmtFloat bytes = Except.error "index out of range" ∧
      ∃ s, formatBytes fmtFloat bytes = Except.ok s := by
  unfold FormatSize formatBytes
  have hb : ¬ bytes < 1024 := by omega
  rw [if_neg hb, if_neg hb]
  simp only
  rcases unitLoop_exp_large bytes 1024 h0 h1 with e | e
  · rw [e]
    exact ⟨rfl, _, rfl⟩
  · rw [e]
    exact ⟨rfl, _, rfl⟩

/-- C39, the code at the failing input: `FormatSize(1125899906842624)` (2^50 bytes,
one pebibyte) computes the index 4 into its table "KMGT" of length 4 and panics
with an index out of range, and so does `FormatSize` of the largest `int64`
(index 5), while `formatBytes`, whose table is "KMGTPE", returns a "PB" and an
"EB" string on them.  On every input below 2^50 the two functions return the same
string; on every `int64` from 2^50 on `FormatSize` panics and `formatBytes`
returns.  The loop of both ends within the 64 iterations granted: more fuel does
not change its result on an `int64`. -/
theorem formatSize_index_out_of_range (fmtFloat : Int → Int → String) :
    FormatSize fmtFloat 1125899906842624 = Except.error "index out of range" ∧
    unitLoop 64 (1125899906842624 / 1024) 1024 0 = (1125899906842624, 4) ∧
    "KMGT".length = 4 ∧
    formatBytes fmtFloat 1125899906842624
      = Except.ok (fmtFloat 1125899906842624 1125899906842624 ++ " " ++ "P" ++ "B") ∧
    FormatSize fmtFloat 9223372036854775807 = Except.error "index out of range" ∧
    formatBytes fmtFloat 9223372036854775807
      = Except.ok (fmtFloat 9223372036854775807 1152921504606846976 ++ " " ++ "E" ++ "B") ∧
    FormatSize fmtFloat 1125899906842623
      = Except.ok (fmtFloat 1125899906842623 1099511627776 ++ " " ++ "T" ++ "B") ∧
    (∀ bytes : Int, bytes < 1125899906842624 →
      FormatSize fmtFloat bytes = formatBytes fmtFloat bytes ∧
        ∃ s, FormatSize fmtFloat bytes = Except.ok s) ∧
    (∀ bytes : Int, 1125899906842624 ≤ bytes → bytes < 9223372036854775808 →
      FormatSize fmtFloat bytes = Except.error "index out of range" ∧
        ∃ s, formatBytes fmtFloat bytes = Except.ok s) ∧
    (∀ (bytes : Int) (fuel : Nat), bytes < 9223372036854775808 → 64 ≤ fuel →
      unitLoop fuel (bytes / 1024) 1024 0 = unitLoop 64 (bytes / 1024) 1024 0) := by
  refine ⟨by rfl, by rfl, by decide, by rfl, by rfl, by rfl, by rfl,
    formatSize_below_pebibyte fmtFloat, formatSize_from_pebibyte fmtFloat,
    fun bytes fuel hb hf => ?_⟩
  exact unitLoop_fuel 5 fuel 64 _ _ _ (by omega) (by omega) (by norm_num; omega)

end Rdr
